import Mathlib

/-!
# Winograd convolution kernels of `jit_avx512_common_convolution_winograd.cpp`

A shallow embedding of the transform kernels, the layout packers and the
reduction engine of the AVX-512 Winograd convolution, together with the
properties established about them.

Conventions of the embedding.

* `float` values are rationals: every arithmetic statement below is a statement
  in exact arithmetic, with the constants of the source at their written decimal
  values.
* A local array `float A[m][n][16]` is a function `Fin m → Fin n → Fin 16 → ℚ`;
  a loop nest that assigns every entry of such an array exactly once is the
  function giving the assigned value.
* A heap buffer is a function `Nat → ℚ` from float offsets to values, a pointer
  into it is a float offset, and a loop that stores into a buffer is a fold of
  the stores in program order.
* C `int` and `size_t` quantities are natural numbers (paddings, which are
  compared against coordinates, are integers); sizes are assumed to stay within
  the machine range, so no wrap-around is modelled.
-/

namespace Winograd

/-- A local array `float A[m][n][16]`. -/
abbrev Tile (m n : Nat) := Fin m → Fin n → Fin 16 → ℚ

/-- A local array `float A[m][n][16][16]`. -/
abbrev Tile2 (m n : Nat) := Fin m → Fin n → Fin 16 → Fin 16 → ℚ

/-! ## Transform kernels -/

/-- First loop nest of `trans_W_4x4_3x3`, for the outer lane `j`: the array
`T[6][3][16]`. -/
def trans_W_4x4_3x3_T (F : Tile2 3 3) (j : Fin 16) : Tile 6 3 := fun r i k =>
  let t0 := 0.26890756302521 * F 2 i j k
  let t1 := -t0 - 0.688403361344538 * F 0 i j k
  let t2 := t0 + 0.119514472455649 * F 0 i j k
  match r with
  | 0 => 1.13777777777778 * F 0 i j k
  | 1 => t1 - 0.430252100840336 * F 1 i j k
  | 2 => t1 + 0.430252100840336 * F 1 i j k
  | 3 => t2 + 0.179271708683473 * F 1 i j k
  | 4 => t2 - 0.179271708683473 * F 1 i j k
  | 5 => F 2 i j k

/-- Kernel `trans_W_4x4_3x3(Fw_, F)`: the 3x3 filter block to its 6x6
Winograd-domain block; the result is `Fw_`. -/
def trans_W_4x4_3x3 (F : Tile2 3 3) : Tile2 6 6 := fun i l j k =>
  let T := trans_W_4x4_3x3_T F j
  let t0 := 0.26890756302521 * T i 2 k
  let t1 := -t0 - 0.688403361344538 * T i 0 k
  let t2 := t0 + 0.119514472455649 * T i 0 k
  match l with
  | 0 => 1.13777777777778 * T i 0 k
  | 1 => t1 - 0.430252100840336 * T i 1 k
  | 2 => t1 + 0.430252100840336 * T i 1 k
  | 3 => t2 + 0.179271708683473 * T i 1 k
  | 4 => t2 - 0.179271708683473 * T i 1 k
  | 5 => T i 2 k

/-- First loop nest of `trans_O_4x4_3x3`: the array `T[4][6][16]`. -/
def trans_O_4x4_3x3_T (Mw : Tile 6 6) : Tile 4 6 := fun r i v =>
  let t0 := Mw 1 i v + Mw 2 i v
  let t1 := Mw 3 i v + Mw 4 i v
  let t2 := Mw 1 i v - Mw 2 i v
  let t3 := Mw 3 i v - Mw 4 i v
  match r with
  | 0 => t0 + t1 + Mw 0 i v
  | 1 => t2 * 0.625 + t3 * 1.5
  | 2 => t0 * 0.390625 + t1 * 2.25
  | 3 => t2 * 0.244140625 + t3 * 3.375 + Mw 5 i v

/-- Kernel `trans_O_4x4_3x3(Mw, O)`: the 6x6 Winograd-domain tile to the 4x4
output tile; the result is `O`. -/
def trans_O_4x4_3x3 (Mw : Tile 6 6) : Tile 4 4 := fun i c v =>
  let T := trans_O_4x4_3x3_T Mw
  let t0 := T i 1 v + T i 2 v
  let t1 := T i 3 v + T i 4 v
  let t2 := T i 1 v - T i 2 v
  let t3 := T i 3 v - T i 4 v
  match c with
  | 0 => t0 + t1 + T i 0 v
  | 1 => t2 * 0.625 + t3 * 1.5
  | 2 => t0 * 0.390625 + t1 * 2.25
  | 3 => t2 * 0.244140625 + t3 * 3.375 + T i 5 v

/-- The constant `rcp3 = 1.0f / 3.0f` of `trans_W_3x3_4x4`. -/
def rcp3 : ℚ := 1.0 / 3.0
/-- The constant `rcp4 = 1.0f / 4.0f` of `trans_W_3x3_4x4`. -/
def rcp4 : ℚ := 1.0 / 4.0
/-- The constant `rcp6 = 1.0f / 6.0f` of `trans_W_3x3_4x4`. -/
def rcp6 : ℚ := 1.0 / 6.0
/-- The constant `rcp12 = 1.0f / 12.0f` of `trans_W_3x3_4x4`. -/
def rcp12 : ℚ := 1.0 / 12.0
/-- The constant `rcp24 = 1.0f / 24.0f` of `trans_W_3x3_4x4`. -/
def rcp24 : ℚ := 1.0 / 24.0

/-- First loop nest of `trans_W_3x3_4x4`: the array `T[6][4][16]`; only the
columns `i < 4` of `F[4][6][16]` are read. -/
def trans_W_3x3_4x4_T (F : Tile 4 6) : Tile 6 4 := fun r i j =>
  let Fc : Fin 4 → ℚ := fun a => F a (Fin.castLE (by decide) i) j
  let t0 := Fc 2 * rcp6
  let t1 := Fc 0 * -rcp6 - t0
  let t2 := Fc 0 * rcp24 + t0
  let t3 := (Fc 1 + Fc 3) * rcp6
  let t4 := Fc 1 * rcp12 + Fc 3 * rcp3
  match r with
  | 0 => Fc 0 * rcp4
  | 1 => t1 - t3
  | 2 => t1 + t3
  | 3 => t2 + t4
  | 4 => t2 - t4
  | 5 => Fc 3

/-- Kernel `trans_W_3x3_4x4(Fw, F)`; the result is `Fw`. -/
def trans_W_3x3_4x4 (F : Tile 4 6) : Tile 6 6 := fun i c j =>
  let T := trans_W_3x3_4x4_T F
  let t0 := T i 2 j * rcp6
  let t1 := T i 0 j * -rcp6 - t0
  let t2 := T i 0 j * rcp24 + t0
  let t3 := (T i 1 j + T i 3 j) * rcp6
  let t4 := T i 1 j * rcp12 + T i 3 j * rcp3
  match c with
  | 0 => T i 0 j * rcp4
  | 1 => t1 - t3
  | 2 => t1 + t3
  | 3 => t2 + t4
  | 4 => t2 - t4
  | 5 => T i 3 j

/-- First loop nest of `trans_O_3x3_4x4`, for the outer lane `j`: the rows
`0..2` of `T[4][6][16]` (row 3 is never assigned nor read). -/
def trans_O_3x3_4x4_T (Mw : Tile2 6 6) (j : Fin 16) : Tile 3 6 := fun r i l =>
  let t0 := Mw 1 i j l + Mw 2 i j l
  let t1 := Mw 3 i j l + Mw 4 i j l
  let t2 := t1 * 4.0 + Mw 5 i j l
  match r with
  | 0 => Mw 0 i j l + t0 + t1
  | 1 => (Mw 1 i j l - Mw 2 i j l) + 2.0 * (Mw 3 i j l - Mw 4 i j l)
  | 2 => t0 + t2

/-- Kernel `trans_O_3x3_4x4(Mw, M)`; the result is `M`. -/
def trans_O_3x3_4x4 (Mw : Tile2 6 6) : Tile2 3 3 := fun i k j l =>
  let T := trans_O_3x3_4x4_T Mw j
  let t0 := T i 1 l + T i 2 l
  let t1 := T i 3 l + T i 4 l
  let t2 := t1 * 4.0 + T i 5 l
  match k with
  | 0 => T i 0 l + t0 + t1
  | 1 => (T i 1 l - T i 2 l) + 2.0 * (T i 3 l - T i 4 l)
  | 2 => t0 + t2

/-- First loop nest of `trans_I_4x4_3x3`: the array `T[6][6][16]`. -/
def trans_I_4x4_3x3_T (I : Tile 6 6) : Tile 6 6 := fun r i v =>
  let t0 := I 2 i v * -2.25 + I 4 i v
  let t1 := I 1 i v * -2.25 + I 3 i v
  let t2 := I 2 i v * -0.390625 + I 4 i v
  let t3 := I 1 i v * -0.390625 + I 3 i v
  let t4 := I 0 i v * 0.87890625 + I 4 i v
  let t5 := I 1 i v * 0.87890625 + I 5 i v
  match r with
  | 0 => I 2 i v * -2.640625 + t4
  | 1 => t1 * 0.625 + t0
  | 2 => t1 * -0.625 + t0
  | 3 => t3 * 1.5 + t2
  | 4 => t3 * -1.5 + t2
  | 5 => I 3 i v * -2.640625 + t5

/-- Kernel `trans_I_4x4_3x3(Iw, I)`: the 6x6 data tile to its 6x6
Winograd-domain tile; the result is `Iw`. -/
def trans_I_4x4_3x3 (I : Tile 6 6) : Tile 6 6 := fun i c v =>
  let T := trans_I_4x4_3x3_T I
  let t0 := T i 2 v * -2.25 + T i 4 v
  let t1 := T i 1 v * -2.25 + T i 3 v
  let t2 := T i 2 v * -0.390625 + T i 4 v
  let t3 := T i 1 v * -0.390625 + T i 3 v
  let t4 := T i 0 v * 0.87890625 + T i 4 v
  let t5 := T i 1 v * 0.87890625 + T i 5 v
  match c with
  | 0 => T i 2 v * -2.640625 + t4
  | 1 => t1 * 0.625 + t0
  | 2 => t1 * -0.625 + t0
  | 3 => t3 * 1.5 + t2
  | 4 => t3 * -1.5 + t2
  | 5 => T i 3 v * -2.640625 + t5

/-- First loop nest of `trans_W_3x3_4x4_wu`: the array `T[6][4][16]`; only the
columns `i < 4` of `F[4][6][16]` are read. -/
def trans_W_3x3_4x4_wu_T (F : Tile 4 6) : Tile 6 4 := fun r i v =>
  let Fc : Fin 4 → ℚ := fun a => F a (Fin.castLE (by decide) i) v
  let t0 := Fc 2 * 0.26890756302521
  let t1 := Fc 0 * -0.688403361344538 - t0
  let t2 := Fc 0 * 0.119514472455649 + t0
  let t3 := Fc 1 * 0.430252100840336 + Fc 3 * 0.168067226890756
  let t4 := Fc 1 * 0.179271708683473 + Fc 3 * 0.403361344537815
  match r with
  | 0 => Fc 0 * 1.13777777777778
  | 1 => t1 - t3
  | 2 => t1 + t3
  | 3 => t2 + t4
  | 4 => t2 - t4
  | 5 => Fc 3

/-- Kernel `trans_W_3x3_4x4_wu(Fw, F)`: the 4x4 output-gradient tile to its 6x6
Winograd-domain tile; the result is `Fw`. -/
def trans_W_3x3_4x4_wu (F : Tile 4 6) : Tile 6 6 := fun i c v =>
  let T := trans_W_3x3_4x4_wu_T F
  let t0 := T i 2 v * 0.26890756302521
  let t1 := T i 0 v * -0.688403361344538 - t0
  let t2 := T i 0 v * 0.119514472455649 + t0
  let t3 := T i 1 v * 0.430252100840336 + T i 3 v * 0.168067226890756
  let t4 := T i 1 v * 0.179271708683473 + T i 3 v * 0.403361344537815
  match c with
  | 0 => T i 0 v * 1.13777777777778
  | 1 => t1 - t3
  | 2 => t1 + t3
  | 3 => t2 + t4
  | 4 => t2 - t4
  | 5 => T i 3 v

/-- First loop nest of `trans_O_3x3_4x4_wu`, for the outer lane `j`: the array
`T[3][6][16]`. -/
def trans_O_3x3_4x4_wu_T (Mw : Tile2 6 6) (j : Fin 16) : Tile 3 6 := fun r i v =>
  let t0 := Mw 1 i j v + Mw 2 i j v
  let t1 := Mw 3 i j v + Mw 4 i j v
  let t2 := t1 * 2.25 + Mw 5 i j v
  match r with
  | 0 => Mw 0 i j v + t0 + t1
  | 1 => 0.625 * (Mw 1 i j v - Mw 2 i j v) + 1.5 * (Mw 3 i j v - Mw 4 i j v)
  | 2 => t0 * 0.390625 + t2

/-- Kernel `trans_O_3x3_4x4_wu(Mw, M)`: the 6x6 Winograd-domain block to the 3x3
weight-gradient block; the result is `M`. -/
def trans_O_3x3_4x4_wu (Mw : Tile2 6 6) : Tile2 3 3 := fun i k j v =>
  let T := trans_O_3x3_4x4_wu_T Mw j
  let t0 := T i 1 v + T i 2 v
  let t1 := T i 3 v + T i 4 v
  let t2 := t1 * 2.25 + T i 5 v
  match k with
  | 0 => T i 0 v + t0 + t1
  | 1 => 0.625 * (T i 1 v - T i 2 v) + 1.5 * (T i 3 v - T i 4 v)
  | 2 => t0 * 0.390625 + t2

/-! ## Matrix form of the kernels

Each kernel applies one fixed matrix along the first index and then along the
second index. The matrices below are read off the two passes. -/

/-- Matrix applied by each pass of `trans_I_4x4_3x3`. -/
def Bt : Fin 6 → Fin 6 → ℚ :=
  ![![225 / 256, 0, -169 / 64, 0, 1, 0],
    ![0, -45 / 32, -9 / 4, 5 / 8, 1, 0],
    ![0, 45 / 32, -9 / 4, -5 / 8, 1, 0],
    ![0, -75 / 128, -25 / 64, 3 / 2, 1, 0],
    ![0, 75 / 128, -25 / 64, -3 / 2, 1, 0],
    ![0, 225 / 256, 0, -169 / 64, 0, 1]]

/-- Matrix applied by each pass of `trans_O_4x4_3x3`. -/
def At : Fin 4 → Fin 6 → ℚ :=
  ![![1, 1, 1, 1, 1, 0],
    ![0, 5 / 8, -5 / 8, 3 / 2, -3 / 2, 0],
    ![0, 25 / 64, 25 / 64, 9 / 4, 9 / 4, 0],
    ![0, 125 / 512, -125 / 512, 27 / 8, -27 / 8, 1]]

/-- Matrix applied by each pass of `trans_W_4x4_3x3`. -/
def G : Fin 6 → Fin 3 → ℚ :=
  ![![1.13777777777778, 0, 0],
    ![-0.688403361344538, -0.430252100840336, -0.26890756302521],
    ![-0.688403361344538, 0.430252100840336, -0.26890756302521],
    ![0.119514472455649, 0.179271708683473, 0.26890756302521],
    ![0.119514472455649, -0.179271708683473, 0.26890756302521],
    ![0, 0, 1]]

/-- Matrix applied by each pass of `trans_W_3x3_4x4_wu`. -/
def Gwu : Fin 6 → Fin 4 → ℚ :=
  ![![1.13777777777778, 0, 0, 0],
    ![-0.688403361344538, -0.430252100840336, -0.26890756302521, -0.168067226890756],
    ![-0.688403361344538, 0.430252100840336, -0.26890756302521, 0.168067226890756],
    ![0.119514472455649, 0.179271708683473, 0.26890756302521, 0.403361344537815],
    ![0.119514472455649, -0.179271708683473, 0.26890756302521, -0.403361344537815],
    ![0, 0, 0, 1]]

/-- Matrix applied by each pass of `trans_O_3x3_4x4_wu`. -/
def Awu : Fin 3 → Fin 6 → ℚ :=
  ![![1, 1, 1, 1, 1, 0],
    ![0, 5 / 8, -5 / 8, 3 / 2, -3 / 2, 0],
    ![0, 25 / 64, 25 / 64, 9 / 4, 9 / 4, 1]]

/-- Coefficient of `d a * h p` in output `y` of a one-dimensional Winograd scheme
with output matrix `A`, data matrix `B` and filter matrix `G`. -/
def coef {m n r : Nat} (A : Fin m → Fin 6 → ℚ) (B : Fin 6 → Fin n → ℚ)
    (G : Fin 6 → Fin r → ℚ) (y : Fin m) (a : Fin n) (p : Fin r) : ℚ :=
  ∑ k, A y k * B k a * G k p

/-- Row (or column) `y + p` of the 6x6 data tile: the position that output `y` of a
4-output correlation reads for filter tap `p`. -/
def tap (y : Fin 4) (p : Fin 3) : Fin 6 := ⟨y.val + p.val, by omega⟩

/-- Row (or column) `y + p` of the 6x6 source tile: the position that weight-gradient
entry `p` reads for output-gradient entry `y`. -/
def tap_wu (p : Fin 3) (y : Fin 4) : Fin 6 := ⟨y.val + p.val, by omega⟩

/-! ## Buffers, configuration and offsets -/

/-- Modelled from the spec: the configuration struct `jit_conv_winograd_conf_t`, whose
declaration is in a header that is not part of the sources. The fields are the ones the
source file reads (image count, channel counts and block factors, spatial sizes and
paddings, tile counts, the total tile count `ntiles` and tile-block factors, 4fma
grouping, bias flag and the negative slope of the activation). Counts are natural
numbers, paddings are integers. -/
structure jit_conv_winograd_conf_t where
  mb : Nat
  ic : Nat
  oc : Nat
  ih : Nat
  iw : Nat
  oh : Nat
  ow : Nat
  l_pad : Int
  t_pad : Int
  r_pad : Int
  b_pad : Int
  kh : Nat
  kw : Nat
  alpha : Nat
  itiles : Nat
  jtiles : Nat
  ntiles : Nat
  tile_block : Nat
  tile_block_ur : Nat
  nb_tile_block_ur : Nat
  nb_ic : Nat
  ic_block : Nat
  nb_oc : Nat
  oc_block : Nat
  ic_simd_block : Nat
  oc_simd_block : Nat
  tile_4fma : Nat
  tile_4fma_padding : Nat
  with_bias : Bool
  relu_negative_slope : ℚ

/-- A heap buffer seen from a `float *`: the value at each float offset. -/
abbrev Buffer := Nat → ℚ

/-- `array_offset_calculator<Telem, Tdims>`: the extents `_dims`. The base pointer is
kept by the caller; the calculator yields float offsets relative to it. -/
structure array_offset_calculator where
  _dims : List Nat

/-- Member `_offset(dimension, theta, Fargs...)`, with `theta` the offset accumulated so
far: the one-argument overload returns it, the others fold in the next index. -/
def array_offset_calculator._offset (c : array_offset_calculator) (dimension : Nat)
    (theta : Nat) : List Nat → Nat
  | [] => theta
  | element :: Fargs => c._offset (dimension + 1) (element + c._dims.getD dimension 0 * theta) Fargs

/-- Member `operator()(Fargs...)`: the float offset `_offset(1, Fargs...)` of the
addressed element. -/
def array_offset_calculator.idx (c : array_offset_calculator) : List Nat → Nat
  | [] => 0
  | element :: Fargs => c._offset 1 element Fargs

/-- Function `store_output(dest, data, streamout)`: the sixteen stores
`dest[v] = data[v]`. The intrinsic branch performs the same sixteen stores, with or
without a cache hint according to `streamout`. -/
def store_output (mem : Buffer) (dest : Nat) (data : Fin 16 → ℚ) (_streamout : Bool) : Buffer :=
  (List.finRange 16).foldl (fun m v => Function.update m (dest + v.val) (data v)) mem

/-! ## Layout packers -/

/-- The rolling counters `tile_block_ur`, `nb_tile_block_ur`, `tile_block` of the
image-indexed packers. -/
structure tile_counters where
  tile_block_ur : Nat
  nb_tile_block_ur : Nat
  tile_block : Nat

/-- The counters as initialised from `tile_base_index = image * itiles * jtiles`. -/
def tile_counters_init (conv : jit_conv_winograd_conf_t) (image : Nat) : tile_counters :=
  let tile_base_index := image * conv.itiles * conv.jtiles
  { tile_block_ur := tile_base_index % conv.tile_block_ur
    nb_tile_block_ur := (tile_base_index / conv.tile_block_ur) % conv.nb_tile_block_ur
    tile_block := (tile_base_index / conv.tile_block_ur) / conv.nb_tile_block_ur }

/-- The counter update at the end of the body of the tile loop: `tile_block_ur++` and
the two carries. -/
def tile_counters_next (conv : jit_conv_winograd_conf_t) (c : tile_counters) : tile_counters :=
  let tile_block_ur := c.tile_block_ur + 1
  let carry := decide (tile_block_ur ≥ conv.tile_block_ur)
  let tile_block_ur := if carry then 0 else tile_block_ur
  let nb_tile_block_ur := if carry then c.nb_tile_block_ur + 1 else c.nb_tile_block_ur
  let carry2 := decide (nb_tile_block_ur ≥ conv.nb_tile_block_ur)
  { tile_block_ur := tile_block_ur
    nb_tile_block_ur := if carry2 then 0 else nb_tile_block_ur
    tile_block := if carry2 then c.tile_block + 1 else c.tile_block }

/-- The gather loop of `src_transform_fwd` for tile `(tj, ti)`: the local array `I`
handed to `trans_I_4x4_3x3`. -/
def src_transform_fwd_I (conv : jit_conv_winograd_conf_t) (inp : Buffer) (tj ti : Nat) :
    Tile 6 6 := fun j i v =>
  let input : array_offset_calculator := ⟨[conv.mb, conv.ic / 16, conv.ih, conv.iw, 16]⟩
  let ifwp : Int := conv.iw + conv.l_pad
  let ifhp : Int := conv.ih + conv.t_pad
  let ydim : Int := ((tj * 4 + j.val : Nat) : Int)
  if conv.t_pad ≤ ydim ∧ ydim < ifhp then
    let xdim : Int := ((ti * 4 + i.val : Nat) : Int)
    if conv.l_pad ≤ xdim ∧ xdim < ifwp then
      inp (input.idx [0, 0, (ydim - conv.t_pad).toNat, (xdim - conv.l_pad).toNat, v.val])
    else 0.0
  else 0.0

/-- The store loop of `src_transform_fwd` for one tile, at the counters `c`. -/
def src_transform_fwd_store (conv : jit_conv_winograd_conf_t) (c : tile_counters)
    (Iw : Tile 6 6) (streamout : Bool) (tinp : Buffer) : Buffer :=
  let output : array_offset_calculator :=
    ⟨[conv.tile_block, 6, 6, conv.nb_tile_block_ur, conv.nb_ic, conv.ic_block,
      conv.tile_block_ur, 16]⟩
  (List.finRange 6).foldl (fun m j =>
    (List.finRange 6).foldl (fun m i =>
      store_output m
        (output.idx [c.tile_block, j.val, i.val, c.nb_tile_block_ur, 0, 0, c.tile_block_ur, 0])
        (Iw j i) streamout) m) tinp

/-- Packer `src_transform_fwd(image, conv, inp, tinp, streamout)`; the result is the
buffer `tinp` after the call. -/
def src_transform_fwd (image : Nat) (conv : jit_conv_winograd_conf_t) (inp tinp : Buffer)
    (streamout : Bool) : Buffer :=
  ((List.range conv.jtiles).foldl (fun st tj =>
    (List.range conv.itiles).foldl (fun st ti =>
      let I := src_transform_fwd_I conv inp tj ti
      let Iw := trans_I_4x4_3x3 I
      (tile_counters_next conv st.1, src_transform_fwd_store conv st.1 Iw streamout st.2)) st)
    (tile_counters_init conv image, tinp)).2

/-- The gather loop of `dst_transform_fwd` at the counters `c`: the local array `Ow`. -/
def dst_transform_fwd_Ow (conv : jit_conv_winograd_conf_t) (toutp : Buffer)
    (c : tile_counters) : Tile 6 6 := fun j i v =>
  let input : array_offset_calculator :=
    ⟨[conv.tile_block, conv.nb_oc, 6, 6, conv.nb_tile_block_ur, conv.oc_block,
      conv.tile_block_ur, 16]⟩
  toutp (input.idx [c.tile_block, 0, j.val, i.val, c.nb_tile_block_ur, 0, c.tile_block_ur, v.val])

/-- The two statements of `dst_transform_fwd` that update `O[j][i][v]` before it is
stored: the bias addition and the activation. -/
def dst_transform_fwd_O (with_bias with_relu : Bool) (conv : jit_conv_winograd_conf_t)
    (O : Tile 4 4) (bias : Buffer) : Tile 4 4 := fun j i v =>
  let o := O j i v + (if with_bias then bias v.val else 0.0)
  if with_relu ∧ o < 0.0 then o * conv.relu_negative_slope else o

/-- The store loop of `dst_transform_fwd` for tile `(tj, ti)`. -/
def dst_transform_fwd_store (with_bias with_relu : Bool) (conv : jit_conv_winograd_conf_t)
    (tj ti : Nat) (O : Tile 4 4) (bias : Buffer) (streamout : Bool) (outp : Buffer) : Buffer :=
  let output : array_offset_calculator := ⟨[conv.mb, conv.oh, conv.ow, 16]⟩
  (List.finRange 4).foldl (fun m j =>
    if tj * 4 + j.val < conv.oh then
      (List.finRange 4).foldl (fun m i =>
        if ti * 4 + i.val < conv.ow then
          store_output m (output.idx [0, tj * 4 + j.val, ti * 4 + i.val, 0])
            (dst_transform_fwd_O with_bias with_relu conv O bias j i) streamout
        else m) m
    else m) outp

/-- Packer `dst_transform_fwd<with_bias, with_relu>(image, conv, toutp, outp, bias,
streamout)`; the result is the buffer `outp` after the call. -/
def dst_transform_fwd (with_bias with_relu : Bool) (image : Nat)
    (conv : jit_conv_winograd_conf_t) (toutp outp bias : Buffer) (streamout : Bool) : Buffer :=
  ((List.range conv.jtiles).foldl (fun st tj =>
    (List.range conv.itiles).foldl (fun st ti =>
      let Ow := dst_transform_fwd_Ow conv toutp st.1
      let O := trans_O_4x4_3x3 Ow
      (tile_counters_next conv st.1,
        dst_transform_fwd_store with_bias with_relu conv tj ti O bias streamout st.2)) st)
    (tile_counters_init conv image, outp)).2

/-- The state of the tile loop of `dst_transform_fwd` when it reaches tile `(tj, ti)`:
the counters and the destination buffer after all earlier tiles. -/
def dst_transform_fwd_before (with_bias with_relu : Bool) (image : Nat)
    (conv : jit_conv_winograd_conf_t) (toutp outp bias : Buffer) (streamout : Bool)
    (tj ti : Nat) : tile_counters × Buffer :=
  (List.range ti).foldl (fun st ti =>
      let Ow := dst_transform_fwd_Ow conv toutp st.1
      let O := trans_O_4x4_3x3 Ow
      (tile_counters_next conv st.1,
        dst_transform_fwd_store with_bias with_relu conv tj ti O bias streamout st.2))
    ((List.range tj).foldl (fun st tj =>
      (List.range conv.itiles).foldl (fun st ti =>
        let Ow := dst_transform_fwd_Ow conv toutp st.1
        let O := trans_O_4x4_3x3 Ow
        (tile_counters_next conv st.1,
          dst_transform_fwd_store with_bias with_relu conv tj ti O bias streamout st.2)) st)
      (tile_counters_init conv image, outp))

/-- The gather loop of `diff_src_transform_bwd_data` at the counters `c`: the local
array `Ow`. -/
def diff_src_transform_bwd_data_Ow (conv : jit_conv_winograd_conf_t) (toutp : Buffer)
    (c : tile_counters) : Tile 6 6 := fun j i v =>
  let input : array_offset_calculator :=
    ⟨[conv.tile_block, conv.nb_ic, 6, 6, conv.nb_tile_block_ur, conv.ic_block,
      conv.tile_block_ur, 16]⟩
  toutp (input.idx [c.tile_block, 0, j.val, i.val, c.nb_tile_block_ur, 0, c.tile_block_ur, v.val])

/-- The store loop of `diff_src_transform_bwd_data` for tile `(tj, ti)`. -/
def diff_src_transform_bwd_data_store (conv : jit_conv_winograd_conf_t) (tj ti : Nat)
    (O : Tile 4 4) (streamout : Bool) (outp : Buffer) : Buffer :=
  let output : array_offset_calculator := ⟨[conv.mb, conv.ic / 16, conv.ih, conv.iw, 16]⟩
  (List.finRange 4).foldl (fun m j =>
    if tj * 4 + j.val < conv.ih then
      (List.finRange 4).foldl (fun m i =>
        if ti * 4 + i.val < conv.iw then
          store_output m (output.idx [0, 0, tj * 4 + j.val, ti * 4 + i.val, 0]) (O j i) streamout
        else m) m
    else m) outp

/-- Packer `diff_src_transform_bwd_data(image, conv, toutp, outp, streamout)`; the
result is the buffer `outp` after the call. -/
def diff_src_transform_bwd_data (image : Nat) (conv : jit_conv_winograd_conf_t)
    (toutp outp : Buffer) (streamout : Bool) : Buffer :=
  ((List.range conv.jtiles).foldl (fun st tj =>
    (List.range conv.itiles).foldl (fun st ti =>
      let Ow := diff_src_transform_bwd_data_Ow conv toutp st.1
      let O := trans_O_4x4_3x3 Ow
      (tile_counters_next conv st.1,
        diff_src_transform_bwd_data_store conv tj ti O streamout st.2)) st)
    (tile_counters_init conv image, outp)).2

/-- The explicitly zero-padded input of the forward pass at padded coordinates
`(y, x)` and lane `v`: the input sample at `(y - t_pad, x - l_pad)` inside the image,
zero in the padding. -/
def padded_input (conv : jit_conv_winograd_conf_t) (inp : Buffer) (y x : Nat) (v : Fin 16) : ℚ :=
  if conv.t_pad ≤ (y : Int) ∧ (y : Int) < conv.ih + conv.t_pad ∧
      conv.l_pad ≤ (x : Int) ∧ (x : Int) < conv.iw + conv.l_pad then
    inp ((((y : Int) - conv.t_pad).toNat * conv.iw + ((x : Int) - conv.l_pad).toNat) * 16 + v.val)
  else 0

/-! ## Reduction engine

The partial buffers and the destination live in one address space: `mem` maps float
addresses to values, `output` is the address of the destination and `input_ptrs a` the
address of partial buffer `a`. The helper `balance211(n, team, tid, start, end)` is
declared in a header that is not part of the sources; it is a parameter
`balance211 n team tid = (start, end)` of the model. An `omp parallel` region is modelled
as the thread bodies run one after another in the order given by `schedule`. -/

/-- The two inner loop nests of `array_sum` for the element range `[start_e, end_e)`:
the copy of buffer 0 when `reduce_to_first` is false, then the accumulation of the
buffers `1 .. num_arrs - 1`. -/
def array_sum_range (num_arrs : Nat) (output : Nat) (input_ptrs : Nat → Nat)
    (reduce_to_first : Bool) (start_e end_e : Nat) (mem : Buffer) : Buffer :=
  let mem :=
    if !reduce_to_first then
      (List.range' start_e (end_e - start_e)).foldl
        (fun m e => Function.update m (output + e) (m (input_ptrs 0 + e))) mem
    else mem
  (List.range' 1 (num_arrs - 1)).foldl (fun m a =>
    (List.range' start_e (end_e - start_e)).foldl
      (fun m e => Function.update m (output + e) (m (output + e) + m (input_ptrs a + e))) m) mem

/-- The body of the parallel region of `array_sum` for thread `ithr` of `nthr`. -/
def array_sum_thread (balance211 : Nat → Nat → Nat → Nat × Nat) (num_arrs : Nat) (output : Nat)
    (nelems : Nat) (input_ptrs : Nat → Nat) (reduce_to_first : Bool) (nthr ithr : Nat)
    (mem : Buffer) : Buffer :=
  let block_size := 16 * 1024 / 4
  let blocks_number := nelems / block_size
  let tail := nelems % block_size
  let start := (balance211 blocks_number nthr ithr).1
  let end_ := (balance211 blocks_number nthr ithr).2
  let mem := (List.range' start (end_ - start)).foldl (fun m nb =>
    let start_e := nb * block_size
    let end_e := start_e + block_size
    array_sum_range num_arrs output input_ptrs reduce_to_first start_e end_e m) mem
  if tail ≠ 0 ∧ ithr = nthr - 1 then
    let start_e := nelems - tail
    let end_e := nelems
    array_sum_range num_arrs output input_ptrs reduce_to_first start_e end_e mem
  else mem

/-- Function `array_sum(num_arrs, output, nelems, input_ptrs, reduce_to_first)` run by
`nthr` threads in the order `schedule`; the result is the memory after the call. -/
def array_sum (balance211 : Nat → Nat → Nat → Nat × Nat) (nthr : Nat) (schedule : List Nat)
    (num_arrs : Nat) (output : Nat) (nelems : Nat) (input_ptrs : Nat → Nat)
    (reduce_to_first : Bool) (mem : Buffer) : Buffer :=
  schedule.foldl (fun m ithr =>
    array_sum_thread balance211 num_arrs output nelems input_ptrs reduce_to_first nthr ithr m) mem

/-- The loop nests of `subarray_sum` for a block `[start_e, end_e)` of the block loop:
buffer 0 is copied inside its clamped range and the rest of the block is zeroed, then
every other buffer is accumulated over its range clipped to the block. -/
def subarray_sum_block (num_arrs : Nat) (output : Nat) (input_ptrs : Nat → Nat)
    (input_starts input_ends : Nat → Nat) (start_e end_e : Nat) (mem : Buffer) : Buffer :=
  let input_start := max start_e (min (input_starts 0) end_e)
  let input_end := max start_e (min (input_ends 0) end_e)
  let mem := (List.range' start_e (input_start - start_e)).foldl
    (fun m e => Function.update m (output + e) 0.0) mem
  let mem := (List.range' input_start (input_end - input_start)).foldl
    (fun m e => Function.update m (output + e) (m (input_ptrs 0 + e))) mem
  let mem := (List.range' input_end (end_e - input_end)).foldl
    (fun m e => Function.update m (output + e) 0.0) mem
  (List.range' 1 (num_arrs - 1)).foldl (fun m a =>
    let input_start := max start_e (input_starts a)
    let input_end := min (input_ends a) end_e
    (List.range' input_start (input_end - input_start)).foldl
      (fun m e => Function.update m (output + e) (m (output + e) + m (input_ptrs a + e))) m) mem

/-- The loop nests of `subarray_sum` for the tail `[start_e, end_e)`: as for a block,
except that the accumulation loop of the buffers `1 .. num_arrs - 1` runs over
`e = start_e .. end_e - 1`, not over the clipped range it has just computed. -/
def subarray_sum_tail (num_arrs : Nat) (output : Nat) (input_ptrs : Nat → Nat)
    (input_starts input_ends : Nat → Nat) (start_e end_e : Nat) (mem : Buffer) : Buffer :=
  let input_start := max start_e (min (input_starts 0) end_e)
  let input_end := max start_e (min (input_ends 0) end_e)
  let mem := (List.range' start_e (input_start - start_e)).foldl
    (fun m e => Function.update m (output + e) 0.0) mem
  let mem := (List.range' input_start (input_end - input_start)).foldl
    (fun m e => Function.update m (output + e) (m (input_ptrs 0 + e))) mem
  let mem := (List.range' input_end (end_e - input_end)).foldl
    (fun m e => Function.update m (output + e) 0.0) mem
  (List.range' 1 (num_arrs - 1)).foldl (fun m a =>
    (List.range' start_e (end_e - start_e)).foldl
      (fun m e => Function.update m (output + e) (m (output + e) + m (input_ptrs a + e))) m) mem

/-- The body of the parallel region of `subarray_sum` for thread `ithr` of `nthr`. -/
def subarray_sum_thread (balance211 : Nat → Nat → Nat → Nat × Nat) (num_arrs : Nat)
    (output : Nat) (nelems : Nat) (input_ptrs : Nat → Nat) (input_starts input_ends : Nat → Nat)
    (nthr ithr : Nat) (mem : Buffer) : Buffer :=
  let block_size := 16 * 1024 / 4
  let blocks_number := nelems / block_size
  let tail := nelems % block_size
  let start := (balance211 blocks_number nthr ithr).1
  let end_ := (balance211 blocks_number nthr ithr).2
  let mem := (List.range' start (end_ - start)).foldl (fun m nb =>
    let start_e := nb * block_size
    let end_e := start_e + block_size
    subarray_sum_block num_arrs output input_ptrs input_starts input_ends start_e end_e m) mem
  if tail ≠ 0 ∧ ithr = nthr - 1 then
    let start_e := nelems - tail
    let end_e := nelems
    subarray_sum_tail num_arrs output input_ptrs input_starts input_ends start_e end_e mem
  else mem

/-- Function `subarray_sum(num_arrs, output, nelems, input_ptrs, input_starts,
input_ends)` run by `nthr` threads in the order `schedule`; the result is the memory
after the call. -/
def subarray_sum (balance211 : Nat → Nat → Nat → Nat × Nat) (nthr : Nat) (schedule : List Nat)
    (num_arrs : Nat) (output : Nat) (nelems : Nat) (input_ptrs : Nat → Nat)
    (input_starts input_ends : Nat → Nat) (mem : Buffer) : Buffer :=
  schedule.foldl (fun m ithr =>
    subarray_sum_thread balance211 num_arrs output nelems input_ptrs input_starts input_ends
      nthr ithr m) mem

/-- A splitter that gives every block to thread 0; used to instantiate the theorems. -/
def balance_all_to_first (n _team tid : Nat) : Nat × Nat :=
  if tid = 0 then (0, n) else (0, 0)

/-! ## Auxiliary definitions used in the proofs -/

/-- The common shape of the store loops of `dst_transform_fwd` and
`diff_src_transform_bwd_data` for tile `(tj, ti)`: position `(j, i)` of the 4x4 tile
`data` is stored at float offset `off ydim xdim` when `ydim < H` and `xdim < W`. -/
def store_tile (H W : Nat) (off : Nat → Nat → Nat) (data : Tile 4 4) (s : Bool)
    (tj ti : Nat) (m : Buffer) : Buffer :=
  (List.finRange 4).foldl (fun m j =>
    if tj * 4 + j.val < H then
      (List.finRange 4).foldl (fun m i =>
        if ti * 4 + i.val < W then
          store_output m (off (tj * 4 + j.val) (ti * 4 + i.val)) (data j i) s
        else m) m
    else m) m

/-- A concrete configuration used to instantiate the theorems: one image, 16 input and
output channels, 8x8 input and output, padding 1, 2x2 tiles in one tile block. -/
def conv_example : jit_conv_winograd_conf_t :=
  { mb := 1, ic := 16, oc := 16, ih := 8, iw := 8, oh := 8, ow := 8,
    l_pad := 1, t_pad := 1, r_pad := 1, b_pad := 1, kh := 3, kw := 3, alpha := 6,
    itiles := 2, jtiles := 2, ntiles := 4, tile_block := 1, tile_block_ur := 2,
    nb_tile_block_ur := 2,
    nb_ic := 1, ic_block := 1, nb_oc := 1, oc_block := 1,
    ic_simd_block := 16, oc_simd_block := 16, tile_4fma := 1, tile_4fma_padding := 0,
    with_bias := true, relu_negative_slope := 1 / 2 }

/-- A 4x4 tile placed in the 6x6 shape that `trans_I_4x4_3x3` takes, the other positions
zero. -/
def pad_4x4 (X : Tile 4 4) : Tile 6 6 := fun r c v =>
  if h : r.val < 4 ∧ c.val < 4 then X ⟨r.val, h.1⟩ ⟨c.val, h.2⟩ v else 0

/-- A 3x3 tile placed in the `[4][6]` shape that `trans_W_3x3_4x4_wu` takes, the other
positions zero. -/
def pad_3x3 (X : Tile 3 3) : Tile 4 6 := fun r c v =>
  if h : r.val < 3 ∧ c.val < 3 then X ⟨r.val, h.1⟩ ⟨c.val, h.2⟩ v else 0

/-- A `[6][6][16]` tile seen as a `[6][6][16][16]` block, the same tile for every value of
the first lane index. -/
def broadcast_lane (Fw : Tile 6 6) : Tile2 6 6 := fun r c _ v => Fw r c v

/-- The tile with value 1 at position `(0, 0)` of every lane and 0 elsewhere. -/
def unit_tile (n : Nat) : Tile (n + 1) (n + 1) := fun r c _ =>
  if r = 0 ∧ c = 0 then 1 else 0

/-- Product of the matrix of `trans_O_4x4_3x3` with the matrix of `trans_I_4x4_3x3`. -/
def AtBt : Fin 4 → Fin 6 → ℚ :=
  ![![225 / 256, 0, -507 / 64, 0, 5, 0],
    ![0, -225 / 64, 0, 169 / 32, 0, 0],
    ![0, 0, -225 / 64, 0, 169 / 32, 0],
    ![0, -30825 / 8192, 0, 15953 / 2048, 0, 1]]

/-- Product of the matrix of `trans_O_3x3_4x4_wu` with the matrix of
`trans_W_3x3_4x4_wu`. -/
def AwuGwu : Fin 3 → Fin 4 → ℚ :=
  ![![1 / 500000000000000, 0, 0, 0],
    ![0, -1 / 1000000000000000, 0, 1],
    ![3 / 16000000000000000, 0, 3199999999999999 / 3200000000000000, 1]]

/-- Memory used to exhibit the tail defect of `subarray_sum`: the destination at
addresses 0 and 1, buffer 0 = `[1, 2]` at addresses 2 and 3, buffer 1 = `[10, 99]` at
addresses 4 and 5. -/
def subarray_sum_tail_mem : Buffer := fun x =>
  if x = 2 then 1 else if x = 3 then 2 else if x = 4 then 10 else if x = 5 then 99 else 0


/-! ## Definitions for the packers with a running read pointer, the loop states and the
orchestrator flags -/

/-- Member `operator()` evaluated at `int` arguments that may be negative, as in the
address `&input(0, 0, tj * tile_size - t_pad_winograd, ti * tile_size - l_pad_winograd, 0)`:
the same Horner form over the integers. The conversion of a negative index to `size_t`
and the pointer addition both wrap modulo `2 ^ 64`, so the address is the base pointer
plus this signed offset. -/
def array_offset_calculator._offsetZ (c : array_offset_calculator) (dimension : Nat)
    (theta : Int) : List Int → Int
  | [] => theta
  | element :: Fargs =>
    c._offsetZ (dimension + 1) (element + (c._dims.getD dimension 0 : Int) * theta) Fargs

/-- Member `operator()(Fargs...)` at `int` arguments, as a signed float offset. -/
def array_offset_calculator.idxZ (c : array_offset_calculator) : List Int → Int
  | [] => 0
  | element :: Fargs => c._offsetZ 1 element Fargs

/-- The gather loop of `diff_dst_transform_bwd_data` for tile `(tj, ti)`, with the
running read pointer `base` (a signed float offset relative to `inp`): the pointer after
the loop and the local array `I`. A row or position outside the image is zero-filled
without a read. -/
def diff_dst_transform_bwd_data_I (conv : jit_conv_winograd_conf_t) (inp : Buffer)
    (tj ti : Nat) : Int × Tile 6 6 :=
  let input : array_offset_calculator := ⟨[conv.mb, conv.oc / 16, conv.oh, conv.ow, 16]⟩
  let l_pad_winograd : Int := conv.iw + conv.r_pad - conv.ow
  let t_pad_winograd : Int := conv.ih + conv.b_pad - conv.oh
  let ofwp : Int := conv.ow + l_pad_winograd
  let ofhp : Int := conv.oh + t_pad_winograd
  let base : Int :=
    input.idxZ [0, 0, ((tj * 4 : Nat) : Int) - t_pad_winograd,
      ((ti * 4 : Nat) : Int) - l_pad_winograd, 0]
  (List.finRange 6).foldl (fun st j =>
    let ydim : Int := ((tj * 4 + j.val : Nat) : Int)
    let st : Int × Tile 6 6 :=
      if t_pad_winograd ≤ ydim ∧ ydim < ofhp then
        let st : Int × Tile 6 6 := (List.finRange 6).foldl (fun st i =>
          let xdim : Int := ((ti * 4 + i.val : Nat) : Int)
          let I : Tile 6 6 :=
            if l_pad_winograd ≤ xdim ∧ xdim < ofwp then
              Function.update st.2 j
                (Function.update (st.2 j) i (fun v => inp (st.1 + (v.val : Int)).toNat))
            else
              Function.update st.2 j (Function.update (st.2 j) i (fun _ => 0.0))
          (st.1 + 16, I)) st
        (st.1 - 6 * 16, st.2)
      else
        (st.1, (List.finRange 6).foldl (fun I i =>
          Function.update I j (Function.update (I j) i (fun _ => 0.0))) st.2)
    (st.1 + ((conv.ow * 16 : Nat) : Int), st.2)) (base, fun _ _ _ => 0)

/-- The store loop of `diff_dst_transform_bwd_data` for one tile, at the counters `c`. -/
def diff_dst_transform_bwd_data_store (conv : jit_conv_winograd_conf_t) (c : tile_counters)
    (Iw : Tile 6 6) (streamout : Bool) (tinp : Buffer) : Buffer :=
  let output : array_offset_calculator :=
    ⟨[conv.tile_block, 6, 6, conv.nb_tile_block_ur, conv.nb_oc, conv.oc_block,
      conv.tile_block_ur, 16]⟩
  (List.finRange 6).foldl (fun m j =>
    (List.finRange 6).foldl (fun m i =>
      store_output m
        (output.idx [c.tile_block, j.val, i.val, c.nb_tile_block_ur, 0, 0, c.tile_block_ur, 0])
        (Iw j i) streamout) m) tinp

/-- Packer `diff_dst_transform_bwd_data(image, conv, inp, tinp, streamout)`; the result
is the buffer `tinp` after the call. -/
def diff_dst_transform_bwd_data (image : Nat) (conv : jit_conv_winograd_conf_t)
    (inp tinp : Buffer) (streamout : Bool) : Buffer :=
  ((List.range conv.jtiles).foldl (fun st tj =>
    (List.range conv.itiles).foldl (fun st ti =>
      let I := (diff_dst_transform_bwd_data_I conv inp tj ti).2
      let Iw := trans_I_4x4_3x3 I
      (tile_counters_next conv st.1,
        diff_dst_transform_bwd_data_store conv st.1 Iw streamout st.2)) st)
    (tile_counters_init conv image, tinp)).2

/-- The state of the tile loop of `src_transform_fwd` when it reaches tile `(tj, ti)`:
the counters and the destination buffer after all earlier tiles. -/
def src_transform_fwd_before (image : Nat) (conv : jit_conv_winograd_conf_t)
    (inp tinp : Buffer) (streamout : Bool) (tj ti : Nat) : tile_counters × Buffer :=
  (List.range ti).foldl (fun st ti =>
      let I := src_transform_fwd_I conv inp tj ti
      let Iw := trans_I_4x4_3x3 I
      (tile_counters_next conv st.1, src_transform_fwd_store conv st.1 Iw streamout st.2))
    ((List.range tj).foldl (fun st tj =>
      (List.range conv.itiles).foldl (fun st ti =>
        let I := src_transform_fwd_I conv inp tj ti
        let Iw := trans_I_4x4_3x3 I
        (tile_counters_next conv st.1, src_transform_fwd_store conv st.1 Iw streamout st.2)) st)
      (tile_counters_init conv image, tinp))

/-- The state of the tile loop of `diff_dst_transform_bwd_data` when it reaches tile
`(tj, ti)`. -/
def diff_dst_transform_bwd_data_before (image : Nat) (conv : jit_conv_winograd_conf_t)
    (inp tinp : Buffer) (streamout : Bool) (tj ti : Nat) : tile_counters × Buffer :=
  (List.range ti).foldl (fun st ti =>
      let I := (diff_dst_transform_bwd_data_I conv inp tj ti).2
      let Iw := trans_I_4x4_3x3 I
      (tile_counters_next conv st.1,
        diff_dst_transform_bwd_data_store conv st.1 Iw streamout st.2))
    ((List.range tj).foldl (fun st tj =>
      (List.range conv.itiles).foldl (fun st ti =>
        let I := (diff_dst_transform_bwd_data_I conv inp tj ti).2
        let Iw := trans_I_4x4_3x3 I
        (tile_counters_next conv st.1,
          diff_dst_transform_bwd_data_store conv st.1 Iw streamout st.2)) st)
      (tile_counters_init conv image, tinp))

/-- The state of the tile loop of `diff_src_transform_bwd_data` when it reaches tile
`(tj, ti)`. -/
def diff_src_transform_bwd_data_before (image : Nat) (conv : jit_conv_winograd_conf_t)
    (toutp outp : Buffer) (streamout : Bool) (tj ti : Nat) : tile_counters × Buffer :=
  (List.range ti).foldl (fun st ti =>
      let Ow := diff_src_transform_bwd_data_Ow conv toutp st.1
      let O := trans_O_4x4_3x3 Ow
      (tile_counters_next conv st.1,
        diff_src_transform_bwd_data_store conv tj ti O streamout st.2))
    ((List.range tj).foldl (fun st tj =>
      (List.range conv.itiles).foldl (fun st ti =>
        let Ow := diff_src_transform_bwd_data_Ow conv toutp st.1
        let O := trans_O_4x4_3x3 Ow
        (tile_counters_next conv st.1,
          diff_src_transform_bwd_data_store conv tj ti O streamout st.2)) st)
      (tile_counters_init conv image, outp))

/-- The flag `V_streamout` of `_execute_forward_W_S_G_D`, the value of
`jcp.ntiles * jcp.ic * alpha * alpha * sizeof(float) > 2 * LLC_cache_size`. The global
`LLC_cache_size`, an `unsigned int` set from a cache query that is not part of the
sources, is a parameter. The left side is an `int` product converted to `size_t` for its
last factor, hence reduced modulo `2 ^ 64`; the right side is an `unsigned int` product,
reduced modulo `2 ^ 32`. -/
def V_streamout (jcp : jit_conv_winograd_conf_t) (LLC_cache_size : Nat) : Bool :=
  decide ((jcp.ntiles * jcp.ic * 6 * 6 * 4) % 2 ^ 64 > (2 * LLC_cache_size) % 2 ^ 32)

/-- The flag `M_streamout` of `_execute_backward_data_W_S_G_D`, the value of
`jcp.ntiles * jcp.oc * alpha * alpha * sizeof(float) > 2 * LLC_cache_size`, with the same
integer types as `V_streamout`. -/
def M_streamout (jcp : jit_conv_winograd_conf_t) (LLC_cache_size : Nat) : Bool :=
  decide ((jcp.ntiles * jcp.oc * 6 * 6 * 4) % 2 ^ 64 > (2 * LLC_cache_size) % 2 ^ 32)

/-! ## Reference forms used in the statements -/

/-- The Horner form `(...((a0 * d1 + a1) * d2 + a2)...) * d(k-1) + a(k-1)` of an index
tuple `a0 :: as` over the extents `ds = [d1, d2, ...]` that follow the first one. -/
def horner_form (ds : List Nat) : List Nat → Nat
  | [] => 0
  | a0 :: as => (List.zip ds as).foldl (fun acc p => acc * p.1 + p.2) a0

/-- The element ranges `[start_e, end_e)` that the body of the parallel region of
`array_sum` and of `subarray_sum` iterates for thread `ithr` of `nthr`: the blocks
`nb = start .. end - 1` given by `balance211`, then the tail for the last thread. -/
def reduction_thread_ranges (balance211 : Nat → Nat → Nat → Nat × Nat) (nelems nthr ithr : Nat) :
    List (Nat × Nat) :=
  let block_size := 16 * 1024 / 4
  let blocks_number := nelems / block_size
  let tail := nelems % block_size
  let start := (balance211 blocks_number nthr ithr).1
  let end_ := (balance211 blocks_number nthr ithr).2
  (List.range' start (end_ - start)).map (fun nb => (nb * block_size, nb * block_size + block_size))
    ++ (if tail ≠ 0 ∧ ithr = nthr - 1 then [(nelems - tail, nelems)] else [])

/-! ## Weight packers -/

/-- The gather loop of `weight_transform_bwd_data`: the local array `F`, with
`F[j][i][k][v] = input(0, 2 - j, 2 - i, v, k)`. -/
def weight_transform_bwd_data_F (conv : jit_conv_winograd_conf_t) (wp : Buffer) : Tile2 3 3 :=
  fun j i k v =>
    let input : array_offset_calculator := ⟨[conv.ic / 16, conv.kh, conv.kw, 16, 16]⟩
    wp (input.idx [0, 2 - j.val, 2 - i.val, v.val, k.val])

/-- Packer `weight_transform_bwd_data(conv, wp, twp)`; the result is the buffer `twp`
after the call: the stores `output(j, i, 0, 0, 0, 0, v, k) = Fw[j][i][v][k]` in program
order. -/
def weight_transform_bwd_data (conv : jit_conv_winograd_conf_t) (wp twp : Buffer) : Buffer :=
  let output : array_offset_calculator :=
    ⟨[6, 6, conv.nb_ic, conv.nb_oc, conv.ic_block, conv.oc_block, 16, 16]⟩
  let Fw := trans_W_4x4_3x3 (weight_transform_bwd_data_F conv wp)
  (List.finRange 6).foldl (fun m j =>
    (List.finRange 6).foldl (fun m i =>
      (List.finRange 16).foldl (fun m v =>
        (List.finRange 16).foldl (fun m k =>
          Function.update m (output.idx [j.val, i.val, 0, 0, 0, 0, v.val, k.val]) (Fw j i v k))
          m) m) m) twp

/-- The gather loop of `weight_transform_fwd`: the local array `F`, with
`F[j][i][v1][v2] = input(0, 0, j, i, v1, v2)`. -/
def weight_transform_fwd_F (conv : jit_conv_winograd_conf_t) (wp : Buffer) : Tile2 3 3 :=
  fun j i v1 v2 =>
    let input : array_offset_calculator :=
      ⟨[conv.nb_oc * conv.oc_block, conv.nb_ic * conv.ic_block, conv.kh, conv.kw, 16, 16]⟩
    wp (input.idx [0, 0, j.val, i.val, v1.val, v2.val])

/-- Packer `weight_transform_fwd(conv, wp, twp)`; the result is the buffer `twp` after
the call: the stores `output(0, j, i, 0, 0, 0, v1, v2) = Fw[j][i][v1][v2]` in program
order. -/
def weight_transform_fwd (conv : jit_conv_winograd_conf_t) (wp twp : Buffer) : Buffer :=
  let output : array_offset_calculator :=
    ⟨[conv.nb_oc, 6, 6, conv.nb_ic, conv.oc_block, conv.ic_block, 16, 16]⟩
  let Fw := trans_W_4x4_3x3 (weight_transform_fwd_F conv wp)
  (List.finRange 6).foldl (fun m j =>
    (List.finRange 6).foldl (fun m i =>
      (List.finRange 16).foldl (fun m v1 =>
        (List.finRange 16).foldl (fun m v2 =>
          Function.update m (output.idx [0, j.val, i.val, 0, 0, 0, v1.val, v2.val])
            (Fw j i v1 v2)) m) m) m) twp

/-! ## Pointers into buffers -/

/-- The buffer seen from the pointer `base + ·` into `m`. -/
def view (base : Nat) (m : Buffer) : Buffer := fun x => m (base + x)

/-- The effect on the buffer `m` of a callee that is handed the pointer `base` into it
and turns the memory it sees from there into `f` of it. -/
def write_at (base : Nat) (f : Buffer → Buffer) (m : Buffer) : Buffer :=
  fun o => if base ≤ o then f (view base m) (o - base) else m o

/-! ## Tile-block-indexed packers of the forward pass -/

/-- The gather loop of `src_transform_fwd_tile` for tile `(tj, ti)` of image `img`: the
local array `I`. -/
def src_transform_fwd_tile_I (conv : jit_conv_winograd_conf_t) (inp : Buffer) (img tj ti : Nat) :
    Tile 6 6 := fun j i v =>
  let input : array_offset_calculator := ⟨[conv.mb, conv.ic / 16, conv.ih, conv.iw, 16]⟩
  let ifwp : Int := conv.iw + conv.l_pad
  let ifhp : Int := conv.ih + conv.t_pad
  let ydim : Int := ((tj * 4 + j.val : Nat) : Int)
  if conv.t_pad ≤ ydim ∧ ydim < ifhp then
    let xdim : Int := ((ti * 4 + i.val : Nat) : Int)
    if conv.l_pad ≤ xdim ∧ xdim < ifwp then
      inp (input.idx [img, 0, (ydim - conv.t_pad).toNat, (xdim - conv.l_pad).toNat, v.val])
    else 0.0
  else 0.0

/-- The store loop of `src_transform_fwd_tile` for the tile at position
`(nb_tile_block_ur, tile_block_ur)` of the tile block. -/
def src_transform_fwd_tile_store (conv : jit_conv_winograd_conf_t)
    (nb_tile_block_ur tile_block_ur : Nat) (Iw : Tile 6 6) (tinp : Buffer) : Buffer :=
  let output : array_offset_calculator :=
    ⟨[6, 6, conv.nb_tile_block_ur, conv.nb_ic, conv.ic_block, conv.tile_block_ur, 16]⟩
  (List.finRange 6).foldl (fun m j =>
    (List.finRange 6).foldl (fun m i =>
      store_output m (output.idx [j.val, i.val, nb_tile_block_ur, 0, 0, tile_block_ur, 0])
        (Iw j i) false) m) tinp

/-- Packer `src_transform_fwd_tile(tile_block, conv, inp, tinp)`; the loop state is the
running flat tile index `n_tiles` and the buffer `tinp`, the result is `tinp` after the
call. -/
def src_transform_fwd_tile (tile_block : Nat) (conv : jit_conv_winograd_conf_t)
    (inp tinp : Buffer) : Buffer :=
  ((List.range conv.nb_tile_block_ur).foldl (fun st nb_tile_block_ur =>
    (List.range conv.tile_block_ur).foldl (fun st tile_block_ur =>
      let n_tiles := st.1
      let img := n_tiles / (conv.jtiles * conv.itiles)
      let no_tile := n_tiles % (conv.jtiles * conv.itiles)
      let ti := no_tile % conv.itiles
      let tj := no_tile / conv.itiles
      let I := src_transform_fwd_tile_I conv inp img tj ti
      let Iw := trans_I_4x4_3x3 I
      (n_tiles + 1,
        src_transform_fwd_tile_store conv nb_tile_block_ur tile_block_ur Iw st.2)) st)
    (tile_block * conv.nb_tile_block_ur * conv.tile_block_ur, tinp)).2

/-- The gather loop of `dst_transform_fwd_tile` at position
`(nb_tile_block_ur, tile_block_ur)`: the local array `Ow`. -/
def dst_transform_fwd_tile_Ow (conv : jit_conv_winograd_conf_t) (toutp : Buffer)
    (nb_tile_block_ur tile_block_ur : Nat) : Tile 6 6 := fun j i v =>
  let input : array_offset_calculator :=
    ⟨[6, 6, conv.nb_tile_block_ur, conv.oc_block, conv.tile_block_ur, 16]⟩
  toutp (input.idx [j.val, i.val, nb_tile_block_ur, 0, tile_block_ur, v.val])

/-- The store loop of `dst_transform_fwd_tile` for tile `(tj, ti)` of image `img`. -/
def dst_transform_fwd_tile_store (with_bias with_relu : Bool) (conv : jit_conv_winograd_conf_t)
    (img tj ti : Nat) (O : Tile 4 4) (bias : Buffer) (outp : Buffer) : Buffer :=
  let output : array_offset_calculator := ⟨[conv.mb, conv.oc / 16, conv.oh, conv.ow, 16]⟩
  (List.finRange 4).foldl (fun m j =>
    if tj * 4 + j.val < conv.oh then
      (List.finRange 4).foldl (fun m i =>
        if ti * 4 + i.val < conv.ow then
          store_output m (output.idx [img, 0, tj * 4 + j.val, ti * 4 + i.val, 0])
            (dst_transform_fwd_O with_bias with_relu conv O bias j i) true
        else m) m
    else m) outp

/-- Packer `dst_transform_fwd_tile<with_bias, with_relu>(tile_block, conv, toutp, outp,
bias)`; the result is the buffer `outp` after the call. -/
def dst_transform_fwd_tile (with_bias with_relu : Bool) (tile_block : Nat)
    (conv : jit_conv_winograd_conf_t) (toutp outp bias : Buffer) : Buffer :=
  ((List.range conv.nb_tile_block_ur).foldl (fun st nb_tile_block_ur =>
    (List.range conv.tile_block_ur).foldl (fun st tile_block_ur =>
      let n_tiles := st.1
      let img := n_tiles / (conv.jtiles * conv.itiles)
      let no_tile := n_tiles % (conv.jtiles * conv.itiles)
      let ti := no_tile % conv.itiles
      let tj := no_tile / conv.itiles
      let Ow := dst_transform_fwd_tile_Ow conv toutp nb_tile_block_ur tile_block_ur
      let O := trans_O_4x4_3x3 Ow
      (n_tiles + 1,
        dst_transform_fwd_tile_store with_bias with_relu conv img tj ti O bias st.2)) st)
    (tile_block * conv.nb_tile_block_ur * conv.tile_block_ur, outp)).2

/-! ## Forward orchestrators

The compute kernel `gemm_loop_ker_first_iter` / `gemm_loop_ker` is generated at run time
and is not part of the sources. The GEMM loop nests are therefore written over an
arbitrary state `S` and two actions `gemm_loop_ker_first_iter dst a b` and
`gemm_loop_ker dst a b` on it, the three arguments being the float offsets of the three
pointer arguments in `M`, `U` and `V`. Two instances are used: the list of calls made,
and the update of the buffer `M` by a kernel given as a map from the memory seen from the
three pointers to the memory seen from `dst` afterwards. A parallel loop is modelled as
its iterations run in increasing order. -/

/-- The GEMM loop nest of `_execute_forward_W_S_G_D`. -/
def _execute_forward_W_S_G_D_gemm {S : Type} (jcp : jit_conv_winograd_conf_t)
    (gemm_loop_ker_first_iter gemm_loop_ker : Nat → Nat → Nat → S → S) (s : S) : S :=
  let M : array_offset_calculator :=
    ⟨[jcp.tile_block, jcp.nb_oc, 6, 6, jcp.nb_tile_block_ur, jcp.oc_block,
      jcp.tile_block_ur, 16]⟩
  let U : array_offset_calculator :=
    ⟨[jcp.nb_oc, 6, 6, jcp.nb_ic, jcp.oc_block, jcp.ic_block, 16, 16]⟩
  let V : array_offset_calculator :=
    ⟨[jcp.tile_block, 6, 6, jcp.nb_tile_block_ur, jcp.nb_ic, jcp.ic_block,
      jcp.tile_block_ur, 16]⟩
  (List.range jcp.tile_block).foldl (fun s tile_block =>
    (List.range 6).foldl (fun s oj =>
      (List.range 6).foldl (fun s oi =>
        (List.range jcp.nb_oc).foldl (fun s ofm1 =>
          (List.range jcp.nb_tile_block_ur).foldl (fun s nb_tile_block_ur =>
            let s := gemm_loop_ker_first_iter
              (M.idx [tile_block, ofm1, oj, oi, nb_tile_block_ur, 0, 0, 0])
              (U.idx [ofm1, oj, oi, 0, 0, 0, 0, 0])
              (V.idx [tile_block, oj, oi, nb_tile_block_ur, 0, 0, 0, 0]) s
            (List.range' 1 (jcp.nb_ic - 1)).foldl (fun s ifm1 =>
              gemm_loop_ker
                (M.idx [tile_block, ofm1, oj, oi, nb_tile_block_ur, 0, 0, 0])
                (U.idx [ofm1, oj, oi, ifm1, 0, 0, 0, 0])
                (V.idx [tile_block, oj, oi, nb_tile_block_ur, ifm1, 0, 0, 0]) s) s) s) s) s) s) s

/-- The GEMM loop nest of the body of the tile-block loop of `_execute_forward_W_SGD`,
for the thread `ithr`. -/
def _execute_forward_W_SGD_gemm {S : Type} (jcp : jit_conv_winograd_conf_t)
    (gemm_loop_ker_first_iter gemm_loop_ker : Nat → Nat → Nat → S → S) (ithr : Nat) (s : S) :
    S :=
  let M : array_offset_calculator :=
    ⟨[0, jcp.nb_oc, 6, 6, jcp.nb_tile_block_ur, jcp.oc_block, jcp.tile_block_ur, 16]⟩
  let U : array_offset_calculator :=
    ⟨[jcp.nb_oc, 6, 6, jcp.nb_ic, jcp.oc_block, jcp.ic_block, 16, 16]⟩
  let V : array_offset_calculator :=
    ⟨[0, 6, 6, jcp.nb_tile_block_ur, jcp.nb_ic, jcp.ic_block, jcp.tile_block_ur, 16]⟩
  (List.range 6).foldl (fun s oj =>
    (List.range 6).foldl (fun s oi =>
      (List.range jcp.nb_oc).foldl (fun s ofm1 =>
        (List.range jcp.nb_tile_block_ur).foldl (fun s nb_tile_block_ur =>
          let s := gemm_loop_ker_first_iter
            (M.idx [ithr, ofm1, oj, oi, nb_tile_block_ur, 0, 0, 0])
            (U.idx [ofm1, oj, oi, 0, 0, 0, 0, 0])
            (V.idx [ithr, oj, oi, nb_tile_block_ur, 0, 0, 0, 0]) s
          (List.range' 1 (jcp.nb_ic - 1)).foldl (fun s ifm1 =>
            gemm_loop_ker
              (M.idx [ithr, ofm1, oj, oi, nb_tile_block_ur, 0, 0, 0])
              (U.idx [ofm1, oj, oi, ifm1, 0, 0, 0, 0])
              (V.idx [ithr, oj, oi, nb_tile_block_ur, ifm1, 0, 0, 0]) s) s) s) s) s) s

/-- A call of a compute kernel as recorded in the list of calls: whether it is the
`_first_iter` entry point, and the float offsets of its three pointer arguments. -/
structure gemm_call where
  first_iter : Bool
  dst : Nat
  a : Nat
  b : Nat

/-- The action of a compute kernel entry point on the list of calls: the call is
appended. -/
def gemm_record (first_iter : Bool) (dst a b : Nat) (calls : List gemm_call) : List gemm_call :=
  calls ++ [⟨first_iter, dst, a, b⟩]

/-- The action on the destination buffer `D` of a compute kernel `kern`, given as the
map from the memory seen from its three pointers to the memory seen from its first
pointer afterwards, with the operands read from the buffers `A` and `B`. -/
def gemm_apply (kern : Buffer → Buffer → Buffer → Buffer) (A B : Buffer) (dst a b : Nat)
    (D : Buffer) : Buffer :=
  write_at dst (fun d => kern d (view a A) (view b B)) D

/-- The weight transform loop nest of the forward orchestrators (the same in both):
the buffer `U` after it. -/
def _execute_forward_U (jcp : jit_conv_winograd_conf_t) (weights U : Buffer) : Buffer :=
  let weights_c : array_offset_calculator :=
    ⟨[jcp.oc / 16, jcp.ic / 16, jcp.kh, jcp.kw, 16, 16]⟩
  let U_c : array_offset_calculator :=
    ⟨[jcp.nb_oc, 6, 6, jcp.nb_ic, jcp.oc_block, jcp.ic_block, 16, 16]⟩
  (List.range jcp.nb_oc).foldl (fun U ofm1 =>
    (List.range jcp.nb_ic).foldl (fun U ifm1 =>
      (List.range jcp.oc_block).foldl (fun U ofm2 =>
        (List.range jcp.ic_block).foldl (fun U ifm2 =>
          write_at (U_c.idx [ofm1, 0, 0, ifm1, ofm2, ifm2, 0, 0])
            (weight_transform_fwd jcp
              (view (weights_c.idx
                [ofm1 * jcp.oc_block + ofm2, ifm1 * jcp.ic_block + ifm2, 0, 0, 0, 0]) weights))
            U) U) U) U) U

/-- The body of the source transform loop nest of `_execute_forward_W_S_G_D` for the
work item `(img, ifm1, ifm2)`: the call of `src_transform_fwd` with the pointers
`&src(img, ifm1 * ic_block + ifm2, 0, 0, 0)` and `&V(0, 0, 0, 0, ifm1, ifm2, 0, 0)`; the
result is the buffer `V` after it. -/
def _execute_forward_W_S_G_D_V_item (jcp : jit_conv_winograd_conf_t) (LLC_cache_size : Nat)
    (img ifm1 ifm2 : Nat) (src V : Buffer) : Buffer :=
  let src_c : array_offset_calculator := ⟨[jcp.mb, jcp.ic / 16, jcp.ih, jcp.iw, 16]⟩
  let V_c : array_offset_calculator :=
    ⟨[jcp.tile_block, 6, 6, jcp.nb_tile_block_ur, jcp.nb_ic, jcp.ic_block,
      jcp.tile_block_ur, 16]⟩
  write_at (V_c.idx [0, 0, 0, 0, ifm1, ifm2, 0, 0])
    (fun tinp => src_transform_fwd img jcp
      (view (src_c.idx [img, ifm1 * jcp.ic_block + ifm2, 0, 0, 0]) src) tinp
      (V_streamout jcp LLC_cache_size)) V

/-- The source transform loop nest of `_execute_forward_W_S_G_D`: the buffer `V` after
it. -/
def _execute_forward_W_S_G_D_V (jcp : jit_conv_winograd_conf_t) (LLC_cache_size : Nat)
    (src V : Buffer) : Buffer :=
  (List.range jcp.mb).foldl (fun V img =>
    (List.range jcp.nb_ic).foldl (fun V ifm1 =>
      (List.range jcp.ic_block).foldl (fun V ifm2 =>
        _execute_forward_W_S_G_D_V_item jcp LLC_cache_size img ifm1 ifm2 src V) V) V) V

/-- The output transform loop nest of `_execute_forward_W_S_G_D`: the buffer `dst`
after it. -/
def _execute_forward_W_S_G_D_dst (with_relu : Bool) (jcp : jit_conv_winograd_conf_t)
    (M bias dst : Buffer) : Buffer :=
  let M_c : array_offset_calculator :=
    ⟨[jcp.tile_block, jcp.nb_oc, 6, 6, jcp.nb_tile_block_ur, jcp.oc_block,
      jcp.tile_block_ur, 16]⟩
  let dst_c : array_offset_calculator := ⟨[jcp.mb, jcp.oc / 16, jcp.oh, jcp.ow, 16]⟩
  let bias_c : array_offset_calculator := ⟨[jcp.oc / 16, 16]⟩
  (List.range jcp.mb).foldl (fun dst img =>
    (List.range jcp.nb_oc).foldl (fun dst ofm1 =>
      (List.range jcp.oc_block).foldl (fun dst ofm2 =>
        write_at (dst_c.idx [img, ofm1 * jcp.oc_block + ofm2, 0, 0, 0])
          (fun outp => dst_transform_fwd jcp.with_bias with_relu img jcp
            (view (M_c.idx [0, ofm1, 0, 0, 0, ofm2, 0, 0]) M) outp
            (view (bias_c.idx [ofm1 * jcp.oc_block + ofm2, 0]) bias) true) dst) dst) dst) dst

/-- Orchestrator `_execute_forward_W_S_G_D` of the class with template argument
`with_relu`: the destination tensor after the call. `U`, `V`, `M` are the initial
contents of the three scratch buffers and `kf`, `k` the compute kernels behind
`gemm_loop_ker_first_iter` and `gemm_loop_ker`. -/
def _execute_forward_W_S_G_D (with_relu : Bool) (jcp : jit_conv_winograd_conf_t)
    (LLC_cache_size : Nat) (kf k : Buffer → Buffer → Buffer → Buffer)
    (src weights bias U V M dst : Buffer) : Buffer :=
  let V := _execute_forward_W_S_G_D_V jcp LLC_cache_size src V
  let U := _execute_forward_U jcp weights U
  let M := _execute_forward_W_S_G_D_gemm jcp (gemm_apply kf U V) (gemm_apply k U V) M
  _execute_forward_W_S_G_D_dst with_relu jcp M bias dst

/-- The source transform loop nest of the body of the tile-block loop of
`_execute_forward_W_SGD`: the buffer `V` after it. -/
def _execute_forward_W_SGD_V (jcp : jit_conv_winograd_conf_t) (tile_block ithr : Nat)
    (src V : Buffer) : Buffer :=
  let src_c : array_offset_calculator := ⟨[jcp.mb, jcp.ic / 16, jcp.ih, jcp.iw, 16]⟩
  let V_c : array_offset_calculator :=
    ⟨[0, 6, 6, jcp.nb_tile_block_ur, jcp.nb_ic, jcp.ic_block, jcp.tile_block_ur, 16]⟩
  (List.range jcp.nb_ic).foldl (fun V ifm1 =>
    (List.range jcp.ic_block).foldl (fun V ifm2 =>
      write_at (V_c.idx [ithr, 0, 0, 0, ifm1, ifm2, 0, 0])
        (src_transform_fwd_tile tile_block jcp
          (view (src_c.idx [0, ifm1 * jcp.ic_block + ifm2, 0, 0, 0]) src)) V) V) V

/-- The output transform loop nest of the body of the tile-block loop of
`_execute_forward_W_SGD`: the buffer `dst` after it. -/
def _execute_forward_W_SGD_dst (with_relu : Bool) (jcp : jit_conv_winograd_conf_t)
    (tile_block ithr : Nat) (M bias dst : Buffer) : Buffer :=
  let M_c : array_offset_calculator :=
    ⟨[0, jcp.nb_oc, 6, 6, jcp.nb_tile_block_ur, jcp.oc_block, jcp.tile_block_ur, 16]⟩
  let dst_c : array_offset_calculator := ⟨[jcp.mb, jcp.oc / 16, jcp.oh, jcp.ow, 16]⟩
  let bias_c : array_offset_calculator := ⟨[jcp.oc / 16, 16]⟩
  (List.range jcp.nb_oc).foldl (fun dst ofm1 =>
    (List.range jcp.oc_block).foldl (fun dst ofm2 =>
      write_at (dst_c.idx [0, ofm1 * jcp.oc_block + ofm2, 0, 0, 0])
        (fun outp => dst_transform_fwd_tile jcp.with_bias with_relu tile_block jcp
          (view (M_c.idx [ithr, ofm1, 0, 0, 0, ofm2, 0, 0]) M) outp
          (view (bias_c.idx [ofm1 * jcp.oc_block + ofm2, 0]) bias)) dst) dst) dst

/-- The scratch buffers `V`, `M` and the destination tensor `dst` as threaded through
the tile-block loop of `_execute_forward_W_SGD`. -/
structure forward_W_SGD_state where
  V : Buffer
  M : Buffer
  dst : Buffer

/-- Orchestrator `_execute_forward_W_SGD` of the class with template argument
`with_relu`: the destination tensor after the call. `thr tile_block` is the number
`omp_get_thread_num()` of the thread that runs iteration `tile_block` of the
tile-block loop. -/
def _execute_forward_W_SGD (with_relu : Bool) (jcp : jit_conv_winograd_conf_t)
    (kf k : Buffer → Buffer → Buffer → Buffer) (thr : Nat → Nat)
    (src weights bias U V M dst : Buffer) : Buffer :=
  let U := _execute_forward_U jcp weights U
  ((List.range jcp.tile_block).foldl (fun (st : forward_W_SGD_state) tile_block =>
    let ithr := thr tile_block
    let V := _execute_forward_W_SGD_V jcp tile_block ithr src st.V
    let M := _execute_forward_W_SGD_gemm jcp (gemm_apply kf U V) (gemm_apply k U V) ithr st.M
    let dst := _execute_forward_W_SGD_dst with_relu jcp tile_block ithr M bias st.dst
    { V := V, M := M, dst := dst }) { V := V, M := M, dst := dst }).dst

/-- Modelled from the spec: the entry point `gemm_loop_ker_first_iter` of the compute
kernel, which overwrites the destination block with the product of the two operand
blocks. `P a b` is the product as a function of the memory seen from the two operand
pointers and `sz` the number of floats of the destination block. -/
def gemm_first_iter_model (P : Buffer → Buffer → Buffer) (sz : Nat) :
    Buffer → Buffer → Buffer → Buffer :=
  fun d a b x => if x < sz then P a b x else d x

/-- Modelled from the spec: the entry point `gemm_loop_ker` of the compute kernel, which
adds the product of the two operand blocks to the destination block. -/
def gemm_accumulate_model (P : Buffer → Buffer → Buffer) (sz : Nat) :
    Buffer → Buffer → Buffer → Buffer :=
  fun d a b x => if x < sz then d x + P a b x else d x

/-- The memory seen from a destination pointer after the `nb` kernel calls made for it:
`kf` with the operands of index 0, then `k` with the operands of the indices
`1 .. nb - 1` in increasing order; `d` is the memory seen before, `a i` and `b i` are the
offsets of the operands of index `i` in the buffers `A` and `B`. -/
def gemm_chain (kf k : Buffer → Buffer → Buffer → Buffer) (nb : Nat) (A B : Buffer)
    (a b : Nat → Nat) (d : Buffer) : Buffer :=
  (List.range' 1 (nb - 1)).foldl (fun d i => k d (view (a i) A) (view (b i) B))
    (kf d (view (a 0) A) (view (b 0) B))

/-- A compute kernel that changes only the first `sz` floats seen from its destination
pointer, and whose result there depends on the destination only through those floats. -/
def gemm_kernel_block (kern : Buffer → Buffer → Buffer → Buffer) (sz : Nat) : Prop :=
  (∀ d a b x, sz ≤ x → kern d a b x = d x) ∧
    (∀ d d' a b, (∀ x, x < sz → d x = d' x) → ∀ x, x < sz → kern d a b x = kern d' a b x)

/-! ## Backward-weights orchestrators -/

/-- The GEMM loop nest of `_execute_backward_weights_S_D_G_W`; the first pointer of a
kernel call points into `U`, the other two into `M` and `V`. -/
def _execute_backward_weights_S_D_G_W_gemm {S : Type} (jcp : jit_conv_winograd_conf_t)
    (gemm_loop_ker_first_iter gemm_loop_ker : Nat → Nat → Nat → S → S) (s : S) : S :=
  let U : array_offset_calculator :=
    ⟨[jcp.nb_ic, jcp.nb_oc, jcp.alpha, jcp.alpha, jcp.oc_block, jcp.ic_block,
      jcp.ic_simd_block, jcp.oc_simd_block]⟩
  let M : array_offset_calculator :=
    ⟨[jcp.nb_oc, jcp.alpha, jcp.alpha, jcp.tile_block, jcp.oc_block, jcp.nb_tile_block_ur,
      jcp.tile_block_ur * jcp.tile_4fma, jcp.oc_simd_block]⟩
  let V : array_offset_calculator :=
    ⟨[jcp.nb_ic, jcp.alpha, jcp.alpha, jcp.tile_block, jcp.ic_block, jcp.nb_tile_block_ur,
      jcp.tile_block_ur, jcp.ic_simd_block * jcp.tile_4fma]⟩
  (List.range jcp.nb_ic).foldl (fun s ifm1 =>
    (List.range jcp.alpha).foldl (fun s oj =>
      (List.range jcp.alpha).foldl (fun s oi =>
        (List.range jcp.nb_oc).foldl (fun s ofm1 =>
          let s := gemm_loop_ker_first_iter
            (U.idx [ifm1, ofm1, oj, oi, 0, 0, 0, 0])
            (M.idx [ofm1, oj, oi, 0, 0, 0, 0, 0])
            (V.idx [ifm1, oj, oi, 0, 0, 0, 0, 0]) s
          (List.range' 1 (jcp.tile_block - 1)).foldl (fun s tile_block =>
            gemm_loop_ker
              (U.idx [ifm1, ofm1, oj, oi, 0, 0, 0, 0])
              (M.idx [ofm1, oj, oi, tile_block, 0, 0, 0, 0])
              (V.idx [ifm1, oj, oi, tile_block, 0, 0, 0, 0]) s) s) s) s) s) s

/-- The variables of one worker of the GEMM loop of `_execute_backward_weights_S_D_Giot_W`:
its private `th_counter`, its entries `input_starts[ithr]` and `input_ends[ithr]`, and the
state `s` acted on by the compute kernel. -/
structure Giot_worker (S : Type) where
  th_counter : Nat
  input_start : Nat
  input_end : Nat
  s : S

/-- The body of the GEMM loop of `_execute_backward_weights_S_D_Giot_W` run by thread
`ithr` for the iteration number `it` of the collapsed loop nest over
`(ifm1, ofm1, oj, oi, tile_block)`, whose last index varies fastest. The difference of the
two pointers into `Us` is the difference of their float offsets. -/
def _execute_backward_weights_S_D_Giot_W_body {S : Type} (jcp : jit_conv_winograd_conf_t)
    (gemm_loop_ker_first_iter gemm_loop_ker : Nat → Nat → Nat → S → S) (ithr : Nat)
    (w : Giot_worker S) (it : Nat) : Giot_worker S :=
  let Us : array_offset_calculator :=
    ⟨[0, jcp.nb_ic, jcp.nb_oc, jcp.alpha, jcp.alpha, jcp.oc_block, jcp.ic_block,
      jcp.ic_simd_block, jcp.oc_simd_block]⟩
  let M : array_offset_calculator :=
    ⟨[jcp.nb_oc, jcp.alpha, jcp.alpha, jcp.tile_block, jcp.oc_block, jcp.nb_tile_block_ur,
      jcp.tile_block_ur * jcp.tile_4fma, jcp.oc_simd_block]⟩
  let V : array_offset_calculator :=
    ⟨[jcp.nb_ic, jcp.alpha, jcp.alpha, jcp.tile_block, jcp.ic_block, jcp.nb_tile_block_ur,
      jcp.tile_block_ur, jcp.ic_simd_block * jcp.tile_4fma]⟩
  let tile_block := it % jcp.tile_block
  let oi := it / jcp.tile_block % jcp.alpha
  let oj := it / jcp.tile_block / jcp.alpha % jcp.alpha
  let ofm1 := it / jcp.tile_block / jcp.alpha / jcp.alpha % jcp.nb_oc
  let ifm1 := it / jcp.tile_block / jcp.alpha / jcp.alpha / jcp.nb_oc
  let input_start :=
    if w.th_counter = 0 then
      Us.idx [ithr, ifm1, ofm1, oj, oi, 0, 0, 0, 0] - Us.idx [ithr, 0, 0, 0, 0, 0, 0, 0, 0]
    else w.input_start
  let input_end :=
    if w.th_counter = 0 then
      input_start + jcp.oc_block * jcp.ic_block * jcp.ic_simd_block * jcp.oc_simd_block
    else if tile_block = 0 then
      w.input_end + jcp.oc_block * jcp.ic_block * jcp.ic_simd_block * jcp.oc_simd_block
    else w.input_end
  let s :=
    if w.th_counter = 0 ∨ tile_block = 0 then
      gemm_loop_ker_first_iter (Us.idx [ithr, ifm1, ofm1, oj, oi, 0, 0, 0, 0])
        (M.idx [ofm1, oj, oi, tile_block, 0, 0, 0, 0])
        (V.idx [ifm1, oj, oi, tile_block, 0, 0, 0, 0]) w.s
    else
      gemm_loop_ker (Us.idx [ithr, ifm1, ofm1, oj, oi, 0, 0, 0, 0])
        (M.idx [ofm1, oj, oi, tile_block, 0, 0, 0, 0])
        (V.idx [ifm1, oj, oi, tile_block, 0, 0, 0, 0]) w.s
  { th_counter := w.th_counter + 1, input_start := input_start, input_end := input_end, s := s }

/-- A worker of the GEMM loop of `_execute_backward_weights_S_D_Giot_W` that runs the
iterations `lo .. hi - 1` of the collapsed loop nest in increasing order, its private
`th_counter` starting at 0 (`firstprivate`); `input_start` and `input_end` are what its
entries of `input_starts` and `input_ends` held before. -/
def _execute_backward_weights_S_D_Giot_W_worker {S : Type} (jcp : jit_conv_winograd_conf_t)
    (gemm_loop_ker_first_iter gemm_loop_ker : Nat → Nat → Nat → S → S) (ithr lo hi : Nat)
    (input_start input_end : Nat) (s : S) : Giot_worker S :=
  (List.range' lo (hi - lo)).foldl
    (_execute_backward_weights_S_D_Giot_W_body jcp gemm_loop_ker_first_iter gemm_loop_ker ithr)
    { th_counter := 0, input_start := input_start, input_end := input_end, s := s }

/-! ## Backward-weights packers

The local arrays `I` and `Iw` of these packers are declared with the extent `conv.alpha`
and handed to transform kernels written for the extent 6; the embedding takes them as
6x6 tiles and runs the loops `j, i < conv.alpha` over the six rows and columns, while
`tile_size = conv.alpha - 2` is kept as written. A loop nest that writes two buffers and
reads neither is given as the fold of the stores to each of them, in program order. -/

/-- The rolling counters of `diff_dst_transform_bwd_weights` as initialised from
`tile_base_index = image * total_tiles`. -/
def diff_dst_transform_bwd_weights_init (conv : jit_conv_winograd_conf_t) (image : Nat) :
    tile_counters :=
  let total_tiles := conv.itiles * conv.jtiles + conv.tile_4fma_padding
  let tile_base_index := image * total_tiles
  { tile_block_ur := tile_base_index % (conv.tile_block_ur * conv.tile_4fma)
    nb_tile_block_ur :=
      (tile_base_index / conv.tile_block_ur / conv.tile_4fma) % conv.nb_tile_block_ur
    tile_block :=
      (tile_base_index / conv.tile_block_ur / conv.tile_4fma) / conv.nb_tile_block_ur }

/-- The counter update at the end of the body of the tile loop of
`diff_dst_transform_bwd_weights`. -/
def diff_dst_transform_bwd_weights_next (conv : jit_conv_winograd_conf_t) (c : tile_counters) :
    tile_counters :=
  let tile_block_ur := c.tile_block_ur + 1
  let carry := decide (tile_block_ur ≥ conv.tile_block_ur * conv.tile_4fma)
  let tile_block_ur := if carry then 0 else tile_block_ur
  let nb_tile_block_ur := if carry then c.nb_tile_block_ur + 1 else c.nb_tile_block_ur
  let carry2 := decide (nb_tile_block_ur ≥ conv.nb_tile_block_ur)
  { tile_block_ur := tile_block_ur
    nb_tile_block_ur := if carry2 then 0 else nb_tile_block_ur
    tile_block := if carry2 then c.tile_block + 1 else c.tile_block }

/-- The gather loop of `diff_dst_transform_bwd_weights` for tile `(tj, ti)`: the local
array `I`. -/
def diff_dst_transform_bwd_weights_I (conv : jit_conv_winograd_conf_t) (inp : Buffer)
    (tj ti : Nat) : Tile 6 6 := fun j i v =>
  let input : array_offset_calculator :=
    ⟨[conv.mb, conv.oc / 16, conv.oh, conv.ow, conv.oc_simd_block]⟩
  let tile_size := conv.alpha - 2
  let ydim := tj * tile_size + j.val
  if ydim < conv.oh then
    let xdim := ti * tile_size + i.val
    if xdim < conv.ow then inp (input.idx [0, 0, ydim, xdim, 0] + v.val) else 0.0
  else 0.0

/-- The store loop of `diff_dst_transform_bwd_weights` for one tile, at the counters `c`. -/
def diff_dst_transform_bwd_weights_store (conv : jit_conv_winograd_conf_t) (c : tile_counters)
    (Iw : Tile 6 6) (tinp : Buffer) : Buffer :=
  let output : array_offset_calculator :=
    ⟨[conv.nb_oc, conv.alpha, conv.alpha, conv.tile_block, conv.oc_block,
      conv.nb_tile_block_ur, conv.tile_block_ur * conv.tile_4fma, conv.oc_simd_block]⟩
  (List.finRange 6).foldl (fun m j =>
    (List.finRange 6).foldl (fun m i =>
      store_output m
        (output.idx [0, j.val, i.val, c.tile_block, 0, c.nb_tile_block_ur, c.tile_block_ur, 0])
        (Iw j i) true) m) tinp

/-- The stores of `diff_dst_transform_bwd_weights` to `tinp`: the buffer `tinp` after the
call. The kernel `trans_W_3x3_4x4_wu` takes the first four rows of `I`. -/
def diff_dst_transform_bwd_weights_tinp (image : Nat) (conv : jit_conv_winograd_conf_t)
    (inp tinp : Buffer) : Buffer :=
  ((List.range conv.jtiles).foldl (fun st tj =>
    (List.range conv.itiles).foldl (fun st ti =>
      let I := diff_dst_transform_bwd_weights_I conv inp tj ti
      let Iw := trans_W_3x3_4x4_wu (fun j => I (Fin.castLE (by decide) j))
      (diff_dst_transform_bwd_weights_next conv st.1,
        diff_dst_transform_bwd_weights_store conv st.1 Iw st.2)) st)
    (diff_dst_transform_bwd_weights_init conv image, tinp)).2

/-- The state of the tile loop of `diff_dst_transform_bwd_weights` when it reaches tile
`(tj, ti)`: the counters and the buffer `tinp` after all earlier tiles. -/
def diff_dst_transform_bwd_weights_before (image : Nat) (conv : jit_conv_winograd_conf_t)
    (inp tinp : Buffer) (tj ti : Nat) : tile_counters × Buffer :=
  (List.range ti).foldl (fun st ti =>
      let I := diff_dst_transform_bwd_weights_I conv inp tj ti
      let Iw := trans_W_3x3_4x4_wu (fun j => I (Fin.castLE (by decide) j))
      (diff_dst_transform_bwd_weights_next conv st.1,
        diff_dst_transform_bwd_weights_store conv st.1 Iw st.2))
    ((List.range tj).foldl (fun st tj =>
      (List.range conv.itiles).foldl (fun st ti =>
        let I := diff_dst_transform_bwd_weights_I conv inp tj ti
        let Iw := trans_W_3x3_4x4_wu (fun j => I (Fin.castLE (by decide) j))
        (diff_dst_transform_bwd_weights_next conv st.1,
          diff_dst_transform_bwd_weights_store conv st.1 Iw st.2)) st)
      (diff_dst_transform_bwd_weights_init conv image, tinp))

/-- The accumulation `dbias[v] += input_base[v]` of `diff_dst_transform_bwd_weights`
over all tiles and positions: the buffer `dbias` after the call. -/
def diff_dst_transform_bwd_weights_dbias (with_bias : Bool) (conv : jit_conv_winograd_conf_t)
    (inp dbias : Buffer) : Buffer :=
  let input : array_offset_calculator :=
    ⟨[conv.mb, conv.oc / 16, conv.oh, conv.ow, conv.oc_simd_block]⟩
  let tile_size := conv.alpha - 2
  (List.range conv.jtiles).foldl (fun d tj =>
    (List.range conv.itiles).foldl (fun d ti =>
      (List.finRange 6).foldl (fun d j =>
        if tj * tile_size + j.val < conv.oh then
          (List.finRange 6).foldl (fun d i =>
            if ti * tile_size + i.val < conv.ow then
              if with_bias = true ∧ j.val < tile_size ∧ i.val < tile_size then
                (List.finRange 16).foldl (fun d v =>
                  Function.update d v.val (d v.val +
                    inp (input.idx [0, 0, tj * tile_size + j.val, ti * tile_size + i.val, 0] +
                      v.val))) d
              else d
            else d) d
        else d) d) d) dbias

/-- Packer `diff_dst_transform_bwd_weights<with_bias>(image, conv, inp, tinp, dbias)`:
the buffers `tinp` and `dbias` after the call. -/
def diff_dst_transform_bwd_weights (with_bias : Bool) (image : Nat)
    (conv : jit_conv_winograd_conf_t) (inp tinp dbias : Buffer) : Buffer × Buffer :=
  (diff_dst_transform_bwd_weights_tinp image conv inp tinp,
    diff_dst_transform_bwd_weights_dbias with_bias conv inp dbias)

/-- The gather loop of `diff_dst_transform_bwd_weights_tile` for tile `(tj, ti)` of image
`img`: the local array `I`. -/
def diff_dst_transform_bwd_weights_tile_I (conv : jit_conv_winograd_conf_t) (inp : Buffer)
    (img tj ti : Nat) : Tile 6 6 := fun j i v =>
  let input : array_offset_calculator :=
    ⟨[conv.mb, conv.oc / 16, conv.oh, conv.ow, conv.oc_simd_block]⟩
  let tile_size := conv.alpha - 2
  let ydim := tj * tile_size + j.val
  if ydim < conv.oh then
    let xdim := ti * tile_size + i.val
    if xdim < conv.ow then inp (input.idx [img, 0, ydim, xdim, 0] + v.val) else 0.0
  else 0.0

/-- The store loop of `diff_dst_transform_bwd_weights_tile` for the tile at position
`(nb_tile_block_ur, tile_block_ur)`. -/
def diff_dst_transform_bwd_weights_tile_store (conv : jit_conv_winograd_conf_t)
    (nb_tile_block_ur tile_block_ur : Nat) (Iw : Tile 6 6) (tinp : Buffer) : Buffer :=
  let output : array_offset_calculator :=
    ⟨[conv.nb_oc, conv.alpha, conv.alpha, conv.oc_block, conv.nb_tile_block_ur,
      conv.tile_block_ur * conv.tile_4fma, conv.oc_simd_block]⟩
  (List.finRange 6).foldl (fun m j =>
    (List.finRange 6).foldl (fun m i =>
      store_output m (output.idx [0, j.val, i.val, 0, nb_tile_block_ur, tile_block_ur, 0])
        (Iw j i) false) m) tinp

/-- The state of the loop nest of `diff_dst_transform_bwd_weights_tile` when it reaches
position `(nb_tile_block_ur, tile_block_ur)`: the flat tile index `n_tiles` and the buffer
`tinp` after all earlier tiles. -/
def diff_dst_transform_bwd_weights_tile_before (tile_block : Nat)
    (conv : jit_conv_winograd_conf_t) (inp tinp : Buffer) (nb_tile_block_ur tile_block_ur : Nat) :
    Nat × Buffer :=
  (List.range tile_block_ur).foldl (fun st tile_block_ur =>
      let n_tiles := st.1
      let img := n_tiles / (conv.jtiles * conv.itiles)
      let no_tile := n_tiles % (conv.jtiles * conv.itiles)
      let ti := no_tile % conv.itiles
      let tj := no_tile / conv.itiles
      let I := diff_dst_transform_bwd_weights_tile_I conv inp img tj ti
      let Iw := trans_W_3x3_4x4_wu (fun j => I (Fin.castLE (by decide) j))
      (n_tiles + 1,
        diff_dst_transform_bwd_weights_tile_store conv nb_tile_block_ur tile_block_ur Iw st.2))
    ((List.range nb_tile_block_ur).foldl (fun st nb_tile_block_ur =>
      (List.range conv.tile_block_ur).foldl (fun st tile_block_ur =>
        let n_tiles := st.1
        let img := n_tiles / (conv.jtiles * conv.itiles)
        let no_tile := n_tiles % (conv.jtiles * conv.itiles)
        let ti := no_tile % conv.itiles
        let tj := no_tile / conv.itiles
        let I := diff_dst_transform_bwd_weights_tile_I conv inp img tj ti
        let Iw := trans_W_3x3_4x4_wu (fun j => I (Fin.castLE (by decide) j))
        (n_tiles + 1,
          diff_dst_transform_bwd_weights_tile_store conv nb_tile_block_ur tile_block_ur Iw
            st.2)) st)
      (tile_block * conv.nb_tile_block_ur * conv.tile_block_ur, tinp))

/-- The stores of `diff_dst_transform_bwd_weights_tile` to `tinp`: the buffer `tinp`
after the call. -/
def diff_dst_transform_bwd_weights_tile_tinp (tile_block : Nat)
    (conv : jit_conv_winograd_conf_t) (inp tinp : Buffer) : Buffer :=
  (diff_dst_transform_bwd_weights_tile_before tile_block conv inp tinp
    conv.nb_tile_block_ur 0).2

/-- The rolling counters of `diff_src_transform_bwd_weights` as initialised from
`tile_base_index = image * (itiles * jtiles + tile_4fma_padding)`. -/
def diff_src_transform_bwd_weights_init (conv : jit_conv_winograd_conf_t) (image : Nat) :
    tile_counters :=
  let tile_base_index := image * (conv.itiles * conv.jtiles + conv.tile_4fma_padding)
  { tile_block_ur := (tile_base_index / conv.tile_4fma) % conv.tile_block_ur
    nb_tile_block_ur :=
      (tile_base_index / conv.tile_4fma / conv.tile_block_ur) % conv.nb_tile_block_ur
    tile_block :=
      (tile_base_index / conv.tile_4fma / conv.tile_block_ur) / conv.nb_tile_block_ur }

/-- The counter update of `diff_src_transform_bwd_weights<false>` at the end of the body
of the tile loop: `tile_block_ur++` and the two carries, tested with `==`. -/
def diff_src_transform_bwd_weights_next (conv : jit_conv_winograd_conf_t) (c : tile_counters) :
    tile_counters :=
  let tile_block_ur := c.tile_block_ur + 1
  let carry := decide (tile_block_ur = conv.tile_block_ur)
  let tile_block_ur := if carry then 0 else tile_block_ur
  let nb_tile_block_ur := if carry then c.nb_tile_block_ur + 1 else c.nb_tile_block_ur
  let carry2 := decide (nb_tile_block_ur = conv.nb_tile_block_ur)
  { tile_block_ur := tile_block_ur
    nb_tile_block_ur := if carry2 then 0 else nb_tile_block_ur
    tile_block := if carry2 then c.tile_block + 1 else c.tile_block }

/-- The gather loop of `diff_src_transform_bwd_weights` for tile `(tj, ti)`: the local
array `I`. -/
def diff_src_transform_bwd_weights_I (conv : jit_conv_winograd_conf_t) (inp : Buffer)
    (tj ti : Nat) : Tile 6 6 := fun j i v =>
  let input : array_offset_calculator := ⟨[conv.mb, conv.ic / 16, conv.ih, conv.iw, 16]⟩
  let tile_size := conv.alpha - 2
  let ifwp : Int := conv.iw + conv.l_pad
  let ifhp : Int := conv.ih + conv.t_pad
  let ydim : Int := ((tj * tile_size + j.val : Nat) : Int)
  if conv.t_pad ≤ ydim ∧ ydim < ifhp then
    let xdim : Int := ((ti * tile_size + i.val : Nat) : Int)
    if conv.l_pad ≤ xdim ∧ xdim < ifwp then
      inp (input.idx [0, 0, (ydim - conv.t_pad).toNat, (xdim - conv.l_pad).toNat, v.val])
    else 0.0
  else 0.0

/-- The store loop of `diff_src_transform_bwd_weights<false>` for one tile, at the
counters `c`. -/
def diff_src_transform_bwd_weights_store (conv : jit_conv_winograd_conf_t) (c : tile_counters)
    (Iw : Tile 6 6) (tinp : Buffer) : Buffer :=
  let output : array_offset_calculator :=
    ⟨[conv.nb_ic, conv.alpha, conv.alpha, conv.tile_block, conv.ic_block,
      conv.nb_tile_block_ur, conv.tile_block_ur, conv.ic_simd_block * conv.tile_4fma]⟩
  (List.finRange 6).foldl (fun m j =>
    (List.finRange 6).foldl (fun m i =>
      store_output m
        (output.idx [0, j.val, i.val, c.tile_block, 0, c.nb_tile_block_ur, c.tile_block_ur, 0])
        (Iw j i) true) m) tinp

/-- Packer `diff_src_transform_bwd_weights<false>(image, conv, inp, tinp, Iw_temp,
transpose_4fma_ker)`, the instantiation that stores the transformed tiles itself and uses
neither `Iw_temp` nor `transpose_4fma_ker`; the result is the buffer `tinp` after the
call. -/
def diff_src_transform_bwd_weights (image : Nat) (conv : jit_conv_winograd_conf_t)
    (inp tinp : Buffer) : Buffer :=
  ((List.range conv.jtiles).foldl (fun st tj =>
    (List.range conv.itiles).foldl (fun st ti =>
      let I := diff_src_transform_bwd_weights_I conv inp tj ti
      let Iw := trans_I_4x4_3x3 I
      (diff_src_transform_bwd_weights_next conv st.1,
        diff_src_transform_bwd_weights_store conv st.1 Iw st.2)) st)
    (diff_src_transform_bwd_weights_init conv image, tinp)).2

/-- The gather loop of `diff_weights_transform_bwd_weights`: the local array `Fw`. -/
def diff_weights_transform_bwd_weights_Fw (conv : jit_conv_winograd_conf_t) (twp : Buffer) :
    Tile2 6 6 := fun j i v k =>
  let input : array_offset_calculator :=
    ⟨[conv.nb_ic, conv.nb_oc, conv.alpha, conv.alpha, conv.oc_block, conv.ic_block,
      conv.ic_simd_block, conv.oc_simd_block]⟩
  twp (input.idx [0, 0, j.val, i.val, 0, 0, v.val, k.val])

/-- Packer `diff_weights_transform_bwd_weights(conv, wp, twp)`; the result is the buffer
`wp` after the call. The loops over `v < conv.ic_simd_block` run over the 16 lanes of the
local arrays. -/
def diff_weights_transform_bwd_weights (conv : jit_conv_winograd_conf_t) (wp twp : Buffer) :
    Buffer :=
  let output : array_offset_calculator :=
    ⟨[conv.oc / 16, conv.ic / 16, conv.kh, conv.kw, conv.ic_simd_block, conv.oc_simd_block]⟩
  let F := trans_O_3x3_4x4_wu (diff_weights_transform_bwd_weights_Fw conv twp)
  (List.finRange 3).foldl (fun m j =>
    (List.finRange 3).foldl (fun m i =>
      (List.finRange 16).foldl (fun m v =>
        store_output m (output.idx [0, 0, j.val, i.val, v.val, 0]) (F j i v) true) m) m) wp

/-- The configuration `conv_example` with two tiles per 4fma group. -/
def conv_example_4fma : jit_conv_winograd_conf_t := { conv_example with tile_4fma := 2 }

/-! ## The tile-block-indexed source packer of the backward-weights pass

`diff_src_transform_bwd_weights_tile<ver_4fma>` obtains its transpose scratch buffer from
the allocator `malloc(size, alignment)` and hands it to the external kernel
`transpose_4fma_ker`. Neither is defined in this file: the allocator is a parameter, whose
result is an address counted in floats with 0 for the null pointer, and the accesses made
through the scratch pointer are recorded as a trace, in program order. -/

/-- An access of `diff_src_transform_bwd_weights_tile<true>` through its scratch pointer:
a store `Iw_scratchpad(j, i, tile_4fma, v) = val` to the address `addr`, or a call
`transpose_4fma_ker(outp, Iw_buffer)` with `outp` an offset into `tinp` and `src` the value
of `Iw_buffer`. -/
inductive tile_access where
  | scratch_store (addr : Nat) (val : ℚ) : tile_access
  | transpose_call (outp : Nat) (src : Nat) : tile_access

/-- The same access with the scratch pointer moved by `p`. -/
def tile_access.relocate (p : Nat) : tile_access → tile_access
  | tile_access.scratch_store addr val => tile_access.scratch_store (p + addr) val
  | tile_access.transpose_call outp src => tile_access.transpose_call outp (p + src)

/-- The state of the loop nest of `diff_src_transform_bwd_weights_tile`: the counters
`tile_4fma` and `n_tiles`, the buffer `tinp` and the accesses made so far through the
scratch pointer. -/
structure tile_packer_state where
  tile_4fma : Nat
  n_tiles : Nat
  tinp : Buffer
  trace : List tile_access

/-- The gather loop of `diff_src_transform_bwd_weights_tile` for tile `(tj, ti)` of image
`img`: the local array `I`. -/
def diff_src_transform_bwd_weights_tile_I (conv : jit_conv_winograd_conf_t) (inp : Buffer)
    (img tj ti : Nat) : Tile 6 6 := fun j i v =>
  let input : array_offset_calculator := ⟨[conv.mb, conv.ic / 16, conv.ih, conv.iw, 16]⟩
  let tile_size := conv.alpha - 2
  let ifwp : Int := conv.iw + conv.l_pad
  let ifhp : Int := conv.ih + conv.t_pad
  let ydim : Int := ((tj * tile_size + j.val : Nat) : Int)
  if conv.t_pad ≤ ydim ∧ ydim < ifhp then
    let xdim : Int := ((ti * tile_size + i.val : Nat) : Int)
    if conv.l_pad ≤ xdim ∧ xdim < ifwp then
      inp (input.idx [img, 0, (ydim - conv.t_pad).toNat, (xdim - conv.l_pad).toNat, v.val])
    else 0.0
  else 0.0

/-- The body of the loop nest of `diff_src_transform_bwd_weights_tile` at position
`(nb_tile_block_ur, tile_block_ur)`, with the scratch pointer `Iw_buffer`. -/
def diff_src_transform_bwd_weights_tile_body (ver_4fma : Bool)
    (conv : jit_conv_winograd_conf_t) (inp : Buffer) (Iw_buffer : Nat)
    (nb_tile_block_ur tile_block_ur : Nat) (st : tile_packer_state) : tile_packer_state :=
  let Iw_scratchpad : array_offset_calculator := ⟨[6, 6, conv.tile_4fma, 16]⟩
  let output : array_offset_calculator :=
    ⟨[0, conv.alpha, conv.alpha, conv.ic_block, conv.nb_tile_block_ur, conv.tile_block_ur,
      conv.ic_simd_block * conv.tile_4fma]⟩
  let img := st.n_tiles / (conv.jtiles * conv.itiles)
  let no_tile := st.n_tiles % (conv.jtiles * conv.itiles)
  let ti := no_tile % conv.itiles
  let tj := no_tile / conv.itiles
  let I := diff_src_transform_bwd_weights_tile_I conv inp img tj ti
  let Iw := trans_I_4x4_3x3 I
  if ver_4fma = true then
    let trace := st.trace ++
      (List.finRange 6).flatMap (fun j =>
        (List.finRange 6).flatMap (fun i =>
          (List.finRange 16).map (fun v =>
            tile_access.scratch_store
              (Iw_buffer + Iw_scratchpad.idx [j.val, i.val, st.tile_4fma, v.val]) (Iw j i v))))
    let tile_4fma := st.tile_4fma + 1
    if tile_4fma = conv.tile_4fma then
      { tile_4fma := 0
        n_tiles := st.n_tiles + 1
        tinp := st.tinp
        trace := trace ++
          [tile_access.transpose_call
            (output.idx [0, 0, 0, 0, nb_tile_block_ur, tile_block_ur, 0]) Iw_buffer] }
    else
      { tile_4fma := tile_4fma, n_tiles := st.n_tiles + 1, tinp := st.tinp, trace := trace }
  else
    { tile_4fma := st.tile_4fma
      n_tiles := st.n_tiles + 1
      tinp :=
        (List.finRange 6).foldl (fun m j =>
          (List.finRange 6).foldl (fun m i =>
            store_output m (output.idx [0, j.val, i.val, 0, nb_tile_block_ur, tile_block_ur, 0])
              (Iw j i) false) m) st.tinp
      trace := st.trace }

/-- Packer `diff_src_transform_bwd_weights_tile<ver_4fma>(tile_block, conv, inp, tinp,
transpose_4fma_ker)`, with the allocator `malloc` as a parameter. The function returns
`void`; the result is the state when it returns. The pointer returned by `malloc` is not
tested and not released. -/
def diff_src_transform_bwd_weights_tile (ver_4fma : Bool) (tile_block : Nat)
    (conv : jit_conv_winograd_conf_t) (inp tinp : Buffer) (malloc : Nat → Nat → Nat) :
    tile_packer_state :=
  let Iw_buffer := if ver_4fma = true then malloc (6 * 6 * conv.tile_4fma * 16 * 4) 64 else 0
  (List.range conv.nb_tile_block_ur).foldl (fun st nb_tile_block_ur =>
    (List.range conv.tile_block_ur).foldl (fun st tile_block_ur =>
      diff_src_transform_bwd_weights_tile_body ver_4fma conv inp Iw_buffer nb_tile_block_ur
        tile_block_ur st) st)
    { tile_4fma := 0
      n_tiles := tile_block * conv.nb_tile_block_ur * conv.tile_block_ur
      tinp := tinp
      trace := [] }

/-- The configuration `conv_example` with a single tile per tile block. -/
def conv_example_one_tile : jit_conv_winograd_conf_t :=
  { conv_example with tile_block := 4, tile_block_ur := 1, nb_tile_block_ur := 1 }

/-! ## Packers as overwriting stores -/

/-- A buffer transformer that stores values fixed in advance at offsets fixed in
advance: offset `o` receives `v` when `W o = some v` and keeps its content when
`W o = none`, whatever the buffer held before. -/
def overwrites (f : Buffer → Buffer) : Prop :=
  ∃ W : Nat → Option ℚ, ∀ m o, f m o = (W o).getD (m o)

/-! ## Contract of the compute kernels used by the forward orchestrators -/

/-- A compute kernel whose result in the first `sz` floats seen from its destination
pointer depends on the memory seen from its third pointer only through the first `szb`
floats there: it reads one block of its second operand. -/
def gemm_kernel_operand_block (kern : Buffer → Buffer → Buffer → Buffer) (sz szb : Nat) : Prop :=
  ∀ d a b b', (∀ y, y < szb → b y = b' y) → ∀ x, x < sz → kern d a b x = kern d a b' x

/-- A compute kernel whose result in the first `sz` floats seen from its destination
pointer does not depend on what the destination held before: the entry point
`gemm_loop_ker_first_iter` overwrites its destination block. -/
def gemm_kernel_overwrites (kern : Buffer → Buffer → Buffer → Buffer) (sz : Nat) : Prop :=
  ∀ d d' a b x, x < sz → kern d a b x = kern d' a b x

/-! ## Further configurations, read indices and loop states -/

/-- The configuration `conv_example` with a 6x6 output covered by a single tile: the
rows and columns 4 and 5 of the tile lie inside the image. -/
def conv_example_6x6 : jit_conv_winograd_conf_t :=
  { conv_example with oh := 6, ow := 6, itiles := 1, jtiles := 1, ntiles := 1,
                      tile_block_ur := 1, nb_tile_block_ur := 1 }

/-- The state of the loop nest of `src_transform_fwd_tile` when it reaches position
`(nb_tile_block_ur, tile_block_ur)`: the flat tile index `n_tiles` and the buffer `tinp`
after all earlier tiles. -/
def src_transform_fwd_tile_before (tile_block : Nat) (conv : jit_conv_winograd_conf_t)
    (inp tinp : Buffer) (nb_tile_block_ur tile_block_ur : Nat) : Nat × Buffer :=
  (List.range tile_block_ur).foldl (fun st tile_block_ur =>
      let n_tiles := st.1
      let img := n_tiles / (conv.jtiles * conv.itiles)
      let no_tile := n_tiles % (conv.jtiles * conv.itiles)
      let ti := no_tile % conv.itiles
      let tj := no_tile / conv.itiles
      let I := src_transform_fwd_tile_I conv inp img tj ti
      let Iw := trans_I_4x4_3x3 I
      (n_tiles + 1,
        src_transform_fwd_tile_store conv nb_tile_block_ur tile_block_ur Iw st.2))
    ((List.range nb_tile_block_ur).foldl (fun st nb_tile_block_ur =>
      (List.range conv.tile_block_ur).foldl (fun st tile_block_ur =>
        let n_tiles := st.1
        let img := n_tiles / (conv.jtiles * conv.itiles)
        let no_tile := n_tiles % (conv.jtiles * conv.itiles)
        let ti := no_tile % conv.itiles
        let tj := no_tile / conv.itiles
        let I := src_transform_fwd_tile_I conv inp img tj ti
        let Iw := trans_I_4x4_3x3 I
        (n_tiles + 1,
          src_transform_fwd_tile_store conv nb_tile_block_ur tile_block_ur Iw st.2)) st)
      (tile_block * conv.nb_tile_block_ur * conv.tile_block_ur, tinp))

/-- The state of the loop nest of `dst_transform_fwd_tile` when it reaches position
`(nb_tile_block_ur, tile_block_ur)`: the flat tile index `n_tiles` and the buffer `outp`
after all earlier tiles. -/
def dst_transform_fwd_tile_before (with_bias with_relu : Bool) (tile_block : Nat)
    (conv : jit_conv_winograd_conf_t) (toutp outp bias : Buffer)
    (nb_tile_block_ur tile_block_ur : Nat) : Nat × Buffer :=
  (List.range tile_block_ur).foldl (fun st tile_block_ur =>
      let n_tiles := st.1
      let img := n_tiles / (conv.jtiles * conv.itiles)
      let no_tile := n_tiles % (conv.jtiles * conv.itiles)
      let ti := no_tile % conv.itiles
      let tj := no_tile / conv.itiles
      let Ow := dst_transform_fwd_tile_Ow conv toutp nb_tile_block_ur tile_block_ur
      let O := trans_O_4x4_3x3 Ow
      (n_tiles + 1,
        dst_transform_fwd_tile_store with_bias with_relu conv img tj ti O bias st.2))
    ((List.range nb_tile_block_ur).foldl (fun st nb_tile_block_ur =>
      (List.range conv.tile_block_ur).foldl (fun st tile_block_ur =>
        let n_tiles := st.1
        let img := n_tiles / (conv.jtiles * conv.itiles)
        let no_tile := n_tiles % (conv.jtiles * conv.itiles)
        let ti := no_tile % conv.itiles
        let tj := no_tile / conv.itiles
        let Ow := dst_transform_fwd_tile_Ow conv toutp nb_tile_block_ur tile_block_ur
        let O := trans_O_4x4_3x3 Ow
        (n_tiles + 1,
          dst_transform_fwd_tile_store with_bias with_relu conv img tj ti O bias st.2)) st)
      (tile_block * conv.nb_tile_block_ur * conv.tile_block_ur, outp))

/-! ## Bias gradient of `_execute_backward_weights_S_D_G_W`

The thread count `nthreads = scratchpad_->num_threads()` and the first extent
`omp_get_max_threads()` of `diff_bias_prv` come from outside the file and are
parameters. The per-thread accumulators `diff_bias_prv` and the result `diff_bias` are
distinct buffers. -/

/-- The two zero-initialisation loops of `_execute_backward_weights_S_D_G_W` under
`jcp.with_bias`: the buffers `diff_bias_prv` and `diff_bias` after them. -/
def _execute_backward_weights_S_D_G_W_bias_zero (jcp : jit_conv_winograd_conf_t)
    (max_threads nthreads : Nat) (diff_bias_prv diff_bias : Buffer) : Buffer × Buffer :=
  let diff_bias_c : array_offset_calculator := ⟨[jcp.oc / 16, 16]⟩
  let diff_bias_prv_c : array_offset_calculator := ⟨[max_threads, jcp.oc]⟩
  if jcp.with_bias = true then
    ((List.range nthreads).foldl (fun m ithr =>
        (List.range jcp.oc).foldl (fun m ofm =>
          Function.update m (diff_bias_prv_c.idx [ithr, ofm]) 0.0) m) diff_bias_prv,
      (List.range (jcp.oc / 16)).foldl (fun m bofm =>
        (List.finRange 16).foldl (fun m v =>
          Function.update m (diff_bias_c.idx [bofm, v.val]) 0.0) m) diff_bias)
  else (diff_bias_prv, diff_bias)

/-- The final loop of `_execute_backward_weights_S_D_G_W` under `jcp.with_bias`, which
adds the per-thread accumulators to `diff_bias`: the buffer `diff_bias` after it. -/
def _execute_backward_weights_S_D_G_W_bias_reduce (jcp : jit_conv_winograd_conf_t)
    (max_threads nthreads : Nat) (diff_bias_prv diff_bias : Buffer) : Buffer :=
  let diff_bias_c : array_offset_calculator := ⟨[jcp.oc / 16, 16]⟩
  let diff_bias_prv_c : array_offset_calculator := ⟨[max_threads, jcp.oc]⟩
  if jcp.with_bias = true then
    (List.range (jcp.oc / 16)).foldl (fun m ofm1 =>
      (List.range nthreads).foldl (fun m ithr =>
        let base_bias_ptr := diff_bias_c.idx [ofm1, 0]
        let base_bias_prv_ptr := diff_bias_prv_c.idx [ithr * jcp.oc + ofm1 * 16]
        (List.finRange 16).foldl (fun m ofm2 =>
          Function.update m (base_bias_ptr + ofm2.val)
            (m (base_bias_ptr + ofm2.val) + diff_bias_prv (base_bias_prv_ptr + ofm2.val))) m)
        m) diff_bias
  else diff_bias

/-! ## Reads of the source packers

For each gather loop, the indices of the element that position `(j, i)` of the tile reads:
the image, row and column arguments of the call `input(img, 0, row, col, v)`, or `none`
when the position is zero-filled without a read. -/

/-- The read of the gather loop of `src_transform_fwd` at position `(j, i)` of tile
`(tj, ti)`: the row and column of `input(0, 0, ydim - t_pad, xdim - l_pad, v)`. -/
def src_transform_fwd_read (conv : jit_conv_winograd_conf_t) (tj ti : Nat) (j i : Fin 6) :
    Option (Int × Int) :=
  let ifwp : Int := conv.iw + conv.l_pad
  let ifhp : Int := conv.ih + conv.t_pad
  let ydim : Int := ((tj * 4 + j.val : Nat) : Int)
  if conv.t_pad ≤ ydim ∧ ydim < ifhp then
    let xdim : Int := ((ti * 4 + i.val : Nat) : Int)
    if conv.l_pad ≤ xdim ∧ xdim < ifwp then some (ydim - conv.t_pad, xdim - conv.l_pad)
    else none
  else none

/-- The read of the gather loop of `src_transform_fwd_tile` at position `(j, i)` of tile
`(tj, ti)` of image `img`: the image, row and column of
`input(img, 0, ydim - t_pad, xdim - l_pad, v)`. -/
def src_transform_fwd_tile_read (conv : jit_conv_winograd_conf_t) (img tj ti : Nat)
    (j i : Fin 6) : Option (Nat × Int × Int) :=
  let ifwp : Int := conv.iw + conv.l_pad
  let ifhp : Int := conv.ih + conv.t_pad
  let ydim : Int := ((tj * 4 + j.val : Nat) : Int)
  if conv.t_pad ≤ ydim ∧ ydim < ifhp then
    let xdim : Int := ((ti * 4 + i.val : Nat) : Int)
    if conv.l_pad ≤ xdim ∧ xdim < ifwp then some (img, ydim - conv.t_pad, xdim - conv.l_pad)
    else none
  else none

/-- The read of the gather loop of `diff_dst_transform_bwd_data_tile` at position `(j, i)`
of tile `(tj, ti)` of image `img`: the image, row and column of
`input(img, 0, ydim - t_pad_winograd, xdim - l_pad_winograd, v)`. -/
def diff_dst_transform_bwd_data_tile_read (conv : jit_conv_winograd_conf_t) (img tj ti : Nat)
    (j i : Fin 6) : Option (Nat × Int × Int) :=
  let l_pad_winograd : Int := conv.iw + conv.r_pad - conv.ow
  let t_pad_winograd : Int := conv.ih + conv.b_pad - conv.oh
  let ofwp : Int := conv.ow + l_pad_winograd
  let ofhp : Int := conv.oh + t_pad_winograd
  let ydim : Int := ((tj * 4 + j.val : Nat) : Int)
  if t_pad_winograd ≤ ydim ∧ ydim < ofhp then
    let xdim : Int := ((ti * 4 + i.val : Nat) : Int)
    if l_pad_winograd ≤ xdim ∧ xdim < ofwp then
      some (img, ydim - t_pad_winograd, xdim - l_pad_winograd)
    else none
  else none

/-- The gather loop of `diff_dst_transform_bwd_data_tile` for tile `(tj, ti)` of image
`img`: the local array `I`. -/
def diff_dst_transform_bwd_data_tile_I (conv : jit_conv_winograd_conf_t) (inp : Buffer)
    (img tj ti : Nat) : Tile 6 6 := fun j i v =>
  let input : array_offset_calculator := ⟨[conv.mb, conv.oc / 16, conv.oh, conv.ow, 16]⟩
  let l_pad_winograd : Int := conv.iw + conv.r_pad - conv.ow
  let t_pad_winograd : Int := conv.ih + conv.b_pad - conv.oh
  let ofwp : Int := conv.ow + l_pad_winograd
  let ofhp : Int := conv.oh + t_pad_winograd
  let ydim : Int := ((tj * 4 + j.val : Nat) : Int)
  if t_pad_winograd ≤ ydim ∧ ydim < ofhp then
    let xdim : Int := ((ti * 4 + i.val : Nat) : Int)
    if l_pad_winograd ≤ xdim ∧ xdim < ofwp then
      inp (input.idx [img, 0, (ydim - t_pad_winograd).toNat, (xdim - l_pad_winograd).toNat,
        v.val])
    else 0.0
  else 0.0

/-- The running read pointer `base` of the gather loop of `diff_dst_transform_bwd_data`
for tile `(tj, ti)` when the loops reach position `(j, i)`, as a signed float offset
relative to `inp`: its initial value, moved by the rows before `j` and by the positions
before `i` of row `j`. -/
def diff_dst_transform_bwd_data_base (conv : jit_conv_winograd_conf_t) (tj ti j i : Nat) :
    Int :=
  let input : array_offset_calculator := ⟨[conv.mb, conv.oc / 16, conv.oh, conv.ow, 16]⟩
  let l_pad_winograd : Int := conv.iw + conv.r_pad - conv.ow
  let t_pad_winograd : Int := conv.ih + conv.b_pad - conv.oh
  let ofhp : Int := conv.oh + t_pad_winograd
  let base : Int :=
    input.idxZ [0, 0, ((tj * 4 : Nat) : Int) - t_pad_winograd,
      ((ti * 4 : Nat) : Int) - l_pad_winograd, 0]
  let base : Int := (List.range j).foldl (fun base j =>
    let ydim : Int := ((tj * 4 + j : Nat) : Int)
    let base : Int :=
      if t_pad_winograd ≤ ydim ∧ ydim < ofhp then
        (List.range 6).foldl (fun base _ => base + 16) base - 6 * 16
      else base
    base + ((conv.ow * 16 : Nat) : Int)) base
  (List.range i).foldl (fun base _ => base + 16) base

/-! ## The stores of `dst_transform_fwd` -/

/-- One call `store_output(&(output(0, ydim, xdim, 0)), O[j][i], streamout)` of
`dst_transform_fwd`: the tile `(tj, ti)` and the in-tile position `(j, i)` of the loop
iteration that makes it, and the coordinates `(ydim, xdim)` it passes. -/
structure dst_transform_fwd_call where
  tj : Nat
  ti : Nat
  j : Fin 4
  i : Fin 4
  ydim : Nat
  xdim : Nat
deriving DecidableEq

/-- The calls of `store_output` that the store loop of `dst_transform_fwd` makes for tile
`(tj, ti)`, in program order. -/
def dst_transform_fwd_store_calls (conv : jit_conv_winograd_conf_t) (tj ti : Nat) :
    List dst_transform_fwd_call :=
  (List.finRange 4).flatMap fun j =>
    let ydim := tj * 4 + j.val
    if ydim < conv.oh then
      (List.finRange 4).flatMap fun i =>
        let xdim := ti * 4 + i.val
        if xdim < conv.ow then [⟨tj, ti, j, i, ydim, xdim⟩] else []
    else []

/-- The calls of `store_output` that `dst_transform_fwd` makes for one image, in program
order. -/
def dst_transform_fwd_calls (conv : jit_conv_winograd_conf_t) : List dst_transform_fwd_call :=
  (List.range conv.jtiles).flatMap fun tj =>
    (List.range conv.itiles).flatMap fun ti =>
      dst_transform_fwd_store_calls conv tj ti

/-! # Theorems -/

/-! ## Matrix form of the kernels -/

/-- Entry 5 of a vector literal. -/
theorem vecCons_val_five {α : Type} {m : Nat} (x : α) (u : Fin (m + 5) → α) :
    Matrix.vecCons x u 5 =
      Matrix.vecHead (Matrix.vecTail (Matrix.vecTail (Matrix.vecTail (Matrix.vecTail u)))) :=
  rfl

theorem trans_I_4x4_3x3_T_eq (I : Tile 6 6) (r i : Fin 6) (v : Fin 16) :
    trans_I_4x4_3x3_T I r i v = ∑ a, Bt r a * I a i v := by
  fin_cases r <;> simp [trans_I_4x4_3x3_T, Bt, Fin.sum_univ_six, vecCons_val_five] <;> ring

theorem trans_I_4x4_3x3_eq (I : Tile 6 6) (k l : Fin 6) (v : Fin 16) :
    trans_I_4x4_3x3 I k l v = ∑ b, Bt l b * ∑ a, Bt k a * I a b v := by
  simp only [← trans_I_4x4_3x3_T_eq]
  fin_cases l <;> simp [trans_I_4x4_3x3, Bt, Fin.sum_univ_six, vecCons_val_five] <;> ring

theorem trans_O_4x4_3x3_T_eq (Mw : Tile 6 6) (r : Fin 4) (i : Fin 6) (v : Fin 16) :
    trans_O_4x4_3x3_T Mw r i v = ∑ k, At r k * Mw k i v := by
  fin_cases r <;> simp [trans_O_4x4_3x3_T, At, Fin.sum_univ_six, vecCons_val_five] <;> ring

theorem trans_O_4x4_3x3_eq (Mw : Tile 6 6) (y x : Fin 4) (v : Fin 16) :
    trans_O_4x4_3x3 Mw y x v = ∑ l, At x l * ∑ k, At y k * Mw k l v := by
  simp only [← trans_O_4x4_3x3_T_eq]
  fin_cases x <;> simp [trans_O_4x4_3x3, At, Fin.sum_univ_six, vecCons_val_five] <;> ring

theorem trans_W_4x4_3x3_T_eq (F : Tile2 3 3) (j : Fin 16) (r : Fin 6) (i : Fin 3)
    (k : Fin 16) : trans_W_4x4_3x3_T F j r i k = ∑ p, G r p * F p i j k := by
  fin_cases r <;> simp [trans_W_4x4_3x3_T, G, Fin.sum_univ_three, vecCons_val_five] <;> ring

theorem trans_W_4x4_3x3_eq (F : Tile2 3 3) (k l : Fin 6) (j v : Fin 16) :
    trans_W_4x4_3x3 F k l j v = ∑ q, G l q * ∑ p, G k p * F p q j v := by
  simp only [← trans_W_4x4_3x3_T_eq]
  fin_cases l <;> simp [trans_W_4x4_3x3, G, Fin.sum_univ_three, vecCons_val_five] <;> ring

theorem trans_W_3x3_4x4_wu_T_eq (F : Tile 4 6) (r : Fin 6) (i : Fin 4) (v : Fin 16) :
    trans_W_3x3_4x4_wu_T F r i v = ∑ a, Gwu r a * F a (Fin.castLE (by decide) i) v := by
  fin_cases r <;> simp [trans_W_3x3_4x4_wu_T, Gwu, Fin.sum_univ_four, vecCons_val_five] <;> ring

theorem trans_W_3x3_4x4_wu_eq (F : Tile 4 6) (k l : Fin 6) (v : Fin 16) :
    trans_W_3x3_4x4_wu F k l v =
      ∑ b, Gwu l b * ∑ a, Gwu k a * F a (Fin.castLE (by decide) b) v := by
  simp only [← trans_W_3x3_4x4_wu_T_eq]
  fin_cases l <;> simp [trans_W_3x3_4x4_wu, Gwu, Fin.sum_univ_four, vecCons_val_five] <;> ring

theorem trans_O_3x3_4x4_wu_T_eq (Mw : Tile2 6 6) (j : Fin 16) (r : Fin 3) (i : Fin 6)
    (v : Fin 16) : trans_O_3x3_4x4_wu_T Mw j r i v = ∑ k, Awu r k * Mw k i j v := by
  fin_cases r <;> simp [trans_O_3x3_4x4_wu_T, Awu, Fin.sum_univ_six, vecCons_val_five] <;> ring

theorem trans_O_3x3_4x4_wu_eq (Mw : Tile2 6 6) (p q : Fin 3) (j v : Fin 16) :
    trans_O_3x3_4x4_wu Mw p q j v = ∑ l, Awu q l * ∑ k, Awu p k * Mw k l j v := by
  simp only [← trans_O_3x3_4x4_wu_T_eq]
  fin_cases q <;> simp [trans_O_3x3_4x4_wu, Awu, Fin.sum_univ_six, vecCons_val_five] <;> ring

/-! ## The Winograd identities -/

theorem sum_mul_sum_comm {ι κ : Type} [Fintype ι] [Fintype κ] (u : ι → ℚ) (w : κ → ℚ)
    (X : ι → κ → ℚ) :
    ∑ i, u i * ∑ j, w j * X i j = ∑ j, w j * ∑ i, u i * X i j := by
  simp only [Finset.mul_sum]
  rw [Finset.sum_comm]
  exact Finset.sum_congr rfl fun j _ => Finset.sum_congr rfl fun i _ => by ring

theorem sum_mul_sum_sum_comm {ι κ μ : Type} [Fintype ι] [Fintype κ] [Fintype μ] (u : ι → ℚ)
    (w : κ → μ → ℚ) (X : ι → κ → μ → ℚ) :
    ∑ i, u i * ∑ q, ∑ b, w q b * X i q b = ∑ q, ∑ b, w q b * ∑ i, u i * X i q b := by
  simp only [Finset.mul_sum]
  rw [Finset.sum_comm]
  refine Finset.sum_congr rfl fun q _ => ?_
  rw [Finset.sum_comm]
  exact Finset.sum_congr rfl fun b _ => Finset.sum_congr rfl fun i _ => by ring

theorem winograd_1d {m n r : Nat} (A : Fin m → Fin 6 → ℚ) (B : Fin 6 → Fin n → ℚ)
    (G : Fin 6 → Fin r → ℚ) (y : Fin m) (d : Fin n → ℚ) (h : Fin r → ℚ) :
    ∑ k, A y k * ((∑ a, B k a * d a) * (∑ p, G k p * h p)) =
      ∑ p, ∑ a, coef A B G y a p * (d a * h p) := by
  simp only [coef, Finset.sum_mul_sum, Finset.mul_sum, Finset.sum_mul]
  rw [Finset.sum_comm]
  refine Finset.sum_congr rfl fun a _ => ?_
  rw [Finset.sum_comm]
  refine Finset.sum_congr rfl fun p _ => ?_
  exact Finset.sum_congr rfl fun k _ => by ring


theorem winograd_2d {m n r : Nat} (A : Fin m → Fin 6 → ℚ) (B : Fin 6 → Fin n → ℚ)
    (G : Fin 6 → Fin r → ℚ) (y x : Fin m) (D : Fin n → Fin n → ℚ) (g : Fin r → Fin r → ℚ) :
    ∑ l, A x l * ∑ k, A y k *
        ((∑ b, B l b * ∑ a, B k a * D a b) * (∑ q, G l q * ∑ p, G k p * g p q)) =
      ∑ p, ∑ a, ∑ q, ∑ b, (coef A B G y a p * coef A B G x b q) * (D a b * g p q) := by
  rw [sum_mul_sum_comm]
  have h1 : ∀ k, ∑ l, A x l *
        ((∑ b, B l b * ∑ a, B k a * D a b) * (∑ q, G l q * ∑ p, G k p * g p q)) =
      ∑ q, ∑ b, coef A B G x b q * ((∑ a, B k a * D a b) * (∑ p, G k p * g p q)) :=
    fun k => winograd_1d A B G x (fun b => ∑ a, B k a * D a b) (fun q => ∑ p, G k p * g p q)
  simp only [h1]
  have h2 : ∀ q b, ∑ k, A y k * ((∑ a, B k a * D a b) * (∑ p, G k p * g p q)) =
      ∑ p, ∑ a, coef A B G y a p * (D a b * g p q) :=
    fun q b => winograd_1d A B G y (fun a => D a b) (fun p => g p q)
  calc ∑ k, A y k * ∑ q, ∑ b, coef A B G x b q *
          ((∑ a, B k a * D a b) * (∑ p, G k p * g p q))
      = ∑ q, ∑ b, coef A B G x b q *
          ∑ k, A y k * ((∑ a, B k a * D a b) * (∑ p, G k p * g p q)) := by
        exact sum_mul_sum_sum_comm (A y) (fun q b => coef A B G x b q)
          (fun k q b => (∑ a, B k a * D a b) * (∑ p, G k p * g p q))
    _ = ∑ q, ∑ b, coef A B G x b q * ∑ p, ∑ a, coef A B G y a p * (D a b * g p q) := by
        simp only [h2]
    _ = ∑ p, ∑ a, ∑ q, ∑ b, (coef A B G y a p * coef A B G x b q) * (D a b * g p q) := by
        simp only [Finset.mul_sum]
        calc ∑ q, ∑ b, ∑ p, ∑ a, coef A B G x b q * (coef A B G y a p * (D a b * g p q))
            = ∑ q, ∑ p, ∑ b, ∑ a, coef A B G x b q * (coef A B G y a p * (D a b * g p q)) :=
              Finset.sum_congr rfl fun q _ => Finset.sum_comm
          _ = ∑ p, ∑ q, ∑ b, ∑ a, coef A B G x b q * (coef A B G y a p * (D a b * g p q)) :=
              Finset.sum_comm
          _ = ∑ p, ∑ q, ∑ a, ∑ b, coef A B G x b q * (coef A B G y a p * (D a b * g p q)) :=
              Finset.sum_congr rfl fun p _ => Finset.sum_congr rfl fun q _ => Finset.sum_comm
          _ = ∑ p, ∑ a, ∑ q, ∑ b, coef A B G x b q * (coef A B G y a p * (D a b * g p q)) :=
              Finset.sum_congr rfl fun p _ => Finset.sum_comm
          _ = _ := Finset.sum_congr rfl fun p _ => Finset.sum_congr rfl fun a _ =>
              Finset.sum_congr rfl fun q _ => Finset.sum_congr rfl fun b _ => by ring

/-- A four-fold sum of terms `E a b p q * (X a b * Y p q)` whose coefficients are at
most `η` in absolute value is bounded by `η` times the two absolute sums. -/
theorem abs_bilinear_le {n r : Nat} (E : Fin n → Fin n → Fin r → Fin r → ℚ) (η : ℚ)
    (hE : ∀ a b p q, |E a b p q| ≤ η) (X : Fin n → Fin n → ℚ) (Y : Fin r → Fin r → ℚ) :
    |∑ p, ∑ a, ∑ q, ∑ b, E a b p q * (X a b * Y p q)| ≤
      η * (∑ a, ∑ b, |X a b|) * (∑ p, ∑ q, |Y p q|) := by
  have step : ∀ a b p q, |E a b p q * (X a b * Y p q)| ≤ η * (|X a b| * |Y p q|) := by
    intro a b p q
    rw [abs_mul, abs_mul]
    exact mul_le_mul_of_nonneg_right (hE a b p q) (mul_nonneg (abs_nonneg _) (abs_nonneg _))
  calc |∑ p, ∑ a, ∑ q, ∑ b, E a b p q * (X a b * Y p q)|
      ≤ ∑ p, ∑ a, ∑ q, ∑ b, |E a b p q * (X a b * Y p q)| := by
        refine (Finset.abs_sum_le_sum_abs _ _).trans (Finset.sum_le_sum fun p _ => ?_)
        refine (Finset.abs_sum_le_sum_abs _ _).trans (Finset.sum_le_sum fun a _ => ?_)
        refine (Finset.abs_sum_le_sum_abs _ _).trans (Finset.sum_le_sum fun q _ => ?_)
        exact Finset.abs_sum_le_sum_abs _ _
    _ ≤ ∑ p, ∑ a, ∑ q, ∑ b, η * (|X a b| * |Y p q|) :=
        Finset.sum_le_sum fun p _ => Finset.sum_le_sum fun a _ =>
          Finset.sum_le_sum fun q _ => Finset.sum_le_sum fun b _ => step a b p q
    _ = η * (∑ a, ∑ b, |X a b|) * (∑ p, ∑ q, |Y p q|) := by
        simp only [← Finset.mul_sum, ← Finset.sum_mul]
        ring


theorem abs_coef_mul_sub_le (c c' δ δ' ε : ℚ) (hδ : |δ| ≤ 1) (hδ' : |δ'| ≤ 1)
    (h : |c - δ| ≤ ε) (h' : |c' - δ'| ≤ ε) : |c * c' - δ * δ'| ≤ 2 * ε + ε ^ 2 := by
  have hε : 0 ≤ ε := (abs_nonneg _).trans h
  have e : c * c' - δ * δ' = (c - δ) * (c' - δ') + δ * (c' - δ') + (c - δ) * δ' := by ring
  rw [e]
  have t1 : |(c - δ) * (c' - δ')| ≤ ε * ε := by
    rw [abs_mul]; exact mul_le_mul h h' (abs_nonneg _) hε
  have t2 : |δ * (c' - δ')| ≤ 1 * ε := by
    rw [abs_mul]; exact mul_le_mul hδ h' (abs_nonneg _) zero_le_one
  have t3 : |(c - δ) * δ'| ≤ ε * 1 := by
    rw [abs_mul]; exact mul_le_mul h hδ' (abs_nonneg _) hε
  have a1 := abs_add ((c - δ) * (c' - δ') + δ * (c' - δ')) ((c - δ) * δ')
  have a2 := abs_add ((c - δ) * (c' - δ')) (δ * (c' - δ'))
  nlinarith

theorem abs_ite_one_zero_le (P : Prop) [Decidable P] : |(if P then (1 : ℚ) else 0)| ≤ 1 := by
  split <;> simp

/-- Error of a two-dimensional Winograd scheme whose one-dimensional coefficients
are within `ε` of those of the correlation reading position `idx y p`. -/
theorem winograd_error {m n r : Nat} (A : Fin m → Fin 6 → ℚ) (B : Fin 6 → Fin n → ℚ)
    (G : Fin 6 → Fin r → ℚ) (idx : Fin m → Fin r → Fin n) (ε : ℚ)
    (hε : ∀ y a p, |coef A B G y a p - (if a = idx y p then 1 else 0)| ≤ ε)
    (y x : Fin m) (D : Fin n → Fin n → ℚ) (g : Fin r → Fin r → ℚ) :
    |(∑ p, ∑ a, ∑ q, ∑ b, (coef A B G y a p * coef A B G x b q) * (D a b * g p q)) -
        ∑ p, ∑ q, D (idx y p) (idx x q) * g p q| ≤
      (2 * ε + ε ^ 2) * (∑ a, ∑ b, |D a b|) * (∑ p, ∑ q, |g p q|) := by
  have hconv : ∑ p, ∑ q, D (idx y p) (idx x q) * g p q =
      ∑ p, ∑ a, ∑ q, ∑ b, ((if a = idx y p then (1 : ℚ) else 0) *
        (if b = idx x q then (1 : ℚ) else 0)) * (D a b * g p q) := by
    refine Finset.sum_congr rfl fun p _ => ?_
    have inner : ∀ a, ∑ q, ∑ b, ((if a = idx y p then (1 : ℚ) else 0) *
        (if b = idx x q then (1 : ℚ) else 0)) * (D a b * g p q) =
        if a = idx y p then ∑ q, D a (idx x q) * g p q else 0 := by
      intro a
      split
      · simp
      · simp
    simp only [inner]
    simp
  rw [hconv]
  simp only [← Finset.sum_sub_distrib, ← sub_mul]
  exact abs_bilinear_le
    (fun a b p q => coef A B G y a p * coef A B G x b q -
      (if a = idx y p then (1 : ℚ) else 0) * (if b = idx x q then (1 : ℚ) else 0))
    (2 * ε + ε ^ 2)
    (fun a b p q => abs_coef_mul_sub_le _ _ _ _ ε (abs_ite_one_zero_le _)
      (abs_ite_one_zero_le _) (hε y a p) (hε x b q)) D g

theorem coef_forward : ∀ (y : Fin 4) (a : Fin 6) (p : Fin 3),
    |coef At Bt G y a p - (if a = tap y p then 1 else 0)| ≤ 1e-6 := by
  decide!

theorem coef_backward_weights : ∀ (p : Fin 3) (a : Fin 6) (y : Fin 4),
    |coef Awu Bt Gwu p a y - (if a = tap_wu p y then 1 else 0)| ≤ 1e-6 := by
  decide!

/-- Claim C1, the forward Winograd F(4,3) identity, per channel lane and in exact
arithmetic: for every 6x6 data tile `D` and 3x3 filter `g`, the output transform of the
element-wise product of the transformed data and the transformed filter differs from the
correlation `sum over p, q of D[y+p][x+q] * g[p][q]` by at most `1e-5` times the absolute
sum of `D` times the absolute sum of `g`, at every output position `(y, x)`. -/
theorem forward_winograd_identity (D : Tile 6 6) (g : Tile2 3 3) (j k v : Fin 16)
    (y x : Fin 4) :
    |trans_O_4x4_3x3 (fun r c u => trans_I_4x4_3x3 D r c u * trans_W_4x4_3x3 g r c j k) y x v -
        ∑ p, ∑ q, D (tap y p) (tap x q) v * g p q j k| ≤
      1e-5 * (∑ a, ∑ b, |D a b v|) * (∑ p, ∑ q, |g p q j k|) := by
  rw [trans_O_4x4_3x3_eq]
  simp only [trans_I_4x4_3x3_eq, trans_W_4x4_3x3_eq]
  rw [winograd_2d At Bt G y x (fun a b => D a b v) (fun p q => g p q j k)]
  refine (winograd_error At Bt G tap 1e-6 coef_forward y x _ _).trans ?_
  have hD : 0 ≤ ∑ a, ∑ b, |D a b v| :=
    Finset.sum_nonneg fun a _ => Finset.sum_nonneg fun b _ => abs_nonneg _
  have hg : 0 ≤ ∑ p, ∑ q, |g p q j k| :=
    Finset.sum_nonneg fun p _ => Finset.sum_nonneg fun q _ => abs_nonneg _
  refine mul_le_mul_of_nonneg_right (mul_le_mul_of_nonneg_right ?_ hD) hg
  norm_num

/-- Claim C2, the backward-weights Winograd F(3,4) identity, per channel lane and in
exact arithmetic: for every 6x6 source tile `D` and 4x4 output-gradient tile `E`, the
weight-gradient transform of the element-wise product of the transformed source and the
transformed gradient differs from `sum over y, x of D[y+p][x+q] * E[y][x]` by at most
`1e-5` times the absolute sum of `D` times the absolute sum of `E`, at every position
`(p, q)` of the 3x3 result. -/
theorem backward_weights_winograd_identity (D : Tile 6 6) (E : Tile 4 6) (j v : Fin 16)
    (p q : Fin 3) :
    |trans_O_3x3_4x4_wu
          (fun r c u w => trans_I_4x4_3x3 D r c u * trans_W_3x3_4x4_wu E r c w) p q j v -
        ∑ y : Fin 4, ∑ x : Fin 4,
          D (tap_wu p y) (tap_wu q x) j * E y (Fin.castLE (by decide) x) v| ≤
      1e-5 * (∑ a, ∑ b, |D a b j|) *
        (∑ y : Fin 4, ∑ x : Fin 4, |E y (Fin.castLE (by decide) x) v|) := by
  rw [trans_O_3x3_4x4_wu_eq]
  simp only [trans_I_4x4_3x3_eq, trans_W_3x3_4x4_wu_eq]
  rw [winograd_2d Awu Bt Gwu p q (fun a b => D a b j)
    (fun y x => E y (Fin.castLE (by decide) x) v)]
  refine (winograd_error Awu Bt Gwu tap_wu 1e-6 coef_backward_weights p q _ _).trans ?_
  have hD : 0 ≤ ∑ a, ∑ b, |D a b j| :=
    Finset.sum_nonneg fun a _ => Finset.sum_nonneg fun b _ => abs_nonneg _
  have hg : 0 ≤ ∑ y : Fin 4, ∑ x : Fin 4, |E y (Fin.castLE (by decide) x) v| :=
    Finset.sum_nonneg fun p _ => Finset.sum_nonneg fun q _ => abs_nonneg _
  refine mul_le_mul_of_nonneg_right (mul_le_mul_of_nonneg_right ?_ hD) hg
  norm_num

/-! ## Layout packers -/

theorem foldl_invariant {S ι : Type} (f : S → ι → S) (Q : S → Prop) (l : List ι)
    (hkeep : ∀ s t, t ∈ l → Q s → Q (f s t)) (s : S) (hs : Q s) : Q (l.foldl f s) := by
  induction l generalizing s with
  | nil => exact hs
  | cons t l ih =>
    exact ih (fun s' t' ht' => hkeep s' t' (List.mem_cons_of_mem _ ht')) _
      (hkeep s t (List.mem_cons_self _ _) hs)

theorem foldl_establish {S ι : Type} (f : S → ι → S) (Q : S → Prop) (l : List ι) (t0 : ι)
    (h0 : t0 ∈ l) (hset : ∀ s, Q (f s t0)) (hkeep : ∀ s t, t ∈ l → Q s → Q (f s t)) (s : S) :
    Q (l.foldl f s) := by
  induction l generalizing s with
  | nil => cases h0
  | cons t l ih =>
    rcases List.mem_cons.mp h0 with h | h
    · subst h
      exact foldl_invariant f Q l (fun s' t' ht' => hkeep s' t' (List.mem_cons_of_mem _ ht')) _
        (hset s)
    · exact ih h (fun s' t' ht' => hkeep s' t' (List.mem_cons_of_mem _ ht')) _

theorem foldl_range_establish {S : Type} (f : S → Nat → S) (Q : S → Prop) (n k : Nat)
    (hk : k < n) (s : S) (hset : Q (f ((List.range k).foldl f s) k))
    (hkeep : ∀ s' i, k < i → i < n → Q s' → Q (f s' i)) : Q ((List.range n).foldl f s) := by
  induction n with
  | zero => omega
  | succ n ih =>
    rw [List.range_succ, List.foldl_append]
    simp only [List.foldl_cons, List.foldl_nil]
    rcases Nat.lt_succ_iff_lt_or_eq.mp hk with h | h
    · exact hkeep _ n h (Nat.lt_succ_self n)
        (ih h (fun s' i h1 h2 => hkeep s' i h1 (Nat.lt_succ_of_lt h2)))
    · subst h
      exact hset

theorem store_output_of_not_mem (m : Buffer) (dest : Nat) (data : Fin 16 → ℚ) (s : Bool)
    (o : Nat) (h : ¬ (dest ≤ o ∧ o < dest + 16)) : store_output m dest data s o = m o := by
  unfold store_output
  refine foldl_invariant (fun (m' : Buffer) (w : Fin 16) => Function.update m' (dest + w.val) (data w))
    (fun m' => m' o = m o) _ ?_ m rfl
  intro m' v _ hm'
  have hv := v.isLt
  show Function.update m' (dest + v.val) (data v) o = m o
  rw [Function.update_noteq (by omega)]
  exact hm'

theorem store_output_lane (m : Buffer) (dest : Nat) (data : Fin 16 → ℚ) (s : Bool)
    (v : Fin 16) : store_output m dest data s (dest + v.val) = data v := by
  unfold store_output
  refine foldl_establish (fun (m' : Buffer) (w : Fin 16) => Function.update m' (dest + w.val) (data w))
    (fun m' => m' (dest + v.val) = data v) _ v (List.mem_finRange v)
    (fun m' => Function.update_same _ _ _) ?_ m
  intro m' w _ hm'
  by_cases hw : w = v
  · subst hw
    exact Function.update_same _ _ _
  · have : dest + v.val ≠ dest + w.val := fun e => hw (Fin.ext (by omega))
    show Function.update m' (dest + w.val) (data w) (dest + v.val) = data v
    rw [Function.update_noteq this]
    exact hm'


/-- The tile store loop shared by `dst_transform_fwd` and `diff_src_transform_bwd_data`
leaves every offset outside the sixteen-float groups it stores unchanged. -/
theorem store_tile_frame (H W : Nat) (off : Nat → Nat → Nat) (data : Tile 4 4) (s : Bool)
    (tj ti : Nat) (m : Buffer) (o : Nat)
    (h : ∀ j i : Fin 4, tj * 4 + j.val < H → ti * 4 + i.val < W →
      ¬ (off (tj * 4 + j.val) (ti * 4 + i.val) ≤ o ∧
        o < off (tj * 4 + j.val) (ti * 4 + i.val) + 16)) :
    store_tile H W off data s tj ti m o = m o := by
  unfold store_tile
  refine foldl_invariant _ (fun m' => m' o = m o) _ ?_ m rfl
  intro m' j _ hm'
  show (if tj * 4 + j.val < H then _ else m') o = m o
  split
  · rename_i hj
    refine foldl_invariant _ (fun m'' => m'' o = m o) _ ?_ m' hm'
    intro m'' i _ hm''
    show (if ti * 4 + i.val < W then _ else m'') o = m o
    split
    · rename_i hi
      rw [store_output_of_not_mem _ _ _ _ _ (h j i hj hi)]
      exact hm''
    · exact hm''
  · exact hm'

/-- The tile store loop stores `data j0 i0 v` at lane `v` of the group of a valid
position `(j0, i0)`, provided no other position of the tile stores to that group. -/
theorem store_tile_value (H W : Nat) (off : Nat → Nat → Nat) (data : Tile 4 4) (s : Bool)
    (tj ti : Nat) (m : Buffer) (j0 i0 : Fin 4) (v : Fin 16)
    (hj0 : tj * 4 + j0.val < H) (hi0 : ti * 4 + i0.val < W)
    (h : ∀ j i : Fin 4, tj * 4 + j.val < H → ti * 4 + i.val < W →
      off (tj * 4 + j.val) (ti * 4 + i.val) ≤ off (tj * 4 + j0.val) (ti * 4 + i0.val) + v.val →
      off (tj * 4 + j0.val) (ti * 4 + i0.val) + v.val <
        off (tj * 4 + j.val) (ti * 4 + i.val) + 16 → j = j0 ∧ i = i0) :
    store_tile H W off data s tj ti m (off (tj * 4 + j0.val) (ti * 4 + i0.val) + v.val) =
      data j0 i0 v := by
  unfold store_tile
  have key : ∀ (m' : Buffer) (j i : Fin 4), tj * 4 + j.val < H → ti * 4 + i.val < W →
      (j = j0 ∧ i = i0 ∨ m' (off (tj * 4 + j0.val) (ti * 4 + i0.val) + v.val) = data j0 i0 v) →
      store_output m' (off (tj * 4 + j.val) (ti * 4 + i.val)) (data j i) s
        (off (tj * 4 + j0.val) (ti * 4 + i0.val) + v.val) = data j0 i0 v := by
    intro m' j i hj hi hm'
    by_cases hin : off (tj * 4 + j.val) (ti * 4 + i.val) ≤
        off (tj * 4 + j0.val) (ti * 4 + i0.val) + v.val ∧
        off (tj * 4 + j0.val) (ti * 4 + i0.val) + v.val <
          off (tj * 4 + j.val) (ti * 4 + i.val) + 16
    · obtain ⟨e1, e2⟩ := h j i hj hi hin.1 hin.2
      subst e1 e2
      exact store_output_lane _ _ _ _ _
    · rw [store_output_of_not_mem _ _ _ _ _ hin]
      rcases hm' with ⟨e1, e2⟩ | hm'
      · subst e1 e2
        exact absurd ⟨Nat.le_add_right _ _, by have := v.isLt; omega⟩ hin
      · exact hm'
  refine foldl_establish _
    (fun m' => m' (off (tj * 4 + j0.val) (ti * 4 + i0.val) + v.val) = data j0 i0 v) _ j0
    (List.mem_finRange j0) ?_ ?_ m
  · intro m'
    show (if tj * 4 + j0.val < H then _ else m') _ = _
    rw [if_pos hj0]
    refine foldl_establish _
      (fun m'' => m'' (off (tj * 4 + j0.val) (ti * 4 + i0.val) + v.val) = data j0 i0 v) _ i0
      (List.mem_finRange i0) ?_ ?_ m'
    · intro m''
      show (if ti * 4 + i0.val < W then _ else m'') _ = _
      rw [if_pos hi0]
      exact key m'' j0 i0 hj0 hi0 (Or.inl ⟨rfl, rfl⟩)
    · intro m'' i _ hm''
      show (if ti * 4 + i.val < W then _ else m'') _ = _
      split
      · rename_i hi
        exact key m'' j0 i hj0 hi (Or.inr hm'')
      · exact hm''
  · intro m' j _ hm'
    show (if tj * 4 + j.val < H then _ else m') _ = _
    split
    · rename_i hj
      refine foldl_invariant _
        (fun m'' => m'' (off (tj * 4 + j0.val) (ti * 4 + i0.val) + v.val) = data j0 i0 v) _ ?_
        m' hm'
      intro m'' i _ hm''
      show (if ti * 4 + i.val < W then _ else m'') _ = _
      split
      · rename_i hi
        exact key m'' j i hj hi (Or.inr hm'')
      · exact hm''
    · exact hm'


theorem group_inj (W y x y0 x0 v : Nat) (hx : x < W) (hx0 : x0 < W) (hv : v < 16)
    (h1 : (y * W + x) * 16 ≤ (y0 * W + x0) * 16 + v)
    (h2 : (y0 * W + x0) * 16 + v < (y * W + x) * 16 + 16) : y = y0 ∧ x = x0 := by
  have e : y * W + x = y0 * W + x0 := by omega
  rcases lt_trichotomy y y0 with h | h | h
  · have := Nat.mul_le_mul_right W (Nat.succ_le_of_lt h)
    rw [Nat.succ_mul] at this
    omega
  · subst h
    exact ⟨rfl, by omega⟩
  · have := Nat.mul_le_mul_right W (Nat.succ_le_of_lt h)
    rw [Nat.succ_mul] at this
    omega

/-- A tile other than `(tj, ti)` does not store to the group of a valid output
coordinate of tile `(tj, ti)`. -/
theorem store_tile_other (H W : Nat) (data : Tile 4 4) (s : Bool) (tj' ti' tj ti : Nat)
    (j i : Fin 4) (v : Fin 16) (hi : ti * 4 + i.val < W) (hne : tj' ≠ tj ∨ ti' ≠ ti)
    (m : Buffer) :
    store_tile H W (fun y x => (y * W + x) * 16) data s tj' ti' m
        (((tj * 4 + j.val) * W + (ti * 4 + i.val)) * 16 + v.val) =
      m (((tj * 4 + j.val) * W + (ti * 4 + i.val)) * 16 + v.val) := by
  refine store_tile_frame H W _ data s tj' ti' m _ ?_
  rintro j' i' _ hi' ⟨h1, h2⟩
  have := group_inj W _ _ _ _ _ hi' hi v.isLt h1 h2
  have hj := j.isLt
  have hj' := j'.isLt
  have hi2 := i.isLt
  have hi2' := i'.isLt
  omega

/-- Tile `(tj, ti)` stores `data j i v` at lane `v` of the group of its valid output
coordinate `(j, i)`. -/
theorem store_tile_this (H W : Nat) (data : Tile 4 4) (s : Bool) (tj ti : Nat)
    (j i : Fin 4) (v : Fin 16) (hj : tj * 4 + j.val < H) (hi : ti * 4 + i.val < W)
    (m : Buffer) :
    store_tile H W (fun y x => (y * W + x) * 16) data s tj ti m
        (((tj * 4 + j.val) * W + (ti * 4 + i.val)) * 16 + v.val) = data j i v := by
  refine store_tile_value H W (fun y x => (y * W + x) * 16) data s tj ti m j i v hj hi ?_
  intro j' i' _ hi' h1 h2
  have := group_inj W _ _ _ _ _ hi' hi v.isLt h1 h2
  exact ⟨Fin.ext (by omega), Fin.ext (by omega)⟩

/-- A tile leaves unchanged every offset that is not of the form
`(y * W + x) * 16 + v` for one of its valid output coordinates. -/
theorem store_tile_outside (H W : Nat) (data : Tile 4 4) (s : Bool) (tj ti : Nat) (o : Nat)
    (h : ∀ (j i : Fin 4) (v : Nat), tj * 4 + j.val < H → ti * 4 + i.val < W → v < 16 →
      o ≠ ((tj * 4 + j.val) * W + (ti * 4 + i.val)) * 16 + v) (m : Buffer) :
    store_tile H W (fun y x => (y * W + x) * 16) data s tj ti m o = m o := by
  refine store_tile_frame H W _ data s tj ti m o ?_
  rintro j i hj hi ⟨h1, h2⟩
  exact h j i (o - ((tj * 4 + j.val) * W + (ti * 4 + i.val)) * 16) hj hi (by omega) (by omega)

theorem dst_transform_fwd_store_eq (with_bias with_relu : Bool)
    (conv : jit_conv_winograd_conf_t) (tj ti : Nat) (O : Tile 4 4) (bias : Buffer)
    (streamout : Bool) (outp : Buffer) :
    dst_transform_fwd_store with_bias with_relu conv tj ti O bias streamout outp =
      store_tile conv.oh conv.ow (fun y x => (y * conv.ow + x) * 16)
        (dst_transform_fwd_O with_bias with_relu conv O bias) streamout tj ti outp := by
  have e : ∀ y x, (array_offset_calculator.mk [conv.mb, conv.oh, conv.ow, 16]).idx [0, y, x, 0] =
      (y * conv.ow + x) * 16 := by
    intro y x
    simp [array_offset_calculator.idx, array_offset_calculator._offset]
    ring
  simp only [dst_transform_fwd_store, store_tile, e]

theorem diff_src_transform_bwd_data_store_eq (conv : jit_conv_winograd_conf_t) (tj ti : Nat)
    (O : Tile 4 4) (streamout : Bool) (outp : Buffer) :
    diff_src_transform_bwd_data_store conv tj ti O streamout outp =
      store_tile conv.ih conv.iw (fun y x => (y * conv.iw + x) * 16) O streamout tj ti outp := by
  have e : ∀ y x, (array_offset_calculator.mk [conv.mb, conv.ic / 16, conv.ih, conv.iw, 16]).idx
      [0, 0, y, x, 0] = (y * conv.iw + x) * 16 := by
    intro y x
    simp [array_offset_calculator.idx, array_offset_calculator._offset]
    ring
  simp only [diff_src_transform_bwd_data_store, store_tile, e]

/-- Claim C5, boundary exclusion: `dst_transform_fwd` (with `H, W = oh, ow`) and
`diff_src_transform_bwd_data` (with `H, W = ih, iw`) leave unchanged every destination
element whose offset is not `(y * W + x) * 16 + v` with `y < H`, `x < W`, `v < 16` and
`(y, x)` inside a processed tile; coordinates beyond the declared height and width are
never written. -/
theorem boundary_exclusion (with_bias with_relu : Bool) (image : Nat)
    (conv : jit_conv_winograd_conf_t) (toutp outp bias : Buffer) (streamout : Bool) (o : Nat) :
    ((∀ y x v, y < conv.oh → x < conv.ow → v < 16 → y < 4 * conv.jtiles →
        x < 4 * conv.itiles → o ≠ (y * conv.ow + x) * 16 + v) →
      dst_transform_fwd with_bias with_relu image conv toutp outp bias streamout o = outp o) ∧
    ((∀ y x v, y < conv.ih → x < conv.iw → v < 16 → y < 4 * conv.jtiles →
        x < 4 * conv.itiles → o ≠ (y * conv.iw + x) * 16 + v) →
      diff_src_transform_bwd_data image conv toutp outp streamout o = outp o) := by
  constructor
  · intro h
    unfold dst_transform_fwd
    refine foldl_invariant _ (fun st : tile_counters × Buffer => st.2 o = outp o) _ ?_ _ rfl
    intro st tj htj hst
    refine foldl_invariant _ (fun st : tile_counters × Buffer => st.2 o = outp o) _ ?_ st hst
    intro st' ti hti hst'
    show dst_transform_fwd_store _ _ _ _ _ _ _ _ _ o = outp o
    rw [dst_transform_fwd_store_eq, store_tile_outside]
    · exact hst'
    · intro j i v hj hi hv
      have htj' := List.mem_range.mp htj
      have hti' := List.mem_range.mp hti
      exact h _ _ v hj hi hv (by have := j.isLt; omega) (by have := i.isLt; omega)
  · intro h
    unfold diff_src_transform_bwd_data
    refine foldl_invariant _ (fun st : tile_counters × Buffer => st.2 o = outp o) _ ?_ _ rfl
    intro st tj htj hst
    refine foldl_invariant _ (fun st : tile_counters × Buffer => st.2 o = outp o) _ ?_ st hst
    intro st' ti hti hst'
    show diff_src_transform_bwd_data_store _ _ _ _ _ _ o = outp o
    rw [diff_src_transform_bwd_data_store_eq, store_tile_outside]
    · exact hst'
    · intro j i v hj hi hv
      have htj' := List.mem_range.mp htj
      have hti' := List.mem_range.mp hti
      exact h _ _ v hj hi hv (by have := j.isLt; omega) (by have := i.isLt; omega)

/-- Claim C3, bias and activation fusion: after `dst_transform_fwd` with bias and
activation enabled, the destination holds, at every valid output coordinate
`(ydim, xdim) = (4 tj + j, 4 ti + i)` of every tile and every lane `v`, the value
`slope * (raw + bias[v])` when `raw + bias[v] < 0` and `raw + bias[v]` otherwise, where
`raw` is the `trans_O_4x4_3x3` result of that tile at `(j, i, v)` and `slope` is
`conv.relu_negative_slope`. -/
theorem bias_activation_fusion (image : Nat) (conv : jit_conv_winograd_conf_t)
    (toutp outp bias : Buffer) (streamout : Bool) (tj ti : Nat) (j i : Fin 4) (v : Fin 16)
    (htj : tj < conv.jtiles) (hti : ti < conv.itiles)
    (hy : tj * 4 + j.val < conv.oh) (hx : ti * 4 + i.val < conv.ow) :
    dst_transform_fwd true true image conv toutp outp bias streamout
        (((tj * 4 + j.val) * conv.ow + (ti * 4 + i.val)) * 16 + v.val) =
      (let raw := trans_O_4x4_3x3 (dst_transform_fwd_Ow conv toutp
          (dst_transform_fwd_before true true image conv toutp outp bias streamout tj ti).1) j i v
       if raw + bias v.val < 0 then conv.relu_negative_slope * (raw + bias v.val)
       else raw + bias v.val) := by
  have hV : (let raw := trans_O_4x4_3x3 (dst_transform_fwd_Ow conv toutp
          (dst_transform_fwd_before true true image conv toutp outp bias streamout tj ti).1) j i v
       if raw + bias v.val < 0 then conv.relu_negative_slope * (raw + bias v.val)
       else raw + bias v.val) =
      dst_transform_fwd_O true true conv (trans_O_4x4_3x3 (dst_transform_fwd_Ow conv toutp
          (dst_transform_fwd_before true true image conv toutp outp bias streamout tj ti).1))
        bias j i v := by
    simp only [dst_transform_fwd_O]
    norm_num
    split <;> ring
  rw [hV]
  unfold dst_transform_fwd
  refine foldl_range_establish _ (fun st : tile_counters × Buffer =>
    st.2 (((tj * 4 + j.val) * conv.ow + (ti * 4 + i.val)) * 16 + v.val) =
      dst_transform_fwd_O true true conv (trans_O_4x4_3x3 (dst_transform_fwd_Ow conv toutp
          (dst_transform_fwd_before true true image conv toutp outp bias streamout tj ti).1))
        bias j i v) conv.jtiles tj htj _ ?_ ?_
  · refine foldl_range_establish _ (fun st : tile_counters × Buffer =>
      st.2 (((tj * 4 + j.val) * conv.ow + (ti * 4 + i.val)) * 16 + v.val) =
        dst_transform_fwd_O true true conv (trans_O_4x4_3x3 (dst_transform_fwd_Ow conv toutp
            (dst_transform_fwd_before true true image conv toutp outp bias streamout tj ti).1))
          bias j i v) conv.itiles ti hti _ ?_ ?_
    · show dst_transform_fwd_store _ _ _ _ _ _ _ _ _ _ = _
      rw [dst_transform_fwd_store_eq]
      exact store_tile_this _ _ _ _ _ _ _ _ _ hy hx _
    · intro st ti' h1 _ hst
      show dst_transform_fwd_store _ _ _ _ _ _ _ _ _ _ = _
      rw [dst_transform_fwd_store_eq, store_tile_other _ _ _ _ _ _ _ _ _ _ _ hx (Or.inr (by omega))]
      exact hst
  · intro st tj' h1 _ hst
    refine foldl_invariant _ (fun st : tile_counters × Buffer =>
      st.2 (((tj * 4 + j.val) * conv.ow + (ti * 4 + i.val)) * 16 + v.val) =
        dst_transform_fwd_O true true conv (trans_O_4x4_3x3 (dst_transform_fwd_Ow conv toutp
            (dst_transform_fwd_before true true image conv toutp outp bias streamout tj ti).1))
          bias j i v) _ ?_ st hst
    intro st' ti' _ hst'
    show dst_transform_fwd_store _ _ _ _ _ _ _ _ _ _ = _
    rw [dst_transform_fwd_store_eq, store_tile_other _ _ _ _ _ _ _ _ _ _ _ hx (Or.inl (by omega))]
    exact hst'


/-- Instance of `boundary_exclusion`: on the example configuration with an 8x8 output,
the element at offset 1024, just past the output, keeps its sentinel value. -/
theorem boundary_exclusion_witness :
    dst_transform_fwd true true 0 conv_example (fun _ => -1) (fun _ => 7)
        (fun v => if v = 0 then 1 else 0) true 1024 = 7 ∧
      diff_src_transform_bwd_data 0 conv_example (fun _ => -1) (fun _ => 7) true 1024 = 7 :=
  ⟨(boundary_exclusion true true 0 conv_example (fun _ => -1) (fun _ => 7)
      (fun v => if v = 0 then 1 else 0) true 1024).1 (by
        intro y x v hy hx hv _ _
        change y < 8 at hy
        change x < 8 at hx
        show 1024 ≠ (y * 8 + x) * 16 + v
        omega),
    (boundary_exclusion true true 0 conv_example (fun _ => -1) (fun _ => 7)
      (fun v => if v = 0 then 1 else 0) true 1024).2 (by
        intro y x v hy hx hv _ _
        change y < 8 at hy
        change x < 8 at hx
        show 1024 ≠ (y * 8 + x) * 16 + v
        omega)⟩

/-- Instance of `bias_activation_fusion`: on the example configuration with all
accumulator values `-1`, bias `[1, 0, ..., 0]` and slope `1 / 2`, the output at
coordinate `(7, 7)` is `-1 / 2` in lane 1 and `0` in lane 0. -/
theorem bias_activation_fusion_witness :
    dst_transform_fwd true true 0 conv_example (fun _ => -1) (fun _ => 7)
        (fun v => if v = 0 then 1 else 0) true (((1 * 4 + 3) * 8 + (1 * 4 + 3)) * 16 + 1) = -1 / 2 ∧
      dst_transform_fwd true true 0 conv_example (fun _ => -1) (fun _ => 7)
        (fun v => if v = 0 then 1 else 0) true (((1 * 4 + 3) * 8 + (1 * 4 + 3)) * 16 + 0) = 0 := by
  constructor
  · refine (bias_activation_fusion 0 conv_example (fun _ => -1) (fun _ => 7)
      (fun v => if v = 0 then 1 else 0) true 1 1 3 3 1 (by decide) (by decide) (by decide)
      (by decide)).trans ?_
    norm_num [dst_transform_fwd_Ow, trans_O_4x4_3x3, trans_O_4x4_3x3_T, conv_example]
  · refine (bias_activation_fusion 0 conv_example (fun _ => -1) (fun _ => 7)
      (fun v => if v = 0 then 1 else 0) true 1 1 3 3 0 (by decide) (by decide) (by decide)
      (by decide)).trans ?_
    norm_num [dst_transform_fwd_Ow, trans_O_4x4_3x3, trans_O_4x4_3x3_T, conv_example]

/-- Claim C4, padding correctness of `src_transform_fwd`: the tile handed to
`trans_I_4x4_3x3` for tile `(tj, ti)` is the tile cut from the explicitly zero-padded
input, entry `(j, i, v)` being the padded input at `(4 tj + j, 4 ti + i, v)`; hence the
packer equals the packer that transforms the tiles of the padded input. -/
theorem src_transform_fwd_padding (image : Nat) (conv : jit_conv_winograd_conf_t)
    (inp tinp : Buffer) (streamout : Bool) :
    (∀ (tj ti : Nat) (j i : Fin 6) (v : Fin 16),
      src_transform_fwd_I conv inp tj ti j i v =
        padded_input conv inp (4 * tj + j.val) (4 * ti + i.val) v) ∧
    src_transform_fwd image conv inp tinp streamout =
      ((List.range conv.jtiles).foldl (fun st tj =>
        (List.range conv.itiles).foldl (fun st ti =>
          (tile_counters_next conv st.1,
            src_transform_fwd_store conv st.1
              (trans_I_4x4_3x3 fun j i v =>
                padded_input conv inp (4 * tj + j.val) (4 * ti + i.val) v) streamout st.2)) st)
        (tile_counters_init conv image, tinp)).2 := by
  have h : ∀ (tj ti : Nat) (j i : Fin 6) (v : Fin 16),
      src_transform_fwd_I conv inp tj ti j i v =
        padded_input conv inp (4 * tj + j.val) (4 * ti + i.val) v := by
    intro tj ti j i v
    have e : ∀ y x : Nat, (array_offset_calculator.mk
        [conv.mb, conv.ic / 16, conv.ih, conv.iw, 16]).idx [0, 0, y, x, v.val] =
        (y * conv.iw + x) * 16 + v.val := by
      intro y x
      simp [array_offset_calculator.idx, array_offset_calculator._offset]
      ring
    simp only [src_transform_fwd_I, padded_input, e, Nat.cast_add, Nat.cast_mul, Nat.cast_ofNat]
    have c1 : ((tj : Int) * 4 + (j.val : Int)) = 4 * (tj : Int) + (j.val : Int) := by ring
    have c2 : ((ti : Int) * 4 + (i.val : Int)) = 4 * (ti : Int) + (i.val : Int) := by ring
    rw [c1, c2]
    by_cases hy : conv.t_pad ≤ 4 * (tj : Int) + (j.val : Int) ∧
        4 * (tj : Int) + (j.val : Int) < (conv.ih : Int) + conv.t_pad
    · by_cases hx : conv.l_pad ≤ 4 * (ti : Int) + (i.val : Int) ∧
          4 * (ti : Int) + (i.val : Int) < (conv.iw : Int) + conv.l_pad
      · rw [if_pos hy, if_pos hx, if_pos ⟨hy.1, hy.2, hx.1, hx.2⟩]
      · rw [if_pos hy, if_neg hx, if_neg (fun h => hx ⟨h.2.2.1, h.2.2.2⟩)]
        norm_num
    · rw [if_neg hy, if_neg (fun h => hy ⟨h.1, h.2.1⟩)]
      norm_num
  refine ⟨h, ?_⟩
  unfold src_transform_fwd
  have h' : ∀ tj ti, src_transform_fwd_I conv inp tj ti =
      fun j i v => padded_input conv inp (4 * tj + j.val) (4 * ti + i.val) v :=
    fun tj ti => funext fun j => funext fun i => funext fun v => h tj ti j i v
  simp only [h']

/-! ## Reduction engine -/

theorem foldl_once {S ι : Type} (f : S → ι → S) (P Q : S → Prop) (l : List ι) (hl : l.Nodup)
    (t0 : ι) (h0 : t0 ∈ l) (hP : ∀ s t, t ∈ l → t ≠ t0 → P s → P (f s t))
    (hQ : ∀ s t, t ∈ l → t ≠ t0 → Q s → Q (f s t)) (hPQ : ∀ s, P s → Q (f s t0)) (s : S)
    (hs : P s) : Q (l.foldl f s) := by
  induction l generalizing s with
  | nil => cases h0
  | cons t l ih =>
    have hnd := List.nodup_cons.mp hl
    by_cases ht : t = t0
    · subst ht
      refine foldl_invariant f Q l (fun s' t' ht' => hQ s' t' (List.mem_cons_of_mem _ ht') ?_) _
        (hPQ s hs)
      rintro rfl
      exact hnd.1 ht'
    · have h0' : t0 ∈ l := by
        rcases List.mem_cons.mp h0 with h | h
        · exact absurd h.symm ht
        · exact h
      exact ih hnd.2 h0' (fun s' t' ht' => hP s' t' (List.mem_cons_of_mem _ ht'))
        (fun s' t' ht' => hQ s' t' (List.mem_cons_of_mem _ ht')) _
        (hP s t (List.mem_cons_self _ _) ht hs)

/-- The accumulation loop `output[e] += src[e]` over `e = s .. s + n - 1`, when the
elements read from `src` are not among the elements written. -/
theorem add_loop_apply (output src : Nat) (n : Nat) : ∀ (s : Nat) (m : Buffer),
    (∀ e e', s ≤ e → e < s + n → s ≤ e' → e' < s + n → src + e ≠ output + e') → ∀ x,
    (List.range' s n).foldl
        (fun m e => Function.update m (output + e) (m (output + e) + m (src + e))) m x =
      if output + s ≤ x ∧ x < output + s + n then m x + m (src + (x - output)) else m x := by
  induction n with
  | zero =>
    intro s m _ x
    rw [if_neg (by omega)]
    rfl
  | succ n ih =>
    intro s m hd x
    rw [List.range'_succ, List.foldl_cons]
    rw [ih (s + 1) _ (fun e e' h1 h2 h3 h4 => hd e e' (by omega) (by omega) (by omega) (by omega))]
    by_cases hx : x = output + s
    · subst hx
      rw [if_neg (by omega), if_pos (by omega), Function.update_same]
      congr 2
      omega
    · by_cases hin : output + s ≤ x ∧ x < output + s + (n + 1)
      · rw [if_pos (by omega), if_pos hin, Function.update_noteq hx,
          Function.update_noteq (hd (x - output) s (by omega) (by omega) (by omega) (by omega))]
      · rw [if_neg (by omega), if_neg hin, Function.update_noteq hx]

/-- The accumulation loops of `array_sum` over a list `l` of buffers that do not overlap
the written range. -/
theorem add_loops_apply (output : Nat) (ptr : Nat → Nat) (s n : Nat) (l : List Nat) :
    ∀ (m : Buffer),
    (∀ a ∈ l, ∀ e e', s ≤ e → e < s + n → s ≤ e' → e' < s + n → ptr a + e ≠ output + e') → ∀ x,
    l.foldl (fun m a => (List.range' s n).foldl
        (fun m e => Function.update m (output + e) (m (output + e) + m (ptr a + e))) m) m x =
      if output + s ≤ x ∧ x < output + s + n then
        m x + (l.map fun a => m (ptr a + (x - output))).sum
      else m x := by
  induction l with
  | nil =>
    intro m _ x
    simp
  | cons a l ih =>
    intro m hd x
    rw [List.foldl_cons, ih _ (fun a' ha' => hd a' (List.mem_cons_of_mem _ ha'))]
    have ha := hd a (List.mem_cons_self _ _)
    by_cases hin : output + s ≤ x ∧ x < output + s + n
    · rw [if_pos hin, if_pos hin, add_loop_apply output (ptr a) n s m ha, if_pos hin]
      have hrest : ∀ a' ∈ l, (List.range' s n).foldl
          (fun m e => Function.update m (output + e) (m (output + e) + m (ptr a + e))) m
            (ptr a' + (x - output)) = m (ptr a' + (x - output)) := by
        intro a' ha'
        rw [add_loop_apply output (ptr a) n s m ha, if_neg]
        intro hc
        exact hd a' (List.mem_cons_of_mem _ ha') (x - output) (ptr a' + (x - output) - output)
          (by omega) (by omega) (by omega) (by omega) (by omega)
      rw [List.map_congr_left hrest, List.map_cons, List.sum_cons]
      ring
    · rw [if_neg hin, if_neg hin, add_loop_apply output (ptr a) n s m ha, if_neg hin]


/-- The loop nests of `array_sum` with `reduce_to_first` set, over the element range
`[s, t)`, when no buffer `1 .. num_arrs - 1` overlaps the written range. -/
theorem array_sum_range_apply (num_arrs output : Nat) (ptr : Nat → Nat) (s t : Nat) (m : Buffer)
    (hd : ∀ a, 1 ≤ a → a < num_arrs → ∀ e e', s ≤ e → e < t → s ≤ e' → e' < t →
      ptr a + e ≠ output + e') (x : Nat) :
    array_sum_range num_arrs output ptr true s t m x =
      if output + s ≤ x ∧ x < output + t then
        m x + ((List.range' 1 (num_arrs - 1)).map fun a => m (ptr a + (x - output))).sum
      else m x := by
  unfold array_sum_range
  simp only [Bool.not_true, Bool.false_eq_true, if_false]
  rw [add_loops_apply output ptr s (t - s) _ m]
  · by_cases h : output + s ≤ x ∧ x < output + t
    · rw [if_pos h, if_pos (by omega)]
    · rw [if_neg h, if_neg (by omega)]
  · intro a ha e e' h1 h2 h3 h4
    have := List.mem_range'_1.mp ha
    exact hd a (by omega) (by omega) e e' h1 (by omega) h3 (by omega)

theorem array_sum_thread_eq (balance211 : Nat → Nat → Nat → Nat × Nat) (num_arrs output : Nat)
    (nelems : Nat) (ptr : Nat → Nat) (r : Bool) (nthr ithr : Nat) (m : Buffer) :
    array_sum_thread balance211 num_arrs output nelems ptr r nthr ithr m =
      if nelems % 4096 ≠ 0 ∧ ithr = nthr - 1 then
        array_sum_range num_arrs output ptr r (nelems - nelems % 4096) nelems
          ((List.range' (balance211 (nelems / 4096) nthr ithr).1
            ((balance211 (nelems / 4096) nthr ithr).2 -
              (balance211 (nelems / 4096) nthr ithr).1)).foldl (fun m nb =>
            array_sum_range num_arrs output ptr r (nb * 4096) (nb * 4096 + 4096) m) m)
      else
        (List.range' (balance211 (nelems / 4096) nthr ithr).1
            ((balance211 (nelems / 4096) nthr ithr).2 -
              (balance211 (nelems / 4096) nthr ithr).1)).foldl (fun m nb =>
            array_sum_range num_arrs output ptr r (nb * 4096) (nb * 4096 + 4096) m) m :=
  rfl

theorem list_sum_range'_one (g : Nat → ℚ) (n : Nat) :
    ((List.range' 1 n).map g).sum = ∑ a in Finset.range n, g (a + 1) := by
  induction n with
  | zero => simp
  | succ n ih =>
    rw [List.range'_concat, List.map_append, List.sum_append, ih, Finset.sum_range_succ]
    simp [Nat.add_comm]


/-- Claim C6, uniform reduction: when `array_sum` is called as at its call sites
(`reduce_to_first` set, the destination is partial buffer 0 and no other partial buffer
overlaps it), the blocks are split among the threads so that every block belongs to
exactly one thread, and the threads run in any order, then afterwards `output[e]` is the
sum over all `a < num_arrs` of the initial `input_ptrs[a][e]`, for every `e < nelems`. -/
theorem array_sum_uniform (balance211 : Nat → Nat → Nat → Nat × Nat) (nthr : Nat)
    (schedule : List Nat) (num_arrs output nelems : Nat) (input_ptrs : Nat → Nat) (mem : Buffer)
    (hnthr : 1 ≤ nthr) (hnodup : schedule.Nodup) (hsched : ∀ t, t ∈ schedule ↔ t < nthr)
    (hin : ∀ ithr, ithr < nthr → ∀ nb, (balance211 (nelems / 4096) nthr ithr).1 ≤ nb →
      nb < (balance211 (nelems / 4096) nthr ithr).2 → nb < nelems / 4096)
    (hown : ∀ nb, nb < nelems / 4096 → ∃ ithr, ithr < nthr ∧
      (balance211 (nelems / 4096) nthr ithr).1 ≤ nb ∧
      nb < (balance211 (nelems / 4096) nthr ithr).2 ∧
      ∀ ithr', ithr' < nthr → (balance211 (nelems / 4096) nthr ithr').1 ≤ nb →
        nb < (balance211 (nelems / 4096) nthr ithr').2 → ithr' = ithr)
    (hnum : 1 ≤ num_arrs) (hfirst : input_ptrs 0 = output)
    (hdisj : ∀ a, 1 ≤ a → a < num_arrs → ∀ e e', e < nelems → e' < nelems →
      input_ptrs a + e ≠ output + e')
    (e : Nat) (he : e < nelems) :
    array_sum balance211 nthr schedule num_arrs output nelems input_ptrs true mem (output + e) =
      ∑ a in Finset.range num_arrs, mem (input_ptrs a + e) := by
  have hdiv : nelems / 4096 * 4096 + nelems % 4096 = nelems := Nat.div_add_mod' nelems 4096
  -- facts about one element range `[s, t)` with `t ≤ nelems`
  have Rframe : ∀ (s t : Nat) (m : Buffer) (x : Nat), t ≤ nelems →
      ¬ (output + s ≤ x ∧ x < output + t) →
      array_sum_range num_arrs output input_ptrs true s t m x = m x := by
    intro s t m x ht hx
    rw [array_sum_range_apply _ _ _ _ _ _
      (fun a h1 h2 e1 e2 _ h4 _ h6 => hdisj a h1 h2 e1 e2 (by omega) (by omega)), if_neg hx]
  have Rinv : ∀ (s t : Nat) (m : Buffer), t ≤ nelems →
      (∀ a, 1 ≤ a → a < num_arrs → ∀ e', e' < nelems →
        m (input_ptrs a + e') = mem (input_ptrs a + e')) →
      ∀ a, 1 ≤ a → a < num_arrs → ∀ e', e' < nelems →
        array_sum_range num_arrs output input_ptrs true s t m (input_ptrs a + e') =
          mem (input_ptrs a + e') := by
    intro s t m ht hm a h1 h2 e' he'
    rw [Rframe s t m _ ht ?_]
    · exact hm a h1 h2 e' he'
    · intro hc
      exact hdisj a h1 h2 e' (input_ptrs a + e' - output) he' (by omega) (by omega)
  have Rval : ∀ (s t : Nat) (m : Buffer), t ≤ nelems →
      (∀ a, 1 ≤ a → a < num_arrs → ∀ e', e' < nelems →
        m (input_ptrs a + e') = mem (input_ptrs a + e')) → s ≤ e → e < t →
      array_sum_range num_arrs output input_ptrs true s t m (output + e) =
        m (output + e) +
          ((List.range' 1 (num_arrs - 1)).map fun a => mem (input_ptrs a + e)).sum := by
    intro s t m ht hm h1 h2
    rw [array_sum_range_apply _ _ _ _ _ _
      (fun a h1 h2 e1 e2 _ h4 _ h6 => hdisj a h1 h2 e1 e2 (by omega) (by omega)),
      if_pos (by omega), Nat.add_sub_cancel_left]
    congr 2
    refine List.map_congr_left fun a ha => ?_
    have := List.mem_range'_1.mp ha
    exact hm a (by omega) (by omega) e he
  -- the blocks of a thread lie below `nelems`
  have hL : ∀ ithr nb, ithr < nthr →
      nb ∈ List.range' (balance211 (nelems / 4096) nthr ithr).1
        ((balance211 (nelems / 4096) nthr ithr).2 - (balance211 (nelems / 4096) nthr ithr).1) →
      (balance211 (nelems / 4096) nthr ithr).1 ≤ nb ∧
        nb < (balance211 (nelems / 4096) nthr ithr).2 ∧ nb * 4096 + 4096 ≤ nelems := by
    intro ithr nb hi hnb
    have h := List.mem_range'_1.mp hnb
    have h2 : nb < (balance211 (nelems / 4096) nthr ithr).2 := by omega
    have h3 := hin ithr hi nb h.1 h2
    refine ⟨h.1, h2, ?_⟩
    have := Nat.mul_le_mul_right 4096 (Nat.succ_le_of_lt h3)
    omega
  -- facts about the body of one thread
  have Tinv : ∀ ithr (m : Buffer), ithr < nthr →
      (∀ a, 1 ≤ a → a < num_arrs → ∀ e', e' < nelems →
        m (input_ptrs a + e') = mem (input_ptrs a + e')) →
      ∀ a, 1 ≤ a → a < num_arrs → ∀ e', e' < nelems →
        array_sum_thread balance211 num_arrs output nelems input_ptrs true nthr ithr m
          (input_ptrs a + e') = mem (input_ptrs a + e') := by
    intro ithr m hi hm
    have hb := foldl_invariant
      (fun (m : Buffer) (nb : Nat) =>
        array_sum_range num_arrs output input_ptrs true (nb * 4096) (nb * 4096 + 4096) m)
      (fun m' : Buffer => ∀ a, 1 ≤ a → a < num_arrs → ∀ e', e' < nelems →
        m' (input_ptrs a + e') = mem (input_ptrs a + e')) _
      (fun m' nb hnb hm' => Rinv _ _ m' (hL ithr nb hi hnb).2.2 hm') m hm
    rw [array_sum_thread_eq]
    split
    · exact Rinv _ _ _ (le_refl _) hb
    · exact hb
  have Tframe : ∀ ithr (m : Buffer), ithr < nthr →
      (∀ nb, (balance211 (nelems / 4096) nthr ithr).1 ≤ nb →
        nb < (balance211 (nelems / 4096) nthr ithr).2 → ¬ (nb * 4096 ≤ e ∧ e < nb * 4096 + 4096)) →
      ¬ (nelems % 4096 ≠ 0 ∧ ithr = nthr - 1 ∧ nelems - nelems % 4096 ≤ e) →
      array_sum_thread balance211 num_arrs output nelems input_ptrs true nthr ithr m
        (output + e) = m (output + e) := by
    intro ithr m hi hblocks htail
    have hb := foldl_invariant
      (fun (m : Buffer) (nb : Nat) =>
        array_sum_range num_arrs output input_ptrs true (nb * 4096) (nb * 4096 + 4096) m)
      (fun m' : Buffer => m' (output + e) = m (output + e)) _
      (fun m' nb hnb hm' => by
        have h := hL ithr nb hi hnb
        have h' := hblocks nb h.1 h.2.1
        show array_sum_range _ _ _ _ _ _ m' (output + e) = m (output + e)
        rw [Rframe _ _ m' _ h.2.2 (by omega)]
        exact hm') m rfl
    rw [array_sum_thread_eq]
    split
    · rename_i hc
      rw [Rframe _ _ _ _ (le_refl _) (by omega)]
      exact hb
    · exact hb
  have Tblock : ∀ ithr (m : Buffer) nb0, ithr < nthr →
      (balance211 (nelems / 4096) nthr ithr).1 ≤ nb0 →
      nb0 < (balance211 (nelems / 4096) nthr ithr).2 → nb0 * 4096 ≤ e → e < nb0 * 4096 + 4096 →
      (∀ a, 1 ≤ a → a < num_arrs → ∀ e', e' < nelems →
        m (input_ptrs a + e') = mem (input_ptrs a + e')) →
      array_sum_thread balance211 num_arrs output nelems input_ptrs true nthr ithr m
        (output + e) = m (output + e) +
          ((List.range' 1 (num_arrs - 1)).map fun a => mem (input_ptrs a + e)).sum := by
    intro ithr m nb0 hi h1 h2 h3 h4 hm
    have hmem : nb0 ∈ List.range' (balance211 (nelems / 4096) nthr ithr).1
        ((balance211 (nelems / 4096) nthr ithr).2 - (balance211 (nelems / 4096) nthr ithr).1) :=
      List.mem_range'_1.mpr ⟨h1, by omega⟩
    have hb := foldl_once
      (fun (m : Buffer) (nb : Nat) =>
        array_sum_range num_arrs output input_ptrs true (nb * 4096) (nb * 4096 + 4096) m)
      (fun m' : Buffer => (∀ a, 1 ≤ a → a < num_arrs → ∀ e', e' < nelems →
        m' (input_ptrs a + e') = mem (input_ptrs a + e')) ∧ m' (output + e) = m (output + e))
      (fun m' : Buffer => m' (output + e) = m (output + e) +
          ((List.range' 1 (num_arrs - 1)).map fun a => mem (input_ptrs a + e)).sum)
      _ (List.nodup_range' _ _) nb0 hmem
      (fun m' nb hnb hne hm' => by
        have h := hL ithr nb hi hnb
        refine ⟨Rinv _ _ m' h.2.2 hm'.1, ?_⟩
        show array_sum_range _ _ _ _ _ _ m' (output + e) = m (output + e)
        rw [Rframe _ _ m' _ h.2.2 (by omega)]
        exact hm'.2)
      (fun m' nb hnb hne hm' => by
        have h := hL ithr nb hi hnb
        show array_sum_range _ _ _ _ _ _ m' (output + e) = _
        rw [Rframe _ _ m' _ h.2.2 (by omega)]
        exact hm')
      (fun m' hm' => by
        have h := hL ithr nb0 hi hmem
        show array_sum_range _ _ _ _ _ _ m' (output + e) = _
        rw [Rval _ _ m' h.2.2 hm'.1 h3 h4, hm'.2]) m ⟨hm, rfl⟩
    have hnb0 := (hL ithr nb0 hi hmem).2.2
    rw [array_sum_thread_eq]
    split
    · rw [Rframe _ _ _ _ (le_refl _) (by omega)]
      exact hb
    · exact hb
  have Ttail : ∀ (m : Buffer), nelems % 4096 ≠ 0 → nelems - nelems % 4096 ≤ e →
      (∀ a, 1 ≤ a → a < num_arrs → ∀ e', e' < nelems →
        m (input_ptrs a + e') = mem (input_ptrs a + e')) →
      array_sum_thread balance211 num_arrs output nelems input_ptrs true nthr (nthr - 1) m
        (output + e) = m (output + e) +
          ((List.range' 1 (num_arrs - 1)).map fun a => mem (input_ptrs a + e)).sum := by
    intro m ht hle hm
    have hi : nthr - 1 < nthr := by omega
    have hb := foldl_invariant
      (fun (m : Buffer) (nb : Nat) =>
        array_sum_range num_arrs output input_ptrs true (nb * 4096) (nb * 4096 + 4096) m)
      (fun m' : Buffer => (∀ a, 1 ≤ a → a < num_arrs → ∀ e', e' < nelems →
        m' (input_ptrs a + e') = mem (input_ptrs a + e')) ∧ m' (output + e) = m (output + e)) _
      (fun m' nb hnb hm' => by
        have h := hL (nthr - 1) nb hi hnb
        have h3 := hin (nthr - 1) hi nb h.1 h.2.1
        have := Nat.mul_le_mul_right 4096 (Nat.succ_le_of_lt h3)
        refine ⟨Rinv _ _ m' h.2.2 hm'.1, ?_⟩
        show array_sum_range _ _ _ _ _ _ m' (output + e) = m (output + e)
        rw [Rframe _ _ m' _ h.2.2 (by omega)]
        exact hm'.2) m ⟨hm, rfl⟩
    rw [array_sum_thread_eq, if_pos ⟨ht, rfl⟩, Rval _ _ _ (le_refl _) hb.1 hle he, hb.2]
  -- the threads in the order of the schedule
  have hmain : array_sum balance211 nthr schedule num_arrs output nelems input_ptrs true mem
      (output + e) = mem (output + e) +
        ((List.range' 1 (num_arrs - 1)).map fun a => mem (input_ptrs a + e)).sum := by
    unfold array_sum
    by_cases hblk : e < nelems / 4096 * 4096
    · have hnb0 : e / 4096 < nelems / 4096 := by omega
      obtain ⟨t0, ht0, hs0, he0, huniq⟩ := hown (e / 4096) hnb0
      have hframe : ∀ t (m' : Buffer), t ∈ schedule → t ≠ t0 →
          array_sum_thread balance211 num_arrs output nelems input_ptrs true nthr t m'
            (output + e) = m' (output + e) := by
        intro t m' ht hne
        have ht' := (hsched t).mp ht
        refine Tframe t m' ht' ?_ (by omega)
        intro nb h1 h2 hc
        have : nb = e / 4096 := by omega
        subst this
        exact hne (huniq t ht' h1 h2)
      exact foldl_once
        (fun (m : Buffer) (ithr : Nat) =>
          array_sum_thread balance211 num_arrs output nelems input_ptrs true nthr ithr m)
        (fun m' : Buffer => (∀ a, 1 ≤ a → a < num_arrs → ∀ e', e' < nelems →
          m' (input_ptrs a + e') = mem (input_ptrs a + e')) ∧
          m' (output + e) = mem (output + e))
        (fun m' : Buffer => m' (output + e) = mem (output + e) +
          ((List.range' 1 (num_arrs - 1)).map fun a => mem (input_ptrs a + e)).sum)
        schedule hnodup t0 ((hsched t0).mpr ht0)
        (fun m' t ht hne hm' =>
          ⟨Tinv t m' ((hsched t).mp ht) hm'.1, (hframe t m' ht hne).trans hm'.2⟩)
        (fun m' t ht hne hm' => (hframe t m' ht hne).trans hm')
        (fun m' hm' => by
          show array_sum_thread _ _ _ _ _ _ _ t0 m' (output + e) = _
          rw [Tblock t0 m' (e / 4096) ht0 hs0 he0 (by omega) (by omega) hm'.1, hm'.2])
        mem ⟨fun _ _ _ _ _ => rfl, rfl⟩
    · have htail : nelems % 4096 ≠ 0 := by omega
      have hframe : ∀ t (m' : Buffer), t ∈ schedule → t ≠ nthr - 1 →
          array_sum_thread balance211 num_arrs output nelems input_ptrs true nthr t m'
            (output + e) = m' (output + e) := by
        intro t m' ht hne
        have ht' := (hsched t).mp ht
        refine Tframe t m' ht' ?_ (fun hc => hne hc.2.1)
        intro nb h1 h2 hc
        have h3 := hin t ht' nb h1 h2
        have := Nat.mul_le_mul_right 4096 (Nat.succ_le_of_lt h3)
        omega
      exact foldl_once
        (fun (m : Buffer) (ithr : Nat) =>
          array_sum_thread balance211 num_arrs output nelems input_ptrs true nthr ithr m)
        (fun m' : Buffer => (∀ a, 1 ≤ a → a < num_arrs → ∀ e', e' < nelems →
          m' (input_ptrs a + e') = mem (input_ptrs a + e')) ∧
          m' (output + e) = mem (output + e))
        (fun m' : Buffer => m' (output + e) = mem (output + e) +
          ((List.range' 1 (num_arrs - 1)).map fun a => mem (input_ptrs a + e)).sum)
        schedule hnodup (nthr - 1) ((hsched _).mpr (by omega))
        (fun m' t ht hne hm' =>
          ⟨Tinv t m' ((hsched t).mp ht) hm'.1, (hframe t m' ht hne).trans hm'.2⟩)
        (fun m' t ht hne hm' => (hframe t m' ht hne).trans hm')
        (fun m' hm' => by
          show array_sum_thread _ _ _ _ _ _ _ (nthr - 1) m' (output + e) = _
          rw [Ttail m' htail (by omega) hm'.1, hm'.2])
        mem ⟨fun _ _ _ _ _ => rfl, rfl⟩
  rw [hmain, list_sum_range'_one]
  obtain ⟨k, rfl⟩ : ∃ k, num_arrs = k + 1 := ⟨num_arrs - 1, by omega⟩
  rw [Finset.sum_range_succ', hfirst, Nat.add_sub_cancel]
  ring

/-- Instance of `array_sum_uniform`: two buffers of 4097 elements holding their own
addresses, two threads run in the order 1, 0; element 4096 of the tail becomes
`4096 + 8193`. -/
theorem array_sum_uniform_witness :
    array_sum balance_all_to_first 2 [1, 0] 2 0 4097 (fun a => 4097 * a) true
      (fun x => (x : ℚ)) (0 + 4096) = 12289 :=
  (array_sum_uniform balance_all_to_first 2 [1, 0] 2 0 4097 (fun a => 4097 * a)
    (fun x => (x : ℚ)) (by decide) (by decide)
    (by intro t; simp only [List.mem_cons, List.mem_singleton, List.not_mem_nil, or_false]; omega)
    (by
      intro ithr hi nb h1 h2
      interval_cases ithr
      · simpa [balance_all_to_first] using h2
      · simp [balance_all_to_first] at h2)
    (by
      intro nb hnb
      refine ⟨0, by decide, ?_, ?_, ?_⟩
      · simp [balance_all_to_first]
      · simpa [balance_all_to_first] using hnb
      · intro ithr' hi h1 h2
        interval_cases ithr' <;> simp [balance_all_to_first] at h1 h2 ⊢)
    (by decide) rfl
    (by
      intro a h1 h2 e e' he he'
      have : a = 1 := by omega
      subst this
      show 4097 * 1 + e ≠ 0 + e'
      omega)
    4096 (by decide)).trans (by norm_num [Finset.sum_range_succ])

/-- Claim C7, ragged reduction, fails in the tail of `subarray_sum`: with two buffers
of two elements, buffer 0 covering `[0, 2)` and buffer 1 covering `[0, 1)`, the code
leaves `output[1] = 101`, the sum of both buffers at element 1, whereas the sum over the
buffers whose range contains element 1 is `2`. -/
theorem subarray_sum_tail_defect :
    subarray_sum balance_all_to_first 1 [0] 2 0 2 (fun a => 2 + 2 * a) (fun _ => 0)
        (fun a => if a = 0 then 2 else 1) subarray_sum_tail_mem (0 + 1) = 101 ∧
      ∑ a in (Finset.range 2).filter (fun a => (fun _ => 0) a ≤ 1 ∧
          1 < (fun a => if a = 0 then 2 else 1) a),
        subarray_sum_tail_mem ((fun a => 2 + 2 * a) a + 1) = 2 := by
  decide!


/-- Claim C10, linearity: each of the seven transform kernels maps `a X + b Y` to
`a T(X) + b T(Y)` in exact arithmetic, and lane `v` (lanes `(j, v)` for the kernels on
`[16][16]` blocks) of its output is computed from lane `v` of its input alone. -/
theorem transform_kernels_linear (a b : ℚ) :
    (∀ X Y : Tile 6 6, trans_I_4x4_3x3 (a • X + b • Y) =
      a • trans_I_4x4_3x3 X + b • trans_I_4x4_3x3 Y) ∧
    (∀ X Y : Tile 6 6, trans_O_4x4_3x3 (a • X + b • Y) =
      a • trans_O_4x4_3x3 X + b • trans_O_4x4_3x3 Y) ∧
    (∀ X Y : Tile2 3 3, trans_W_4x4_3x3 (a • X + b • Y) =
      a • trans_W_4x4_3x3 X + b • trans_W_4x4_3x3 Y) ∧
    (∀ X Y : Tile 4 6, trans_W_3x3_4x4_wu (a • X + b • Y) =
      a • trans_W_3x3_4x4_wu X + b • trans_W_3x3_4x4_wu Y) ∧
    (∀ X Y : Tile2 6 6, trans_O_3x3_4x4_wu (a • X + b • Y) =
      a • trans_O_3x3_4x4_wu X + b • trans_O_3x3_4x4_wu Y) ∧
    (∀ X Y : Tile 4 6, trans_W_3x3_4x4 (a • X + b • Y) =
      a • trans_W_3x3_4x4 X + b • trans_W_3x3_4x4 Y) ∧
    (∀ X Y : Tile2 6 6, trans_O_3x3_4x4 (a • X + b • Y) =
      a • trans_O_3x3_4x4 X + b • trans_O_3x3_4x4 Y) ∧
    (∀ (X : Tile 6 6) (v : Fin 16) i c,
      trans_I_4x4_3x3 X i c v = trans_I_4x4_3x3 (fun r s _ => X r s v) i c v) ∧
    (∀ (X : Tile 6 6) (v : Fin 16) i c,
      trans_O_4x4_3x3 X i c v = trans_O_4x4_3x3 (fun r s _ => X r s v) i c v) ∧
    (∀ (X : Tile2 3 3) (j k : Fin 16) i c,
      trans_W_4x4_3x3 X i c j k = trans_W_4x4_3x3 (fun r s _ _ => X r s j k) i c j k) ∧
    (∀ (X : Tile 4 6) (v : Fin 16) i c,
      trans_W_3x3_4x4_wu X i c v = trans_W_3x3_4x4_wu (fun r s _ => X r s v) i c v) ∧
    (∀ (X : Tile2 6 6) (j v : Fin 16) i c,
      trans_O_3x3_4x4_wu X i c j v = trans_O_3x3_4x4_wu (fun r s _ _ => X r s j v) i c j v) ∧
    (∀ (X : Tile 4 6) (v : Fin 16) i c,
      trans_W_3x3_4x4 X i c v = trans_W_3x3_4x4 (fun r s _ => X r s v) i c v) ∧
    (∀ (X : Tile2 6 6) (j v : Fin 16) i c,
      trans_O_3x3_4x4 X i c j v = trans_O_3x3_4x4 (fun r s _ _ => X r s j v) i c j v) := by
  refine ⟨?_, ?_, ?_, ?_, ?_, ?_, ?_, fun _ _ _ _ => rfl, fun _ _ _ _ => rfl,
    fun _ _ _ _ _ => rfl, fun _ _ _ _ => rfl, fun _ _ _ _ _ => rfl, fun _ _ _ _ => rfl,
    fun _ _ _ _ _ => rfl⟩
  · intro X Y
    funext i c v
    simp only [trans_I_4x4_3x3_eq, Pi.add_apply, Pi.smul_apply, smul_eq_mul, Finset.mul_sum,
      ← Finset.sum_add_distrib]
    exact Finset.sum_congr rfl fun _ _ => Finset.sum_congr rfl fun _ _ => by ring
  · intro X Y
    funext i c v
    simp only [trans_O_4x4_3x3_eq, Pi.add_apply, Pi.smul_apply, smul_eq_mul, Finset.mul_sum,
      ← Finset.sum_add_distrib]
    exact Finset.sum_congr rfl fun _ _ => Finset.sum_congr rfl fun _ _ => by ring
  · intro X Y
    funext i c j k
    simp only [trans_W_4x4_3x3_eq, Pi.add_apply, Pi.smul_apply, smul_eq_mul, Finset.mul_sum,
      ← Finset.sum_add_distrib]
    exact Finset.sum_congr rfl fun _ _ => Finset.sum_congr rfl fun _ _ => by ring
  · intro X Y
    funext i c v
    simp only [trans_W_3x3_4x4_wu_eq, Pi.add_apply, Pi.smul_apply, smul_eq_mul, Finset.mul_sum,
      ← Finset.sum_add_distrib]
    exact Finset.sum_congr rfl fun _ _ => Finset.sum_congr rfl fun _ _ => by ring
  · intro X Y
    funext i c j v
    simp only [trans_O_3x3_4x4_wu_eq, Pi.add_apply, Pi.smul_apply, smul_eq_mul, Finset.mul_sum,
      ← Finset.sum_add_distrib]
    exact Finset.sum_congr rfl fun _ _ => Finset.sum_congr rfl fun _ _ => by ring
  · intro X Y
    funext i c v
    have hT : ∀ r s, trans_W_3x3_4x4_T (a • X + b • Y) r s v =
        a * trans_W_3x3_4x4_T X r s v + b * trans_W_3x3_4x4_T Y r s v := by
      intro r s
      fin_cases r <;>
        simp [trans_W_3x3_4x4_T, Pi.add_apply, Pi.smul_apply, smul_eq_mul] <;> ring
    fin_cases c <;>
      simp [trans_W_3x3_4x4, hT, Pi.add_apply, Pi.smul_apply, smul_eq_mul] <;> ring
  · intro X Y
    funext i c j v
    have hT : ∀ r s, trans_O_3x3_4x4_T (a • X + b • Y) j r s v =
        a * trans_O_3x3_4x4_T X j r s v + b * trans_O_3x3_4x4_T Y j r s v := by
      intro r s
      fin_cases r <;>
        simp [trans_O_3x3_4x4_T, Pi.add_apply, Pi.smul_apply, smul_eq_mul] <;> ring
    fin_cases c <;>
      simp [trans_O_3x3_4x4, hT, Pi.add_apply, Pi.smul_apply, smul_eq_mul] <;> ring

/-! ## Composition of a transform with an inverse transform -/

theorem sum_mul_sum_assoc {κ α : Type} [Fintype κ] [Fintype α] (u : κ → ℚ) (B : κ → α → ℚ)
    (d : α → ℚ) : ∑ k, u k * ∑ a, B k a * d a = ∑ a, (∑ k, u k * B k a) * d a := by
  simp only [Finset.mul_sum, Finset.sum_mul]
  rw [Finset.sum_comm]
  exact Finset.sum_congr rfl fun a _ => Finset.sum_congr rfl fun k _ => by ring

/-- A kernel with matrix `B` followed by a kernel with matrix `A` applies the product
matrix on both sides. -/
theorem sandwich {m n : Nat} (A : Fin m → Fin 6 → ℚ) (B : Fin 6 → Fin n → ℚ) (y x : Fin m)
    (X : Fin n → Fin n → ℚ) :
    ∑ l, A x l * ∑ k, A y k * ∑ b, B l b * ∑ a, B k a * X a b =
      ∑ a, ∑ b, (∑ k, A y k * B k a) * (∑ l, A x l * B l b) * X a b := by
  have h1 : ∀ l, ∑ k, A y k * ∑ b, B l b * ∑ a, B k a * X a b =
      ∑ b, B l b * ∑ a, (∑ k, A y k * B k a) * X a b := by
    intro l
    rw [sum_mul_sum_comm]
    exact Finset.sum_congr rfl fun b _ => by rw [sum_mul_sum_assoc]
  simp only [h1]
  rw [sum_mul_sum_assoc]
  rw [sum_mul_sum_comm (fun b => ∑ l, A x l * B l b) (fun a => ∑ k, A y k * B k a)
    (fun b a => X a b)]
  refine Finset.sum_congr rfl fun a _ => ?_
  rw [Finset.mul_sum]
  exact Finset.sum_congr rfl fun b _ => by ring


theorem AtBt_eq : ∀ (y : Fin 4) (a : Fin 6), ∑ k, At y k * Bt k a = AtBt y a := by
  decide!

theorem AwuGwu_eq : ∀ (p : Fin 3) (a : Fin 4), ∑ k, Awu p k * Gwu k a = AwuGwu p a := by
  decide!

/-- Claim C8 fails at the unit tile: the forward input transform followed by the
forward output transform maps the 4x4 tile with a single 1 at `(0, 0)` to `50625 / 65536`
at `(0, 0)`, which is not within `1e-5` times the absolute sum of the tile from 1. -/
theorem roundtrip_forward_counterexample :
    trans_O_4x4_3x3 (trans_I_4x4_3x3 (pad_4x4 (unit_tile 3))) 0 0 0 = 50625 / 65536 ∧
      unit_tile 3 0 0 0 = 1 ∧
      ¬ |trans_O_4x4_3x3 (trans_I_4x4_3x3 (pad_4x4 (unit_tile 3))) 0 0 0 - unit_tile 3 0 0 0| ≤
        1e-5 * ∑ a, ∑ b, |unit_tile 3 a b 0| := by
  decide!

/-- Claim C8 as amended: `trans_O_4x4_3x3` after `trans_I_4x4_3x3` is, per lane, the
map `X ↦ P X Pᵀ` with the fixed 4x6 matrix `P = AtBt`, for every 6x6 input tile (in
particular for a zero-padded 4x4 tile); the zero tile is reproduced exactly. -/
theorem roundtrip_forward_composite :
    (∀ (X : Tile 6 6) (y x : Fin 4) (v : Fin 16),
      trans_O_4x4_3x3 (trans_I_4x4_3x3 X) y x v = ∑ a, ∑ b, AtBt y a * AtBt x b * X a b v) ∧
    trans_O_4x4_3x3 (trans_I_4x4_3x3 (pad_4x4 fun _ _ _ => 0)) = fun _ _ _ => 0 := by
  have h : ∀ (X : Tile 6 6) (y x : Fin 4) (v : Fin 16),
      trans_O_4x4_3x3 (trans_I_4x4_3x3 X) y x v = ∑ a, ∑ b, AtBt y a * AtBt x b * X a b v := by
    intro X y x v
    rw [trans_O_4x4_3x3_eq]
    simp only [trans_I_4x4_3x3_eq]
    rw [sandwich At Bt y x (fun a b => X a b v)]
    simp only [AtBt_eq]
  refine ⟨h, ?_⟩
  funext y x v
  rw [h]
  simp [pad_4x4]

/-- Claim C9 fails at the unit tile: the backward-weights gradient transform followed
by the backward-weights output transform maps the 3x3 tile with a single 1 at `(0, 0)` to
`1 / 250000000000000000000000000000` at `(0, 0)`, which is not within `1e-5` times the
absolute sum of the tile from 1. -/
theorem roundtrip_backward_weights_counterexample :
    trans_O_3x3_4x4_wu (broadcast_lane (trans_W_3x3_4x4_wu (pad_3x3 (unit_tile 2)))) 0 0 0 0 =
        1 / 250000000000000000000000000000 ∧
      unit_tile 2 0 0 0 = 1 ∧
      ¬ |trans_O_3x3_4x4_wu (broadcast_lane (trans_W_3x3_4x4_wu (pad_3x3 (unit_tile 2)))) 0 0 0 0 -
          unit_tile 2 0 0 0| ≤ 1e-5 * ∑ a, ∑ b, |unit_tile 2 a b 0| := by
  decide!

/-- Claim C9 as amended: `trans_O_3x3_4x4_wu` after `trans_W_3x3_4x4_wu` is, per lane,
the map `X ↦ P X Pᵀ` with the fixed 3x4 matrix `P = AwuGwu`, for every input tile (in
particular for a zero-padded 3x3 tile); the zero tile is reproduced exactly. -/
theorem roundtrip_backward_weights_composite :
    (∀ (F : Tile 4 6) (p q : Fin 3) (j v : Fin 16),
      trans_O_3x3_4x4_wu (broadcast_lane (trans_W_3x3_4x4_wu F)) p q j v =
        ∑ a : Fin 4, ∑ b : Fin 4, AwuGwu p a * AwuGwu q b * F a (Fin.castLE (by decide) b) v) ∧
    trans_O_3x3_4x4_wu (broadcast_lane (trans_W_3x3_4x4_wu (pad_3x3 fun _ _ _ => 0))) =
      fun _ _ _ _ => 0 := by
  have h : ∀ (F : Tile 4 6) (p q : Fin 3) (j v : Fin 16),
      trans_O_3x3_4x4_wu (broadcast_lane (trans_W_3x3_4x4_wu F)) p q j v =
        ∑ a : Fin 4, ∑ b : Fin 4,
          AwuGwu p a * AwuGwu q b * F a (Fin.castLE (by decide) b) v := by
    intro F p q j v
    rw [trans_O_3x3_4x4_wu_eq]
    simp only [broadcast_lane, trans_W_3x3_4x4_wu_eq]
    rw [sandwich Awu Gwu p q (fun a b => F a (Fin.castLE (by decide) b) v)]
    simp only [AwuGwu_eq]
  refine ⟨h, ?_⟩
  funext p q j v
  rw [h]
  simp [pad_3x3]

/-! ## Reference form of the input transform, streaming-store flags, rolling counters -/

/-- Claim C20, reference definition of the input transform: per lane `v`, for every
6x6 tile `X`, `trans_I_4x4_3x3 X = Bt * X * transpose Bt` exactly over the rationals,
where `Bt` is the 6x6 matrix with the listed rows; the first pass (`trans_I_4x4_3x3_T`)
applies `Bt` along the first index and the second pass applies it along the second
index. -/
theorem trans_I_4x4_3x3_reference (X : Tile 6 6) (v : Fin 16) :
    Bt = ![![225 / 256, 0, -169 / 64, 0, 1, 0],
           ![0, -45 / 32, -9 / 4, 5 / 8, 1, 0],
           ![0, 45 / 32, -9 / 4, -5 / 8, 1, 0],
           ![0, -75 / 128, -25 / 64, 3 / 2, 1, 0],
           ![0, 75 / 128, -25 / 64, -3 / 2, 1, 0],
           ![0, 225 / 256, 0, -169 / 64, 0, 1]] ∧
    (Matrix.of fun k l => trans_I_4x4_3x3 X k l v) =
        Matrix.of Bt * Matrix.of (fun a b => X a b v) * (Matrix.of Bt).transpose ∧
    (∀ r i : Fin 6, trans_I_4x4_3x3_T X r i v = ∑ a, Bt r a * X a i v) ∧
    (∀ k l : Fin 6, trans_I_4x4_3x3 X k l v = ∑ b, Bt l b * trans_I_4x4_3x3_T X k b v) := by
  refine ⟨rfl, ?_, fun r i => trans_I_4x4_3x3_T_eq X r i v, ?_⟩
  · ext k l
    simp only [Matrix.of_apply, Matrix.mul_apply, Matrix.transpose_apply,
      trans_I_4x4_3x3_eq]
    refine Finset.sum_congr rfl (fun b _ => ?_)
    ring
  · intro k l
    rw [trans_I_4x4_3x3_eq]
    refine Finset.sum_congr rfl (fun b _ => ?_)
    rw [trans_I_4x4_3x3_T_eq]

/-- Claim C19, streaming-store decision: when the `int` product `ntiles * ch * 36` and
the `unsigned int` product `2 * LLC_cache_size` do not overflow, `V_streamout` is true
exactly when `ntiles * ic * 36 * 4 > 2 * LLC_cache_size` and `M_streamout` is true
exactly when `ntiles * oc * 36 * 4 > 2 * LLC_cache_size` (strict inequalities). -/
theorem streamout_decision (jcp : jit_conv_winograd_conf_t) (LLC_cache_size : Nat)
    (hic : jcp.ntiles * jcp.ic * 36 < 2 ^ 31) (hoc : jcp.ntiles * jcp.oc * 36 < 2 ^ 31)
    (hllc : 2 * LLC_cache_size < 2 ^ 32) :
    (V_streamout jcp LLC_cache_size = true ↔
        jcp.ntiles * jcp.ic * 36 * 4 > 2 * LLC_cache_size) ∧
      (M_streamout jcp LLC_cache_size = true ↔
        jcp.ntiles * jcp.oc * 36 * 4 > 2 * LLC_cache_size) := by
  have e1 : (jcp.ntiles * jcp.ic * 6 * 6 * 4) % 2 ^ 64 = jcp.ntiles * jcp.ic * 36 * 4 := by
    rw [Nat.mod_eq_of_lt (by omega)]
    ring
  have e2 : (jcp.ntiles * jcp.oc * 6 * 6 * 4) % 2 ^ 64 = jcp.ntiles * jcp.oc * 36 * 4 := by
    rw [Nat.mod_eq_of_lt (by omega)]
    ring
  have e3 : (2 * LLC_cache_size) % 2 ^ 32 = 2 * LLC_cache_size := Nat.mod_eq_of_lt hllc
  unfold V_streamout M_streamout
  rw [e1, e2, e3]
  simp

theorem streamout_decision_witness :
    (V_streamout conv_example 1000 = true ↔
        conv_example.ntiles * conv_example.ic * 36 * 4 > 2 * 1000) ∧
      (M_streamout conv_example 1000 = true ↔
        conv_example.ntiles * conv_example.oc * 36 * 4 > 2 * 1000) :=
  streamout_decision conv_example 1000 (by decide) (by decide) (by decide)

theorem foldl_fst_iterate {C M ι : Type} (step : C × M → ι → C × M) (nx : C → C)
    (h : ∀ st t, (step st t).1 = nx st.1) (l : List ι) (st : C × M) :
    (l.foldl step st).1 = nx^[l.length] st.1 := by
  induction l generalizing st with
  | nil => rfl
  | cons t l ih =>
    rw [List.foldl_cons, ih, h, List.length_cons, Function.iterate_succ_apply]

/-- The counters after `a` full rows of `b` tiles and `t` further tiles, for any tile
loop whose body updates the counters by `nx`. -/
theorem loop_counters_iterate {C M : Type} (W : C × M → Nat → Nat → M) (nx : C → C)
    (a b t : Nat) (st : C × M) :
    ((List.range t).foldl (fun st ti => (nx st.1, W st a ti))
      ((List.range a).foldl (fun st tj =>
        (List.range b).foldl (fun st ti => (nx st.1, W st tj ti)) st) st)).1 =
      nx^[a * b + t] st.1 := by
  rw [foldl_fst_iterate (fun st ti => (nx st.1, W st a ti)) nx (fun _ _ => rfl),
    foldl_fst_iterate (fun (st : C × M) tj =>
      (List.range b).foldl (fun st ti => (nx st.1, W st tj ti)) st) (nx^[b]) ?_,
    List.length_range, List.length_range, ← Function.iterate_mul, ← Function.iterate_add_apply,
    Nat.mul_comm b a, Nat.add_comm]
  intro st' tj
  rw [foldl_fst_iterate (fun st ti => (nx st.1, W st tj ti)) nx (fun _ _ => rfl),
    List.length_range]

/-- The decomposition of a flat tile index into the three counters. -/
theorem tile_counters_iterate (conv : jit_conv_winograd_conf_t) (image k : Nat)
    (hur : 1 ≤ conv.tile_block_ur) (hnb : 1 ≤ conv.nb_tile_block_ur) :
    (tile_counters_next conv)^[k] (tile_counters_init conv image) =
      { tile_block_ur := (image * conv.itiles * conv.jtiles + k) % conv.tile_block_ur
        nb_tile_block_ur :=
          (image * conv.itiles * conv.jtiles + k) / conv.tile_block_ur % conv.nb_tile_block_ur
        tile_block :=
          (image * conv.itiles * conv.jtiles + k) / conv.tile_block_ur /
            conv.nb_tile_block_ur } := by
  induction k with
  | zero => rfl
  | succ k ih =>
    rw [Function.iterate_succ_apply', ih]
    generalize image * conv.itiles * conv.jtiles = n0
    have key : ∀ (n d : Nat), 1 ≤ d →
        (n % d + 1 ≥ d → (n + 1) % d = 0 ∧ (n + 1) / d = n / d + 1) ∧
        (¬ n % d + 1 ≥ d → (n + 1) % d = n % d + 1 ∧ (n + 1) / d = n / d) := by
      intro n d hd
      have h1 := Nat.div_add_mod n d
      have h2 := Nat.mod_lt n hd
      constructor
      · intro h
        have := (Nat.div_mod_unique (a := n + 1) (c := 0) (d := n / d + 1) hd).mpr
          ⟨by rw [Nat.mul_add]; omega, hd⟩
        exact ⟨this.2, this.1⟩
      · intro h
        have := (Nat.div_mod_unique (a := n + 1) (c := n % d + 1) (d := n / d) hd).mpr
          ⟨by omega, by omega⟩
        exact ⟨this.2, this.1⟩
    have k1 := key (n0 + k) conv.tile_block_ur hur
    have k2 := key ((n0 + k) / conv.tile_block_ur) conv.nb_tile_block_ur hnb
    rw [← Nat.add_assoc]
    unfold tile_counters_next
    simp only [decide_eq_true_eq]
    by_cases c1 : (n0 + k) % conv.tile_block_ur + 1 ≥ conv.tile_block_ur
    · obtain ⟨e1, e2⟩ := k1.1 c1
      rw [if_pos c1, if_pos c1, e1, e2]
      by_cases c2 : (n0 + k) / conv.tile_block_ur % conv.nb_tile_block_ur + 1 ≥
          conv.nb_tile_block_ur
      · obtain ⟨e3, e4⟩ := k2.1 c2
        rw [if_pos c2, if_pos c2, e3, e4]
      · obtain ⟨e3, e4⟩ := k2.2 c2
        rw [if_neg c2, if_neg c2, e3, e4]
    · obtain ⟨e1, e2⟩ := k1.2 c1
      have c2 : ¬ (n0 + k) / conv.tile_block_ur % conv.nb_tile_block_ur ≥
          conv.nb_tile_block_ur := by
        have := Nat.mod_lt ((n0 + k) / conv.tile_block_ur) hnb
        omega
      rw [if_neg c1, if_neg c1, e1, e2, if_neg c2, if_neg c2]

/-- The invariant of the decomposed counters. -/
theorem tile_counters_invariant (conv : jit_conv_winograd_conf_t) (image k : Nat)
    (hur : 1 ≤ conv.tile_block_ur) (hnb : 1 ≤ conv.nb_tile_block_ur) (c : tile_counters)
    (hc : c = (tile_counters_next conv)^[k] (tile_counters_init conv image)) :
    c.tile_block_ur < conv.tile_block_ur ∧ c.nb_tile_block_ur < conv.nb_tile_block_ur ∧
      (c.tile_block * conv.nb_tile_block_ur + c.nb_tile_block_ur) * conv.tile_block_ur +
        c.tile_block_ur = image * conv.itiles * conv.jtiles + k := by
  rw [tile_counters_iterate conv image k hur hnb] at hc
  subst hc
  refine ⟨Nat.mod_lt _ hur, Nat.mod_lt _ hnb, ?_⟩
  show ((image * conv.itiles * conv.jtiles + k) / conv.tile_block_ur / conv.nb_tile_block_ur *
      conv.nb_tile_block_ur +
      (image * conv.itiles * conv.jtiles + k) / conv.tile_block_ur % conv.nb_tile_block_ur) *
      conv.tile_block_ur + (image * conv.itiles * conv.jtiles + k) % conv.tile_block_ur = _
  rw [Nat.div_add_mod', Nat.div_add_mod']

/-- Claim C18, rolling tile counter invariant: in `src_transform_fwd`,
`dst_transform_fwd`, `diff_dst_transform_bwd_data` and `diff_src_transform_bwd_data`,
with `tile_block_ur ≥ 1` and `nb_tile_block_ur ≥ 1`, the counters `c` held by the tile
loop when it reaches tile `(tj, ti)`, the tile number `k = tj * itiles + ti` of the image
in raster order (after `tj` full rows and `ti` further tiles), satisfy `c.tile_block_ur < conv.tile_block_ur`,
`c.nb_tile_block_ur < conv.nb_tile_block_ur` and
`(c.tile_block * conv.nb_tile_block_ur + c.nb_tile_block_ur) * conv.tile_block_ur +
c.tile_block_ur = image * itiles * jtiles + k`. -/
theorem rolling_tile_counter_invariant (with_bias with_relu : Bool) (image : Nat)
    (conv : jit_conv_winograd_conf_t) (inp tinp toutp outp bias : Buffer) (streamout : Bool)
    (tj ti : Nat) (hur : 1 ≤ conv.tile_block_ur) (hnb : 1 ≤ conv.nb_tile_block_ur)
    (c : tile_counters)
    (hc : c = (src_transform_fwd_before image conv inp tinp streamout tj ti).1 ∨
      c = (dst_transform_fwd_before with_bias with_relu image conv toutp outp bias streamout
        tj ti).1 ∨
      c = (diff_dst_transform_bwd_data_before image conv inp tinp streamout tj ti).1 ∨
      c = (diff_src_transform_bwd_data_before image conv toutp outp streamout tj ti).1) :
    c.tile_block_ur < conv.tile_block_ur ∧ c.nb_tile_block_ur < conv.nb_tile_block_ur ∧
      (c.tile_block * conv.nb_tile_block_ur + c.nb_tile_block_ur) * conv.tile_block_ur +
        c.tile_block_ur = image * conv.itiles * conv.jtiles + (tj * conv.itiles + ti) := by
  refine tile_counters_invariant conv image _ hur hnb c ?_
  rcases hc with hc | hc | hc | hc
  · rw [hc]
    exact loop_counters_iterate (fun st tj ti =>
      src_transform_fwd_store conv st.1 (trans_I_4x4_3x3 (src_transform_fwd_I conv inp tj ti))
        streamout st.2) (tile_counters_next conv) tj conv.itiles ti _
  · rw [hc]
    exact loop_counters_iterate (fun st tj ti =>
      dst_transform_fwd_store with_bias with_relu conv tj ti
        (trans_O_4x4_3x3 (dst_transform_fwd_Ow conv toutp st.1)) bias streamout st.2)
      (tile_counters_next conv) tj conv.itiles ti _
  · rw [hc]
    exact loop_counters_iterate (fun st tj ti =>
      diff_dst_transform_bwd_data_store conv st.1
        (trans_I_4x4_3x3 (diff_dst_transform_bwd_data_I conv inp tj ti).2) streamout st.2)
      (tile_counters_next conv) tj conv.itiles ti _
  · rw [hc]
    exact loop_counters_iterate (fun st tj ti =>
      diff_src_transform_bwd_data_store conv tj ti
        (trans_O_4x4_3x3 (diff_src_transform_bwd_data_Ow conv toutp st.1)) streamout st.2)
      (tile_counters_next conv) tj conv.itiles ti _

theorem rolling_tile_counter_invariant_witness :
    (src_transform_fwd_before 0 conv_example (fun _ => 0) (fun _ => 0) true 1 1).1.tile_block_ur
        < conv_example.tile_block_ur ∧
      (src_transform_fwd_before 0 conv_example (fun _ => 0) (fun _ => 0) true 1
        1).1.nb_tile_block_ur < conv_example.nb_tile_block_ur ∧
      ((src_transform_fwd_before 0 conv_example (fun _ => 0) (fun _ => 0) true 1 1).1.tile_block *
          conv_example.nb_tile_block_ur +
          (src_transform_fwd_before 0 conv_example (fun _ => 0) (fun _ => 0) true 1
            1).1.nb_tile_block_ur) * conv_example.tile_block_ur +
        (src_transform_fwd_before 0 conv_example (fun _ => 0) (fun _ => 0) true 1
          1).1.tile_block_ur =
        0 * conv_example.itiles * conv_example.jtiles + (1 * conv_example.itiles + 1) :=
  rolling_tile_counter_invariant true true 0 conv_example (fun _ => 0) (fun _ => 0)
    (fun _ => 0) (fun _ => 0) (fun _ => 0) true 1 1 (by decide) (by decide) _ (Or.inl rfl)

/-! ## Reference form of the output transform, offset calculator, streaming stores -/

/-- Claim C21, reference definition of the output transform: per lane `v`, for every
6x6 tile `Mw`, `trans_O_4x4_3x3 Mw = At * Mw * transpose At` exactly over the rationals,
where `At` is the 4x6 matrix with the listed rows; the first pass (`trans_O_4x4_3x3_T`)
applies `At` along the first index and the second pass applies it along the second
index. -/
theorem trans_O_4x4_3x3_reference (Mw : Tile 6 6) (v : Fin 16) :
    At = ![![1, 1, 1, 1, 1, 0],
           ![0, 5 / 8, -5 / 8, 3 / 2, -3 / 2, 0],
           ![0, 25 / 64, 25 / 64, 9 / 4, 9 / 4, 0],
           ![0, 125 / 512, -125 / 512, 27 / 8, -27 / 8, 1]] ∧
    (Matrix.of fun y x => trans_O_4x4_3x3 Mw y x v) =
        Matrix.of At * Matrix.of (fun a b => Mw a b v) * (Matrix.of At).transpose ∧
    (∀ (r : Fin 4) (i : Fin 6), trans_O_4x4_3x3_T Mw r i v = ∑ a, At r a * Mw a i v) ∧
    (∀ y x : Fin 4, trans_O_4x4_3x3 Mw y x v = ∑ b, At x b * trans_O_4x4_3x3_T Mw y b v) := by
  refine ⟨rfl, ?_, fun r i => trans_O_4x4_3x3_T_eq Mw r i v, ?_⟩
  · ext y x
    simp only [Matrix.of_apply, Matrix.mul_apply, Matrix.transpose_apply,
      trans_O_4x4_3x3_eq]
    refine Finset.sum_congr rfl (fun b _ => ?_)
    ring
  · intro y x
    rw [trans_O_4x4_3x3_eq]
    refine Finset.sum_congr rfl (fun b _ => ?_)
    rw [trans_O_4x4_3x3_T_eq]

/-- The member `_offset` continues the Horner form from the accumulated offset `theta`
with the extents from position `dimension` on, as long as there is an extent for every
remaining index. -/
theorem offset_eq_foldl (dims : List Nat) : ∀ (args : List Nat) (dimension theta : Nat),
    dimension + args.length ≤ dims.length →
    (array_offset_calculator.mk dims)._offset dimension theta args =
      (List.zip (dims.drop dimension) args).foldl (fun acc p => acc * p.1 + p.2) theta := by
  intro args
  induction args with
  | nil =>
    intro dimension theta _
    simp [array_offset_calculator._offset]
  | cons a as ih =>
    intro dimension theta h
    have hlt : dimension < dims.length := by
      simp only [List.length_cons] at h
      omega
    rw [array_offset_calculator._offset, ih (dimension + 1) _ (by
      simp only [List.length_cons] at h
      omega)]
    rw [List.drop_eq_getElem_cons hlt, List.zip_cons_cons, List.foldl_cons]
    simp only [List.getD_eq_getElem?_getD, List.getElem?_eq_getElem hlt, Option.getD_some]
    congr 1
    ring

/-- Claim C28, offset calculator formula: for extents `d0 :: ds` and `k ≤ n` indices
`args`, the offset is the Horner form of `args` over `ds`; the first extent is never used,
so the offset is the same for every value of it (the 0 of the per-thread buffers
included), and a call with a single index returns that index. -/
theorem offset_calculator_formula (d0 : Nat) (ds args : List Nat)
    (hk : args.length ≤ ds.length + 1) :
    (array_offset_calculator.mk (d0 :: ds)).idx args = horner_form ds args ∧
      (∀ d0' : Nat, (array_offset_calculator.mk (d0' :: ds)).idx args =
        (array_offset_calculator.mk (d0 :: ds)).idx args) ∧
      (∀ a : Nat, (array_offset_calculator.mk (d0 :: ds)).idx [a] = a) := by
  have key : ∀ d : Nat, (array_offset_calculator.mk (d :: ds)).idx args = horner_form ds args := by
    intro d
    cases args with
    | nil => rfl
    | cons a as =>
      rw [array_offset_calculator.idx, offset_eq_foldl _ _ _ _ (by
        simp only [List.length_cons] at hk ⊢
        omega)]
      rfl
  exact ⟨key d0, fun d0' => (key d0').trans (key d0).symm, fun a => rfl⟩

theorem offset_calculator_formula_witness :
    (array_offset_calculator.mk [0, 6, 6, 2, 16]).idx [3, 1, 2, 1, 5] =
        horner_form [6, 6, 2, 16] [3, 1, 2, 1, 5] ∧
      (∀ d0' : Nat, (array_offset_calculator.mk [d0', 6, 6, 2, 16]).idx [3, 1, 2, 1, 5] =
        (array_offset_calculator.mk [0, 6, 6, 2, 16]).idx [3, 1, 2, 1, 5]) ∧
      (∀ a : Nat, (array_offset_calculator.mk [0, 6, 6, 2, 16]).idx [a] = a) :=
  offset_calculator_formula 0 [6, 6, 2, 16] [3, 1, 2, 1, 5] (by decide)

/-- Claim C26, the streaming-store flag has no effect on results: for every
destination, data vector and value of `streamout`, `store_output` writes exactly
`dest[v] = data[v]` for `v` in `0..15` and nothing else; hence the buffers produced by
`src_transform_fwd`, `dst_transform_fwd`, `diff_dst_transform_bwd_data` and
`diff_src_transform_bwd_data` are the same for `streamout = true` and
`streamout = false`. -/
theorem streamout_no_effect (with_bias with_relu : Bool) (image : Nat)
    (conv : jit_conv_winograd_conf_t) (inp tinp toutp outp bias : Buffer) :
    (∀ (m : Buffer) (dest : Nat) (data : Fin 16 → ℚ) (s : Bool),
      (∀ v : Fin 16, store_output m dest data s (dest + v.val) = data v) ∧
      (∀ o, ¬ (dest ≤ o ∧ o < dest + 16) → store_output m dest data s o = m o)) ∧
    src_transform_fwd image conv inp tinp true = src_transform_fwd image conv inp tinp false ∧
    dst_transform_fwd with_bias with_relu image conv toutp outp bias true =
      dst_transform_fwd with_bias with_relu image conv toutp outp bias false ∧
    diff_dst_transform_bwd_data image conv inp tinp true =
      diff_dst_transform_bwd_data image conv inp tinp false ∧
    diff_src_transform_bwd_data image conv toutp outp true =
      diff_src_transform_bwd_data image conv toutp outp false :=
  ⟨fun m dest data s => ⟨fun v => store_output_lane m dest data s v,
      fun o h => store_output_of_not_mem m dest data s o h⟩, rfl, rfl, rfl, rfl⟩

/-! ## Reduction engine: partition of the element range and the two modes of `array_sum` -/

/-- The copy loop `output[e] = src[e]` over `e = s .. s + n - 1`, when the elements read
from `src` are not among the elements written. -/
theorem copy_loop_apply (output src : Nat) (n : Nat) : ∀ (s : Nat) (m : Buffer),
    (∀ e e', s ≤ e → e < s + n → s ≤ e' → e' < s + n → src + e ≠ output + e') → ∀ x,
    (List.range' s n).foldl (fun m e => Function.update m (output + e) (m (src + e))) m x =
      if output + s ≤ x ∧ x < output + s + n then m (src + (x - output)) else m x := by
  induction n with
  | zero =>
    intro s m _ x
    rw [if_neg (by omega)]
    rfl
  | succ n ih =>
    intro s m hd x
    rw [List.range'_succ, List.foldl_cons]
    rw [ih (s + 1) _ (fun e e' h1 h2 h3 h4 => hd e e' (by omega) (by omega) (by omega) (by omega))]
    by_cases hx : x = output + s
    · subst hx
      rw [if_neg (by omega), if_pos (by omega), Function.update_same]
      congr 2
      omega
    · by_cases hin : output + s ≤ x ∧ x < output + s + (n + 1)
      · rw [if_pos (by omega), if_pos hin,
          Function.update_noteq (hd (x - output) s (by omega) (by omega) (by omega) (by omega))]
      · rw [if_neg (by omega), if_neg hin, Function.update_noteq hx]

/-- The loop nests of `array_sum` with `reduce_to_first` cleared, over the element range
`[s, t)`, when no buffer overlaps the written range. -/
theorem array_sum_range_apply_copy (num_arrs output : Nat) (ptr : Nat → Nat) (s t : Nat)
    (m : Buffer)
    (hd : ∀ a, a < num_arrs → ∀ e e', s ≤ e → e < t → s ≤ e' → e' < t →
      ptr a + e ≠ output + e') (hnum : 1 ≤ num_arrs) (x : Nat) :
    array_sum_range num_arrs output ptr false s t m x =
      if output + s ≤ x ∧ x < output + t then
        m (ptr 0 + (x - output)) +
          ((List.range' 1 (num_arrs - 1)).map fun a => m (ptr a + (x - output))).sum
      else m x := by
  unfold array_sum_range
  simp only [Bool.not_false, if_true]
  have h0 : ∀ e e', s ≤ e → e < s + (t - s) → s ≤ e' → e' < s + (t - s) →
      ptr 0 + e ≠ output + e' :=
    fun e e' h1 h2 h3 h4 => hd 0 (by omega) e e' h1 (by omega) h3 (by omega)
  rw [add_loops_apply output ptr s (t - s) _ _ (by
    intro a ha e e' h1 h2 h3 h4
    have := List.mem_range'_1.mp ha
    exact hd a (by omega) e e' h1 (by omega) h3 (by omega))]
  by_cases h : output + s ≤ x ∧ x < output + t
  · rw [if_pos h, if_pos (by omega), copy_loop_apply output (ptr 0) (t - s) s m h0,
      if_pos (by omega)]
    congr 2
    refine List.map_congr_left fun a ha => ?_
    have := List.mem_range'_1.mp ha
    rw [copy_loop_apply output (ptr 0) (t - s) s m h0, if_neg]
    intro hc
    exact hd a (by omega) (x - output) (ptr a + (x - output) - output) (by omega) (by omega)
      (by omega) (by omega) (by omega)
  · rw [if_neg h, if_neg (by omega), copy_loop_apply output (ptr 0) (t - s) s m h0,
      if_neg (by omega)]

/-- Element `e` of the destination is computed by exactly one range of one thread: if
the loop nests over a range leave unchanged what lies outside the range and produce `v`
at `output + e` when they start from the initial value there and from memory unchanged
outside the destination, then `array_sum` leaves `v` at `output + e`. -/
theorem array_sum_exactly_once (balance211 : Nat → Nat → Nat → Nat × Nat) (nthr : Nat)
    (schedule : List Nat) (num_arrs output nelems : Nat) (input_ptrs : Nat → Nat) (r : Bool)
    (mem : Buffer)
    (hnthr : 1 ≤ nthr) (hnodup : schedule.Nodup) (hsched : ∀ t, t ∈ schedule ↔ t < nthr)
    (hin : ∀ ithr, ithr < nthr → ∀ nb, (balance211 (nelems / 4096) nthr ithr).1 ≤ nb →
      nb < (balance211 (nelems / 4096) nthr ithr).2 → nb < nelems / 4096)
    (hown : ∀ nb, nb < nelems / 4096 → ∃ ithr, ithr < nthr ∧
      (balance211 (nelems / 4096) nthr ithr).1 ≤ nb ∧
      nb < (balance211 (nelems / 4096) nthr ithr).2 ∧
      ∀ ithr', ithr' < nthr → (balance211 (nelems / 4096) nthr ithr').1 ≤ nb →
        nb < (balance211 (nelems / 4096) nthr ithr').2 → ithr' = ithr)
    (e : Nat) (he : e < nelems) (v : ℚ)
    (Rframe : ∀ (s t : Nat) (m : Buffer) (x : Nat), t ≤ nelems →
      ¬ (output + s ≤ x ∧ x < output + t) →
      array_sum_range num_arrs output input_ptrs r s t m x = m x)
    (Rval : ∀ (s t : Nat) (m : Buffer), t ≤ nelems → s ≤ e → e < t →
      (∀ x, ¬ (output ≤ x ∧ x < output + nelems) → m x = mem x) →
      m (output + e) = mem (output + e) →
      array_sum_range num_arrs output input_ptrs r s t m (output + e) = v) :
    array_sum balance211 nthr schedule num_arrs output nelems input_ptrs r mem (output + e) =
      v := by
  have Rinv : ∀ (s t : Nat) (m : Buffer), t ≤ nelems →
      (∀ x, ¬ (output ≤ x ∧ x < output + nelems) → m x = mem x) →
      ∀ x, ¬ (output ≤ x ∧ x < output + nelems) →
        array_sum_range num_arrs output input_ptrs r s t m x = mem x := by
    intro s t m ht hm x hx
    rw [Rframe s t m x ht (by omega)]
    exact hm x hx
  have hL : ∀ ithr nb, ithr < nthr →
      nb ∈ List.range' (balance211 (nelems / 4096) nthr ithr).1
        ((balance211 (nelems / 4096) nthr ithr).2 - (balance211 (nelems / 4096) nthr ithr).1) →
      (balance211 (nelems / 4096) nthr ithr).1 ≤ nb ∧
        nb < (balance211 (nelems / 4096) nthr ithr).2 ∧ nb * 4096 + 4096 ≤ nelems := by
    intro ithr nb hi hnb
    have h := List.mem_range'_1.mp hnb
    have h2 : nb < (balance211 (nelems / 4096) nthr ithr).2 := by omega
    have h3 := hin ithr hi nb h.1 h2
    refine ⟨h.1, h2, ?_⟩
    have := Nat.mul_le_mul_right 4096 (Nat.succ_le_of_lt h3)
    omega
  have Tinv : ∀ ithr (m : Buffer), ithr < nthr →
      (∀ x, ¬ (output ≤ x ∧ x < output + nelems) → m x = mem x) →
      ∀ x, ¬ (output ≤ x ∧ x < output + nelems) →
        array_sum_thread balance211 num_arrs output nelems input_ptrs r nthr ithr m x =
          mem x := by
    intro ithr m hi hm
    have hb := foldl_invariant
      (fun (m : Buffer) (nb : Nat) =>
        array_sum_range num_arrs output input_ptrs r (nb * 4096) (nb * 4096 + 4096) m)
      (fun m' : Buffer => ∀ x, ¬ (output ≤ x ∧ x < output + nelems) → m' x = mem x) _
      (fun m' nb hnb hm' => Rinv _ _ m' (hL ithr nb hi hnb).2.2 hm') m hm
    rw [array_sum_thread_eq]
    split
    · exact Rinv _ _ _ (le_refl _) hb
    · exact hb
  have Tframe : ∀ ithr (m : Buffer), ithr < nthr →
      (∀ nb, (balance211 (nelems / 4096) nthr ithr).1 ≤ nb →
        nb < (balance211 (nelems / 4096) nthr ithr).2 → ¬ (nb * 4096 ≤ e ∧ e < nb * 4096 + 4096)) →
      ¬ (nelems % 4096 ≠ 0 ∧ ithr = nthr - 1 ∧ nelems - nelems % 4096 ≤ e) →
      array_sum_thread balance211 num_arrs output nelems input_ptrs r nthr ithr m
        (output + e) = m (output + e) := by
    intro ithr m hi hblocks htail
    have hb := foldl_invariant
      (fun (m : Buffer) (nb : Nat) =>
        array_sum_range num_arrs output input_ptrs r (nb * 4096) (nb * 4096 + 4096) m)
      (fun m' : Buffer => m' (output + e) = m (output + e)) _
      (fun m' nb hnb hm' => by
        have h := hL ithr nb hi hnb
        have h' := hblocks nb h.1 h.2.1
        show array_sum_range _ _ _ _ _ _ m' (output + e) = m (output + e)
        rw [Rframe _ _ m' _ h.2.2 (by omega)]
        exact hm') m rfl
    rw [array_sum_thread_eq]
    split
    · rename_i hc
      rw [Rframe _ _ _ _ (le_refl _) (by omega)]
      exact hb
    · exact hb
  have Tblock : ∀ ithr (m : Buffer) nb0, ithr < nthr →
      (balance211 (nelems / 4096) nthr ithr).1 ≤ nb0 →
      nb0 < (balance211 (nelems / 4096) nthr ithr).2 → nb0 * 4096 ≤ e → e < nb0 * 4096 + 4096 →
      (∀ x, ¬ (output ≤ x ∧ x < output + nelems) → m x = mem x) →
      m (output + e) = mem (output + e) →
      array_sum_thread balance211 num_arrs output nelems input_ptrs r nthr ithr m
        (output + e) = v := by
    intro ithr m nb0 hi h1 h2 h3 h4 hm hme
    have hmem : nb0 ∈ List.range' (balance211 (nelems / 4096) nthr ithr).1
        ((balance211 (nelems / 4096) nthr ithr).2 - (balance211 (nelems / 4096) nthr ithr).1) :=
      List.mem_range'_1.mpr ⟨h1, by omega⟩
    have hb := foldl_once
      (fun (m : Buffer) (nb : Nat) =>
        array_sum_range num_arrs output input_ptrs r (nb * 4096) (nb * 4096 + 4096) m)
      (fun m' : Buffer => (∀ x, ¬ (output ≤ x ∧ x < output + nelems) → m' x = mem x) ∧
        m' (output + e) = mem (output + e))
      (fun m' : Buffer => m' (output + e) = v)
      _ (List.nodup_range' _ _) nb0 hmem
      (fun m' nb hnb hne hm' => by
        have h := hL ithr nb hi hnb
        refine ⟨Rinv _ _ m' h.2.2 hm'.1, ?_⟩
        show array_sum_range _ _ _ _ _ _ m' (output + e) = mem (output + e)
        rw [Rframe _ _ m' _ h.2.2 (by omega)]
        exact hm'.2)
      (fun m' nb hnb hne hm' => by
        have h := hL ithr nb hi hnb
        show array_sum_range _ _ _ _ _ _ m' (output + e) = _
        rw [Rframe _ _ m' _ h.2.2 (by omega)]
        exact hm')
      (fun m' hm' => by
        have h := hL ithr nb0 hi hmem
        exact Rval _ _ m' h.2.2 h3 h4 hm'.1 hm'.2) m ⟨hm, hme⟩
    have hnb0 := (hL ithr nb0 hi hmem).2.2
    rw [array_sum_thread_eq]
    split
    · rw [Rframe _ _ _ _ (le_refl _) (by omega)]
      exact hb
    · exact hb
  have Ttail : ∀ (m : Buffer), nelems % 4096 ≠ 0 → nelems - nelems % 4096 ≤ e →
      (∀ x, ¬ (output ≤ x ∧ x < output + nelems) → m x = mem x) →
      m (output + e) = mem (output + e) →
      array_sum_thread balance211 num_arrs output nelems input_ptrs r nthr (nthr - 1) m
        (output + e) = v := by
    intro m ht hle hm hme
    have hi : nthr - 1 < nthr := by omega
    have hb := foldl_invariant
      (fun (m : Buffer) (nb : Nat) =>
        array_sum_range num_arrs output input_ptrs r (nb * 4096) (nb * 4096 + 4096) m)
      (fun m' : Buffer => (∀ x, ¬ (output ≤ x ∧ x < output + nelems) → m' x = mem x) ∧
        m' (output + e) = mem (output + e)) _
      (fun m' nb hnb hm' => by
        have h := hL (nthr - 1) nb hi hnb
        have h3 := hin (nthr - 1) hi nb h.1 h.2.1
        have := Nat.mul_le_mul_right 4096 (Nat.succ_le_of_lt h3)
        refine ⟨Rinv _ _ m' h.2.2 hm'.1, ?_⟩
        show array_sum_range _ _ _ _ _ _ m' (output + e) = mem (output + e)
        rw [Rframe _ _ m' _ h.2.2 (by omega)]
        exact hm'.2) m ⟨hm, hme⟩
    rw [array_sum_thread_eq, if_pos ⟨ht, rfl⟩]
    exact Rval _ _ _ (le_refl _) hle he hb.1 hb.2
  unfold array_sum
  by_cases hblk : e < nelems / 4096 * 4096
  · have hnb0 : e / 4096 < nelems / 4096 := by omega
    obtain ⟨t0, ht0, hs0, he0, huniq⟩ := hown (e / 4096) hnb0
    have hframe : ∀ t (m' : Buffer), t ∈ schedule → t ≠ t0 →
        array_sum_thread balance211 num_arrs output nelems input_ptrs r nthr t m'
          (output + e) = m' (output + e) := by
      intro t m' ht hne
      have ht' := (hsched t).mp ht
      refine Tframe t m' ht' ?_ (by omega)
      intro nb h1 h2 hc
      have : nb = e / 4096 := by omega
      subst this
      exact hne (huniq t ht' h1 h2)
    exact foldl_once
      (fun (m : Buffer) (ithr : Nat) =>
        array_sum_thread balance211 num_arrs output nelems input_ptrs r nthr ithr m)
      (fun m' : Buffer => (∀ x, ¬ (output ≤ x ∧ x < output + nelems) → m' x = mem x) ∧
        m' (output + e) = mem (output + e))
      (fun m' : Buffer => m' (output + e) = v)
      schedule hnodup t0 ((hsched t0).mpr ht0)
      (fun m' t ht hne hm' =>
        ⟨Tinv t m' ((hsched t).mp ht) hm'.1, (hframe t m' ht hne).trans hm'.2⟩)
      (fun m' t ht hne hm' => (hframe t m' ht hne).trans hm')
      (fun m' hm' => Tblock t0 m' (e / 4096) ht0 hs0 he0 (by omega) (by omega) hm'.1 hm'.2)
      mem ⟨fun _ _ => rfl, rfl⟩
  · have htail : nelems % 4096 ≠ 0 := by omega
    have hframe : ∀ t (m' : Buffer), t ∈ schedule → t ≠ nthr - 1 →
        array_sum_thread balance211 num_arrs output nelems input_ptrs r nthr t m'
          (output + e) = m' (output + e) := by
      intro t m' ht hne
      have ht' := (hsched t).mp ht
      refine Tframe t m' ht' ?_ (fun hc => hne hc.2.1)
      intro nb h1 h2 hc
      have h3 := hin t ht' nb h1 h2
      have := Nat.mul_le_mul_right 4096 (Nat.succ_le_of_lt h3)
      omega
    exact foldl_once
      (fun (m : Buffer) (ithr : Nat) =>
        array_sum_thread balance211 num_arrs output nelems input_ptrs r nthr ithr m)
      (fun m' : Buffer => (∀ x, ¬ (output ≤ x ∧ x < output + nelems) → m' x = mem x) ∧
        m' (output + e) = mem (output + e))
      (fun m' : Buffer => m' (output + e) = v)
      schedule hnodup (nthr - 1) ((hsched _).mpr (by omega))
      (fun m' t ht hne hm' =>
        ⟨Tinv t m' ((hsched t).mp ht) hm'.1, (hframe t m' ht hne).trans hm'.2⟩)
      (fun m' t ht hne hm' => (hframe t m' ht hne).trans hm')
      (fun m' hm' => Ttail m' htail (by omega) hm'.1 hm'.2)
      mem ⟨fun _ _ => rfl, rfl⟩

/-- With `reduce_to_first` set, the loop nests of `array_sum` over a range never use
`input_ptrs[0]`. -/
theorem array_sum_range_first_unused (num_arrs output : Nat) (ptr : Nat → Nat) (p s t : Nat)
    (m : Buffer) :
    array_sum_range num_arrs output (Function.update ptr 0 p) true s t m =
      array_sum_range num_arrs output ptr true s t m := by
  unfold array_sum_range
  simp only [Bool.not_true, Bool.false_eq_true, if_false]
  refine List.foldl_ext _ _ _ (fun m' a ha => ?_)
  have := List.mem_range'_1.mp ha
  rw [Function.update_noteq (by omega)]

/-- Claim C29, `array_sum` in its two modes: with `reduce_to_first = false` and a
destination that overlaps no partial buffer, afterwards `output[e]` is the sum over all
`a < num_arrs` of `input_ptrs[a][e]` for every `e < nelems`, whatever the destination
held before; with `reduce_to_first = true` and a destination that overlaps none of the
partial buffers `1 .. num_arrs - 1`, `output[e]` is its prior value plus the sum over
`a` in `1 .. num_arrs - 1`, and `input_ptrs[0]` is never used. -/
theorem array_sum_modes (balance211 : Nat → Nat → Nat → Nat × Nat) (nthr : Nat)
    (schedule : List Nat) (num_arrs output nelems : Nat) (input_ptrs : Nat → Nat) (mem : Buffer)
    (hnthr : 1 ≤ nthr) (hnodup : schedule.Nodup) (hsched : ∀ t, t ∈ schedule ↔ t < nthr)
    (hin : ∀ ithr, ithr < nthr → ∀ nb, (balance211 (nelems / 4096) nthr ithr).1 ≤ nb →
      nb < (balance211 (nelems / 4096) nthr ithr).2 → nb < nelems / 4096)
    (hown : ∀ nb, nb < nelems / 4096 → ∃ ithr, ithr < nthr ∧
      (balance211 (nelems / 4096) nthr ithr).1 ≤ nb ∧
      nb < (balance211 (nelems / 4096) nthr ithr).2 ∧
      ∀ ithr', ithr' < nthr → (balance211 (nelems / 4096) nthr ithr').1 ≤ nb →
        nb < (balance211 (nelems / 4096) nthr ithr').2 → ithr' = ithr)
    (hnum : 1 ≤ num_arrs)
    (hdisj : ∀ a, 1 ≤ a → a < num_arrs → ∀ e e', e < nelems → e' < nelems →
      input_ptrs a + e ≠ output + e') :
    ((∀ e e', e < nelems → e' < nelems → input_ptrs 0 + e ≠ output + e') →
      ∀ e, e < nelems →
        array_sum balance211 nthr schedule num_arrs output nelems input_ptrs false mem
          (output + e) = ∑ a in Finset.range num_arrs, mem (input_ptrs a + e)) ∧
    (∀ e, e < nelems →
      array_sum balance211 nthr schedule num_arrs output nelems input_ptrs true mem
        (output + e) =
          mem (output + e) + ∑ a in Finset.range (num_arrs - 1), mem (input_ptrs (a + 1) + e)) ∧
    (∀ p : Nat,
      array_sum balance211 nthr schedule num_arrs output nelems (Function.update input_ptrs 0 p)
        true mem =
      array_sum balance211 nthr schedule num_arrs output nelems input_ptrs true mem) := by
  refine ⟨?_, ?_, ?_⟩
  · intro h0 e he
    have hall : ∀ a, a < num_arrs → ∀ e e', e < nelems → e' < nelems →
        input_ptrs a + e ≠ output + e' := by
      intro a ha
      rcases Nat.eq_zero_or_pos a with rfl | hpos
      · exact h0
      · exact hdisj a hpos ha
    refine array_sum_exactly_once balance211 nthr schedule num_arrs output nelems input_ptrs
      false mem hnthr hnodup hsched hin hown e he _ ?_ ?_
    · intro s t m x ht hx
      rw [array_sum_range_apply_copy _ _ _ _ _ _
        (fun a ha e1 e2 _ h4 _ h6 => hall a ha e1 e2 (by omega) (by omega)) hnum, if_neg hx]
    · intro s t m ht h1 h2 hm _
      rw [array_sum_range_apply_copy _ _ _ _ _ _
        (fun a ha e1 e2 _ h4 _ h6 => hall a ha e1 e2 (by omega) (by omega)) hnum,
        if_pos (by omega), Nat.add_sub_cancel_left, list_sum_range'_one]
      obtain ⟨k, rfl⟩ : ∃ k, num_arrs = k + 1 := ⟨num_arrs - 1, by omega⟩
      rw [Finset.sum_range_succ', Nat.add_sub_cancel,
        hm _ (fun hc => hall 0 (by omega) e (input_ptrs 0 + e - output) he (by omega) (by omega))]
      rw [add_comm]
      congr 1
      refine Finset.sum_congr rfl (fun a ha => ?_)
      have := Finset.mem_range.mp ha
      exact hm _ (fun hc => hall (a + 1) (by omega) e (input_ptrs (a + 1) + e - output) he
        (by omega) (by omega))
  · intro e he
    refine array_sum_exactly_once balance211 nthr schedule num_arrs output nelems input_ptrs
      true mem hnthr hnodup hsched hin hown e he _ ?_ ?_
    · intro s t m x ht hx
      rw [array_sum_range_apply _ _ _ _ _ _
        (fun a h1 h2 e1 e2 _ h4 _ h6 => hdisj a h1 h2 e1 e2 (by omega) (by omega)), if_neg hx]
    · intro s t m ht h1 h2 hm hme
      rw [array_sum_range_apply _ _ _ _ _ _
        (fun a h1 h2 e1 e2 _ h4 _ h6 => hdisj a h1 h2 e1 e2 (by omega) (by omega)),
        if_pos (by omega), Nat.add_sub_cancel_left, list_sum_range'_one, hme]
      congr 1
      refine Finset.sum_congr rfl (fun a ha => ?_)
      have := Finset.mem_range.mp ha
      exact hm _ (fun hc => hdisj (a + 1) (by omega) (by omega) e
        (input_ptrs (a + 1) + e - output) he (by omega) (by omega))
  · intro p
    unfold array_sum
    refine List.foldl_ext _ _ _ (fun m ithr _ => ?_)
    rw [array_sum_thread_eq, array_sum_thread_eq]
    simp only [array_sum_range_first_unused]

theorem array_sum_modes_witness :
    ((∀ e e', e < 4097 → e' < 4097 → 4097 * (0 + 1) + e ≠ 0 + e') →
      ∀ e, e < 4097 →
        array_sum balance_all_to_first 2 [1, 0] 2 0 4097 (fun a => 4097 * (a + 1)) false
          (fun x => (x : ℚ)) (0 + e) =
            ∑ a in Finset.range 2, ((4097 * (a + 1) + e : Nat) : ℚ)) ∧
    (∀ e, e < 4097 →
      array_sum balance_all_to_first 2 [1, 0] 2 0 4097 (fun a => 4097 * (a + 1)) true
        (fun x => (x : ℚ)) (0 + e) =
          ((0 + e : Nat) : ℚ) +
            ∑ a in Finset.range (2 - 1), ((4097 * (a + 1 + 1) + e : Nat) : ℚ)) ∧
    (∀ p : Nat,
      array_sum balance_all_to_first 2 [1, 0] 2 0 4097
        (Function.update (fun a => 4097 * (a + 1)) 0 p) true (fun x => (x : ℚ)) =
      array_sum balance_all_to_first 2 [1, 0] 2 0 4097 (fun a => 4097 * (a + 1)) true
        (fun x => (x : ℚ))) :=
  array_sum_modes balance_all_to_first 2 [1, 0] 2 0 4097 (fun a => 4097 * (a + 1))
    (fun x => (x : ℚ)) (by decide) (by decide)
    (by intro t; simp only [List.mem_cons, List.mem_singleton, List.not_mem_nil, or_false]; omega)
    (by
      intro ithr hi nb h1 h2
      interval_cases ithr
      · simpa [balance_all_to_first] using h2
      · simp [balance_all_to_first] at h2)
    (by
      intro nb hnb
      refine ⟨0, by decide, ?_, ?_, ?_⟩
      · simp [balance_all_to_first]
      · simpa [balance_all_to_first] using hnb
      · intro ithr' hi h1 h2
        interval_cases ithr' <;> simp [balance_all_to_first] at h1 h2 ⊢)
    (by decide)
    (by
      intro a h1 h2 e e' he he'
      have : a = 1 := by omega
      subst this
      show 4097 * (1 + 1) + e ≠ 0 + e'
      omega)

theorem subarray_sum_thread_eq (balance211 : Nat → Nat → Nat → Nat × Nat) (num_arrs output : Nat)
    (nelems : Nat) (ptr starts ends : Nat → Nat) (nthr ithr : Nat) (m : Buffer) :
    subarray_sum_thread balance211 num_arrs output nelems ptr starts ends nthr ithr m =
      if nelems % 4096 ≠ 0 ∧ ithr = nthr - 1 then
        subarray_sum_tail num_arrs output ptr starts ends (nelems - nelems % 4096) nelems
          ((List.range' (balance211 (nelems / 4096) nthr ithr).1
            ((balance211 (nelems / 4096) nthr ithr).2 -
              (balance211 (nelems / 4096) nthr ithr).1)).foldl (fun m nb =>
            subarray_sum_block num_arrs output ptr starts ends (nb * 4096) (nb * 4096 + 4096) m)
            m)
      else
        (List.range' (balance211 (nelems / 4096) nthr ithr).1
            ((balance211 (nelems / 4096) nthr ithr).2 -
              (balance211 (nelems / 4096) nthr ithr).1)).foldl (fun m nb =>
            subarray_sum_block num_arrs output ptr starts ends (nb * 4096) (nb * 4096 + 4096) m)
            m :=
  rfl

theorem reduction_thread_ranges_eq (balance211 : Nat → Nat → Nat → Nat × Nat)
    (nelems nthr ithr : Nat) :
    reduction_thread_ranges balance211 nelems nthr ithr =
      (List.range' (balance211 (nelems / 4096) nthr ithr).1
        ((balance211 (nelems / 4096) nthr ithr).2 -
          (balance211 (nelems / 4096) nthr ithr).1)).map
          (fun nb => (nb * 4096, nb * 4096 + 4096)) ++
        (if nelems % 4096 ≠ 0 ∧ ithr = nthr - 1 then [(nelems - nelems % 4096, nelems)]
          else []) :=
  rfl

/-- The body of the parallel region of `array_sum` runs its loop nests over exactly the
ranges of `reduction_thread_ranges`, in order. -/
theorem array_sum_thread_ranges (balance211 : Nat → Nat → Nat → Nat × Nat)
    (num_arrs output nelems : Nat) (ptr : Nat → Nat) (r : Bool) (nthr ithr : Nat) (m : Buffer) :
    array_sum_thread balance211 num_arrs output nelems ptr r nthr ithr m =
      (reduction_thread_ranges balance211 nelems nthr ithr).foldl
        (fun m' rg => array_sum_range num_arrs output ptr r rg.1 rg.2 m') m := by
  rw [array_sum_thread_eq, reduction_thread_ranges_eq, List.foldl_append, List.foldl_map]
  split <;> rfl

/-- The body of the parallel region of `subarray_sum` runs its block loop nests over
the block ranges of `reduction_thread_ranges` and its tail loop nests over the tail
range. -/
theorem subarray_sum_thread_ranges (balance211 : Nat → Nat → Nat → Nat × Nat)
    (num_arrs output nelems : Nat) (ptr starts ends : Nat → Nat) (nthr ithr : Nat) (m : Buffer) :
    subarray_sum_thread balance211 num_arrs output nelems ptr starts ends nthr ithr m =
      (reduction_thread_ranges balance211 nelems nthr ithr).foldl
        (fun m' rg =>
          if rg.2 = rg.1 + 4096 then
            subarray_sum_block num_arrs output ptr starts ends rg.1 rg.2 m'
          else subarray_sum_tail num_arrs output ptr starts ends rg.1 rg.2 m') m := by
  have hblk : ∀ (l : List Nat) (m0 : Buffer),
      (l.map (fun nb => (nb * 4096, nb * 4096 + 4096))).foldl (fun m' rg =>
        if rg.2 = rg.1 + 4096 then
          subarray_sum_block num_arrs output ptr starts ends rg.1 rg.2 m'
        else subarray_sum_tail num_arrs output ptr starts ends rg.1 rg.2 m') m0 =
      l.foldl (fun m' nb => subarray_sum_block num_arrs output ptr starts ends
        (nb * 4096) (nb * 4096 + 4096) m') m0 := by
    intro l m0
    rw [List.foldl_map]
    refine List.foldl_ext _ _ _ (fun m' nb _ => ?_)
    rw [if_pos rfl]
  have hml := Nat.mod_lt nelems (show 0 < 4096 by norm_num)
  have hle := Nat.mod_le nelems 4096
  rw [subarray_sum_thread_eq, reduction_thread_ranges_eq, List.foldl_append, hblk]
  split
  · rename_i hc
    simp only [List.foldl_cons, List.foldl_nil]
    rw [if_neg (by omega)]
  · rfl

/-- Claim C27, reduction partition: with `block_size = 4096`, the element ranges
`[nb * 4096, (nb + 1) * 4096)` for `nb < nelems / 4096` together with the tail
`[nelems - nelems % 4096, nelems)` are pairwise disjoint and their union is exactly
`[0, nelems)`; when `balance211` assigns each block index to exactly one thread, every
element lies in a range of exactly one thread, the tail only in that of thread
`nthr - 1`. The ranges of a thread are those the bodies of `array_sum` and `subarray_sum`
iterate. -/
theorem reduction_partition (balance211 : Nat → Nat → Nat → Nat × Nat) (nthr nelems : Nat)
    (hnthr : 1 ≤ nthr)
    (hin : ∀ ithr, ithr < nthr → ∀ nb, (balance211 (nelems / 4096) nthr ithr).1 ≤ nb →
      nb < (balance211 (nelems / 4096) nthr ithr).2 → nb < nelems / 4096)
    (hown : ∀ nb, nb < nelems / 4096 → ∃ ithr, ithr < nthr ∧
      (balance211 (nelems / 4096) nthr ithr).1 ≤ nb ∧
      nb < (balance211 (nelems / 4096) nthr ithr).2 ∧
      ∀ ithr', ithr' < nthr → (balance211 (nelems / 4096) nthr ithr').1 ≤ nb →
        nb < (balance211 (nelems / 4096) nthr ithr').2 → ithr' = ithr) :
    (∀ e, e < nelems ↔
      (∃ nb, nb < nelems / 4096 ∧ nb * 4096 ≤ e ∧ e < (nb + 1) * 4096) ∨
        (nelems - nelems % 4096 ≤ e ∧ e < nelems)) ∧
    (∀ nb nb' e, nb * 4096 ≤ e → e < (nb + 1) * 4096 → nb' * 4096 ≤ e →
      e < (nb' + 1) * 4096 → nb = nb') ∧
    (∀ nb e, nb < nelems / 4096 → nb * 4096 ≤ e → e < (nb + 1) * 4096 →
      ¬ (nelems - nelems % 4096 ≤ e ∧ e < nelems)) ∧
    (∀ e, e < nelems → ∃! ithr, ithr < nthr ∧
      ∃ rg ∈ reduction_thread_ranges balance211 nelems nthr ithr, rg.1 ≤ e ∧ e < rg.2) ∧
    (∀ e ithr, nelems - nelems % 4096 ≤ e → e < nelems → ithr < nthr →
      (∃ rg ∈ reduction_thread_ranges balance211 nelems nthr ithr, rg.1 ≤ e ∧ e < rg.2) →
      ithr = nthr - 1) ∧
    (∀ (num_arrs output : Nat) (ptr : Nat → Nat) (r : Bool) (ithr : Nat) (m : Buffer),
      array_sum_thread balance211 num_arrs output nelems ptr r nthr ithr m =
        (reduction_thread_ranges balance211 nelems nthr ithr).foldl
          (fun m' rg => array_sum_range num_arrs output ptr r rg.1 rg.2 m') m) ∧
    (∀ (num_arrs output : Nat) (ptr starts ends : Nat → Nat) (ithr : Nat) (m : Buffer),
      subarray_sum_thread balance211 num_arrs output nelems ptr starts ends nthr ithr m =
        (reduction_thread_ranges balance211 nelems nthr ithr).foldl
          (fun m' rg =>
            if rg.2 = rg.1 + 4096 then
              subarray_sum_block num_arrs output ptr starts ends rg.1 rg.2 m'
            else subarray_sum_tail num_arrs output ptr starts ends rg.1 rg.2 m') m) := by
  have hdm := Nat.div_add_mod nelems 4096
  have hml := Nat.mod_lt nelems (show 0 < 4096 by norm_num)
  have hmem : ∀ ithr (rg : Nat × Nat),
      rg ∈ reduction_thread_ranges balance211 nelems nthr ithr ↔
        (∃ nb, (balance211 (nelems / 4096) nthr ithr).1 ≤ nb ∧
          nb < (balance211 (nelems / 4096) nthr ithr).2 ∧ rg = (nb * 4096, nb * 4096 + 4096)) ∨
        (nelems % 4096 ≠ 0 ∧ ithr = nthr - 1 ∧ rg = (nelems - nelems % 4096, nelems)) := by
    intro ithr rg
    rw [reduction_thread_ranges_eq]
    simp only [List.mem_append, List.mem_map, List.mem_range'_1]
    constructor
    · rintro (⟨nb, ⟨h1, h2⟩, h3⟩ | h)
      · exact Or.inl ⟨nb, h1, by omega, h3.symm⟩
      · split at h
        · rename_i hc
          exact Or.inr ⟨hc.1, hc.2, List.mem_singleton.mp h⟩
        · cases h
    · rintro (⟨nb, h1, h2, h3⟩ | ⟨h1, h2, h3⟩)
      · exact Or.inl ⟨nb, ⟨h1, by omega⟩, h3.symm⟩
      · right
        rw [if_pos ⟨h1, h2⟩]
        exact List.mem_singleton.mpr h3
  refine ⟨?_, ?_, ?_, ?_, ?_, ?_, ?_⟩
  · intro e
    constructor
    · intro he
      by_cases hb : e < nelems / 4096 * 4096
      · exact Or.inl ⟨e / 4096, by omega, by omega, by omega⟩
      · exact Or.inr ⟨by omega, he⟩
    · rintro (⟨nb, h1, h2, h3⟩ | ⟨_, h⟩)
      · have := Nat.mul_le_mul_right 4096 (Nat.succ_le_of_lt h1)
        omega
      · exact h
  · intro nb nb' e h1 h2 h3 h4
    omega
  · intro nb e h1 h2 h3 hc
    have := Nat.mul_le_mul_right 4096 (Nat.succ_le_of_lt h1)
    omega
  · intro e he
    by_cases hb : e < nelems / 4096 * 4096
    · obtain ⟨t0, ht0, hs0, he0, huniq⟩ := hown (e / 4096) (by omega)
      refine ⟨t0, ⟨ht0, (e / 4096 * 4096, e / 4096 * 4096 + 4096),
        (hmem t0 _).mpr (Or.inl ⟨e / 4096, hs0, he0, rfl⟩),
        (by show e / 4096 * 4096 ≤ e; omega),
        (by show e < e / 4096 * 4096 + 4096; omega)⟩, ?_⟩
      rintro t ⟨ht, rg, hrg, h1, h2⟩
      rcases (hmem t rg).mp hrg with ⟨nb, h3, h4, rfl⟩ | ⟨h3, h4, rfl⟩
      · simp only at h1 h2
        have : nb = e / 4096 := by omega
        subst this
        exact huniq t ht h3 h4
      · simp only at h1 h2
        omega
    · refine ⟨nthr - 1, ⟨by omega, (nelems - nelems % 4096, nelems),
        (hmem _ _).mpr (Or.inr ⟨by omega, rfl, rfl⟩),
        (by show nelems - nelems % 4096 ≤ e; omega), he⟩, ?_⟩
      rintro t ⟨ht, rg, hrg, h1, h2⟩
      rcases (hmem t rg).mp hrg with ⟨nb, h3, h4, rfl⟩ | ⟨h3, h4, rfl⟩
      · simp only at h1 h2
        have h5 := hin t ht nb h3 h4
        have := Nat.mul_le_mul_right 4096 (Nat.succ_le_of_lt h5)
        omega
      · exact h4
  · rintro e ithr h1 h2 hi ⟨rg, hrg, h3, h4⟩
    rcases (hmem ithr rg).mp hrg with ⟨nb, h5, h6, rfl⟩ | ⟨_, h6, _⟩
    · simp only at h3 h4
      have h7 := hin ithr hi nb h5 h6
      have := Nat.mul_le_mul_right 4096 (Nat.succ_le_of_lt h7)
      omega
    · exact h6
  · intro num_arrs output ptr r ithr m
    exact array_sum_thread_ranges balance211 num_arrs output nelems ptr r nthr ithr m
  · intro num_arrs output ptr starts ends ithr m
    exact subarray_sum_thread_ranges balance211 num_arrs output nelems ptr starts ends nthr ithr m

theorem reduction_partition_witness :
    ∃! ithr, ithr < 2 ∧
      ∃ rg ∈ reduction_thread_ranges balance_all_to_first 4097 2 ithr, rg.1 ≤ 4096 ∧ 4096 < rg.2 :=
  (reduction_partition balance_all_to_first 2 4097 (by decide)
    (by
      intro ithr hi nb h1 h2
      interval_cases ithr
      · simpa [balance_all_to_first] using h2
      · simp [balance_all_to_first] at h2)
    (by
      intro nb hnb
      refine ⟨0, by decide, ?_, ?_, ?_⟩
      · simp [balance_all_to_first]
      · simpa [balance_all_to_first] using hnb
      · intro ithr' hi h1 h2
        interval_cases ithr' <;> simp [balance_all_to_first] at h1 h2 ⊢)).2.2.2.1 4096
    (by decide)

/-! ## Folds of stores -/

/-- A loop nest of two levels is a loop over the pairs, in the same order. -/
theorem foldl_product {S α β : Type} (f : S → α × β → S) (l1 : List α) (l2 : List β) (s : S) :
    l1.foldl (fun s a => l2.foldl (fun s b => f s (a, b)) s) s = (l1 ×ˢ l2).foldl f s := by
  induction l1 generalizing s with
  | nil => rfl
  | cons a l1 ih =>
    rw [List.foldl_cons, ih, List.product_cons, List.foldl_append, List.foldl_map]

/-- A fold of guarded single stores leaves `val t0` at `dest t0` when `t0` is among the
stores and every store to the same address stores the same value. -/
theorem foldl_update_value {ι : Type} (g : ι → Prop) [DecidablePred g] (dest : ι → Nat)
    (val : ι → ℚ) (l : List ι) (t0 : ι) (h0 : t0 ∈ l) (hg0 : g t0)
    (h : ∀ t ∈ l, g t → dest t = dest t0 → val t = val t0) (m : Buffer) :
    l.foldl (fun m t => if g t then Function.update m (dest t) (val t) else m) m (dest t0) =
      val t0 := by
  refine foldl_establish
    (fun (m : Buffer) t => if g t then Function.update m (dest t) (val t) else m)
    (fun m' : Buffer => m' (dest t0) = val t0) l t0 h0 ?_ ?_ m
  · intro m'
    show (if g t0 then Function.update m' (dest t0) (val t0) else m') (dest t0) = val t0
    rw [if_pos hg0, Function.update_same]
  · intro m' t ht hm'
    show (if g t then Function.update m' (dest t) (val t) else m') (dest t0) = val t0
    split
    · rename_i hg
      by_cases hd : dest t = dest t0
      · rw [← hd, Function.update_same]
        exact h t ht hg hd
      · rw [Function.update_noteq (Ne.symm hd)]
        exact hm'
    · exact hm'

/-- A fold of guarded single stores leaves unchanged every address that none of them
stores to. -/
theorem foldl_update_frame {ι : Type} (g : ι → Prop) [DecidablePred g] (dest : ι → Nat)
    (val : ι → ℚ) (l : List ι) (o : Nat) (h : ∀ t ∈ l, g t → dest t ≠ o) (m : Buffer) :
    l.foldl (fun m t => if g t then Function.update m (dest t) (val t) else m) m o = m o := by
  refine foldl_invariant
    (fun (m : Buffer) t => if g t then Function.update m (dest t) (val t) else m)
    (fun m' : Buffer => m' o = m o) l ?_ m rfl
  intro m' t ht hm'
  show (if g t then Function.update m' (dest t) (val t) else m') o = m o
  split
  · rename_i hg
    rw [Function.update_noteq (Ne.symm (h t ht hg))]
    exact hm'
  · exact hm'

/-- Uniqueness of the last two digits of a mixed-radix number. -/
theorem mul_add_inj (d a b a' b' : Nat) (hb : b < d) (hb' : b' < d)
    (h : a * d + b = a' * d + b') : a = a' ∧ b = b' := by
  have h1 : (a * d + b) / d = a := by
    rw [Nat.mul_comm, Nat.mul_add_div (by omega), Nat.div_eq_of_lt hb, Nat.add_zero]
  have h2 : (a' * d + b') / d = a' := by
    rw [Nat.mul_comm, Nat.mul_add_div (by omega), Nat.div_eq_of_lt hb', Nat.add_zero]
  have ha : a = a' := by rw [← h1, ← h2, h]
  subst ha
  exact ⟨rfl, by omega⟩

/-- Claim C30, backward-data weight packing rotates and transposes the filter: in
`weight_transform_bwd_data` the tile handed to `trans_W_4x4_3x3` has
`F[j][i][k][v] = W[2 - j][2 - i][v][k]`, where `W[p][q][a][b]` is the element at float
offset `((p * kw + q) * 16 + a) * 16 + b` of the weight block at the input pointer, and
(for positive block factors, which keep the stores of distinct `(j, i)` apart) after the
call `output(j, i, 0, 0, 0, 0, v, k)` holds `Fw[j][i][v][k]`. -/
theorem weight_transform_bwd_data_flip (conv : jit_conv_winograd_conf_t) (wp twp : Buffer)
    (hic : 1 ≤ conv.nb_ic) (hoc : 1 ≤ conv.nb_oc) (hicb : 1 ≤ conv.ic_block)
    (hocb : 1 ≤ conv.oc_block) :
    (∀ (j i : Fin 3) (k v : Fin 16),
      weight_transform_bwd_data_F conv wp j i k v =
        wp ((((2 - j.val) * conv.kw + (2 - i.val)) * 16 + v.val) * 16 + k.val)) ∧
    (∀ (j i : Fin 6) (v k : Fin 16),
      weight_transform_bwd_data conv wp twp
          ((array_offset_calculator.mk
            [6, 6, conv.nb_ic, conv.nb_oc, conv.ic_block, conv.oc_block, 16, 16]).idx
            [j.val, i.val, 0, 0, 0, 0, v.val, k.val]) =
        trans_W_4x4_3x3 (weight_transform_bwd_data_F conv wp) j i v k) := by
  constructor
  · intro j i k v
    simp only [weight_transform_bwd_data_F, array_offset_calculator.idx,
      array_offset_calculator._offset, List.getD_cons_succ, List.getD_cons_zero]
    congr 1
    ring
  · intro j i v k
    have hoff : ∀ (j i : Fin 6) (v k : Fin 16), (array_offset_calculator.mk
        [6, 6, conv.nb_ic, conv.nb_oc, conv.ic_block, conv.oc_block, 16, 16]).idx
        [j.val, i.val, 0, 0, 0, 0, v.val, k.val] =
        ((j.val * 6 + i.val) * (conv.nb_ic * conv.nb_oc * conv.ic_block * conv.oc_block) * 16 +
          v.val) * 16 + k.val := by
      intro j i v k
      simp only [array_offset_calculator.idx, array_offset_calculator._offset,
        List.getD_cons_succ, List.getD_cons_zero]
      ring
    have hflat : weight_transform_bwd_data conv wp twp =
        (List.finRange 6 ×ˢ (List.finRange 6 ×ˢ (List.finRange 16 ×ˢ List.finRange 16))).foldl
          (fun m t => if True then
            Function.update m ((array_offset_calculator.mk
              [6, 6, conv.nb_ic, conv.nb_oc, conv.ic_block, conv.oc_block, 16, 16]).idx
              [t.1.val, t.2.1.val, 0, 0, 0, 0, t.2.2.1.val, t.2.2.2.val])
              (trans_W_4x4_3x3 (weight_transform_bwd_data_F conv wp) t.1 t.2.1 t.2.2.1 t.2.2.2)
            else m) twp := by
      simp only [if_true]
      rw [← foldl_product]
      refine List.foldl_ext _ _ _ (fun m j _ => ?_)
      rw [← foldl_product]
      refine List.foldl_ext _ _ _ (fun m i _ => ?_)
      rw [← foldl_product]
    rw [hflat]
    refine foldl_update_value (fun _ => True) _ _ _ (j, i, v, k) ?_ trivial ?_ twp
    · simp only [List.mem_product, List.mem_finRange, and_self]
    · rintro ⟨j', i', v', k'⟩ _ _ hd
      simp only [hoff] at hd
      have hP : 1 ≤ conv.nb_ic * conv.nb_oc * conv.ic_block * conv.oc_block :=
        Nat.succ_le_of_lt (Nat.mul_pos (Nat.mul_pos (Nat.mul_pos hic hoc) hicb) hocb)
      obtain ⟨h1, h2⟩ := mul_add_inj 16 _ _ _ _ k'.isLt k.isLt hd
      obtain ⟨h3, h4⟩ := mul_add_inj 16 _ _ _ _ v'.isLt v.isLt h1
      have h5 : j'.val * 6 + i'.val = j.val * 6 + i.val :=
        Nat.eq_of_mul_eq_mul_right hP h3
      obtain ⟨h6, h7⟩ := mul_add_inj 6 _ _ _ _ i'.isLt i.isLt h5
      have e1 : j' = j := Fin.ext h6
      have e2 : i' = i := Fin.ext h7
      have e3 : v' = v := Fin.ext h4
      have e4 : k' = k := Fin.ext h2
      subst e1 e2 e3 e4
      rfl

theorem weight_transform_bwd_data_flip_witness :
    (∀ (j i : Fin 3) (k v : Fin 16),
      weight_transform_bwd_data_F conv_example (fun x => (x : ℚ)) j i k v =
        ((((((2 - j.val) * conv_example.kw + (2 - i.val)) * 16 + v.val) * 16 + k.val : Nat)) :
          ℚ)) ∧
    (∀ (j i : Fin 6) (v k : Fin 16),
      weight_transform_bwd_data conv_example (fun x => (x : ℚ)) (fun _ => 0)
          ((array_offset_calculator.mk
            [6, 6, conv_example.nb_ic, conv_example.nb_oc, conv_example.ic_block,
              conv_example.oc_block, 16, 16]).idx
            [j.val, i.val, 0, 0, 0, 0, v.val, k.val]) =
        trans_W_4x4_3x3 (weight_transform_bwd_data_F conv_example (fun x => (x : ℚ))) j i v k) :=
  weight_transform_bwd_data_flip conv_example (fun x => (x : ℚ)) (fun _ => 0) (by decide)
    (by decide) (by decide) (by decide)

/-! ## Pointers into buffers and loop nests over blocks -/

theorem write_at_add (base : Nat) (f : Buffer → Buffer) (m : Buffer) (x : Nat) :
    write_at base f m (base + x) = f (view base m) x := by
  unfold write_at
  rw [if_pos (Nat.le_add_right _ _), Nat.add_sub_cancel_left]

theorem write_at_lt (base : Nat) (f : Buffer → Buffer) (m : Buffer) (o : Nat) (h : o < base) :
    write_at base f m o = m o := by
  unfold write_at
  rw [if_neg (by omega)]

theorem view_write_at (base : Nat) (f : Buffer → Buffer) (m : Buffer) :
    view base (write_at base f m) = f (view base m) := by
  funext x
  exact write_at_add base f m x

theorem write_at_comp (base : Nat) (f g : Buffer → Buffer) (m : Buffer) :
    write_at base g (write_at base f m) = write_at base (fun d => g (f d)) m := by
  funext o
  by_cases h : base ≤ o
  · obtain ⟨x, rfl⟩ : ∃ x, o = base + x := ⟨o - base, by omega⟩
    rw [write_at_add, write_at_add, view_write_at]
  · rw [write_at_lt _ _ _ _ (by omega), write_at_lt _ _ _ _ (by omega),
      write_at_lt _ _ _ _ (by omega)]

/-- A callee that changes only the first `sz` floats it sees changes only the block
`[base, base + sz)`. -/
theorem write_at_frame (base sz : Nat) (f : Buffer → Buffer) (m : Buffer) (o : Nat)
    (hf : ∀ d x, sz ≤ x → f d x = d x) (h : ¬ (base ≤ o ∧ o < base + sz)) :
    write_at base f m o = m o := by
  unfold write_at
  split
  · rw [hf _ _ (by omega)]
    show m (base + (o - base)) = m o
    congr 1
    omega
  · rfl

/-- A loop over items that each hand a callee a pointer to an own block of `sz` floats:
the block of item `t0` ends up as the callee of `t0` makes it from its initial contents,
when each callee changes only its block and its result there depends only on the block. -/
theorem foldl_write_at_block {ι : Type} (l : List ι) (hnd : l.Nodup) (base : ι → Nat) (sz : Nat)
    (op : ι → Buffer → Buffer)
    (hframe : ∀ t d x, sz ≤ x → op t d x = d x)
    (hlocal : ∀ t d d', (∀ x, x < sz → d x = d' x) → ∀ x, x < sz → op t d x = op t d' x)
    (hdisj : ∀ t ∈ l, ∀ t' ∈ l, t ≠ t' → base t + sz ≤ base t' ∨ base t' + sz ≤ base t)
    (t0 : ι) (h0 : t0 ∈ l) (x : Nat) (hx : x < sz) (m0 : Buffer) :
    l.foldl (fun m t => write_at (base t) (op t) m) m0 (base t0 + x) =
      op t0 (view (base t0) m0) x := by
  have key := foldl_once (fun (m : Buffer) t => write_at (base t) (op t) m)
    (fun m : Buffer => ∀ y, y < sz → m (base t0 + y) = m0 (base t0 + y))
    (fun m : Buffer => ∀ y, y < sz → m (base t0 + y) = op t0 (view (base t0) m0) y)
    l hnd t0 h0 ?_ ?_ ?_ m0 (fun _ _ => rfl)
  · exact key x hx
  · intro m t ht hne hm y hy
    show write_at (base t) (op t) m (base t0 + y) = _
    rw [write_at_frame _ sz _ _ _ (hframe t) (by
      rcases hdisj t ht t0 h0 hne with h | h <;> omega)]
    exact hm y hy
  · intro m t ht hne hm y hy
    show write_at (base t) (op t) m (base t0 + y) = _
    rw [write_at_frame _ sz _ _ _ (hframe t) (by
      rcases hdisj t ht t0 h0 hne with h | h <;> omega)]
    exact hm y hy
  · intro m hm y hy
    show write_at (base t0) (op t0) m (base t0 + y) = _
    rw [write_at_add]
    exact hlocal t0 _ _ hm y hy

/-- A loop over items that each hand a callee a pointer to a block leaves unchanged what
lies outside all the blocks. -/
theorem foldl_write_at_frame {ι : Type} (l : List ι) (base : ι → Nat) (sz : Nat)
    (op : ι → Buffer → Buffer) (hframe : ∀ t d x, sz ≤ x → op t d x = d x) (o : Nat)
    (h : ∀ t ∈ l, ¬ (base t ≤ o ∧ o < base t + sz)) (m0 : Buffer) :
    l.foldl (fun m t => write_at (base t) (op t) m) m0 o = m0 o := by
  refine foldl_invariant (fun (m : Buffer) t => write_at (base t) (op t) m)
    (fun m : Buffer => m o = m0 o) l ?_ m0 rfl
  intro m t ht hm
  show write_at (base t) (op t) m o = m0 o
  rw [write_at_frame _ sz _ _ _ (hframe t) (h t ht)]
  exact hm

/-- The counters of a tile loop nest in closed form: a loop nest over `a` rows of `b`
tiles whose body advances a counter by `nx` and updates memory by `W` is the loop over
the flat tile numbers `k < a * b` with the counter iterated `k` times. -/
theorem foldl_counter_nested {C M : Type} (nx : C → C) (W : C → Nat → Nat → M → M) (b : Nat) :
    ∀ (a : Nat) (c0 : C) (m0 : M),
    (List.range a).foldl (fun st tj =>
        (List.range b).foldl (fun st ti => (nx st.1, W st.1 tj ti st.2)) st) (c0, m0) =
      (nx^[a * b] c0,
        (List.range (a * b)).foldl (fun m k => W (nx^[k] c0) (k / b) (k % b) m) m0) := by
  have row : ∀ (n tj : Nat) (c : C) (m : M),
      (List.range n).foldl (fun st ti => (nx st.1, W st.1 tj ti st.2)) (c, m) =
        (nx^[n] c, (List.range n).foldl (fun m ti => W (nx^[ti] c) tj ti m) m) := by
    intro n tj c m
    induction n with
    | zero => rfl
    | succ n ih =>
      rw [List.range_succ, List.foldl_append, List.foldl_append, ih]
      simp only [List.foldl_cons, List.foldl_nil, Function.iterate_succ_apply']
  intro a
  induction a with
  | zero =>
    intro c0 m0
    simp
  | succ a ih =>
    intro c0 m0
    rw [List.range_succ, List.foldl_append, ih]
    simp only [List.foldl_cons, List.foldl_nil]
    rw [row, Nat.succ_mul, ← Function.iterate_add_apply, Nat.add_comm b (a * b),
      List.range_add, List.foldl_append, List.foldl_map]
    congr 1
    refine List.foldl_ext _ _ _ (fun m ti hti => ?_)
    have hlt := List.mem_range.mp hti
    have hb : 0 < b := by omega
    rw [← Function.iterate_add_apply, Nat.add_comm ti (a * b),
      show (a * b + ti) / b = a by
        rw [Nat.mul_comm, Nat.mul_add_div hb, Nat.div_eq_of_lt hlt, Nat.add_zero],
      show (a * b + ti) % b = ti by
        rw [Nat.mul_comm, Nat.mul_add_mod, Nat.mod_eq_of_lt hlt]]

/-- A loop whose body appends to a list appends the concatenation of what the
iterations append. -/
theorem foldl_append_bind {ι κ : Type} (l : List ι) (g : ι → List κ) (s : List κ) :
    l.foldl (fun s t => s ++ g t) s = s ++ l.flatMap g := by
  induction l generalizing s with
  | nil => simp
  | cons t l ih =>
    rw [List.foldl_cons, ih, List.flatMap_cons, List.append_assoc]

/-! ## GEMM loop nests -/

theorem cons_map_range' {α : Type} (f : Nat → α) (n : Nat) (hn : 1 ≤ n) :
    f 0 :: (List.range' 1 (n - 1)).map f = (List.range n).map f := by
  obtain ⟨k, rfl⟩ : ∃ k, n = k + 1 := ⟨n - 1, by omega⟩
  rw [Nat.add_sub_cancel, List.range_eq_range', List.range'_succ, List.map_cons]

/-- Successive kernel calls on the same destination pointer compose. -/
theorem foldl_gemm_apply (k : Buffer → Buffer → Buffer → Buffer) (A B : Buffer) (dst : Nat)
    (a b : Nat → Nat) (l : List Nat) : ∀ (f0 : Buffer → Buffer) (D : Buffer),
    l.foldl (fun s i => gemm_apply k A B dst (a i) (b i) s) (write_at dst f0 D) =
      write_at dst (fun d => l.foldl (fun d i => k d (view (a i) A) (view (b i) B)) (f0 d)) D := by
  induction l with
  | nil =>
    intro f0 D
    rfl
  | cons i l ih =>
    intro f0 D
    rw [List.foldl_cons]
    show l.foldl _ (write_at dst _ (write_at dst f0 D)) = _
    rw [write_at_comp, ih]
    rfl

/-- The offset of a destination block of the GEMM loop nests of the forward pass. -/
theorem M_idx_eq (d0 nb_oc NB ocb UR tb ofm1 oj oi nb : Nat) :
    (array_offset_calculator.mk [d0, nb_oc, 6, 6, NB, ocb, UR, 16]).idx
        [tb, ofm1, oj, oi, nb, 0, 0, 0] =
      ((((tb * nb_oc + ofm1) * 6 + oj) * 6 + oi) * NB + nb) * (ocb * UR * 16) := by
  simp only [array_offset_calculator.idx, array_offset_calculator._offset,
    List.getD_cons_succ, List.getD_cons_zero]
  ring

/-- Distinct destination blocks of the GEMM loop nests do not overlap. -/
theorem M_block_disjoint (nb_oc NB sz : Nat) (tb ofm1 oj oi nb tb' ofm1' oj' oi' nb' : Nat)
    (h1 : ofm1 < nb_oc) (h2 : oj < 6) (h3 : oi < 6) (h4 : nb < NB)
    (h1' : ofm1' < nb_oc) (h2' : oj' < 6) (h3' : oi' < 6) (h4' : nb' < NB)
    (hne : ¬ (tb = tb' ∧ ofm1 = ofm1' ∧ oj = oj' ∧ oi = oi' ∧ nb = nb')) :
    ((((tb * nb_oc + ofm1) * 6 + oj) * 6 + oi) * NB + nb) * sz + sz ≤
        ((((tb' * nb_oc + ofm1') * 6 + oj') * 6 + oi') * NB + nb') * sz ∨
      ((((tb' * nb_oc + ofm1') * 6 + oj') * 6 + oi') * NB + nb') * sz + sz ≤
        ((((tb * nb_oc + ofm1) * 6 + oj) * 6 + oi) * NB + nb) * sz := by
  have hflat : (((tb * nb_oc + ofm1) * 6 + oj) * 6 + oi) * NB + nb ≠
      (((tb' * nb_oc + ofm1') * 6 + oj') * 6 + oi') * NB + nb' := by
    intro e
    obtain ⟨e1, e2⟩ := mul_add_inj NB _ _ _ _ h4 h4' e
    obtain ⟨e3, e4⟩ := mul_add_inj 6 _ _ _ _ h3 h3' e1
    obtain ⟨e5, e6⟩ := mul_add_inj 6 _ _ _ _ h2 h2' e3
    obtain ⟨e7, e8⟩ := mul_add_inj nb_oc _ _ _ _ h1 h1' e5
    exact hne ⟨e7, e8, e6, e4, e2⟩
  rcases Nat.lt_or_gt_of_ne hflat with h | h
  · left
    have := Nat.mul_le_mul_right sz (Nat.succ_le_of_lt h)
    rw [Nat.succ_mul] at this
    exact this
  · right
    have := Nat.mul_le_mul_right sz (Nat.succ_le_of_lt h)
    rw [Nat.succ_mul] at this
    exact this

/-- The GEMM loop nest of `_execute_forward_W_S_G_D` as one loop over the index tuples
`(tile_block, oj, oi, ofm1, nb_tile_block_ur)`. -/
theorem _execute_forward_W_S_G_D_gemm_flat {S : Type} (jcp : jit_conv_winograd_conf_t)
    (kf k : Nat → Nat → Nat → S → S) (s : S) :
    _execute_forward_W_S_G_D_gemm jcp kf k s =
      (List.range jcp.tile_block ×ˢ (List.range 6 ×ˢ (List.range 6 ×ˢ
        (List.range jcp.nb_oc ×ˢ List.range jcp.nb_tile_block_ur)))).foldl (fun s t =>
          (List.range' 1 (jcp.nb_ic - 1)).foldl (fun s ifm1 =>
            k ((array_offset_calculator.mk [jcp.tile_block, jcp.nb_oc, 6, 6,
                jcp.nb_tile_block_ur, jcp.oc_block, jcp.tile_block_ur, 16]).idx
                [t.1, t.2.2.2.1, t.2.1, t.2.2.1, t.2.2.2.2, 0, 0, 0])
              ((array_offset_calculator.mk [jcp.nb_oc, 6, 6, jcp.nb_ic, jcp.oc_block,
                jcp.ic_block, 16, 16]).idx [t.2.2.2.1, t.2.1, t.2.2.1, ifm1, 0, 0, 0, 0])
              ((array_offset_calculator.mk [jcp.tile_block, 6, 6, jcp.nb_tile_block_ur,
                jcp.nb_ic, jcp.ic_block, jcp.tile_block_ur, 16]).idx
                [t.1, t.2.1, t.2.2.1, t.2.2.2.2, ifm1, 0, 0, 0]) s)
            (kf ((array_offset_calculator.mk [jcp.tile_block, jcp.nb_oc, 6, 6,
                jcp.nb_tile_block_ur, jcp.oc_block, jcp.tile_block_ur, 16]).idx
                [t.1, t.2.2.2.1, t.2.1, t.2.2.1, t.2.2.2.2, 0, 0, 0])
              ((array_offset_calculator.mk [jcp.nb_oc, 6, 6, jcp.nb_ic, jcp.oc_block,
                jcp.ic_block, 16, 16]).idx [t.2.2.2.1, t.2.1, t.2.2.1, 0, 0, 0, 0, 0])
              ((array_offset_calculator.mk [jcp.tile_block, 6, 6, jcp.nb_tile_block_ur,
                jcp.nb_ic, jcp.ic_block, jcp.tile_block_ur, 16]).idx
                [t.1, t.2.1, t.2.2.1, t.2.2.2.2, 0, 0, 0, 0]) s)) s := by
  simp only [← foldl_product]
  rfl

theorem gemm_chain_frame (kf k : Buffer → Buffer → Buffer → Buffer) (sz : Nat)
    (hkf : gemm_kernel_block kf sz) (hk : gemm_kernel_block k sz) (nb : Nat) (A B : Buffer)
    (a b : Nat → Nat) (d : Buffer) (x : Nat) (hx : sz ≤ x) :
    gemm_chain kf k nb A B a b d x = d x := by
  unfold gemm_chain
  refine foldl_invariant (fun (d' : Buffer) i => k d' (view (a i) A) (view (b i) B))
    (fun d' : Buffer => d' x = d x) _ ?_ _ (hkf.1 _ _ _ _ hx)
  intro d' i _ hd'
  show k d' _ _ x = d x
  rw [hk.1 _ _ _ _ hx]
  exact hd'

theorem gemm_chain_local (kf k : Buffer → Buffer → Buffer → Buffer) (sz : Nat)
    (hkf : gemm_kernel_block kf sz) (hk : gemm_kernel_block k sz) (nb : Nat) (A B : Buffer)
    (a b : Nat → Nat) (d d' : Buffer) (h : ∀ x, x < sz → d x = d' x) :
    ∀ x, x < sz → gemm_chain kf k nb A B a b d x = gemm_chain kf k nb A B a b d' x := by
  unfold gemm_chain
  generalize List.range' 1 (nb - 1) = l
  have h0 : ∀ x, x < sz → kf d (view (a 0) A) (view (b 0) B) x =
      kf d' (view (a 0) A) (view (b 0) B) x := hkf.2 _ _ _ _ h
  generalize kf d (view (a 0) A) (view (b 0) B) = e at h0
  generalize kf d' (view (a 0) A) (view (b 0) B) = e' at h0
  induction l generalizing e e' with
  | nil => exact h0
  | cons i l ih =>
    rw [List.foldl_cons, List.foldl_cons]
    exact ih _ _ (hk.2 _ _ _ _ h0)

/-- A loop over items that each make the kernel calls of a contraction on an own
destination block: the block of item `t0` ends up as `gemm_chain` makes it. -/
theorem foldl_gemm_block {ι : Type} (l : List ι) (hnd : l.Nodup) (Md : ι → Nat)
    (Ua Vb : ι → Nat → Nat) (sz : Nat) (kf k : Buffer → Buffer → Buffer → Buffer) (nb : Nat)
    (A B : Buffer) (hkf : gemm_kernel_block kf sz) (hk : gemm_kernel_block k sz)
    (hdisj : ∀ t ∈ l, ∀ t' ∈ l, t ≠ t' → Md t + sz ≤ Md t' ∨ Md t' + sz ≤ Md t)
    (t0 : ι) (h0 : t0 ∈ l) (x : Nat) (hx : x < sz) (M0 : Buffer) :
    l.foldl (fun s t =>
        (List.range' 1 (nb - 1)).foldl (fun s i =>
          gemm_apply k A B (Md t) (Ua t i) (Vb t i) s)
          (gemm_apply kf A B (Md t) (Ua t 0) (Vb t 0) s)) M0 (Md t0 + x) =
      gemm_chain kf k nb A B (Ua t0) (Vb t0) (view (Md t0) M0) x := by
  have hbody : (fun (s : Buffer) (t : ι) =>
      (List.range' 1 (nb - 1)).foldl (fun s i =>
          gemm_apply k A B (Md t) (Ua t i) (Vb t i) s)
          (gemm_apply kf A B (Md t) (Ua t 0) (Vb t 0) s)) =
      fun s t => write_at (Md t) (gemm_chain kf k nb A B (Ua t) (Vb t)) s := by
    funext s t
    exact foldl_gemm_apply k A B (Md t) (Ua t) (Vb t) _ _ s
  rw [hbody]
  exact foldl_write_at_block l hnd Md sz (fun t => gemm_chain kf k nb A B (Ua t) (Vb t))
    (fun t d y hy => gemm_chain_frame kf k sz hkf hk nb A B _ _ d y hy)
    (fun t d d' h => gemm_chain_local kf k sz hkf hk nb A B _ _ d d' h)
    hdisj t0 h0 x hx M0

theorem gemm_first_iter_model_block (P : Buffer → Buffer → Buffer) (sz : Nat) :
    gemm_kernel_block (gemm_first_iter_model P sz) sz := by
  constructor
  · intro d a b x hx
    unfold gemm_first_iter_model
    rw [if_neg (by omega)]
  · intro d d' a b _ x hx
    unfold gemm_first_iter_model
    rw [if_pos hx, if_pos hx]

theorem gemm_accumulate_model_block (P : Buffer → Buffer → Buffer) (sz : Nat) :
    gemm_kernel_block (gemm_accumulate_model P sz) sz := by
  constructor
  · intro d a b x hx
    unfold gemm_accumulate_model
    rw [if_neg (by omega)]
  · intro d d' a b h x hx
    unfold gemm_accumulate_model
    rw [if_pos hx, if_pos hx, h x hx]

/-- With the overwrite / accumulate kernels the destination block holds the sum of the
products of the `nb` operand pairs. -/
theorem gemm_chain_model (P : Buffer → Buffer → Buffer) (sz nb : Nat) (hnb : 1 ≤ nb)
    (A B : Buffer) (a b : Nat → Nat) (d : Buffer) (x : Nat) (hx : x < sz) :
    gemm_chain (gemm_first_iter_model P sz) (gemm_accumulate_model P sz) nb A B a b d x =
      ∑ i in Finset.range nb, P (view (a i) A) (view (b i) B) x := by
  have hacc : ∀ (l : List Nat) (e : Buffer),
      l.foldl (fun d i => gemm_accumulate_model P sz d (view (a i) A) (view (b i) B)) e x =
        e x + (l.map fun i => P (view (a i) A) (view (b i) B) x).sum := by
    intro l
    induction l with
    | nil =>
      intro e
      simp
    | cons i l ih =>
      intro e
      rw [List.foldl_cons, ih, List.map_cons, List.sum_cons]
      unfold gemm_accumulate_model
      rw [if_pos hx]
      ring
  unfold gemm_chain
  rw [hacc, list_sum_range'_one]
  unfold gemm_first_iter_model
  rw [if_pos hx]
  obtain ⟨n, rfl⟩ : ∃ n, nb = n + 1 := ⟨nb - 1, by omega⟩
  rw [Nat.add_sub_cancel, Finset.sum_range_succ']
  ring

theorem foldl_gemm_record (l : List Nat) (d : Nat) (a b : Nat → Nat) (s : List gemm_call) :
    l.foldl (fun s i => gemm_record false d (a i) (b i) s) s =
      s ++ l.map (fun i => { first_iter := false, dst := d, a := a i, b := b i }) := by
  induction l generalizing s with
  | nil => simp
  | cons i l ih =>
    rw [List.foldl_cons, ih]
    unfold gemm_record
    rw [List.append_assoc]
    rfl

/-- Claim C22, forward contraction order: in `_execute_forward_W_S_G_D` with
`nb_ic ≥ 1`, the list of kernel calls is, for every
`(tile_block, oj, oi, ofm1, nb_tile_block_ur)` in loop order, the `nb_ic` calls for
`ifm1 = 0, ..., nb_ic - 1` in increasing order, all on the destination
`M(tile_block, ofm1, oj, oi, nb_tile_block_ur, 0, 0, 0)`, the first through
`gemm_loop_ker_first_iter` and the others through `gemm_loop_ker`, each with the operands
`U(ofm1, oj, oi, ifm1, ...)` and `V(tile_block, oj, oi, nb_tile_block_ur, ifm1, ...)`; and
with the overwrite / accumulate kernel model the destination block holds the sum of the
products over all `nb_ic` input-channel blocks. -/
theorem forward_contraction_order (jcp : jit_conv_winograd_conf_t) (hic : 1 ≤ jcp.nb_ic) :
    _execute_forward_W_S_G_D_gemm jcp (gemm_record true) (gemm_record false) [] =
      (List.range jcp.tile_block).flatMap (fun tile_block =>
        (List.range 6).flatMap (fun oj =>
          (List.range 6).flatMap (fun oi =>
            (List.range jcp.nb_oc).flatMap (fun ofm1 =>
              (List.range jcp.nb_tile_block_ur).flatMap (fun nb_tile_block_ur =>
                (List.range jcp.nb_ic).map (fun ifm1 =>
                  { first_iter := decide (ifm1 = 0)
                    dst := (array_offset_calculator.mk [jcp.tile_block, jcp.nb_oc, 6, 6,
                      jcp.nb_tile_block_ur, jcp.oc_block, jcp.tile_block_ur, 16]).idx
                      [tile_block, ofm1, oj, oi, nb_tile_block_ur, 0, 0, 0]
                    a := (array_offset_calculator.mk [jcp.nb_oc, 6, 6, jcp.nb_ic,
                      jcp.oc_block, jcp.ic_block, 16, 16]).idx [ofm1, oj, oi, ifm1, 0, 0, 0, 0]
                    b := (array_offset_calculator.mk [jcp.tile_block, 6, 6,
                      jcp.nb_tile_block_ur, jcp.nb_ic, jcp.ic_block, jcp.tile_block_ur,
                      16]).idx [tile_block, oj, oi, nb_tile_block_ur, ifm1, 0, 0, 0] })))))) ∧
    ∀ (P : Buffer → Buffer → Buffer) (U V M : Buffer)
      (tile_block oj oi ofm1 nb_tile_block_ur x : Nat),
      tile_block < jcp.tile_block → oj < 6 → oi < 6 → ofm1 < jcp.nb_oc →
      nb_tile_block_ur < jcp.nb_tile_block_ur → x < jcp.oc_block * jcp.tile_block_ur * 16 →
      _execute_forward_W_S_G_D_gemm jcp
          (gemm_apply (gemm_first_iter_model P (jcp.oc_block * jcp.tile_block_ur * 16)) U V)
          (gemm_apply (gemm_accumulate_model P (jcp.oc_block * jcp.tile_block_ur * 16)) U V) M
          ((array_offset_calculator.mk [jcp.tile_block, jcp.nb_oc, 6, 6,
            jcp.nb_tile_block_ur, jcp.oc_block, jcp.tile_block_ur, 16]).idx
            [tile_block, ofm1, oj, oi, nb_tile_block_ur, 0, 0, 0] + x) =
        ∑ ifm1 in Finset.range jcp.nb_ic,
          P (view ((array_offset_calculator.mk [jcp.nb_oc, 6, 6, jcp.nb_ic,
              jcp.oc_block, jcp.ic_block, 16, 16]).idx [ofm1, oj, oi, ifm1, 0, 0, 0, 0]) U)
            (view ((array_offset_calculator.mk [jcp.tile_block, 6, 6,
              jcp.nb_tile_block_ur, jcp.nb_ic, jcp.ic_block, jcp.tile_block_ur, 16]).idx
              [tile_block, oj, oi, nb_tile_block_ur, ifm1, 0, 0, 0]) V) x := by
  constructor
  · have hstep : ∀ {ι : Type} (l : List ι) (inner : ι → List gemm_call → List gemm_call)
        (g : ι → List gemm_call), (∀ t s, inner t s = s ++ g t) →
        ∀ s, l.foldl (fun s t => inner t s) s = s ++ l.flatMap g := by
      intro ι l inner g h s
      have : (fun s t => inner t s) = (fun s t => s ++ g t) := by
        funext s t
        exact h t s
      rw [this, foldl_append_bind]
    unfold _execute_forward_W_S_G_D_gemm
    refine (hstep _ _ _ (fun tb s => hstep _ _ _ (fun oj s => hstep _ _ _ (fun oi s =>
      hstep _ _ _ (fun ofm1 s => hstep _ _ _ (fun nb s => ?_) s) s) s) s) []).trans
      (List.nil_append _)
    refine (foldl_gemm_record _ _ _ _ _).trans ?_
    unfold gemm_record
    rw [List.append_assoc, ← cons_map_range' _ _ hic]
    congr 1
    simp only [List.singleton_append, decide_True, List.cons.injEq, true_and]
    refine List.map_congr_left (fun ifm1 h => ?_)
    have := List.mem_range'_1.mp h
    simp only [gemm_call.mk.injEq, Bool.false_eq, decide_eq_false_iff_not, and_true]
    omega
  · intro P U V M tb oj oi ofm1 nb x htb hoj hoi hofm1 hnb hx
    rw [_execute_forward_W_S_G_D_gemm_flat]
    have key := foldl_gemm_block
      (List.range jcp.tile_block ×ˢ (List.range 6 ×ˢ (List.range 6 ×ˢ
        (List.range jcp.nb_oc ×ˢ List.range jcp.nb_tile_block_ur))))
      (by
        refine List.Nodup.product (List.nodup_range _) (List.Nodup.product (List.nodup_range _)
          (List.Nodup.product (List.nodup_range _) (List.Nodup.product (List.nodup_range _)
            (List.nodup_range _)))))
      (fun t => (array_offset_calculator.mk [jcp.tile_block, jcp.nb_oc, 6, 6,
          jcp.nb_tile_block_ur, jcp.oc_block, jcp.tile_block_ur, 16]).idx
          [t.1, t.2.2.2.1, t.2.1, t.2.2.1, t.2.2.2.2, 0, 0, 0])
      (fun t ifm1 => (array_offset_calculator.mk [jcp.nb_oc, 6, 6, jcp.nb_ic, jcp.oc_block,
          jcp.ic_block, 16, 16]).idx [t.2.2.2.1, t.2.1, t.2.2.1, ifm1, 0, 0, 0, 0])
      (fun t ifm1 => (array_offset_calculator.mk [jcp.tile_block, 6, 6, jcp.nb_tile_block_ur,
          jcp.nb_ic, jcp.ic_block, jcp.tile_block_ur, 16]).idx
          [t.1, t.2.1, t.2.2.1, t.2.2.2.2, ifm1, 0, 0, 0])
      (jcp.oc_block * jcp.tile_block_ur * 16)
      (gemm_first_iter_model P (jcp.oc_block * jcp.tile_block_ur * 16))
      (gemm_accumulate_model P (jcp.oc_block * jcp.tile_block_ur * 16)) jcp.nb_ic U V
      (gemm_first_iter_model_block P _) (gemm_accumulate_model_block P _)
      (by
        rintro ⟨a1, a2, a3, a4, a5⟩ ha ⟨b1, b2, b3, b4, b5⟩ hb hne
        simp only [List.mem_product, List.mem_range] at ha hb
        simp only [M_idx_eq]
        refine M_block_disjoint _ _ _ _ _ _ _ _ _ _ _ _ _ ha.2.2.2.1 ha.2.1 ha.2.2.1 ha.2.2.2.2
          hb.2.2.2.1 hb.2.1 hb.2.2.1 hb.2.2.2.2 ?_
        rintro ⟨e1, e2, e3, e4, e5⟩
        subst e1 e2 e3 e4 e5
        exact hne rfl)
      (tb, oj, oi, ofm1, nb)
      (by simp only [List.mem_product, List.mem_range]; exact ⟨htb, hoj, hoi, hofm1, hnb⟩)
      x hx M
    exact key.trans (gemm_chain_model P _ _ hic U V _ _ _ x hx)

theorem forward_contraction_order_witness :
    _execute_forward_W_S_G_D_gemm conv_example (gemm_record true) (gemm_record false) [] =
      (List.range conv_example.tile_block).flatMap (fun tile_block =>
        (List.range 6).flatMap (fun oj =>
          (List.range 6).flatMap (fun oi =>
            (List.range conv_example.nb_oc).flatMap (fun ofm1 =>
              (List.range conv_example.nb_tile_block_ur).flatMap (fun nb_tile_block_ur =>
                (List.range conv_example.nb_ic).map (fun ifm1 =>
                  { first_iter := decide (ifm1 = 0)
                    dst := (array_offset_calculator.mk [conv_example.tile_block,
                      conv_example.nb_oc, 6, 6, conv_example.nb_tile_block_ur,
                      conv_example.oc_block, conv_example.tile_block_ur, 16]).idx
                      [tile_block, ofm1, oj, oi, nb_tile_block_ur, 0, 0, 0]
                    a := (array_offset_calculator.mk [conv_example.nb_oc, 6, 6,
                      conv_example.nb_ic, conv_example.oc_block, conv_example.ic_block, 16,
                      16]).idx [ofm1, oj, oi, ifm1, 0, 0, 0, 0]
                    b := (array_offset_calculator.mk [conv_example.tile_block, 6, 6,
                      conv_example.nb_tile_block_ur, conv_example.nb_ic,
                      conv_example.ic_block, conv_example.tile_block_ur, 16]).idx
                      [tile_block, oj, oi, nb_tile_block_ur, ifm1, 0, 0, 0] })))))) :=
  (forward_contraction_order conv_example (by decide)).1

/-- The offset of a destination block of the GEMM loop nest of the backward-weights
pass. -/
theorem U_idx_eq (d0 nb_oc al ocb icb isb osb ifm1 ofm1 oj oi : Nat) :
    (array_offset_calculator.mk [d0, nb_oc, al, al, ocb, icb, isb, osb]).idx
        [ifm1, ofm1, oj, oi, 0, 0, 0, 0] =
      (((ifm1 * nb_oc + ofm1) * al + oj) * al + oi) * (ocb * icb * isb * osb) := by
  simp only [array_offset_calculator.idx, array_offset_calculator._offset,
    List.getD_cons_succ, List.getD_cons_zero]
  ring

/-- Distinct destination blocks of the backward-weights GEMM loop nest do not overlap. -/
theorem U_block_disjoint (nb_oc al sz : Nat) (ifm1 ofm1 oj oi ifm1' ofm1' oj' oi' : Nat)
    (h1 : ofm1 < nb_oc) (h2 : oj < al) (h3 : oi < al)
    (h1' : ofm1' < nb_oc) (h2' : oj' < al) (h3' : oi' < al)
    (hne : ¬ (ifm1 = ifm1' ∧ ofm1 = ofm1' ∧ oj = oj' ∧ oi = oi')) :
    (((ifm1 * nb_oc + ofm1) * al + oj) * al + oi) * sz + sz ≤
        (((ifm1' * nb_oc + ofm1') * al + oj') * al + oi') * sz ∨
      (((ifm1' * nb_oc + ofm1') * al + oj') * al + oi') * sz + sz ≤
        (((ifm1 * nb_oc + ofm1) * al + oj) * al + oi) * sz := by
  have hflat : ((ifm1 * nb_oc + ofm1) * al + oj) * al + oi ≠
      ((ifm1' * nb_oc + ofm1') * al + oj') * al + oi' := by
    intro e
    obtain ⟨e3, e4⟩ := mul_add_inj al _ _ _ _ h3 h3' e
    obtain ⟨e5, e6⟩ := mul_add_inj al _ _ _ _ h2 h2' e3
    obtain ⟨e7, e8⟩ := mul_add_inj nb_oc _ _ _ _ h1 h1' e5
    exact hne ⟨e7, e8, e6, e4⟩
  rcases Nat.lt_or_gt_of_ne hflat with h | h
  · left
    have := Nat.mul_le_mul_right sz (Nat.succ_le_of_lt h)
    rw [Nat.succ_mul] at this
    exact this
  · right
    have := Nat.mul_le_mul_right sz (Nat.succ_le_of_lt h)
    rw [Nat.succ_mul] at this
    exact this

/-- The GEMM loop nest of `_execute_backward_weights_S_D_G_W` as one loop over the index
tuples `(ifm1, oj, oi, ofm1)`. -/
theorem _execute_backward_weights_S_D_G_W_gemm_flat {S : Type} (jcp : jit_conv_winograd_conf_t)
    (kf k : Nat → Nat → Nat → S → S) (s : S) :
    _execute_backward_weights_S_D_G_W_gemm jcp kf k s =
      (List.range jcp.nb_ic ×ˢ (List.range jcp.alpha ×ˢ (List.range jcp.alpha ×ˢ
        List.range jcp.nb_oc))).foldl (fun s t =>
          (List.range' 1 (jcp.tile_block - 1)).foldl (fun s tile_block =>
            k ((array_offset_calculator.mk [jcp.nb_ic, jcp.nb_oc, jcp.alpha, jcp.alpha,
                jcp.oc_block, jcp.ic_block, jcp.ic_simd_block, jcp.oc_simd_block]).idx
                [t.1, t.2.2.2, t.2.1, t.2.2.1, 0, 0, 0, 0])
              ((array_offset_calculator.mk [jcp.nb_oc, jcp.alpha, jcp.alpha, jcp.tile_block,
                jcp.oc_block, jcp.nb_tile_block_ur, jcp.tile_block_ur * jcp.tile_4fma,
                jcp.oc_simd_block]).idx [t.2.2.2, t.2.1, t.2.2.1, tile_block, 0, 0, 0, 0])
              ((array_offset_calculator.mk [jcp.nb_ic, jcp.alpha, jcp.alpha, jcp.tile_block,
                jcp.ic_block, jcp.nb_tile_block_ur, jcp.tile_block_ur,
                jcp.ic_simd_block * jcp.tile_4fma]).idx
                [t.1, t.2.1, t.2.2.1, tile_block, 0, 0, 0, 0]) s)
            (kf ((array_offset_calculator.mk [jcp.nb_ic, jcp.nb_oc, jcp.alpha, jcp.alpha,
                jcp.oc_block, jcp.ic_block, jcp.ic_simd_block, jcp.oc_simd_block]).idx
                [t.1, t.2.2.2, t.2.1, t.2.2.1, 0, 0, 0, 0])
              ((array_offset_calculator.mk [jcp.nb_oc, jcp.alpha, jcp.alpha, jcp.tile_block,
                jcp.oc_block, jcp.nb_tile_block_ur, jcp.tile_block_ur * jcp.tile_4fma,
                jcp.oc_simd_block]).idx [t.2.2.2, t.2.1, t.2.2.1, 0, 0, 0, 0, 0])
              ((array_offset_calculator.mk [jcp.nb_ic, jcp.alpha, jcp.alpha, jcp.tile_block,
                jcp.ic_block, jcp.nb_tile_block_ur, jcp.tile_block_ur,
                jcp.ic_simd_block * jcp.tile_4fma]).idx
                [t.1, t.2.1, t.2.2.1, 0, 0, 0, 0, 0]) s)) s := by
  simp only [← foldl_product]
  rfl

/-- Claim C23, backward-weights contraction order: in
`_execute_backward_weights_S_D_G_W` with `tile_block ≥ 1`, the list of kernel calls is,
for every `(ifm1, oj, oi, ofm1)` in loop order, the `tile_block` calls for the tile-blocks
`0, ..., tile_block - 1` in increasing order, all on the destination
`U(ifm1, ofm1, oj, oi, 0, 0, 0, 0)`, the first through `gemm_loop_ker_first_iter` and
the others through `gemm_loop_ker`, with the operands `M(ofm1, oj, oi, tile_block, ...)`
and `V(ifm1, oj, oi, tile_block, ...)`; and with the overwrite / accumulate kernel model
the destination block holds the sum of the products over all tile-blocks. -/
theorem backward_weights_contraction_order (jcp : jit_conv_winograd_conf_t)
    (htb : 1 ≤ jcp.tile_block) :
    _execute_backward_weights_S_D_G_W_gemm jcp (gemm_record true) (gemm_record false) [] =
      (List.range jcp.nb_ic).flatMap (fun ifm1 =>
        (List.range jcp.alpha).flatMap (fun oj =>
          (List.range jcp.alpha).flatMap (fun oi =>
            (List.range jcp.nb_oc).flatMap (fun ofm1 =>
              (List.range jcp.tile_block).map (fun tile_block =>
                { first_iter := decide (tile_block = 0)
                  dst := (array_offset_calculator.mk [jcp.nb_ic, jcp.nb_oc, jcp.alpha,
                    jcp.alpha, jcp.oc_block, jcp.ic_block, jcp.ic_simd_block,
                    jcp.oc_simd_block]).idx [ifm1, ofm1, oj, oi, 0, 0, 0, 0]
                  a := (array_offset_calculator.mk [jcp.nb_oc, jcp.alpha, jcp.alpha,
                    jcp.tile_block, jcp.oc_block, jcp.nb_tile_block_ur,
                    jcp.tile_block_ur * jcp.tile_4fma, jcp.oc_simd_block]).idx
                    [ofm1, oj, oi, tile_block, 0, 0, 0, 0]
                  b := (array_offset_calculator.mk [jcp.nb_ic, jcp.alpha, jcp.alpha,
                    jcp.tile_block, jcp.ic_block, jcp.nb_tile_block_ur, jcp.tile_block_ur,
                    jcp.ic_simd_block * jcp.tile_4fma]).idx
                    [ifm1, oj, oi, tile_block, 0, 0, 0, 0] }))))) ∧
    ∀ (P : Buffer → Buffer → Buffer) (M V U : Buffer) (ifm1 oj oi ofm1 x : Nat),
      ifm1 < jcp.nb_ic → oj < jcp.alpha → oi < jcp.alpha → ofm1 < jcp.nb_oc →
      x < jcp.oc_block * jcp.ic_block * jcp.ic_simd_block * jcp.oc_simd_block →
      _execute_backward_weights_S_D_G_W_gemm jcp
          (gemm_apply (gemm_first_iter_model P
            (jcp.oc_block * jcp.ic_block * jcp.ic_simd_block * jcp.oc_simd_block)) M V)
          (gemm_apply (gemm_accumulate_model P
            (jcp.oc_block * jcp.ic_block * jcp.ic_simd_block * jcp.oc_simd_block)) M V) U
          ((array_offset_calculator.mk [jcp.nb_ic, jcp.nb_oc, jcp.alpha, jcp.alpha,
            jcp.oc_block, jcp.ic_block, jcp.ic_simd_block, jcp.oc_simd_block]).idx
            [ifm1, ofm1, oj, oi, 0, 0, 0, 0] + x) =
        ∑ tile_block in Finset.range jcp.tile_block,
          P (view ((array_offset_calculator.mk [jcp.nb_oc, jcp.alpha, jcp.alpha,
              jcp.tile_block, jcp.oc_block, jcp.nb_tile_block_ur,
              jcp.tile_block_ur * jcp.tile_4fma, jcp.oc_simd_block]).idx
              [ofm1, oj, oi, tile_block, 0, 0, 0, 0]) M)
            (view ((array_offset_calculator.mk [jcp.nb_ic, jcp.alpha, jcp.alpha,
              jcp.tile_block, jcp.ic_block, jcp.nb_tile_block_ur, jcp.tile_block_ur,
              jcp.ic_simd_block * jcp.tile_4fma]).idx
              [ifm1, oj, oi, tile_block, 0, 0, 0, 0]) V) x := by
  constructor
  · have hstep : ∀ {ι : Type} (l : List ι) (inner : ι → List gemm_call → List gemm_call)
        (g : ι → List gemm_call), (∀ t s, inner t s = s ++ g t) →
        ∀ s, l.foldl (fun s t => inner t s) s = s ++ l.flatMap g := by
      intro ι l inner g h s
      have : (fun s t => inner t s) = (fun s t => s ++ g t) := by
        funext s t
        exact h t s
      rw [this, foldl_append_bind]
    unfold _execute_backward_weights_S_D_G_W_gemm
    refine (hstep _ _ _ (fun ifm1 s => hstep _ _ _ (fun oj s => hstep _ _ _ (fun oi s =>
      hstep _ _ _ (fun ofm1 s => ?_) s) s) s) []).trans (List.nil_append _)
    refine (foldl_gemm_record _ _ _ _ _).trans ?_
    unfold gemm_record
    rw [List.append_assoc, ← cons_map_range' _ _ htb]
    congr 1
    simp only [List.singleton_append, decide_True, List.cons.injEq, true_and]
    refine List.map_congr_left (fun tb h => ?_)
    have := List.mem_range'_1.mp h
    simp only [gemm_call.mk.injEq, Bool.false_eq, decide_eq_false_iff_not, and_true]
    omega
  · intro P M V U ifm1 oj oi ofm1 x hifm1 hoj hoi hofm1 hx
    rw [_execute_backward_weights_S_D_G_W_gemm_flat]
    have key := foldl_gemm_block
      (List.range jcp.nb_ic ×ˢ (List.range jcp.alpha ×ˢ (List.range jcp.alpha ×ˢ
        List.range jcp.nb_oc)))
      (by
        refine List.Nodup.product (List.nodup_range _) (List.Nodup.product (List.nodup_range _)
          (List.Nodup.product (List.nodup_range _) (List.nodup_range _))))
      (fun t => (array_offset_calculator.mk [jcp.nb_ic, jcp.nb_oc, jcp.alpha, jcp.alpha,
          jcp.oc_block, jcp.ic_block, jcp.ic_simd_block, jcp.oc_simd_block]).idx
          [t.1, t.2.2.2, t.2.1, t.2.2.1, 0, 0, 0, 0])
      (fun t tile_block => (array_offset_calculator.mk [jcp.nb_oc, jcp.alpha, jcp.alpha,
          jcp.tile_block, jcp.oc_block, jcp.nb_tile_block_ur,
          jcp.tile_block_ur * jcp.tile_4fma, jcp.oc_simd_block]).idx
          [t.2.2.2, t.2.1, t.2.2.1, tile_block, 0, 0, 0, 0])
      (fun t tile_block => (array_offset_calculator.mk [jcp.nb_ic, jcp.alpha, jcp.alpha,
          jcp.tile_block, jcp.ic_block, jcp.nb_tile_block_ur, jcp.tile_block_ur,
          jcp.ic_simd_block * jcp.tile_4fma]).idx
          [t.1, t.2.1, t.2.2.1, tile_block, 0, 0, 0, 0])
      (jcp.oc_block * jcp.ic_block * jcp.ic_simd_block * jcp.oc_simd_block)
      (gemm_first_iter_model P _) (gemm_accumulate_model P _) jcp.tile_block M V
      (gemm_first_iter_model_block P _) (gemm_accumulate_model_block P _)
      (by
        rintro ⟨a1, a2, a3, a4⟩ ha ⟨b1, b2, b3, b4⟩ hb hne
        simp only [List.mem_product, List.mem_range] at ha hb
        simp only [U_idx_eq]
        refine U_block_disjoint _ _ _ _ _ _ _ _ _ _ _ ha.2.2.2 ha.2.1 ha.2.2.1
          hb.2.2.2 hb.2.1 hb.2.2.1 ?_
        rintro ⟨e1, e2, e3, e4⟩
        subst e1 e2 e3 e4
        exact hne rfl)
      (ifm1, oj, oi, ofm1)
      (by simp only [List.mem_product, List.mem_range]; exact ⟨hifm1, hoj, hoi, hofm1⟩)
      x hx U
    exact key.trans (gemm_chain_model P _ _ htb M V _ _ _ x hx)

theorem backward_weights_contraction_order_witness :
    _execute_backward_weights_S_D_G_W_gemm conv_example (gemm_record true) (gemm_record false)
        [] =
      (List.range conv_example.nb_ic).flatMap (fun ifm1 =>
        (List.range conv_example.alpha).flatMap (fun oj =>
          (List.range conv_example.alpha).flatMap (fun oi =>
            (List.range conv_example.nb_oc).flatMap (fun ofm1 =>
              (List.range conv_example.tile_block).map (fun tile_block =>
                { first_iter := decide (tile_block = 0)
                  dst := (array_offset_calculator.mk [conv_example.nb_ic, conv_example.nb_oc,
                    conv_example.alpha, conv_example.alpha, conv_example.oc_block,
                    conv_example.ic_block, conv_example.ic_simd_block,
                    conv_example.oc_simd_block]).idx [ifm1, ofm1, oj, oi, 0, 0, 0, 0]
                  a := (array_offset_calculator.mk [conv_example.nb_oc, conv_example.alpha,
                    conv_example.alpha, conv_example.tile_block, conv_example.oc_block,
                    conv_example.nb_tile_block_ur,
                    conv_example.tile_block_ur * conv_example.tile_4fma,
                    conv_example.oc_simd_block]).idx [ofm1, oj, oi, tile_block, 0, 0, 0, 0]
                  b := (array_offset_calculator.mk [conv_example.nb_ic, conv_example.alpha,
                    conv_example.alpha, conv_example.tile_block, conv_example.ic_block,
                    conv_example.nb_tile_block_ur, conv_example.tile_block_ur,
                    conv_example.ic_simd_block * conv_example.tile_4fma]).idx
                    [ifm1, oj, oi, tile_block, 0, 0, 0, 0] }))))) :=
  (backward_weights_contraction_order conv_example (by decide)).1

/-! ## Packers as loops of single stores -/

/-- A tile loop nest with a rolling counter whose body stores a 6x6 tile with
`store_output` is one loop of single stores over the tuples (tile number, `j`, `i`,
lane), in program order. -/
theorem tile_loop_flat {C : Type} (nx : C → C) (D : C → Nat → Nat → Fin 6 → Fin 6 → Nat)
    (data : C → Nat → Nat → Tile 6 6) (s : Bool) (a b : Nat) (c0 : C) (m0 : Buffer) :
    ((List.range a).foldl (fun st tj =>
        (List.range b).foldl (fun st ti =>
          (nx st.1, (List.finRange 6).foldl (fun m j =>
            (List.finRange 6).foldl (fun m i =>
              store_output m (D st.1 tj ti j i) (data st.1 tj ti j i) s) m) st.2)) st)
        (c0, m0)).2 =
      (List.range (a * b) ×ˢ (List.finRange 6 ×ˢ (List.finRange 6 ×ˢ List.finRange 16))).foldl
        (fun m t => if True then
          Function.update m (D (nx^[t.1] c0) (t.1 / b) (t.1 % b) t.2.1 t.2.2.1 + t.2.2.2.val)
            (data (nx^[t.1] c0) (t.1 / b) (t.1 % b) t.2.1 t.2.2.1 t.2.2.2)
          else m) m0 := by
  rw [foldl_counter_nested nx (fun c tj ti m => (List.finRange 6).foldl (fun m j =>
    (List.finRange 6).foldl (fun m i =>
      store_output m (D c tj ti j i) (data c tj ti j i) s) m) m)]
  simp only [← foldl_product, if_true]
  rfl

/-- A tile loop nest with a rolling counter whose body stores the valid part of a 4x4
tile with `store_output` is one loop of guarded single stores over the tuples (tile
number, `j`, `i`, lane), in program order. -/
theorem tile_loop_flat_guarded {C : Type} (nx : C → C) (H W : Nat)
    (D : C → Nat → Nat → Fin 4 → Fin 4 → Nat) (Y X : C → Nat → Nat → Nat)
    (data : C → Nat → Nat → Tile 4 4) (s : Bool) (a b : Nat) (c0 : C) (m0 : Buffer) :
    ((List.range a).foldl (fun st tj =>
        (List.range b).foldl (fun st ti =>
          (nx st.1, (List.finRange 4).foldl (fun m j =>
            if Y st.1 tj ti * 4 + j.val < H then
              (List.finRange 4).foldl (fun m i =>
                if X st.1 tj ti * 4 + i.val < W then
                  store_output m (D st.1 tj ti j i) (data st.1 tj ti j i) s
                else m) m
            else m) st.2)) st)
        (c0, m0)).2 =
      (List.range (a * b) ×ˢ (List.finRange 4 ×ˢ (List.finRange 4 ×ˢ List.finRange 16))).foldl
        (fun m t =>
          if Y (nx^[t.1] c0) (t.1 / b) (t.1 % b) * 4 + t.2.1.val < H ∧
              X (nx^[t.1] c0) (t.1 / b) (t.1 % b) * 4 + t.2.2.1.val < W then
            Function.update m (D (nx^[t.1] c0) (t.1 / b) (t.1 % b) t.2.1 t.2.2.1 + t.2.2.2.val)
              (data (nx^[t.1] c0) (t.1 / b) (t.1 % b) t.2.1 t.2.2.1 t.2.2.2)
          else m) m0 := by
  rw [foldl_counter_nested nx (fun c tj ti m => (List.finRange 4).foldl (fun m j =>
    if Y c tj ti * 4 + j.val < H then
      (List.finRange 4).foldl (fun m i =>
        if X c tj ti * 4 + i.val < W then
          store_output m (D c tj ti j i) (data c tj ti j i) s
        else m) m
    else m) m)]
  simp only [← foldl_product]
  refine List.foldl_ext _ _ _ (fun m k _ => ?_)
  refine List.foldl_ext _ _ _ (fun m j _ => ?_)
  by_cases hy : Y (nx^[k] c0) (k / b) (k % b) * 4 + j.val < H
  · rw [if_pos hy]
    refine List.foldl_ext _ _ _ (fun m i _ => ?_)
    by_cases hx : X (nx^[k] c0) (k / b) (k % b) * 4 + i.val < W
    · rw [if_pos hx]
      simp only [hy, hx, and_self, if_true]
      rfl
    · rw [if_neg hx]
      simp only [hx, and_false, if_false]
      exact (foldl_invariant _ (fun m' => m' = m) _ (fun _ _ _ h => h) m rfl).symm
  · rw [if_neg hy]
    simp only [hy, false_and, if_false]
    exact (foldl_invariant _ (fun m' => m' = m) _ (fun m' i _ h =>
      (foldl_invariant _ (fun m'' => m'' = m) _ (fun _ _ _ h' => h') m' h)) m rfl).symm

/-- A callee that makes a loop of single stores, handed a pointer into a buffer, makes
the same stores at the addresses shifted by the pointer. -/
theorem write_at_foldl_update {ι : Type} (g : ι → Prop) [DecidablePred g] (dest : ι → Nat)
    (val : ι → ℚ) (base : Nat) (l : List ι) (m : Buffer) :
    write_at base
        (fun d => l.foldl (fun m t => if g t then Function.update m (dest t) (val t) else m) d)
        m =
      l.foldl (fun m t => if g t then Function.update m (base + dest t) (val t) else m) m := by
  induction l generalizing m with
  | nil =>
    funext o
    unfold write_at
    split
    · show m (base + (o - base)) = m o
      congr 1
      omega
    · rfl
  | cons t l ih =>
    rw [List.foldl_cons, ← ih]
    have h2 := write_at_comp base
      (fun d' : Buffer => if g t then Function.update d' (dest t) (val t) else d')
      (fun d' => l.foldl
        (fun m t => if g t then Function.update m (dest t) (val t) else m) d') m
    have h3 : write_at base
        (fun d' : Buffer => if g t then Function.update d' (dest t) (val t) else d') m =
        (if g t then Function.update m (base + dest t) (val t) else m) := by
      funext o
      by_cases hg : g t
      · simp only [hg, if_true]
        by_cases ho : base ≤ o
        · obtain ⟨x, rfl⟩ : ∃ x, o = base + x := ⟨o - base, by omega⟩
          rw [write_at_add]
          by_cases hx : x = dest t
          · subst hx
            rw [Function.update_same, Function.update_same]
          · rw [Function.update_noteq hx, Function.update_noteq (by omega)]
            rfl
        · rw [write_at_lt _ _ _ _ (by omega), Function.update_noteq (by omega)]
      · simp only [hg, if_false]
        by_cases ho : base ≤ o
        · obtain ⟨x, rfl⟩ : ∃ x, o = base + x := ⟨o - base, by omega⟩
          rw [write_at_add]
          rfl
        · rw [write_at_lt _ _ _ _ (by omega)]
    rw [h3] at h2
    exact h2.symm

/-- `src_transform_fwd` as a loop of single stores. -/
theorem src_transform_fwd_flat (image : Nat) (conv : jit_conv_winograd_conf_t)
    (inp tinp : Buffer) (s : Bool) :
    src_transform_fwd image conv inp tinp s =
      (List.range (conv.jtiles * conv.itiles) ×ˢ
        (List.finRange 6 ×ˢ (List.finRange 6 ×ˢ List.finRange 16))).foldl
        (fun m t => if True then
          Function.update m
            ((array_offset_calculator.mk [conv.tile_block, 6, 6, conv.nb_tile_block_ur,
              conv.nb_ic, conv.ic_block, conv.tile_block_ur, 16]).idx
              [((tile_counters_next conv)^[t.1] (tile_counters_init conv image)).tile_block,
                t.2.1.val, t.2.2.1.val,
                ((tile_counters_next conv)^[t.1]
                  (tile_counters_init conv image)).nb_tile_block_ur, 0, 0,
                ((tile_counters_next conv)^[t.1] (tile_counters_init conv image)).tile_block_ur,
                0] + t.2.2.2.val)
            (trans_I_4x4_3x3 (src_transform_fwd_I conv inp (t.1 / conv.itiles)
              (t.1 % conv.itiles)) t.2.1 t.2.2.1 t.2.2.2)
          else m) tinp :=
  tile_loop_flat (tile_counters_next conv)
    (fun c _ _ j i => (array_offset_calculator.mk [conv.tile_block, 6, 6,
      conv.nb_tile_block_ur, conv.nb_ic, conv.ic_block, conv.tile_block_ur, 16]).idx
      [c.tile_block, j.val, i.val, c.nb_tile_block_ur, 0, 0, c.tile_block_ur, 0])
    (fun _ tj ti => trans_I_4x4_3x3 (src_transform_fwd_I conv inp tj ti)) s
    conv.jtiles conv.itiles (tile_counters_init conv image) tinp

/-- `src_transform_fwd_tile` as a loop of single stores. -/
theorem src_transform_fwd_tile_flat (tile_block : Nat) (conv : jit_conv_winograd_conf_t)
    (inp tinp : Buffer) :
    src_transform_fwd_tile tile_block conv inp tinp =
      (List.range (conv.nb_tile_block_ur * conv.tile_block_ur) ×ˢ
        (List.finRange 6 ×ˢ (List.finRange 6 ×ˢ List.finRange 16))).foldl
        (fun m t => if True then
          Function.update m
            ((array_offset_calculator.mk [6, 6, conv.nb_tile_block_ur,
              conv.nb_ic, conv.ic_block, conv.tile_block_ur, 16]).idx
              [t.2.1.val, t.2.2.1.val, t.1 / conv.tile_block_ur, 0, 0,
                t.1 % conv.tile_block_ur, 0] + t.2.2.2.val)
            (trans_I_4x4_3x3 (src_transform_fwd_tile_I conv inp
              (((· + 1)^[t.1] (tile_block * conv.nb_tile_block_ur * conv.tile_block_ur)) /
                (conv.jtiles * conv.itiles))
              (((· + 1)^[t.1] (tile_block * conv.nb_tile_block_ur * conv.tile_block_ur)) %
                (conv.jtiles * conv.itiles) / conv.itiles)
              (((· + 1)^[t.1] (tile_block * conv.nb_tile_block_ur * conv.tile_block_ur)) %
                (conv.jtiles * conv.itiles) % conv.itiles)) t.2.1 t.2.2.1 t.2.2.2)
          else m) tinp :=
  tile_loop_flat (· + 1)
    (fun _ nb ur j i => (array_offset_calculator.mk [6, 6, conv.nb_tile_block_ur,
      conv.nb_ic, conv.ic_block, conv.tile_block_ur, 16]).idx
      [j.val, i.val, nb, 0, 0, ur, 0])
    (fun n _ _ => trans_I_4x4_3x3 (src_transform_fwd_tile_I conv inp
      (n / (conv.jtiles * conv.itiles)) (n % (conv.jtiles * conv.itiles) / conv.itiles)
      (n % (conv.jtiles * conv.itiles) % conv.itiles))) false
    conv.nb_tile_block_ur conv.tile_block_ur
    (tile_block * conv.nb_tile_block_ur * conv.tile_block_ur) tinp

/-! ## The Winograd-domain buffer `V` of the forward pass -/

theorem add_one_iterate (k n : Nat) : (· + 1)^[k] n = n + k := by
  induction k generalizing n with
  | zero => rfl
  | succ k ih =>
    rw [Function.iterate_succ_apply, ih]
    omega

/-- The offset of an element of `V` (or of a per-thread slice of it). -/
theorem V_idx_eq (d0 NB nb_ic icb UR tb j i nb ifm1 ifm2 ur v : Nat) :
    (array_offset_calculator.mk [d0, 6, 6, NB, nb_ic, icb, UR, 16]).idx
        [tb, j, i, nb, ifm1, ifm2, ur, v] =
      ((((((tb * 6 + j) * 6 + i) * NB + nb) * nb_ic + ifm1) * icb + ifm2) * UR + ur) * 16 + v := by
  simp only [array_offset_calculator.idx, array_offset_calculator._offset,
    List.getD_cons_succ, List.getD_cons_zero]
  ring

/-- The base pointer of a work item plus an offset stored to by `src_transform_fwd`. -/
theorem V_idx_add (d0 d0' NB nb_ic icb UR tb j i nb ifm1 ifm2 ur v : Nat) :
    (array_offset_calculator.mk [d0, 6, 6, NB, nb_ic, icb, UR, 16]).idx
        [0, 0, 0, 0, ifm1, ifm2, 0, 0] +
      ((array_offset_calculator.mk [d0', 6, 6, NB, nb_ic, icb, UR, 16]).idx
        [tb, j, i, nb, 0, 0, ur, 0] + v) =
      ((((((tb * 6 + j) * 6 + i) * NB + nb) * nb_ic + ifm1) * icb + ifm2) * UR + ur) * 16 + v := by
  simp only [array_offset_calculator.idx, array_offset_calculator._offset,
    List.getD_cons_succ, List.getD_cons_zero]
  ring

/-- The base pointer of a work item of a thread plus an offset stored to by
`src_transform_fwd_tile`. -/
theorem V_idx_add_tile (d0 NB nb_ic icb UR ithr j i nb ifm1 ifm2 ur v : Nat) :
    (array_offset_calculator.mk [d0, 6, 6, NB, nb_ic, icb, UR, 16]).idx
        [ithr, 0, 0, 0, ifm1, ifm2, 0, 0] +
      ((array_offset_calculator.mk [6, 6, NB, nb_ic, icb, UR, 16]).idx
        [j, i, nb, 0, 0, ur, 0] + v) =
      ((((((ithr * 6 + j) * 6 + i) * NB + nb) * nb_ic + ifm1) * icb + ifm2) * UR + ur) * 16 + v := by
  simp only [array_offset_calculator.idx, array_offset_calculator._offset,
    List.getD_cons_succ, List.getD_cons_zero]
  ring

/-- Offsets of `V` are injective in the index tuple. -/
theorem V_inj (NB nb_ic icb UR : Nat) (tb j i nb ifm1 ifm2 ur v tb' j' i' nb' ifm1' ifm2' ur'
    v' : Nat) (hj : j < 6) (hi : i < 6) (hnb : nb < NB) (h1 : ifm1 < nb_ic) (h2 : ifm2 < icb)
    (hur : ur < UR) (hv : v < 16) (hj' : j' < 6) (hi' : i' < 6) (hnb' : nb' < NB)
    (h1' : ifm1' < nb_ic) (h2' : ifm2' < icb) (hur' : ur' < UR) (hv' : v' < 16)
    (e : ((((((tb * 6 + j) * 6 + i) * NB + nb) * nb_ic + ifm1) * icb + ifm2) * UR + ur) * 16 + v =
      ((((((tb' * 6 + j') * 6 + i') * NB + nb') * nb_ic + ifm1') * icb + ifm2') * UR + ur') * 16
        + v') :
    tb = tb' ∧ j = j' ∧ i = i' ∧ nb = nb' ∧ ifm1 = ifm1' ∧ ifm2 = ifm2' ∧ ur = ur' ∧ v = v' := by
  obtain ⟨e1, e2⟩ := mul_add_inj 16 _ _ _ _ hv hv' e
  obtain ⟨e3, e4⟩ := mul_add_inj UR _ _ _ _ hur hur' e1
  obtain ⟨e5, e6⟩ := mul_add_inj icb _ _ _ _ h2 h2' e3
  obtain ⟨e7, e8⟩ := mul_add_inj nb_ic _ _ _ _ h1 h1' e5
  obtain ⟨e9, e10⟩ := mul_add_inj NB _ _ _ _ hnb hnb' e7
  obtain ⟨e11, e12⟩ := mul_add_inj 6 _ _ _ _ hi hi' e9
  obtain ⟨e13, e14⟩ := mul_add_inj 6 _ _ _ _ hj hj' e11
  exact ⟨e13, e14, e12, e10, e8, e6, e4, e2⟩

/-- An offset of `V` lies in the slice of its first index. -/
theorem V_slice (NB nb_ic icb UR tb j i nb ifm1 ifm2 ur v : Nat)
    (hj : j < 6) (hi : i < 6) (hnb : nb < NB) (h1 : ifm1 < nb_ic) (h2 : ifm2 < icb)
    (hur : ur < UR) (hv : v < 16) :
    tb * (36 * NB * nb_ic * icb * UR * 16) ≤
        ((((((tb * 6 + j) * 6 + i) * NB + nb) * nb_ic + ifm1) * icb + ifm2) * UR + ur) * 16 + v ∧
      ((((((tb * 6 + j) * 6 + i) * NB + nb) * nb_ic + ifm1) * icb + ifm2) * UR + ur) * 16 + v <
        (tb + 1) * (36 * NB * nb_ic * icb * UR * 16) := by
  have step : ∀ a b d lo hi : Nat, b < d → lo ≤ a → a + 1 ≤ hi →
      lo * d ≤ a * d + b ∧ a * d + b + 1 ≤ hi * d := by
    intro a b d lo hi hb hlo hhi
    have h1 := Nat.mul_le_mul_right d hlo
    have h2 := Nat.mul_le_mul_right d hhi
    rw [Nat.add_mul, Nat.one_mul] at h2
    exact ⟨by omega, by omega⟩
  have s1 := step tb j 6 tb (tb + 1) hj (le_refl _) (le_refl _)
  have s2 := step _ i 6 _ _ hi s1.1 s1.2
  have s3 := step _ nb NB _ _ hnb s2.1 s2.2
  have s4 := step _ ifm1 nb_ic _ _ h1 s3.1 s3.2
  have s5 := step _ ifm2 icb _ _ h2 s4.1 s4.2
  have s6 := step _ ur UR _ _ hur s5.1 s5.2
  have s7 := step _ v 16 _ _ hv s6.1 s6.2
  have e1 : tb * 6 * 6 * NB * nb_ic * icb * UR * 16 = tb * (36 * NB * nb_ic * icb * UR * 16) := by
    ring
  have e2 : (tb + 1) * 6 * 6 * NB * nb_ic * icb * UR * 16 =
      (tb + 1) * (36 * NB * nb_ic * icb * UR * 16) := by
    ring
  rw [e1] at s7
  rw [e2] at s7
  exact ⟨s7.1, by omega⟩

/-- Quotient and remainder of a flat position in a tile block. -/
theorem div_mod_lt (NB UR q : Nat) (hq : q < NB * UR) : q / UR < NB ∧ q % UR < UR := by
  have hUR : 0 < UR := by
    rcases Nat.eq_zero_or_pos UR with h | h
    · subst h
      simp at hq
    · exact h
  exact ⟨(Nat.div_lt_iff_lt_mul hUR).mpr hq, Nat.mod_lt _ hUR⟩

/-- The memory outside the offsets `V(ithr, j, i, nb, ifm1, ifm2, ur, v)` of the tiles of
the block is left unchanged by a work item of `_execute_forward_W_SGD`. -/
theorem src_transform_fwd_tile_frame (jcp : jit_conv_winograd_conf_t)
    (tile_block ithr ifm1 ifm2 : Nat) (inp V : Buffer) (o : Nat)
    (h : ∀ (q : Nat) (j i : Fin 6) (v : Fin 16), q < jcp.nb_tile_block_ur * jcp.tile_block_ur →
      o ≠ ((((((ithr * 6 + j.val) * 6 + i.val) * jcp.nb_tile_block_ur + q / jcp.tile_block_ur) *
        jcp.nb_ic + ifm1) * jcp.ic_block + ifm2) * jcp.tile_block_ur + q % jcp.tile_block_ur) *
        16 + v.val) :
    write_at ((array_offset_calculator.mk [0, 6, 6, jcp.nb_tile_block_ur, jcp.nb_ic,
        jcp.ic_block, jcp.tile_block_ur, 16]).idx [ithr, 0, 0, 0, ifm1, ifm2, 0, 0])
      (src_transform_fwd_tile tile_block jcp inp) V o = V o := by
  have hfun : src_transform_fwd_tile tile_block jcp inp = fun d =>
      src_transform_fwd_tile tile_block jcp inp d := rfl
  rw [hfun]
  simp only [src_transform_fwd_tile_flat]
  rw [write_at_foldl_update]
  refine foldl_update_frame _ _ _ _ o ?_ V
  rintro ⟨q, j, i, v⟩ ht _
  simp only [List.mem_product, List.mem_range, List.mem_finRange, and_true] at ht
  rw [V_idx_add_tile]
  exact (h q j i v ht).symm

/-- A work item of `_execute_forward_W_SGD` leaves at `V(ithr, j, i, nb, ifm1, ifm2, ur, v)`
the transformed tile number `tile_block * NB * UR + nb * UR + ur`. -/
theorem src_transform_fwd_tile_value (jcp : jit_conv_winograd_conf_t)
    (tile_block ithr ifm1 ifm2 : Nat) (inp V : Buffer) (q : Nat) (j i : Fin 6) (v : Fin 16)
    (hq : q < jcp.nb_tile_block_ur * jcp.tile_block_ur) (h1 : ifm1 < jcp.nb_ic)
    (h2 : ifm2 < jcp.ic_block) :
    write_at ((array_offset_calculator.mk [0, 6, 6, jcp.nb_tile_block_ur, jcp.nb_ic,
        jcp.ic_block, jcp.tile_block_ur, 16]).idx [ithr, 0, 0, 0, ifm1, ifm2, 0, 0])
      (src_transform_fwd_tile tile_block jcp inp) V
      (((((((ithr * 6 + j.val) * 6 + i.val) * jcp.nb_tile_block_ur + q / jcp.tile_block_ur) *
        jcp.nb_ic + ifm1) * jcp.ic_block + ifm2) * jcp.tile_block_ur + q % jcp.tile_block_ur) *
        16 + v.val) =
      trans_I_4x4_3x3 (src_transform_fwd_tile_I jcp inp
        ((tile_block * jcp.nb_tile_block_ur * jcp.tile_block_ur + q) / (jcp.jtiles * jcp.itiles))
        ((tile_block * jcp.nb_tile_block_ur * jcp.tile_block_ur + q) % (jcp.jtiles * jcp.itiles)
          / jcp.itiles)
        ((tile_block * jcp.nb_tile_block_ur * jcp.tile_block_ur + q) % (jcp.jtiles * jcp.itiles)
          % jcp.itiles)) j i v := by
  have hfun : src_transform_fwd_tile tile_block jcp inp = fun d =>
      src_transform_fwd_tile tile_block jcp inp d := rfl
  rw [hfun]
  simp only [src_transform_fwd_tile_flat]
  rw [write_at_foldl_update]
  have key := foldl_update_value (fun _ : Nat × Fin 6 × Fin 6 × Fin 16 => True)
    (fun t => (array_offset_calculator.mk [0, 6, 6, jcp.nb_tile_block_ur, jcp.nb_ic,
        jcp.ic_block, jcp.tile_block_ur, 16]).idx [ithr, 0, 0, 0, ifm1, ifm2, 0, 0] +
      ((array_offset_calculator.mk [6, 6, jcp.nb_tile_block_ur, jcp.nb_ic, jcp.ic_block,
        jcp.tile_block_ur, 16]).idx
        [t.2.1.val, t.2.2.1.val, t.1 / jcp.tile_block_ur, 0, 0, t.1 % jcp.tile_block_ur, 0] +
        t.2.2.2.val))
    (fun t => trans_I_4x4_3x3 (src_transform_fwd_tile_I jcp inp
      (((· + 1)^[t.1] (tile_block * jcp.nb_tile_block_ur * jcp.tile_block_ur)) /
        (jcp.jtiles * jcp.itiles))
      (((· + 1)^[t.1] (tile_block * jcp.nb_tile_block_ur * jcp.tile_block_ur)) %
        (jcp.jtiles * jcp.itiles) / jcp.itiles)
      (((· + 1)^[t.1] (tile_block * jcp.nb_tile_block_ur * jcp.tile_block_ur)) %
        (jcp.jtiles * jcp.itiles) % jcp.itiles)) t.2.1 t.2.2.1 t.2.2.2)
    (List.range (jcp.nb_tile_block_ur * jcp.tile_block_ur) ×ˢ
      (List.finRange 6 ×ˢ (List.finRange 6 ×ˢ List.finRange 16)))
    (q, j, i, v)
    (by simp only [List.mem_product, List.mem_range, List.mem_finRange, and_true]; exact hq)
    trivial ?_ V
  · simp only [V_idx_add_tile, add_one_iterate] at key ⊢
    exact key
  · rintro ⟨q', j', i', v'⟩ ht _ hd
    simp only [List.mem_product, List.mem_range, List.mem_finRange, and_true] at ht
    simp only [V_idx_add_tile] at hd
    have b := div_mod_lt _ _ q hq
    have b' := div_mod_lt _ _ q' ht
    obtain ⟨_, e1, e2, e3, _, _, e4, e5⟩ := V_inj _ _ _ _ _ _ _ _ _ _ _ _ _ _ _ _ _ _ _ _
      j'.isLt i'.isLt b'.1 h1 h2 b'.2 v'.isLt j.isLt i.isLt b.1 h1 h2 b.2 v.isLt hd
    have eq : q' = q := by
      rw [← Nat.div_add_mod q' jcp.tile_block_ur, ← Nat.div_add_mod q jcp.tile_block_ur, e3, e4]
    have ej : j' = j := Fin.ext e1
    have ei : i' = i := Fin.ext e2
    have ev : v' = v := Fin.ext e5
    subst eq ej ei ev
    rfl

/-- Claim C24, per-thread scratch confinement in the fused forward strategy: in
`_execute_forward_W_SGD`, a work item of worker `ithr` (base pointer
`V(ithr, 0, 0, 0, ifm1, ifm2, 0, 0)` with `ifm1 < nb_ic`, `ifm2 < ic_block`) leaves
unchanged every float offset of `V` outside `[ithr * S, (ithr + 1) * S)` with
`S = 36 * nb_tile_block_ur * nb_ic * ic_block * tile_block_ur * 16`: every offset written
by `src_transform_fwd_tile` lies in that slice, and the slices of different workers do not
overlap. -/
theorem per_thread_scratch_confinement (jcp : jit_conv_winograd_conf_t)
    (tile_block ithr ifm1 ifm2 : Nat) (inp V : Buffer) (o : Nat) (h1 : ifm1 < jcp.nb_ic)
    (h2 : ifm2 < jcp.ic_block)
    (ho : ¬ (ithr * (36 * jcp.nb_tile_block_ur * jcp.nb_ic * jcp.ic_block * jcp.tile_block_ur *
        16) ≤ o ∧
      o < (ithr + 1) * (36 * jcp.nb_tile_block_ur * jcp.nb_ic * jcp.ic_block *
        jcp.tile_block_ur * 16))) :
    write_at ((array_offset_calculator.mk [0, 6, 6, jcp.nb_tile_block_ur, jcp.nb_ic,
        jcp.ic_block, jcp.tile_block_ur, 16]).idx [ithr, 0, 0, 0, ifm1, ifm2, 0, 0])
      (src_transform_fwd_tile tile_block jcp inp) V o = V o ∧
    ∀ ithr' : Nat, ithr' ≠ ithr → ∀ o' : Nat,
      ¬ ((ithr * (36 * jcp.nb_tile_block_ur * jcp.nb_ic * jcp.ic_block * jcp.tile_block_ur *
          16) ≤ o' ∧
        o' < (ithr + 1) * (36 * jcp.nb_tile_block_ur * jcp.nb_ic * jcp.ic_block *
          jcp.tile_block_ur * 16)) ∧
        (ithr' * (36 * jcp.nb_tile_block_ur * jcp.nb_ic * jcp.ic_block * jcp.tile_block_ur *
          16) ≤ o' ∧
        o' < (ithr' + 1) * (36 * jcp.nb_tile_block_ur * jcp.nb_ic * jcp.ic_block *
          jcp.tile_block_ur * 16))) := by
  constructor
  · refine src_transform_fwd_tile_frame jcp tile_block ithr ifm1 ifm2 inp V o ?_
    intro q j i v hq e
    have b := div_mod_lt _ _ q hq
    have := V_slice jcp.nb_tile_block_ur jcp.nb_ic jcp.ic_block jcp.tile_block_ur ithr j.val i.val
      (q / jcp.tile_block_ur) ifm1 ifm2 (q % jcp.tile_block_ur) v.val j.isLt i.isLt b.1 h1 h2 b.2
      v.isLt
    rw [← e] at this
    exact ho this
  · intro ithr' hne o' hc
    generalize 36 * jcp.nb_tile_block_ur * jcp.nb_ic * jcp.ic_block * jcp.tile_block_ur * 16 = S
      at hc
    rcases Nat.lt_or_gt_of_ne hne with hlt | hlt
    · have : (ithr' + 1) * S ≤ ithr * S := Nat.mul_le_mul_right S hlt
      omega
    · have : (ithr + 1) * S ≤ ithr' * S := Nat.mul_le_mul_right S hlt
      omega

theorem per_thread_scratch_confinement_witness :
    write_at ((array_offset_calculator.mk [0, 6, 6, conv_example.nb_tile_block_ur,
        conv_example.nb_ic, conv_example.ic_block, conv_example.tile_block_ur, 16]).idx
        [1, 0, 0, 0, 0, 0, 0, 0])
      (src_transform_fwd_tile 0 conv_example (fun _ => 1)) (fun _ => 0) 5 = (fun _ => 0) 5 :=
  (per_thread_scratch_confinement conv_example 0 1 0 0 (fun _ => 1) (fun _ => 0) 5 (by decide)
    (by decide) (by decide)).1

/-! ## Work items of the source transform phase -/

theorem write_at_zero (f : Buffer → Buffer) (m : Buffer) : write_at 0 f m = f m := by
  funext o
  have hv : view 0 m = m := by
    funext x
    show m (0 + x) = m x
    rw [Nat.zero_add]
  unfold write_at
  rw [if_pos (Nat.zero_le _), hv, Nat.sub_zero]

/-- A flat tile number is recovered from its three counters. -/
theorem counters_recompose (n UR NB : Nat) :
    (n / UR / NB * NB + n / UR % NB) * UR + n % UR = n := by
  rw [Nat.div_add_mod', Nat.div_add_mod']

/-- The memory outside the offsets `V(tb, j, i, nb, ifm1, ifm2, ur, v)` of the tiles of
image `img` is left unchanged by the work item `(img, ifm1, ifm2)` of the source transform
phase of `_execute_forward_W_S_G_D`. -/
theorem src_transform_fwd_at_frame (jcp : jit_conv_winograd_conf_t) (s : Bool)
    (img ifm1 ifm2 : Nat) (inp V : Buffer) (o : Nat)
    (hur : 1 ≤ jcp.tile_block_ur) (hnb : 1 ≤ jcp.nb_tile_block_ur)
    (h : ∀ (k : Nat) (j i : Fin 6) (v : Fin 16), k < jcp.jtiles * jcp.itiles →
      o ≠ (((((((img * jcp.itiles * jcp.jtiles + k) / jcp.tile_block_ur / jcp.nb_tile_block_ur
        * 6 + j.val) * 6 + i.val) * jcp.nb_tile_block_ur +
        (img * jcp.itiles * jcp.jtiles + k) / jcp.tile_block_ur % jcp.nb_tile_block_ur) *
        jcp.nb_ic + ifm1) * jcp.ic_block + ifm2) * jcp.tile_block_ur +
        (img * jcp.itiles * jcp.jtiles + k) % jcp.tile_block_ur) * 16 + v.val) :
    write_at ((array_offset_calculator.mk [jcp.tile_block, 6, 6, jcp.nb_tile_block_ur,
        jcp.nb_ic, jcp.ic_block, jcp.tile_block_ur, 16]).idx [0, 0, 0, 0, ifm1, ifm2, 0, 0])
      (fun tinp => src_transform_fwd img jcp inp tinp s) V o = V o := by
  simp only [src_transform_fwd_flat]
  rw [write_at_foldl_update]
  refine foldl_update_frame _ _ _ _ o ?_ V
  rintro ⟨k, j, i, v⟩ ht _
  simp only [List.mem_product, List.mem_range, List.mem_finRange, and_true] at ht
  rw [V_idx_add, tile_counters_iterate jcp img k hur hnb]
  exact (h k j i v ht).symm

/-- The work item `(img, ifm1, ifm2)` of the source transform phase of
`_execute_forward_W_S_G_D` leaves at `V(tb, j, i, nb, ifm1, ifm2, ur, v)` the transformed
tile `k` of image `img`, where `(tb, nb, ur)` are the counters of the flat tile number
`img * itiles * jtiles + k`. -/
theorem src_transform_fwd_at_value (jcp : jit_conv_winograd_conf_t) (s : Bool)
    (img ifm1 ifm2 : Nat) (inp V : Buffer) (k : Nat) (j i : Fin 6) (v : Fin 16)
    (hur : 1 ≤ jcp.tile_block_ur) (hnb : 1 ≤ jcp.nb_tile_block_ur)
    (hk : k < jcp.jtiles * jcp.itiles) (h1 : ifm1 < jcp.nb_ic) (h2 : ifm2 < jcp.ic_block) :
    write_at ((array_offset_calculator.mk [jcp.tile_block, 6, 6, jcp.nb_tile_block_ur,
        jcp.nb_ic, jcp.ic_block, jcp.tile_block_ur, 16]).idx [0, 0, 0, 0, ifm1, ifm2, 0, 0])
      (fun tinp => src_transform_fwd img jcp inp tinp s) V
      ((((((((img * jcp.itiles * jcp.jtiles + k) / jcp.tile_block_ur / jcp.nb_tile_block_ur
        * 6 + j.val) * 6 + i.val) * jcp.nb_tile_block_ur +
        (img * jcp.itiles * jcp.jtiles + k) / jcp.tile_block_ur % jcp.nb_tile_block_ur) *
        jcp.nb_ic + ifm1) * jcp.ic_block + ifm2) * jcp.tile_block_ur +
        (img * jcp.itiles * jcp.jtiles + k) % jcp.tile_block_ur) * 16 + v.val) =
      trans_I_4x4_3x3 (src_transform_fwd_I jcp inp (k / jcp.itiles) (k % jcp.itiles)) j i v := by
  simp only [src_transform_fwd_flat]
  rw [write_at_foldl_update]
  have key := foldl_update_value (fun _ : Nat × Fin 6 × Fin 6 × Fin 16 => True)
    (fun t => (array_offset_calculator.mk [jcp.tile_block, 6, 6, jcp.nb_tile_block_ur,
        jcp.nb_ic, jcp.ic_block, jcp.tile_block_ur, 16]).idx [0, 0, 0, 0, ifm1, ifm2, 0, 0] +
      ((array_offset_calculator.mk [jcp.tile_block, 6, 6, jcp.nb_tile_block_ur,
        jcp.nb_ic, jcp.ic_block, jcp.tile_block_ur, 16]).idx
        [((tile_counters_next jcp)^[t.1] (tile_counters_init jcp img)).tile_block,
          t.2.1.val, t.2.2.1.val,
          ((tile_counters_next jcp)^[t.1] (tile_counters_init jcp img)).nb_tile_block_ur, 0, 0,
          ((tile_counters_next jcp)^[t.1] (tile_counters_init jcp img)).tile_block_ur, 0] +
        t.2.2.2.val))
    (fun t => trans_I_4x4_3x3 (src_transform_fwd_I jcp inp
      (t.1 / jcp.itiles) (t.1 % jcp.itiles)) t.2.1 t.2.2.1 t.2.2.2)
    (List.range (jcp.jtiles * jcp.itiles) ×ˢ
      (List.finRange 6 ×ˢ (List.finRange 6 ×ˢ List.finRange 16)))
    (k, j, i, v)
    (by simp only [List.mem_product, List.mem_range, List.mem_finRange, and_true]; exact hk)
    trivial ?_ V
  · simp only [V_idx_add, tile_counters_iterate jcp img _ hur hnb] at key ⊢
    exact key
  · rintro ⟨k', j', i', v'⟩ ht _ hd
    simp only [List.mem_product, List.mem_range, List.mem_finRange, and_true] at ht
    simp only [V_idx_add, tile_counters_iterate jcp img _ hur hnb] at hd
    obtain ⟨e0, e1, e2, e3, _, _, e4, e5⟩ := V_inj _ _ _ _ _ _ _ _ _ _ _ _ _ _ _ _ _ _ _ _
      j'.isLt i'.isLt (Nat.mod_lt _ hnb) h1 h2 (Nat.mod_lt _ hur) v'.isLt
      j.isLt i.isLt (Nat.mod_lt _ hnb) h1 h2 (Nat.mod_lt _ hur) v.isLt hd
    have en : img * jcp.itiles * jcp.jtiles + k' = img * jcp.itiles * jcp.jtiles + k := by
      rw [← counters_recompose (img * jcp.itiles * jcp.jtiles + k') jcp.tile_block_ur
        jcp.nb_tile_block_ur, ← counters_recompose (img * jcp.itiles * jcp.jtiles + k)
        jcp.tile_block_ur jcp.nb_tile_block_ur, e0, e3, e4]
    have eq : k' = k := by omega
    have ej : j' = j := Fin.ext e1
    have ei : i' = i := Fin.ext e2
    have ev : v' = v := Fin.ext e5
    subst eq ej ei ev
    rfl

theorem src_transform_fwd_item_frame (jcp : jit_conv_winograd_conf_t) (LLC_cache_size : Nat)
    (img ifm1 ifm2 : Nat) (src V : Buffer) (o : Nat)
    (hur : 1 ≤ jcp.tile_block_ur) (hnb : 1 ≤ jcp.nb_tile_block_ur)
    (h : ∀ (k : Nat) (j i : Fin 6) (v : Fin 16), k < jcp.jtiles * jcp.itiles →
      o ≠ (((((((img * jcp.itiles * jcp.jtiles + k) / jcp.tile_block_ur / jcp.nb_tile_block_ur
        * 6 + j.val) * 6 + i.val) * jcp.nb_tile_block_ur +
        (img * jcp.itiles * jcp.jtiles + k) / jcp.tile_block_ur % jcp.nb_tile_block_ur) *
        jcp.nb_ic + ifm1) * jcp.ic_block + ifm2) * jcp.tile_block_ur +
        (img * jcp.itiles * jcp.jtiles + k) % jcp.tile_block_ur) * 16 + v.val) :
    _execute_forward_W_S_G_D_V_item jcp LLC_cache_size img ifm1 ifm2 src V o = V o :=
  src_transform_fwd_at_frame jcp _ img ifm1 ifm2 _ V o hur hnb h

theorem src_transform_fwd_item_value (jcp : jit_conv_winograd_conf_t) (LLC_cache_size : Nat)
    (img ifm1 ifm2 : Nat) (src V : Buffer) (k : Nat) (j i : Fin 6) (v : Fin 16)
    (hur : 1 ≤ jcp.tile_block_ur) (hnb : 1 ≤ jcp.nb_tile_block_ur)
    (hk : k < jcp.jtiles * jcp.itiles) (h1 : ifm1 < jcp.nb_ic) (h2 : ifm2 < jcp.ic_block) :
    _execute_forward_W_S_G_D_V_item jcp LLC_cache_size img ifm1 ifm2 src V
      ((((((((img * jcp.itiles * jcp.jtiles + k) / jcp.tile_block_ur / jcp.nb_tile_block_ur
        * 6 + j.val) * 6 + i.val) * jcp.nb_tile_block_ur +
        (img * jcp.itiles * jcp.jtiles + k) / jcp.tile_block_ur % jcp.nb_tile_block_ur) *
        jcp.nb_ic + ifm1) * jcp.ic_block + ifm2) * jcp.tile_block_ur +
        (img * jcp.itiles * jcp.jtiles + k) % jcp.tile_block_ur) * 16 + v.val) =
      trans_I_4x4_3x3 (src_transform_fwd_I jcp
        (view ((array_offset_calculator.mk [jcp.mb, jcp.ic / 16, jcp.ih, jcp.iw, 16]).idx
          [img, ifm1 * jcp.ic_block + ifm2, 0, 0, 0]) src)
        (k / jcp.itiles) (k % jcp.itiles)) j i v :=
  src_transform_fwd_at_value jcp _ img ifm1 ifm2 _ V k j i v hur hnb hk h1 h2

/-- Claim C15, disjoint writes in forward phase 1: in `_execute_forward_W_S_G_D`, with
positive block factors, two distinct work items `(img, ifm1, ifm2) ≠ (img', ifm1', ifm2')`
with `ifm1 < nb_ic`, `ifm2 < ic_block` never change the same float offset of `V`,
whatever the buffers they start from; and each work item stores the transformed tile
`k` of its image at the offsets `V(tb, j, i, nb, ifm1, ifm2, ur, v)` given by the counters
of the flat tile number `img * itiles * jtiles + k`. -/
theorem forward_phase1_disjoint_writes (jcp : jit_conv_winograd_conf_t) (LLC_cache_size : Nat)
    (img ifm1 ifm2 img' ifm1' ifm2' : Nat)
    (hur : 1 ≤ jcp.tile_block_ur) (hnb : 1 ≤ jcp.nb_tile_block_ur)
    (h1 : ifm1 < jcp.nb_ic) (h2 : ifm2 < jcp.ic_block)
    (h1' : ifm1' < jcp.nb_ic) (h2' : ifm2' < jcp.ic_block)
    (hne : (img, ifm1, ifm2) ≠ (img', ifm1', ifm2')) :
    (∀ (src src' V V' : Buffer) (o : Nat),
      ¬ (_execute_forward_W_S_G_D_V_item jcp LLC_cache_size img ifm1 ifm2 src V o ≠ V o ∧
        _execute_forward_W_S_G_D_V_item jcp LLC_cache_size img' ifm1' ifm2' src' V' o ≠ V' o)) ∧
    (∀ (src V : Buffer) (k : Nat) (j i : Fin 6) (v : Fin 16), k < jcp.jtiles * jcp.itiles →
      _execute_forward_W_S_G_D_V_item jcp LLC_cache_size img ifm1 ifm2 src V
        ((array_offset_calculator.mk [jcp.tile_block, 6, 6, jcp.nb_tile_block_ur, jcp.nb_ic,
          jcp.ic_block, jcp.tile_block_ur, 16]).idx
          [(img * jcp.itiles * jcp.jtiles + k) / jcp.tile_block_ur / jcp.nb_tile_block_ur,
            j.val, i.val,
            (img * jcp.itiles * jcp.jtiles + k) / jcp.tile_block_ur % jcp.nb_tile_block_ur,
            ifm1, ifm2, (img * jcp.itiles * jcp.jtiles + k) % jcp.tile_block_ur, v.val]) =
        trans_I_4x4_3x3 (src_transform_fwd_I jcp
          (view ((array_offset_calculator.mk [jcp.mb, jcp.ic / 16, jcp.ih, jcp.iw, 16]).idx
            [img, ifm1 * jcp.ic_block + ifm2, 0, 0, 0]) src)
          (k / jcp.itiles) (k % jcp.itiles)) j i v) := by
  constructor
  · rintro src src' V V' o ⟨hc, hc'⟩
    have hex : ∃ (k : Nat) (j i : Fin 6) (v : Fin 16), k < jcp.jtiles * jcp.itiles ∧
        o = (((((((img * jcp.itiles * jcp.jtiles + k) / jcp.tile_block_ur /
          jcp.nb_tile_block_ur * 6 + j.val) * 6 + i.val) * jcp.nb_tile_block_ur +
          (img * jcp.itiles * jcp.jtiles + k) / jcp.tile_block_ur % jcp.nb_tile_block_ur) *
          jcp.nb_ic + ifm1) * jcp.ic_block + ifm2) * jcp.tile_block_ur +
          (img * jcp.itiles * jcp.jtiles + k) % jcp.tile_block_ur) * 16 + v.val := by
      by_contra hcon
      refine hc (src_transform_fwd_item_frame jcp LLC_cache_size img ifm1 ifm2 src V o hur hnb ?_)
      intro k j i v hk e
      exact hcon ⟨k, j, i, v, hk, e⟩
    have hex' : ∃ (k : Nat) (j i : Fin 6) (v : Fin 16), k < jcp.jtiles * jcp.itiles ∧
        o = (((((((img' * jcp.itiles * jcp.jtiles + k) / jcp.tile_block_ur /
          jcp.nb_tile_block_ur * 6 + j.val) * 6 + i.val) * jcp.nb_tile_block_ur +
          (img' * jcp.itiles * jcp.jtiles + k) / jcp.tile_block_ur % jcp.nb_tile_block_ur) *
          jcp.nb_ic + ifm1') * jcp.ic_block + ifm2') * jcp.tile_block_ur +
          (img' * jcp.itiles * jcp.jtiles + k) % jcp.tile_block_ur) * 16 + v.val := by
      by_contra hcon
      refine hc' (src_transform_fwd_item_frame jcp LLC_cache_size img' ifm1' ifm2' src' V' o hur
        hnb ?_)
      intro k j i v hk e
      exact hcon ⟨k, j, i, v, hk, e⟩
    obtain ⟨k, j, i, v, hk, e⟩ := hex
    obtain ⟨k', j', i', v', hk', e'⟩ := hex'
    rw [e] at e'
    obtain ⟨e0, _, _, e3, e6, e7, e4, _⟩ := V_inj _ _ _ _ _ _ _ _ _ _ _ _ _ _ _ _ _ _ _ _
      j.isLt i.isLt (Nat.mod_lt _ hnb) h1 h2 (Nat.mod_lt _ hur) v.isLt
      j'.isLt i'.isLt (Nat.mod_lt _ hnb) h1' h2' (Nat.mod_lt _ hur) v'.isLt e'
    have en : img * jcp.itiles * jcp.jtiles + k = img' * jcp.itiles * jcp.jtiles + k' := by
      rw [← counters_recompose (img * jcp.itiles * jcp.jtiles + k) jcp.tile_block_ur
        jcp.nb_tile_block_ur, ← counters_recompose (img' * jcp.itiles * jcp.jtiles + k')
        jcp.tile_block_ur jcp.nb_tile_block_ur, e0, e3, e4]
    have eimg : img = img' := by
      have hT : 0 < jcp.jtiles * jcp.itiles := by omega
      have a1 : (img * jcp.itiles * jcp.jtiles + k) / (jcp.jtiles * jcp.itiles) = img := by
        rw [Nat.mul_assoc, Nat.mul_comm jcp.itiles, Nat.mul_comm img, Nat.mul_add_div hT,
          Nat.div_eq_of_lt hk, Nat.add_zero]
      have a2 : (img' * jcp.itiles * jcp.jtiles + k') / (jcp.jtiles * jcp.itiles) = img' := by
        rw [Nat.mul_assoc, Nat.mul_comm jcp.itiles, Nat.mul_comm img', Nat.mul_add_div hT,
          Nat.div_eq_of_lt hk', Nat.add_zero]
      rw [← a1, ← a2, en]
    subst eimg e6 e7
    exact hne rfl
  · intro src V k j i v hk
    rw [V_idx_eq]
    exact src_transform_fwd_item_value jcp LLC_cache_size img ifm1 ifm2 src V k j i v hur hnb hk
      h1 h2

theorem forward_phase1_disjoint_writes_witness :
    ¬ (_execute_forward_W_S_G_D_V_item conv_example 1000 0 0 0 (fun _ => 1) (fun _ => 0) 5 ≠
          (fun _ => (0 : ℚ)) 5 ∧
        _execute_forward_W_S_G_D_V_item conv_example 1000 1 0 0 (fun _ => 1) (fun _ => 0) 5 ≠
          (fun _ => (0 : ℚ)) 5) :=
  (forward_phase1_disjoint_writes conv_example 1000 0 0 0 1 0 0 (by decide) (by decide)
    (by decide) (by decide) (by decide) (by decide) (by decide)).1 (fun _ => 1) (fun _ => 1)
    (fun _ => 0) (fun _ => 0) 5

/-! ## Image-indexed and tile-block-indexed source packers -/

/-- The tile gathered by `src_transform_fwd` from the pointer to image `img` is the tile
gathered by `src_transform_fwd_tile` for image `img` from the pointer to image 0. -/
theorem src_transform_fwd_I_view (conv : jit_conv_winograd_conf_t) (inp : Buffer)
    (img tj ti : Nat) :
    src_transform_fwd_I conv
      (view ((array_offset_calculator.mk [conv.mb, conv.ic / 16, conv.ih, conv.iw, 16]).idx
        [img, 0, 0, 0, 0]) inp) tj ti =
      src_transform_fwd_tile_I conv inp img tj ti := by
  funext j i v
  have e : ∀ y x : Nat,
      (array_offset_calculator.mk [conv.mb, conv.ic / 16, conv.ih, conv.iw, 16]).idx
        [img, 0, 0, 0, 0] +
      (array_offset_calculator.mk [conv.mb, conv.ic / 16, conv.ih, conv.iw, 16]).idx
        [0, 0, y, x, v.val] =
      (array_offset_calculator.mk [conv.mb, conv.ic / 16, conv.ih, conv.iw, 16]).idx
        [img, 0, y, x, v.val] := by
    intro y x
    simp only [array_offset_calculator.idx, array_offset_calculator._offset,
      List.getD_cons_succ, List.getD_cons_zero]
    ring
  simp only [src_transform_fwd_I, src_transform_fwd_tile_I, view, e]

/-- The three counters of a flat tile number, from its tile block and its position in the
block. -/
theorem counters_of_block (n UR NB : Nat) :
    n % UR = n % (NB * UR) % UR ∧ n / UR % NB = n % (NB * UR) / UR ∧
      n / UR / NB = n / (NB * UR) := by
  refine ⟨(Nat.mod_mul_left_mod n NB UR).symm, (Nat.mod_mul_left_div_self n UR NB).symm, ?_⟩
  rw [Nat.div_div_eq_div_mul, Nat.mul_comm]

/-- Claim C16, tile-variant equivalence (forward source): for a flat tile index
`n < mb * itiles * jtiles` with image `img = n / (itiles * jtiles)`, tile
`k = n % (itiles * jtiles)` of the image, tile block `tb = n / (NB * UR)` and position
`q = n % (NB * UR)` in the block, `src_transform_fwd` for image `img` and
`src_transform_fwd_tile` for tile block `tb` gather the same input tile (image `img`, tile
row `k / itiles`, tile column `k % itiles`), the image variant reaches the tile with its
counters at the in-block position `(q / UR, q % UR)` of tile block `tb`, where the tile
variant processes flat tile `n`, and both leave the same transformed values at that
position and the same `(j, i)`. -/
theorem src_transform_tile_equivalence (conv : jit_conv_winograd_conf_t)
    (inp tinp tinp' : Buffer) (s : Bool) (n img k tb q : Nat)
    (hn : n < conv.mb * conv.itiles * conv.jtiles)
    (hur : 1 ≤ conv.tile_block_ur) (hnb : 1 ≤ conv.nb_tile_block_ur)
    (hic : 1 ≤ conv.nb_ic) (hicb : 1 ≤ conv.ic_block)
    (himg : img = n / (conv.itiles * conv.jtiles)) (hk : k = n % (conv.itiles * conv.jtiles))
    (htb : tb = n / (conv.nb_tile_block_ur * conv.tile_block_ur))
    (hq : q = n % (conv.nb_tile_block_ur * conv.tile_block_ur)) :
    src_transform_fwd_I conv
        (view ((array_offset_calculator.mk [conv.mb, conv.ic / 16, conv.ih, conv.iw, 16]).idx
          [img, 0, 0, 0, 0]) inp) (k / conv.itiles) (k % conv.itiles) =
      src_transform_fwd_tile_I conv inp
        ((tb * conv.nb_tile_block_ur * conv.tile_block_ur + q) / (conv.jtiles * conv.itiles))
        ((tb * conv.nb_tile_block_ur * conv.tile_block_ur + q) % (conv.jtiles * conv.itiles) /
          conv.itiles)
        ((tb * conv.nb_tile_block_ur * conv.tile_block_ur + q) % (conv.jtiles * conv.itiles) %
          conv.itiles) ∧
    (tile_counters_next conv)^[k] (tile_counters_init conv img) =
      { tile_block_ur := q % conv.tile_block_ur, nb_tile_block_ur := q / conv.tile_block_ur,
        tile_block := tb } ∧
    tb * conv.nb_tile_block_ur * conv.tile_block_ur + q = n ∧
    q / conv.tile_block_ur < conv.nb_tile_block_ur ∧ q % conv.tile_block_ur < conv.tile_block_ur ∧
    ∀ (j i : Fin 6) (v : Fin 16),
      src_transform_fwd img conv
          (view ((array_offset_calculator.mk [conv.mb, conv.ic / 16, conv.ih, conv.iw, 16]).idx
            [img, 0, 0, 0, 0]) inp) tinp s
          ((array_offset_calculator.mk [conv.tile_block, 6, 6, conv.nb_tile_block_ur,
            conv.nb_ic, conv.ic_block, conv.tile_block_ur, 16]).idx
            [tb, j.val, i.val, q / conv.tile_block_ur, 0, 0, q % conv.tile_block_ur, 0] + v.val) =
        trans_I_4x4_3x3 (src_transform_fwd_tile_I conv inp img (k / conv.itiles)
          (k % conv.itiles)) j i v ∧
      src_transform_fwd_tile tb conv inp tinp'
          ((array_offset_calculator.mk [6, 6, conv.nb_tile_block_ur,
            conv.nb_ic, conv.ic_block, conv.tile_block_ur, 16]).idx
            [j.val, i.val, q / conv.tile_block_ur, 0, 0, q % conv.tile_block_ur, 0] + v.val) =
        trans_I_4x4_3x3 (src_transform_fwd_tile_I conv inp img (k / conv.itiles)
          (k % conv.itiles)) j i v := by
  have hT : 0 < conv.itiles * conv.jtiles := by
    rcases Nat.eq_zero_or_pos (conv.itiles * conv.jtiles) with h | h
    · rw [Nat.mul_assoc, h] at hn
      simp at hn
    · exact h
  have hB : 0 < conv.nb_tile_block_ur * conv.tile_block_ur := Nat.mul_pos hnb hur
  have en : img * conv.itiles * conv.jtiles + k = n := by
    rw [himg, hk, Nat.mul_assoc]
    exact Nat.div_add_mod' n _
  have eb : tb * conv.nb_tile_block_ur * conv.tile_block_ur + q = n := by
    rw [htb, hq, Nat.mul_assoc]
    exact Nat.div_add_mod' n _
  have hklt : k < conv.jtiles * conv.itiles := by
    rw [hk, Nat.mul_comm conv.jtiles]
    exact Nat.mod_lt _ hT
  have hqlt : q < conv.nb_tile_block_ur * conv.tile_block_ur := by
    rw [hq]
    exact Nat.mod_lt _ hB
  have hpos := div_mod_lt _ _ q hqlt
  have hc := counters_of_block n conv.tile_block_ur conv.nb_tile_block_ur
  have hdec : n / (conv.jtiles * conv.itiles) = img ∧
      n % (conv.jtiles * conv.itiles) = k := by
    rw [Nat.mul_comm conv.jtiles, himg, hk]
    exact ⟨rfl, rfl⟩
  refine ⟨?_, ?_, eb, hpos.1, hpos.2, ?_⟩
  · rw [eb, hdec.1, hdec.2]
    exact src_transform_fwd_I_view conv inp img _ _
  · rw [tile_counters_iterate conv img k hur hnb, en, hc.1, hc.2.1, hc.2.2, ← hq, ← htb]
  · intro j i v
    constructor
    · have key := src_transform_fwd_at_value conv s img 0 0
        (view ((array_offset_calculator.mk [conv.mb, conv.ic / 16, conv.ih, conv.iw, 16]).idx
          [img, 0, 0, 0, 0]) inp) tinp k j i v hur hnb hklt hic hicb
      have hbase : (array_offset_calculator.mk [conv.tile_block, 6, 6, conv.nb_tile_block_ur,
          conv.nb_ic, conv.ic_block, conv.tile_block_ur, 16]).idx [0, 0, 0, 0, 0, 0, 0, 0] = 0 := by
        simp [array_offset_calculator.idx, array_offset_calculator._offset]
      rw [hbase, write_at_zero, en, hc.1, hc.2.1, hc.2.2, ← hq, ← htb,
        src_transform_fwd_I_view] at key
      rw [← key]
      congr 1
      simp only [array_offset_calculator.idx, array_offset_calculator._offset,
        List.getD_cons_succ, List.getD_cons_zero]
      ring
    · have key := src_transform_fwd_tile_value conv tb 0 0 0 inp tinp' q j i v hqlt hic hicb
      have hbase : (array_offset_calculator.mk [0, 6, 6, conv.nb_tile_block_ur,
          conv.nb_ic, conv.ic_block, conv.tile_block_ur, 16]).idx [0, 0, 0, 0, 0, 0, 0, 0] = 0 := by
        simp [array_offset_calculator.idx, array_offset_calculator._offset]
      rw [hbase, write_at_zero, eb, hdec.1, hdec.2] at key
      rw [← key]
      congr 1
      simp only [array_offset_calculator.idx, array_offset_calculator._offset,
        List.getD_cons_succ, List.getD_cons_zero]
      ring

theorem src_transform_tile_equivalence_witness :
    (tile_counters_next conv_example)^[3] (tile_counters_init conv_example 0) =
      { tile_block_ur := 3 % conv_example.tile_block_ur,
        nb_tile_block_ur := 3 / conv_example.tile_block_ur, tile_block := 0 } :=
  (src_transform_tile_equivalence conv_example (fun _ => 0) (fun _ => 0) (fun _ => 0) true 3 0 3
    0 3 (by decide) (by decide) (by decide) (by decide) (by decide) (by decide) (by decide)
    (by decide) (by decide)).2.1

/-! ## Ragged ranges of the backward-weights strategy with per-thread partial buffers -/

/-- The start of the range set by the first iteration of a worker: the offset of the
block of the iteration in a partial buffer. -/
theorem Us_offset_diff (jcp : jit_conv_winograd_conf_t) (ithr it : Nat) :
    (array_offset_calculator.mk [0, jcp.nb_ic, jcp.nb_oc, jcp.alpha, jcp.alpha, jcp.oc_block,
        jcp.ic_block, jcp.ic_simd_block, jcp.oc_simd_block]).idx
        [ithr, it / jcp.tile_block / jcp.alpha / jcp.alpha / jcp.nb_oc,
          it / jcp.tile_block / jcp.alpha / jcp.alpha % jcp.nb_oc,
          it / jcp.tile_block / jcp.alpha % jcp.alpha, it / jcp.tile_block % jcp.alpha,
          0, 0, 0, 0] -
      (array_offset_calculator.mk [0, jcp.nb_ic, jcp.nb_oc, jcp.alpha, jcp.alpha, jcp.oc_block,
        jcp.ic_block, jcp.ic_simd_block, jcp.oc_simd_block]).idx
        [ithr, 0, 0, 0, 0, 0, 0, 0, 0] =
      it / jcp.tile_block *
        (jcp.oc_block * jcp.ic_block * jcp.ic_simd_block * jcp.oc_simd_block) := by
  have e1 : ∀ a b c d : Nat,
      (array_offset_calculator.mk [0, jcp.nb_ic, jcp.nb_oc, jcp.alpha, jcp.alpha, jcp.oc_block,
        jcp.ic_block, jcp.ic_simd_block, jcp.oc_simd_block]).idx
        [ithr, a, b, c, d, 0, 0, 0, 0] =
      (array_offset_calculator.mk [0, jcp.nb_ic, jcp.nb_oc, jcp.alpha, jcp.alpha, jcp.oc_block,
        jcp.ic_block, jcp.ic_simd_block, jcp.oc_simd_block]).idx
        [ithr, 0, 0, 0, 0, 0, 0, 0, 0] +
      (((a * jcp.nb_oc + b) * jcp.alpha + c) * jcp.alpha + d) *
        (jcp.oc_block * jcp.ic_block * jcp.ic_simd_block * jcp.oc_simd_block) := by
    intro a b c d
    simp only [array_offset_calculator.idx, array_offset_calculator._offset,
      List.getD_cons_succ, List.getD_cons_zero]
    ring
  rw [e1, Nat.add_sub_cancel_left, Nat.div_add_mod', Nat.div_add_mod', Nat.div_add_mod']

theorem Giot_body_input_start {S : Type} (jcp : jit_conv_winograd_conf_t)
    (kf k : Nat → Nat → Nat → S → S) (ithr : Nat) (w : Giot_worker S) (it : Nat) :
    (_execute_backward_weights_S_D_Giot_W_body jcp kf k ithr w it).input_start =
      if w.th_counter = 0 then
        it / jcp.tile_block *
          (jcp.oc_block * jcp.ic_block * jcp.ic_simd_block * jcp.oc_simd_block)
      else w.input_start := by
  rw [← Us_offset_diff jcp ithr it]
  rfl

theorem Giot_body_input_end {S : Type} (jcp : jit_conv_winograd_conf_t)
    (kf k : Nat → Nat → Nat → S → S) (ithr : Nat) (w : Giot_worker S) (it : Nat) :
    (_execute_backward_weights_S_D_Giot_W_body jcp kf k ithr w it).input_end =
      if w.th_counter = 0 then
        it / jcp.tile_block *
            (jcp.oc_block * jcp.ic_block * jcp.ic_simd_block * jcp.oc_simd_block) +
          jcp.oc_block * jcp.ic_block * jcp.ic_simd_block * jcp.oc_simd_block
      else if it % jcp.tile_block = 0 then
        w.input_end + jcp.oc_block * jcp.ic_block * jcp.ic_simd_block * jcp.oc_simd_block
      else w.input_end := by
  by_cases h : w.th_counter = 0
  · rw [if_pos h, ← Us_offset_diff jcp ithr it]
    show (if w.th_counter = 0 then (if w.th_counter = 0 then _ else w.input_start) + _ else _) = _
    rw [if_pos h, if_pos h]
  · rw [if_neg h]
    show (if w.th_counter = 0 then _ else _) = _
    rw [if_neg h]

/-- Claim C25, ragged-range bookkeeping: in `_execute_backward_weights_S_D_Giot_W`, for a
worker that executes the non-empty contiguous range `[lo, hi)` of the flattened
`(ifm1, ofm1, oj, oi, tile_block)` iteration space in increasing order with its private
`th_counter` starting at 0, after its last iteration
`input_starts[ithr] = (lo / T) * B` and `input_ends[ithr] = ((hi - 1) / T + 1) * B` with
`T = jcp.tile_block ≥ 1` and `B = oc_block * ic_block * ic_simd_block * oc_simd_block`; the
blocks `b` of a partial buffer with `lo / T ≤ b ≤ (hi - 1) / T` are exactly the blocks
`it / T` of the iterations `it` of the worker, which are the ones it writes. -/
theorem ragged_range_bookkeeping {S : Type} (jcp : jit_conv_winograd_conf_t)
    (kf k : Nat → Nat → Nat → S → S) (ithr lo hi start0 end0 : Nat) (s : S)
    (hT : 1 ≤ jcp.tile_block) (hlh : lo < hi) :
    (_execute_backward_weights_S_D_Giot_W_worker jcp kf k ithr lo hi start0 end0 s).input_start =
        lo / jcp.tile_block *
          (jcp.oc_block * jcp.ic_block * jcp.ic_simd_block * jcp.oc_simd_block) ∧
      (_execute_backward_weights_S_D_Giot_W_worker jcp kf k ithr lo hi start0 end0 s).input_end =
        ((hi - 1) / jcp.tile_block + 1) *
          (jcp.oc_block * jcp.ic_block * jcp.ic_simd_block * jcp.oc_simd_block) ∧
      ∀ b : Nat, (lo / jcp.tile_block ≤ b ∧ b ≤ (hi - 1) / jcp.tile_block) ↔
        ∃ it, lo ≤ it ∧ it < hi ∧ it / jcp.tile_block = b := by
  have key : ∀ n : Nat,
      ((List.range' lo (n + 1)).foldl
        (_execute_backward_weights_S_D_Giot_W_body jcp kf k ithr)
        { th_counter := 0, input_start := start0, input_end := end0, s := s }).th_counter =
          n + 1 ∧
      ((List.range' lo (n + 1)).foldl
        (_execute_backward_weights_S_D_Giot_W_body jcp kf k ithr)
        { th_counter := 0, input_start := start0, input_end := end0, s := s }).input_start =
          lo / jcp.tile_block *
            (jcp.oc_block * jcp.ic_block * jcp.ic_simd_block * jcp.oc_simd_block) ∧
      ((List.range' lo (n + 1)).foldl
        (_execute_backward_weights_S_D_Giot_W_body jcp kf k ithr)
        { th_counter := 0, input_start := start0, input_end := end0, s := s }).input_end =
          ((lo + n) / jcp.tile_block + 1) *
            (jcp.oc_block * jcp.ic_block * jcp.ic_simd_block * jcp.oc_simd_block) := by
    intro n
    induction n with
    | zero =>
      rw [Nat.zero_add, List.range'_one, List.foldl_cons, List.foldl_nil, Nat.add_zero]
      refine ⟨rfl, ?_, ?_⟩
      · rw [Giot_body_input_start, if_pos rfl]
      · rw [Giot_body_input_end, if_pos rfl]
        rw [Nat.add_mul, Nat.one_mul, Nat.add_zero]
    | succ n ih =>
      rw [List.range'_concat, List.foldl_append]
      simp only [List.foldl_cons, List.foldl_nil]
      obtain ⟨h1, h2, h3⟩ := ih
      generalize (List.range' lo (n + 1)).foldl
        (_execute_backward_weights_S_D_Giot_W_body jcp kf k ithr)
        { th_counter := 0, input_start := start0, input_end := end0, s := s } = w at h1 h2 h3
      have hne : ¬ w.th_counter = 0 := by omega
      rw [Nat.one_mul]
      have hd := Nat.div_add_mod (lo + n) jcp.tile_block
      have hm := Nat.mod_lt (lo + n) (show 0 < jcp.tile_block by omega)
      have e : lo + (n + 1) = lo + n + 1 := by omega
      refine ⟨?_, ?_, ?_⟩
      · show w.th_counter + 1 = n + 1 + 1
        rw [h1]
      · rw [Giot_body_input_start, if_neg hne]
        exact h2
      · rw [Giot_body_input_end, if_neg hne, e]
        by_cases hz : (lo + n + 1) % jcp.tile_block = 0
        · rw [if_pos hz, h3]
          have : (lo + n + 1) / jcp.tile_block = (lo + n) / jcp.tile_block + 1 := by
            have h5 := Nat.div_add_mod (lo + n + 1) jcp.tile_block
            rw [hz, Nat.add_zero] at h5
            have h8 : (lo + n) % jcp.tile_block + 1 = jcp.tile_block := by
              by_contra hcon
              have h9 : (lo + n) % jcp.tile_block + 1 < jcp.tile_block := by omega
              have := (Nat.div_mod_unique (a := lo + n + 1)
                (c := (lo + n) % jcp.tile_block + 1) (d := (lo + n) / jcp.tile_block)
                (show 0 < jcp.tile_block by omega)).mpr ⟨by omega, h9⟩
              omega
            exact ((Nat.div_mod_unique (a := lo + n + 1) (c := 0)
              (d := (lo + n) / jcp.tile_block + 1) (show 0 < jcp.tile_block by omega)).mpr
              ⟨by rw [Nat.mul_add]; omega, by omega⟩).1
          rw [this]
          ring
        · rw [if_neg hz, h3]
          have : (lo + n + 1) / jcp.tile_block = (lo + n) / jcp.tile_block := by
            have h9 : (lo + n) % jcp.tile_block + 1 < jcp.tile_block := by
              by_contra hcon
              have h8 : (lo + n) % jcp.tile_block + 1 = jcp.tile_block := by omega
              have := (Nat.div_mod_unique (a := lo + n + 1) (c := 0)
                (d := (lo + n) / jcp.tile_block + 1) (show 0 < jcp.tile_block by omega)).mpr
                ⟨by rw [Nat.mul_add]; omega, by omega⟩
              exact hz this.2
            exact ((Nat.div_mod_unique (a := lo + n + 1)
              (c := (lo + n) % jcp.tile_block + 1) (d := (lo + n) / jcp.tile_block)
              (show 0 < jcp.tile_block by omega)).mpr ⟨by omega, h9⟩).1
          rw [this]
  obtain ⟨n, hn⟩ : ∃ n, hi - lo = n + 1 := ⟨hi - lo - 1, by omega⟩
  have hhi : hi - 1 = lo + n := by omega
  unfold _execute_backward_weights_S_D_Giot_W_worker
  rw [hn, hhi]
  refine ⟨(key n).2.1, (key n).2.2, ?_⟩
  intro b
  constructor
  · rintro ⟨h1, h2⟩
    by_cases hb : b = lo / jcp.tile_block
    · exact ⟨lo, le_refl _, hlh, hb.symm⟩
    · refine ⟨b * jcp.tile_block, ?_, ?_, Nat.mul_div_cancel b (by omega)⟩
      · have h3 : lo / jcp.tile_block + 1 ≤ b := by omega
        have h4 := Nat.mul_le_mul_right jcp.tile_block h3
        have h5 := Nat.div_add_mod lo jcp.tile_block
        have h6 := Nat.mod_lt lo (show 0 < jcp.tile_block by omega)
        rw [Nat.add_mul, Nat.one_mul, Nat.mul_comm] at h4
        omega
      · have h4 := Nat.mul_le_mul_right jcp.tile_block h2
        have h5 := Nat.div_add_mod (lo + n) jcp.tile_block
        rw [Nat.mul_comm ((lo + n) / jcp.tile_block)] at h4
        omega
  · rintro ⟨it, h1, h2, rfl⟩
    exact ⟨Nat.div_le_div_right h1, Nat.div_le_div_right (by omega)⟩

theorem ragged_range_bookkeeping_witness :
    (_execute_backward_weights_S_D_Giot_W_worker conv_example (gemm_record true)
        (gemm_record false) 0 3 7 0 0 []).input_start =
        3 / conv_example.tile_block *
          (conv_example.oc_block * conv_example.ic_block * conv_example.ic_simd_block *
            conv_example.oc_simd_block) ∧
      (_execute_backward_weights_S_D_Giot_W_worker conv_example (gemm_record true)
        (gemm_record false) 0 3 7 0 0 []).input_end =
        ((7 - 1) / conv_example.tile_block + 1) *
          (conv_example.oc_block * conv_example.ic_block * conv_example.ic_simd_block *
            conv_example.oc_simd_block) ∧
      ∀ b : Nat, (3 / conv_example.tile_block ≤ b ∧ b ≤ (7 - 1) / conv_example.tile_block) ↔
        ∃ it, 3 ≤ it ∧ it < 7 ∧ it / conv_example.tile_block = b :=
  ragged_range_bookkeeping conv_example (gemm_record true) (gemm_record false) 0 3 7 0 0 []
    (by decide) (by decide)

/-! ## Bias-gradient accumulation of `diff_dst_transform_bwd_weights` -/

/-- A fold of steps that each add a fixed amount to every cell adds the sum of the
amounts. -/
theorem foldl_adder {α : Type} (l : List α) (f : α → Buffer → Buffer) (δ : α → Nat → ℚ)
    (h : ∀ x d n, f x d n = d n + δ x n) (d : Buffer) (n : Nat) :
    l.foldl (fun d x => f x d) d n = d n + (l.map (fun x => δ x n)).sum := by
  induction l generalizing d with
  | nil => simp
  | cons a l ih =>
      rw [List.foldl_cons, ih, h, List.map_cons, List.sum_cons]
      ring

theorem sum_map_range (k : Nat) (g : Nat → ℚ) :
    ((List.range k).map g).sum = ∑ i in Finset.range k, g i := by
  induction k with
  | zero => simp
  | succ k ih =>
      rw [List.range_succ, List.map_append, List.sum_append, ih, Finset.sum_range_succ]
      simp

/-- The lane loop `dbias[v] += g[v]` for `v < 16`. -/
theorem lane_adder (g : Nat → ℚ) (d : Buffer) (n : Nat) :
    (List.finRange 16).foldl (fun d v => Function.update d v.val (d v.val + g v.val)) d n =
      d n + (if n < 16 then g n else 0) := by
  have key : ∀ (k : Nat) (d : Buffer),
      (List.range k).foldl (fun d v => Function.update d v (d v + g v)) d n =
        d n + (if n < k then g n else 0) := by
    intro k
    induction k with
    | zero => intro d; simp
    | succ k ih =>
        intro d
        rw [List.range_succ, List.foldl_append, List.foldl_cons, List.foldl_nil]
        by_cases hn : n = k
        · subst hn
          rw [Function.update_same, ih]
          simp
        · rw [Function.update_noteq hn, ih]
          have hk : (n < k + 1) ↔ (n < k) := by omega
          simp only [hk]
  have h2 : (List.finRange 16).foldl (fun d v => Function.update d v.val (d v.val + g v.val)) d
      = ((List.finRange 16).map Fin.val).foldl
          (fun d v => Function.update d v (d v + g v)) d := by
    rw [List.foldl_map]
  rw [h2, List.map_coe_finRange, key]

/-- Tiles of four rows cover the rows below `H` exactly once when `H ≤ 4 * J`. -/
theorem sum_tiles (J H : Nat) (g : Nat → ℚ) (h : H ≤ 4 * J) :
    (∑ tj in Finset.range J, ∑ j : Fin 6,
      (if tj * 4 + j.val < H ∧ j.val < 4 then g (tj * 4 + j.val) else 0)) =
      ∑ y in Finset.range H, g y := by
  have h1 : ∀ J : Nat, (∑ tj in Finset.range J, ∑ j : Fin 6,
      (if tj * 4 + j.val < H ∧ j.val < 4 then g (tj * 4 + j.val) else 0)) =
      ∑ y in Finset.range (4 * J), (if y < H then g y else 0) := by
    intro J
    induction J with
    | zero => simp
    | succ J ih =>
        have t : ∀ c : Nat, c < 4 →
            (if J * 4 + c < H ∧ c < 4 then g (J * 4 + c) else 0) =
              (if J * 4 + c < H then g (J * 4 + c) else 0) := by
          intro c hc
          simp only [hc, and_true]
        have t' : ∀ c : Nat, ¬ c < 4 →
            (if J * 4 + c < H ∧ c < 4 then g (J * 4 + c) else 0) = 0 := by
          intro c hc
          simp only [hc, and_false, if_false]
        have e1 : (∑ j : Fin 6,
            (if J * 4 + j.val < H ∧ j.val < 4 then g (J * 4 + j.val) else 0)) =
            (if J * 4 + 0 < H then g (J * 4 + 0) else 0) +
              (if J * 4 + 1 < H then g (J * 4 + 1) else 0) +
              (if J * 4 + 2 < H then g (J * 4 + 2) else 0) +
              (if J * 4 + 3 < H then g (J * 4 + 3) else 0) := by
          rw [Fin.sum_univ_six]
          show (if J * 4 + 0 < H ∧ 0 < 4 then g (J * 4 + 0) else 0) +
            (if J * 4 + 1 < H ∧ 1 < 4 then g (J * 4 + 1) else 0) +
            (if J * 4 + 2 < H ∧ 2 < 4 then g (J * 4 + 2) else 0) +
            (if J * 4 + 3 < H ∧ 3 < 4 then g (J * 4 + 3) else 0) +
            (if J * 4 + 4 < H ∧ 4 < 4 then g (J * 4 + 4) else 0) +
            (if J * 4 + 5 < H ∧ 5 < 4 then g (J * 4 + 5) else 0) = _
          rw [t 0 (by decide), t 1 (by decide), t 2 (by decide), t 3 (by decide),
            t' 4 (by decide), t' 5 (by decide), add_zero, add_zero]
        have e2 : 4 * (J + 1) = J * 4 + 0 + 1 + 1 + 1 + 1 := by ring
        rw [Finset.sum_range_succ, ih, e1, e2, Finset.sum_range_succ (n := J * 4 + 0 + 1 + 1 + 1),
          Finset.sum_range_succ (n := J * 4 + 0 + 1 + 1),
          Finset.sum_range_succ (n := J * 4 + 0 + 1),
          Finset.sum_range_succ (n := J * 4 + 0), Nat.add_zero, Nat.mul_comm J 4]
        ring
  rw [h1, ← Finset.sum_subset (Finset.range_subset.2 h)]
  · apply Finset.sum_congr rfl
    intro y hy
    rw [if_pos (Finset.mem_range.1 hy)]
  · intro y _ hy
    rw [if_neg (fun hlt => hy (Finset.mem_range.2 hlt))]

theorem dbias_idx_eq (mb nboc oh ow sb y x : Nat) :
    (array_offset_calculator.mk [mb, nboc, oh, ow, sb]).idx [0, 0, y, x, 0] =
      (y * ow + x) * sb := by
  simp only [array_offset_calculator.idx, array_offset_calculator._offset,
    List.getD_cons_succ, List.getD_cons_zero]
  ring

/-- The accumulation loop of `diff_dst_transform_bwd_weights<true>` adds to each of the
16 lanes of `dbias` the sum of the input over all valid output coordinates. -/
theorem diff_dst_transform_bwd_weights_dbias_sum (conv : jit_conv_winograd_conf_t)
    (inp dbias : Buffer) (halpha : conv.alpha = 6)
    (hj : conv.oh ≤ 4 * conv.jtiles) (hi : conv.ow ≤ 4 * conv.itiles) (n : Nat) :
    diff_dst_transform_bwd_weights_dbias true conv inp dbias n =
      if n < 16 then
        dbias n + ∑ y in Finset.range conv.oh, ∑ x in Finset.range conv.ow,
          inp ((y * conv.ow + x) * conv.oc_simd_block + n)
      else dbias n := by
  have hts : conv.alpha - 2 = 4 := by rw [halpha]
  unfold diff_dst_transform_bwd_weights_dbias
  simp only [hts, dbias_idx_eq, true_and]
  rw [foldl_adder (List.range conv.jtiles) _
    (fun tj n => ∑ ti in Finset.range conv.itiles, ∑ j : Fin 6, ∑ i : Fin 6,
      if tj * 4 + j.val < conv.oh ∧ j.val < 4 then
        (if ti * 4 + i.val < conv.ow ∧ i.val < 4 then
          (if n < 16 then
            inp (((tj * 4 + j.val) * conv.ow + (ti * 4 + i.val)) * conv.oc_simd_block + n)
          else 0)
        else 0)
      else 0)]
  · rw [sum_map_range]
    have e1 : ∀ tj ∈ Finset.range conv.jtiles,
        (∑ ti in Finset.range conv.itiles, ∑ j : Fin 6, ∑ i : Fin 6,
          if tj * 4 + j.val < conv.oh ∧ j.val < 4 then
            (if ti * 4 + i.val < conv.ow ∧ i.val < 4 then
              (if n < 16 then
                inp (((tj * 4 + j.val) * conv.ow + (ti * 4 + i.val)) * conv.oc_simd_block + n)
              else 0)
            else 0)
          else 0) =
        ∑ j : Fin 6, (if tj * 4 + j.val < conv.oh ∧ j.val < 4 then
          (∑ x in Finset.range conv.ow,
            (if n < 16 then
              inp (((tj * 4 + j.val) * conv.ow + x) * conv.oc_simd_block + n) else 0))
          else 0) := by
      intro tj _
      rw [Finset.sum_comm]
      apply Finset.sum_congr rfl
      intro j _
      by_cases hA : tj * 4 + j.val < conv.oh ∧ j.val < 4
      · simp only [if_pos hA]
        exact sum_tiles conv.itiles conv.ow
          (fun x => if n < 16 then
            inp (((tj * 4 + j.val) * conv.ow + x) * conv.oc_simd_block + n) else 0) hi
      · simp only [if_neg hA, Finset.sum_const_zero]
    have e2 := sum_tiles conv.jtiles conv.oh (fun y => ∑ x in Finset.range conv.ow,
      (if n < 16 then inp ((y * conv.ow + x) * conv.oc_simd_block + n) else 0)) hj
    simp only at e2
    rw [Finset.sum_congr rfl e1, e2]
    by_cases hn : n < 16
    · simp only [if_pos hn]
    · simp only [if_neg hn, Finset.sum_const_zero, add_zero]
  · intro tj d n
    rw [foldl_adder (List.range conv.itiles) _
      (fun ti n => ∑ j : Fin 6, ∑ i : Fin 6,
        if tj * 4 + j.val < conv.oh ∧ j.val < 4 then
          (if ti * 4 + i.val < conv.ow ∧ i.val < 4 then
            (if n < 16 then
              inp (((tj * 4 + j.val) * conv.ow + (ti * 4 + i.val)) * conv.oc_simd_block + n)
            else 0)
          else 0)
        else 0)]
    · rw [sum_map_range]
    · intro ti d n
      rw [foldl_adder (List.finRange 6) _
        (fun (j : Fin 6) n => ∑ i : Fin 6,
          if tj * 4 + j.val < conv.oh ∧ j.val < 4 then
            (if ti * 4 + i.val < conv.ow ∧ i.val < 4 then
              (if n < 16 then
                inp (((tj * 4 + j.val) * conv.ow + (ti * 4 + i.val)) * conv.oc_simd_block + n)
              else 0)
            else 0)
          else 0)]
      · rw [Fin.sum_univ_def]
      · intro j d n
        by_cases hy : tj * 4 + j.val < conv.oh
        · rw [if_pos hy]
          rw [foldl_adder (List.finRange 6) _
            (fun (i : Fin 6) n =>
              if tj * 4 + j.val < conv.oh ∧ j.val < 4 then
                (if ti * 4 + i.val < conv.ow ∧ i.val < 4 then
                  (if n < 16 then
                    inp (((tj * 4 + j.val) * conv.ow + (ti * 4 + i.val)) *
                      conv.oc_simd_block + n)
                  else 0)
                else 0)
              else 0)]
          · rw [Fin.sum_univ_def]
          · intro i d n
            by_cases hx : ti * 4 + i.val < conv.ow
            · rw [if_pos hx]
              by_cases hji : j.val < 4 ∧ i.val < 4
              · rw [if_pos hji, if_pos ⟨hy, hji.1⟩, if_pos ⟨hx, hji.2⟩]
                exact lane_adder (fun v =>
                  inp (((tj * 4 + j.val) * conv.ow + (ti * 4 + i.val)) *
                    conv.oc_simd_block + v)) d n
              · rw [if_neg hji]
                by_cases h4 : j.val < 4
                · rw [if_pos ⟨hy, h4⟩, if_neg (fun hh => hji ⟨h4, hh.2⟩), add_zero]
                · rw [if_neg (fun hh => h4 hh.2), add_zero]
            · rw [if_neg hx]
              by_cases h4 : j.val < 4
              · rw [if_pos ⟨hy, h4⟩, if_neg (fun hh => hx hh.1), add_zero]
              · rw [if_neg (fun hh => h4 hh.2), add_zero]
        · rw [if_neg hy]
          simp only [if_neg (fun hh : tj * 4 + j.val < conv.oh ∧ j.val < 4 => hy hh.1),
            Finset.sum_const_zero, add_zero]

/-- Claim C13: bias-gradient accumulation. For `diff_dst_transform_bwd_weights<true>` on
one image, with 6x6 tiles (`alpha = 6`) and `4 * jtiles ≥ oh`, `4 * itiles ≥ ow`, after
the call `dbias[v]` is its initial value plus the sum of `input[y][x][v]` over all
`y < oh`, `x < ow`, every valid output coordinate counted exactly once, for each lane
`v < 16`; cells of `dbias` past the 16 lanes are unchanged. -/
theorem dbias_accumulation (image : Nat) (conv : jit_conv_winograd_conf_t)
    (inp tinp dbias : Buffer) (halpha : conv.alpha = 6)
    (hj : conv.oh ≤ 4 * conv.jtiles) (hi : conv.ow ≤ 4 * conv.itiles) (n : Nat) :
    (diff_dst_transform_bwd_weights true image conv inp tinp dbias).2 n =
      if n < 16 then
        dbias n + ∑ y in Finset.range conv.oh, ∑ x in Finset.range conv.ow,
          inp ((y * conv.ow + x) * conv.oc_simd_block + n)
      else dbias n :=
  diff_dst_transform_bwd_weights_dbias_sum conv inp dbias halpha hj hi n

theorem dbias_accumulation_witness :
    (diff_dst_transform_bwd_weights true 0 conv_example (fun o => ((o : Nat) : ℚ))
        (fun _ => 0) (fun _ => 1)).2 3 =
      if 3 < 16 then
        (1 : ℚ) + ∑ y in Finset.range conv_example.oh, ∑ x in Finset.range conv_example.ow,
          ((((y * conv_example.ow + x) * conv_example.oc_simd_block + 3 : Nat)) : ℚ)
      else 1 :=
  dbias_accumulation 0 conv_example (fun o => ((o : Nat) : ℚ)) (fun _ => 0) (fun _ => 1)
    (by decide) (by decide) (by decide) 3

/-! ## Image-indexed and tile-block-indexed destination-gradient packers -/

/-- With one tile per 4fma group and no padding tiles, the counters of
`diff_dst_transform_bwd_weights` start as those of the forward packers. -/
theorem diff_dst_transform_bwd_weights_init_eq (conv : jit_conv_winograd_conf_t) (image : Nat)
    (h4 : conv.tile_4fma = 1) (hp : conv.tile_4fma_padding = 0) :
    diff_dst_transform_bwd_weights_init conv image = tile_counters_init conv image := by
  simp only [diff_dst_transform_bwd_weights_init, tile_counters_init, h4, hp, Nat.mul_one,
    Nat.div_one, Nat.add_zero, Nat.mul_assoc]

/-- With one tile per 4fma group, the counters of `diff_dst_transform_bwd_weights` advance
as those of the forward packers. -/
theorem diff_dst_transform_bwd_weights_next_eq (conv : jit_conv_winograd_conf_t)
    (h4 : conv.tile_4fma = 1) :
    diff_dst_transform_bwd_weights_next conv = tile_counters_next conv := by
  funext c
  simp only [diff_dst_transform_bwd_weights_next, tile_counters_next, h4, Nat.mul_one]

/-- The tile gathered by `diff_dst_transform_bwd_weights` from the pointer to image `img`
is the tile gathered by `diff_dst_transform_bwd_weights_tile` for image `img` from the
pointer to image 0. -/
theorem diff_dst_transform_bwd_weights_I_view (conv : jit_conv_winograd_conf_t) (inp : Buffer)
    (img tj ti : Nat) :
    diff_dst_transform_bwd_weights_I conv
      (view ((array_offset_calculator.mk
        [conv.mb, conv.oc / 16, conv.oh, conv.ow, conv.oc_simd_block]).idx
        [img, 0, 0, 0, 0]) inp) tj ti =
      diff_dst_transform_bwd_weights_tile_I conv inp img tj ti := by
  funext j i v
  have e : ∀ y x : Nat,
      (array_offset_calculator.mk
        [conv.mb, conv.oc / 16, conv.oh, conv.ow, conv.oc_simd_block]).idx [img, 0, 0, 0, 0] +
      ((array_offset_calculator.mk
        [conv.mb, conv.oc / 16, conv.oh, conv.ow, conv.oc_simd_block]).idx [0, 0, y, x, 0] +
        v.val) =
      (array_offset_calculator.mk
        [conv.mb, conv.oc / 16, conv.oh, conv.ow, conv.oc_simd_block]).idx [img, 0, y, x, 0] +
        v.val := by
    intro y x
    simp only [array_offset_calculator.idx, array_offset_calculator._offset,
      List.getD_cons_succ, List.getD_cons_zero]
    ring
  simp only [diff_dst_transform_bwd_weights_I, diff_dst_transform_bwd_weights_tile_I, view, e]

/-- Claim C17, counterexample: with two tiles per 4fma group (`tile_4fma = 2`,
`tile_block_ur = 2`, `nb_tile_block_ur = 2`, no padding tiles) the flat tile 2 of image 0,
tile `(tj, ti) = (1, 0)`, is processed by `diff_dst_transform_bwd_weights_tile` at the
position `(nb_tile_block_ur, tile_block_ur) = (1, 0)` of tile block 0, while
`diff_dst_transform_bwd_weights` reaches it with the counters at position `(0, 2)`. -/
theorem diff_dst_tile_variants_differ :
    conv_example_4fma.tile_4fma_padding = 0 ∧
      2 < conv_example_4fma.mb * conv_example_4fma.itiles * conv_example_4fma.jtiles ∧
      (diff_dst_transform_bwd_weights_tile_before 0 conv_example_4fma (fun _ => 0) (fun _ => 0)
        1 0).1 = 0 * conv_example_4fma.itiles * conv_example_4fma.jtiles +
          (1 * conv_example_4fma.itiles + 0) ∧
      (diff_dst_transform_bwd_weights_before 0 conv_example_4fma (fun _ => 0) (fun _ => 0)
        1 0).1.tile_block = 0 ∧
      (diff_dst_transform_bwd_weights_before 0 conv_example_4fma (fun _ => 0) (fun _ => 0)
        1 0).1.nb_tile_block_ur = 0 ∧
      (diff_dst_transform_bwd_weights_before 0 conv_example_4fma (fun _ => 0) (fun _ => 0)
        1 0).1.tile_block_ur = 2 := by
  refine ⟨rfl, by decide, rfl, rfl, rfl, rfl⟩

/-- Claim C17, amended: with one tile per 4fma group (`tile_4fma = 1`) and no padding
tiles (and `UR = tile_block_ur ≥ 1`, `NB = nb_tile_block_ur ≥ 1`), for every flat tile
index `n` with image `img = n / (itiles * jtiles)`, tile `k = n % (itiles * jtiles)` of the image, tile block
`tb = n / (NB * UR)` and position `q = n % (NB * UR)` in the block:
`diff_dst_transform_bwd_weights` for image `img` reaches tile `(k / itiles, k % itiles)`
with its counters at tile block `tb` and in-block position `(q / UR, q % UR)`;
`diff_dst_transform_bwd_weights_tile` for tile block `tb` processes flat tile `n` at the
same position `(q / UR, q % UR)`; and both gather the same input tile. -/
theorem diff_dst_tile_equivalence (conv : jit_conv_winograd_conf_t)
    (inp tinp tinp' : Buffer) (n img k tb q : Nat)
    (h4 : conv.tile_4fma = 1) (hp : conv.tile_4fma_padding = 0)
    (hur : 1 ≤ conv.tile_block_ur) (hnb : 1 ≤ conv.nb_tile_block_ur)
    (himg : img = n / (conv.itiles * conv.jtiles)) (hk : k = n % (conv.itiles * conv.jtiles))
    (htb : tb = n / (conv.nb_tile_block_ur * conv.tile_block_ur))
    (hq : q = n % (conv.nb_tile_block_ur * conv.tile_block_ur)) :
    (diff_dst_transform_bwd_weights_before img conv
        (view ((array_offset_calculator.mk
          [conv.mb, conv.oc / 16, conv.oh, conv.ow, conv.oc_simd_block]).idx
          [img, 0, 0, 0, 0]) inp) tinp (k / conv.itiles) (k % conv.itiles)).1 =
      { tile_block_ur := q % conv.tile_block_ur, nb_tile_block_ur := q / conv.tile_block_ur,
        tile_block := tb } ∧
    (diff_dst_transform_bwd_weights_tile_before tb conv inp tinp' (q / conv.tile_block_ur)
        (q % conv.tile_block_ur)).1 = n ∧
    q / conv.tile_block_ur < conv.nb_tile_block_ur ∧
    q % conv.tile_block_ur < conv.tile_block_ur * conv.tile_4fma ∧
    diff_dst_transform_bwd_weights_I conv
        (view ((array_offset_calculator.mk
          [conv.mb, conv.oc / 16, conv.oh, conv.ow, conv.oc_simd_block]).idx
          [img, 0, 0, 0, 0]) inp) (k / conv.itiles) (k % conv.itiles) =
      diff_dst_transform_bwd_weights_tile_I conv inp
        (n / (conv.jtiles * conv.itiles))
        (n % (conv.jtiles * conv.itiles) / conv.itiles)
        (n % (conv.jtiles * conv.itiles) % conv.itiles) := by
  have hB : 0 < conv.nb_tile_block_ur * conv.tile_block_ur := Nat.mul_pos hnb hur
  have en : img * conv.itiles * conv.jtiles + k = n := by
    rw [himg, hk, Nat.mul_assoc]
    exact Nat.div_add_mod' n _
  have eb : tb * conv.nb_tile_block_ur * conv.tile_block_ur + q = n := by
    rw [htb, hq, Nat.mul_assoc]
    exact Nat.div_add_mod' n _
  have hqlt : q < conv.nb_tile_block_ur * conv.tile_block_ur := by
    rw [hq]
    exact Nat.mod_lt _ hB
  have hpos := div_mod_lt _ _ q hqlt
  have hc := counters_of_block n conv.tile_block_ur conv.nb_tile_block_ur
  have hdec : n / (conv.jtiles * conv.itiles) = img ∧
      n % (conv.jtiles * conv.itiles) = k := by
    rw [Nat.mul_comm conv.jtiles, himg, hk]
    exact ⟨rfl, rfl⟩
  have hkk : k / conv.itiles * conv.itiles + k % conv.itiles = k := Nat.div_add_mod' k _
  refine ⟨?_, ?_, hpos.1, ?_, ?_⟩
  · have key := loop_counters_iterate (fun st tj ti =>
      diff_dst_transform_bwd_weights_store conv st.1
        (trans_W_3x3_4x4_wu (fun j => diff_dst_transform_bwd_weights_I conv
          (view ((array_offset_calculator.mk
            [conv.mb, conv.oc / 16, conv.oh, conv.ow, conv.oc_simd_block]).idx
            [img, 0, 0, 0, 0]) inp) tj ti (Fin.castLE (by decide) j))) st.2)
      (diff_dst_transform_bwd_weights_next conv) (k / conv.itiles) conv.itiles
      (k % conv.itiles) (diff_dst_transform_bwd_weights_init conv img, tinp)
    refine key.trans ?_
    rw [hkk, diff_dst_transform_bwd_weights_next_eq conv h4,
      diff_dst_transform_bwd_weights_init_eq conv img h4 hp,
      tile_counters_iterate conv img k hur hnb, en, hc.1, hc.2.1, hc.2.2, ← hq, ← htb]
  · have key := loop_counters_iterate (fun (st : Nat × Buffer) nb_tile_block_ur tile_block_ur =>
      diff_dst_transform_bwd_weights_tile_store conv nb_tile_block_ur tile_block_ur
        (trans_W_3x3_4x4_wu (fun j => diff_dst_transform_bwd_weights_tile_I conv inp
          (st.1 / (conv.jtiles * conv.itiles))
          (st.1 % (conv.jtiles * conv.itiles) / conv.itiles)
          (st.1 % (conv.jtiles * conv.itiles) % conv.itiles) (Fin.castLE (by decide) j))) st.2)
      (· + 1) (q / conv.tile_block_ur) conv.tile_block_ur
      (q % conv.tile_block_ur) (tb * conv.nb_tile_block_ur * conv.tile_block_ur, tinp')
    refine key.trans ?_
    rw [add_one_iterate, Nat.div_add_mod', eb]
  · rw [h4, Nat.mul_one]
    exact hpos.2
  · rw [hdec.1, hdec.2]
    exact diff_dst_transform_bwd_weights_I_view conv inp img _ _

theorem diff_dst_tile_equivalence_witness :
    (diff_dst_transform_bwd_weights_before 0 conv_example
        (view ((array_offset_calculator.mk
          [conv_example.mb, conv_example.oc / 16, conv_example.oh, conv_example.ow,
            conv_example.oc_simd_block]).idx [0, 0, 0, 0, 0]) (fun _ => 0)) (fun _ => 0)
        (3 / conv_example.itiles) (3 % conv_example.itiles)).1 =
      { tile_block_ur := 3 % conv_example.tile_block_ur,
        nb_tile_block_ur := 3 / conv_example.tile_block_ur, tile_block := 0 } ∧
    (diff_dst_transform_bwd_weights_tile_before 0 conv_example (fun _ => 0) (fun _ => 0)
        (3 / conv_example.tile_block_ur) (3 % conv_example.tile_block_ur)).1 = 3 :=
  ⟨(diff_dst_tile_equivalence conv_example (fun _ => 0) (fun _ => 0) (fun _ => 0) 3 0 3 0 3
    (by decide) (by decide) (by decide) (by decide) (by decide) (by decide) (by decide)
    (by decide)).1,
   (diff_dst_tile_equivalence conv_example (fun _ => 0) (fun _ => 0) (fun _ => 0) 3 0 3 0 3
    (by decide) (by decide) (by decide) (by decide) (by decide) (by decide) (by decide)
    (by decide)).2.1⟩

/-! ## The scratch pointer of `diff_src_transform_bwd_weights_tile` -/

/-- A step relation kept by every step of two folds is kept by the folds. -/
theorem foldl_rel {S ι : Type} (R : S → S → Prop) (f g : S → ι → S)
    (h : ∀ s s' x, R s s' → R (f s x) (g s' x)) (l : List ι) (s s' : S) (hs : R s s') :
    R (l.foldl f s) (l.foldl g s') := by
  induction l generalizing s s' with
  | nil => exact hs
  | cons a l ih => exact ih _ _ (h _ _ a hs)

/-- One step of the loop nest with the scratch pointer `p` makes the accesses of the step
with the scratch pointer 0, moved by `p`. -/
theorem diff_src_transform_bwd_weights_tile_body_relocate (conv : jit_conv_winograd_conf_t)
    (inp : Buffer) (p nb ur : Nat) (st st0 : tile_packer_state)
    (h : st.tile_4fma = st0.tile_4fma ∧ st.n_tiles = st0.n_tiles ∧ st.tinp = st0.tinp ∧
      st.trace = st0.trace.map (tile_access.relocate p)) :
    (diff_src_transform_bwd_weights_tile_body true conv inp p nb ur st).tile_4fma =
        (diff_src_transform_bwd_weights_tile_body true conv inp 0 nb ur st0).tile_4fma ∧
      (diff_src_transform_bwd_weights_tile_body true conv inp p nb ur st).n_tiles =
        (diff_src_transform_bwd_weights_tile_body true conv inp 0 nb ur st0).n_tiles ∧
      (diff_src_transform_bwd_weights_tile_body true conv inp p nb ur st).tinp =
        (diff_src_transform_bwd_weights_tile_body true conv inp 0 nb ur st0).tinp ∧
      (diff_src_transform_bwd_weights_tile_body true conv inp p nb ur st).trace =
        (diff_src_transform_bwd_weights_tile_body true conv inp 0 nb ur st0).trace.map
          (tile_access.relocate p) := by
  obtain ⟨h1, h2, h3, h4⟩ := h
  unfold diff_src_transform_bwd_weights_tile_body
  simp only [if_true, h1, h2, h3, h4]
  by_cases hc : st0.tile_4fma + 1 = conv.tile_4fma
  · simp only [if_pos hc, List.map_append, List.map_flatMap, List.map_map, List.map_cons,
      List.map_nil, tile_access.relocate, Nat.zero_add, Nat.add_zero, Function.comp_def,
      true_and]
  · simp only [if_neg hc, List.map_append, List.map_flatMap, List.map_map,
      tile_access.relocate, Nat.zero_add, Function.comp_def, true_and]

/-- Claim C12, counterexample: when the allocator fails (`malloc` returns the null
pointer 0), `diff_src_transform_bwd_weights_tile<true>` for the single tile of a tile
block still starts with a store through the null scratch pointer and ends with the call
`transpose_4fma_ker(outp, nullptr)`. -/
theorem null_scratch_buffer_used :
    (∃ val, (diff_src_transform_bwd_weights_tile true 0 conv_example_one_tile (fun _ => 0)
        (fun _ => 0) (fun _ _ => 0)).trace.head? = some (tile_access.scratch_store 0 val)) ∧
      (diff_src_transform_bwd_weights_tile true 0 conv_example_one_tile (fun _ => 0)
        (fun _ => 0) (fun _ _ => 0)).trace.getLast? =
          some (tile_access.transpose_call 0 0) := by
  constructor
  · exact ⟨_, rfl⟩
  · show (diff_src_transform_bwd_weights_tile_body true conv_example_one_tile (fun _ => 0) 0 0
      0 { tile_4fma := 0, n_tiles := 0, tinp := fun _ => 0, trace := [] }).trace.getLast? =
        some (tile_access.transpose_call 0 0)
    unfold diff_src_transform_bwd_weights_tile_body
    have h1 : (0 + 1 : Nat) = conv_example_one_tile.tile_4fma := rfl
    simp only [if_true, if_pos h1, List.getLast?_append, List.getLast?_singleton]
    rfl

/-- Claim C12, amended: `diff_src_transform_bwd_weights_tile<true>` does not inspect the
pointer returned by `malloc` and reports nothing to its caller. Whatever the allocator
returns, the null pointer included, the function makes the accesses it makes for the null
pointer, moved to the returned address: the same scratch stores and the same calls of
`transpose_4fma_ker`, and it leaves the same counters and the same `tinp`. -/
theorem scratch_pointer_not_inspected (tile_block : Nat) (conv : jit_conv_winograd_conf_t)
    (inp tinp : Buffer) (malloc : Nat → Nat → Nat) :
    (diff_src_transform_bwd_weights_tile true tile_block conv inp tinp malloc).tile_4fma =
        (diff_src_transform_bwd_weights_tile true tile_block conv inp tinp
          (fun _ _ => 0)).tile_4fma ∧
      (diff_src_transform_bwd_weights_tile true tile_block conv inp tinp malloc).n_tiles =
        (diff_src_transform_bwd_weights_tile true tile_block conv inp tinp
          (fun _ _ => 0)).n_tiles ∧
      (diff_src_transform_bwd_weights_tile true tile_block conv inp tinp malloc).tinp =
        (diff_src_transform_bwd_weights_tile true tile_block conv inp tinp
          (fun _ _ => 0)).tinp ∧
      (diff_src_transform_bwd_weights_tile true tile_block conv inp tinp malloc).trace =
        (diff_src_transform_bwd_weights_tile true tile_block conv inp tinp
          (fun _ _ => 0)).trace.map
          (tile_access.relocate (malloc (6 * 6 * conv.tile_4fma * 16 * 4) 64)) := by
  unfold diff_src_transform_bwd_weights_tile
  simp only [if_true]
  refine foldl_rel (fun st st0 : tile_packer_state =>
      st.tile_4fma = st0.tile_4fma ∧ st.n_tiles = st0.n_tiles ∧ st.tinp = st0.tinp ∧
        st.trace = st0.trace.map
          (tile_access.relocate (malloc (6 * 6 * conv.tile_4fma * 16 * 4) 64))) _ _ ?_ _ _ _
    ⟨rfl, rfl, rfl, rfl⟩
  intro s s' nb hs
  refine foldl_rel (fun st st0 : tile_packer_state =>
      st.tile_4fma = st0.tile_4fma ∧ st.n_tiles = st0.n_tiles ∧ st.tinp = st0.tinp ∧
        st.trace = st0.trace.map
          (tile_access.relocate (malloc (6 * 6 * conv.tile_4fma * 16 * 4) 64))) _ _ ?_ _ _ _ hs
  intro t t' ur ht
  exact diff_src_transform_bwd_weights_tile_body_relocate conv inp _ nb ur t t' ht

/-! ## Idempotence of the packers -/

theorem overwrites_id : overwrites (fun m => m) :=
  ⟨fun _ => none, fun _ _ => rfl⟩

theorem overwrites_update (k : Nat) (v : ℚ) : overwrites (fun m => Function.update m k v) := by
  refine ⟨fun o => if o = k then some v else none, fun m o => ?_⟩
  by_cases h : o = k
  · subst h
    simp
  · simp [Function.update_noteq h, h]

theorem overwrites_comp (f g : Buffer → Buffer) (hf : overwrites f) (hg : overwrites g) :
    overwrites (fun m => g (f m)) := by
  obtain ⟨Wf, hWf⟩ := hf
  obtain ⟨Wg, hWg⟩ := hg
  refine ⟨fun o => (Wg o).orElse (fun _ => Wf o), fun m o => ?_⟩
  show g (f m) o = ((Wg o).orElse (fun _ => Wf o)).getD (m o)
  rw [hWg, hWf]
  cases Wg o <;> rfl

theorem overwrites_foldl {ι : Type} (l : List ι) (f : ι → Buffer → Buffer)
    (h : ∀ x, overwrites (f x)) : overwrites (fun m => l.foldl (fun m x => f x m) m) := by
  induction l with
  | nil => exact overwrites_id
  | cons a l ih => exact overwrites_comp _ _ (h a) ih

theorem overwrites_ite (c : Prop) [Decidable c] (f : Buffer → Buffer) (hf : overwrites f) :
    overwrites (fun m => if c then f m else m) := by
  by_cases h : c
  · simp only [if_pos h]
    exact hf
  · simp only [if_neg h]
    exact overwrites_id

theorem overwrites_store_output (dest : Nat) (data : Fin 16 → ℚ) (s : Bool) :
    overwrites (fun m => store_output m dest data s) :=
  overwrites_foldl (List.finRange 16) (fun v m => Function.update m (dest + v.val) (data v))
    (fun _ => overwrites_update _ _)

/-- Applying an overwriting transformer twice is applying it once. -/
theorem overwrites_idem (f : Buffer → Buffer) (hf : overwrites f) (m : Buffer) :
    f (f m) = f m := by
  obtain ⟨W, hW⟩ := hf
  funext o
  rw [hW (f m) o, hW m o]
  cases W o <;> rfl

/-- A fold whose steps advance a counter independently of the buffer and overwrite the
buffer does the same. -/
theorem overwrites_state_foldl {C ι : Type} (step : ι → C × Buffer → C × Buffer)
    (h : ∀ x c, ∃ c' G, overwrites G ∧ ∀ m, step x (c, m) = (c', G m)) (l : List ι) (c : C) :
    ∃ c' G, overwrites G ∧ ∀ m, l.foldl (fun st x => step x st) (c, m) = (c', G m) := by
  induction l generalizing c with
  | nil => exact ⟨c, fun m => m, overwrites_id, fun _ => rfl⟩
  | cons a l ih =>
      obtain ⟨c1, G1, h1, e1⟩ := h a c
      obtain ⟨c2, G2, h2, e2⟩ := ih c1
      exact ⟨c2, fun m => G2 (G1 m), overwrites_comp _ _ h1 h2,
        fun m => by rw [List.foldl_cons, e1, e2]⟩

/-- The tile loop of a packer whose per-tile store overwrites the buffer. -/
theorem overwrites_tile_loop {C : Type} (nx : C → C) (F : C → Nat → Nat → Buffer → Buffer)
    (hF : ∀ c tj ti, overwrites (F c tj ti)) (a b : Nat) (c0 : C) :
    overwrites (fun m => ((List.range a).foldl (fun st tj =>
      (List.range b).foldl (fun st ti => (nx st.1, F st.1 tj ti st.2)) st) (c0, m)).2) := by
  obtain ⟨c', G, hG, e⟩ := overwrites_state_foldl
    (fun tj (st : C × Buffer) =>
      (List.range b).foldl (fun st ti => (nx st.1, F st.1 tj ti st.2)) st)
    (fun tj c => overwrites_state_foldl
      (fun ti (st : C × Buffer) => (nx st.1, F st.1 tj ti st.2))
      (fun ti c => ⟨nx c, F c tj ti, hF c tj ti, fun _ => rfl⟩) (List.range b) c)
    (List.range a) c0
  have e2 : (fun m => ((List.range a).foldl (fun st tj =>
      (List.range b).foldl (fun st ti => (nx st.1, F st.1 tj ti st.2)) st) (c0, m)).2) = G := by
    funext m
    rw [e]
  rw [e2]
  exact hG

/-- The store loop of a 6x6 tile. -/
theorem overwrites_store_6x6 (D : Fin 6 → Fin 6 → Nat) (Iw : Tile 6 6) (s : Bool) :
    overwrites (fun m => (List.finRange 6).foldl (fun m j =>
      (List.finRange 6).foldl (fun m i => store_output m (D j i) (Iw j i) s) m) m) :=
  overwrites_foldl (List.finRange 6)
    (fun j m => (List.finRange 6).foldl (fun m i => store_output m (D j i) (Iw j i) s) m)
    (fun j => overwrites_foldl (List.finRange 6) (fun i m => store_output m (D j i) (Iw j i) s)
      (fun _ => overwrites_store_output _ _ _))

/-- The guarded store loop of a 4x4 tile. -/
theorem overwrites_store_4x4 (P : Fin 4 → Prop) (Q : Fin 4 → Prop) [DecidablePred P]
    [DecidablePred Q] (D : Fin 4 → Fin 4 → Nat) (O : Tile 4 4) (s : Bool) :
    overwrites (fun m => (List.finRange 4).foldl (fun m j =>
      if P j then
        (List.finRange 4).foldl (fun m i =>
          if Q i then store_output m (D j i) (O j i) s else m) m
      else m) m) :=
  overwrites_foldl (List.finRange 4)
    (fun j m => if P j then
        (List.finRange 4).foldl (fun m i =>
          if Q i then store_output m (D j i) (O j i) s else m) m
      else m)
    (fun j => overwrites_ite _ _ (overwrites_foldl (List.finRange 4)
      (fun i m => if Q i then store_output m (D j i) (O j i) s else m)
      (fun _ => overwrites_ite _ _ (overwrites_store_output _ _ _))))

/-- The store loop of a weight packer. -/
theorem overwrites_store_weights (D : Fin 6 → Fin 6 → Fin 16 → Fin 16 → Nat) (Fw : Tile2 6 6) :
    overwrites (fun m => (List.finRange 6).foldl (fun m j =>
      (List.finRange 6).foldl (fun m i =>
        (List.finRange 16).foldl (fun m v =>
          (List.finRange 16).foldl (fun m k =>
            Function.update m (D j i v k) (Fw j i v k)) m) m) m) m) :=
  overwrites_foldl (List.finRange 6) _ (fun j =>
    overwrites_foldl (List.finRange 6) _ (fun i =>
      overwrites_foldl (List.finRange 16) _ (fun v =>
        overwrites_foldl (List.finRange 16)
          (fun k m => Function.update m (D j i v k) (Fw j i v k))
          (fun _ => overwrites_update _ _))))

theorem foldl_keep {ι S : Type} (l : List ι) (s : S) : l.foldl (fun s _ => s) s = s := by
  induction l with
  | nil => rfl
  | cons a l ih => exact ih

theorem src_transform_fwd_overwrites (image : Nat) (conv : jit_conv_winograd_conf_t)
    (inp : Buffer) (s : Bool) :
    overwrites (fun tinp => src_transform_fwd image conv inp tinp s) := by
  unfold src_transform_fwd
  refine overwrites_tile_loop (tile_counters_next conv)
    (fun c tj ti m => src_transform_fwd_store conv c
      (trans_I_4x4_3x3 (src_transform_fwd_I conv inp tj ti)) s m) ?_ _ _ _
  intro c tj ti
  unfold src_transform_fwd_store
  exact overwrites_store_6x6 _ _ _

theorem dst_transform_fwd_overwrites (with_bias with_relu : Bool) (image : Nat)
    (conv : jit_conv_winograd_conf_t) (toutp bias : Buffer) (s : Bool) :
    overwrites (fun outp =>
      dst_transform_fwd with_bias with_relu image conv toutp outp bias s) := by
  unfold dst_transform_fwd
  refine overwrites_tile_loop (tile_counters_next conv)
    (fun c tj ti m => dst_transform_fwd_store with_bias with_relu conv tj ti
      (trans_O_4x4_3x3 (dst_transform_fwd_Ow conv toutp c)) bias s m) ?_ _ _ _
  intro c tj ti
  unfold dst_transform_fwd_store
  exact overwrites_store_4x4 (fun j => tj * 4 + j.val < conv.oh)
    (fun i => ti * 4 + i.val < conv.ow) _
    (dst_transform_fwd_O with_bias with_relu conv
      (trans_O_4x4_3x3 (dst_transform_fwd_Ow conv toutp c)) bias) s

theorem diff_dst_transform_bwd_data_overwrites (image : Nat) (conv : jit_conv_winograd_conf_t)
    (inp : Buffer) (s : Bool) :
    overwrites (fun tinp => diff_dst_transform_bwd_data image conv inp tinp s) := by
  unfold diff_dst_transform_bwd_data
  refine overwrites_tile_loop (tile_counters_next conv)
    (fun c tj ti m => diff_dst_transform_bwd_data_store conv c
      (trans_I_4x4_3x3 (diff_dst_transform_bwd_data_I conv inp tj ti).2) s m) ?_ _ _ _
  intro c tj ti
  unfold diff_dst_transform_bwd_data_store
  exact overwrites_store_6x6 _ _ _

theorem diff_src_transform_bwd_data_overwrites (image : Nat) (conv : jit_conv_winograd_conf_t)
    (toutp : Buffer) (s : Bool) :
    overwrites (fun outp => diff_src_transform_bwd_data image conv toutp outp s) := by
  unfold diff_src_transform_bwd_data
  refine overwrites_tile_loop (tile_counters_next conv)
    (fun c tj ti m => diff_src_transform_bwd_data_store conv tj ti
      (trans_O_4x4_3x3 (diff_src_transform_bwd_data_Ow conv toutp c)) s m) ?_ _ _ _
  intro c tj ti
  unfold diff_src_transform_bwd_data_store
  exact overwrites_store_4x4 (fun j => tj * 4 + j.val < conv.ih)
    (fun i => ti * 4 + i.val < conv.iw) _
    (trans_O_4x4_3x3 (diff_src_transform_bwd_data_Ow conv toutp c)) s

theorem diff_src_transform_bwd_weights_overwrites (image : Nat)
    (conv : jit_conv_winograd_conf_t) (inp : Buffer) :
    overwrites (fun tinp => diff_src_transform_bwd_weights image conv inp tinp) := by
  unfold diff_src_transform_bwd_weights
  refine overwrites_tile_loop (diff_src_transform_bwd_weights_next conv)
    (fun c tj ti m => diff_src_transform_bwd_weights_store conv c
      (trans_I_4x4_3x3 (diff_src_transform_bwd_weights_I conv inp tj ti)) m) ?_ _ _ _
  intro c tj ti
  unfold diff_src_transform_bwd_weights_store
  exact overwrites_store_6x6 _ _ _

theorem diff_dst_transform_bwd_weights_tinp_overwrites (image : Nat)
    (conv : jit_conv_winograd_conf_t) (inp : Buffer) :
    overwrites (fun tinp => diff_dst_transform_bwd_weights_tinp image conv inp tinp) := by
  unfold diff_dst_transform_bwd_weights_tinp
  refine overwrites_tile_loop (diff_dst_transform_bwd_weights_next conv)
    (fun c tj ti m => diff_dst_transform_bwd_weights_store conv c
      (trans_W_3x3_4x4_wu (fun j =>
        diff_dst_transform_bwd_weights_I conv inp tj ti (Fin.castLE (by decide) j))) m) ?_ _ _ _
  intro c tj ti
  unfold diff_dst_transform_bwd_weights_store
  exact overwrites_store_6x6 _ _ _

theorem weight_transform_fwd_overwrites (conv : jit_conv_winograd_conf_t) (wp : Buffer) :
    overwrites (fun twp => weight_transform_fwd conv wp twp) := by
  unfold weight_transform_fwd
  exact overwrites_store_weights _ _

theorem weight_transform_bwd_data_overwrites (conv : jit_conv_winograd_conf_t) (wp : Buffer) :
    overwrites (fun twp => weight_transform_bwd_data conv wp twp) := by
  unfold weight_transform_bwd_data
  exact overwrites_store_weights _ _

theorem diff_weights_transform_bwd_weights_overwrites (conv : jit_conv_winograd_conf_t)
    (twp : Buffer) : overwrites (fun wp => diff_weights_transform_bwd_weights conv wp twp) := by
  unfold diff_weights_transform_bwd_weights
  exact overwrites_foldl (List.finRange 3) _ (fun j =>
    overwrites_foldl (List.finRange 3) _ (fun i =>
      overwrites_foldl (List.finRange 16)
        (fun v m => store_output m
          ((array_offset_calculator.mk [conv.oc / 16, conv.ic / 16, conv.kh, conv.kw,
            conv.ic_simd_block, conv.oc_simd_block]).idx [0, 0, j.val, i.val, v.val, 0])
          (trans_O_3x3_4x4_wu (diff_weights_transform_bwd_weights_Fw conv twp) j i v) true)
        (fun _ => overwrites_store_output _ _ _)))

/-- Without bias the accumulator `dbias` is left as it was. -/
theorem diff_dst_transform_bwd_weights_dbias_false (conv : jit_conv_winograd_conf_t)
    (inp dbias : Buffer) : diff_dst_transform_bwd_weights_dbias false conv inp dbias = dbias := by
  unfold diff_dst_transform_bwd_weights_dbias
  simp only [Bool.false_eq_true, false_and, if_false, ite_self, foldl_keep]

/-- Claim C14, counterexample: `diff_dst_transform_bwd_weights<true>` is not idempotent.
On an 8x8 image of ones with `dbias` zero on entry, one call leaves `dbias[0] = 64` and a
second call with the same arguments, run on the buffers left by the first, leaves
`dbias[0] = 128`. -/
theorem dbias_not_idempotent :
    (diff_dst_transform_bwd_weights true 0 conv_example (fun _ => 1) (fun _ => 0)
        (fun _ => 0)).2 0 = 64 ∧
      (diff_dst_transform_bwd_weights true 0 conv_example (fun _ => 1)
        (diff_dst_transform_bwd_weights true 0 conv_example (fun _ => 1) (fun _ => 0)
          (fun _ => 0)).1
        (diff_dst_transform_bwd_weights true 0 conv_example (fun _ => 1) (fun _ => 0)
          (fun _ => 0)).2).2 0 = 128 := by
  have h : ∀ d : Buffer,
      diff_dst_transform_bwd_weights_dbias true conv_example (fun _ => 1) d 0 = d 0 + 64 := by
    intro d
    rw [diff_dst_transform_bwd_weights_dbias_sum conv_example (fun _ => 1) d rfl (by decide)
      (by decide) 0]
    simp [conv_example]
    norm_num
  constructor
  · show diff_dst_transform_bwd_weights_dbias true conv_example (fun _ => 1) (fun _ => 0) 0 = 64
    rw [h]
    norm_num
  · show diff_dst_transform_bwd_weights_dbias true conv_example (fun _ => 1)
      (diff_dst_transform_bwd_weights_dbias true conv_example (fun _ => 1) (fun _ => 0)) 0 = 128
    rw [h, h]
    norm_num

/-- Claim C14, amended: every packer call other than the bias accumulation of
`diff_dst_transform_bwd_weights<true>` is idempotent. With the input buffers distinct from
the buffer written, running `src_transform_fwd`, `dst_transform_fwd`,
`diff_dst_transform_bwd_data`, `diff_src_transform_bwd_data`,
`diff_src_transform_bwd_weights<false>`, `weight_transform_fwd`,
`weight_transform_bwd_data` or `diff_weights_transform_bwd_weights` a second time with the
same arguments on the buffer left by the first run leaves that buffer as the first run
left it; so does `diff_dst_transform_bwd_weights` for its buffer `tinp`, with or without
bias, and without bias also for `dbias`, which it leaves untouched. -/
theorem packers_idempotent (with_bias with_relu : Bool) (image : Nat)
    (conv : jit_conv_winograd_conf_t) (inp toutp bias wp twp tinp outp dbias : Buffer)
    (s : Bool) :
    src_transform_fwd image conv inp (src_transform_fwd image conv inp tinp s) s =
        src_transform_fwd image conv inp tinp s ∧
      dst_transform_fwd with_bias with_relu image conv toutp
          (dst_transform_fwd with_bias with_relu image conv toutp outp bias s) bias s =
        dst_transform_fwd with_bias with_relu image conv toutp outp bias s ∧
      diff_dst_transform_bwd_data image conv inp
          (diff_dst_transform_bwd_data image conv inp tinp s) s =
        diff_dst_transform_bwd_data image conv inp tinp s ∧
      diff_src_transform_bwd_data image conv toutp
          (diff_src_transform_bwd_data image conv toutp outp s) s =
        diff_src_transform_bwd_data image conv toutp outp s ∧
      diff_src_transform_bwd_weights image conv inp
          (diff_src_transform_bwd_weights image conv inp tinp) =
        diff_src_transform_bwd_weights image conv inp tinp ∧
      (diff_dst_transform_bwd_weights with_bias image conv inp
          (diff_dst_transform_bwd_weights with_bias image conv inp tinp dbias).1
          (diff_dst_transform_bwd_weights with_bias image conv inp tinp dbias).2).1 =
        (diff_dst_transform_bwd_weights with_bias image conv inp tinp dbias).1 ∧
      diff_dst_transform_bwd_weights false image conv inp
          (diff_dst_transform_bwd_weights false image conv inp tinp dbias).1
          (diff_dst_transform_bwd_weights false image conv inp tinp dbias).2 =
        diff_dst_transform_bwd_weights false image conv inp tinp dbias ∧
      (diff_dst_transform_bwd_weights false image conv inp tinp dbias).2 = dbias ∧
      weight_transform_fwd conv wp (weight_transform_fwd conv wp twp) =
        weight_transform_fwd conv wp twp ∧
      weight_transform_bwd_data conv wp (weight_transform_bwd_data conv wp twp) =
        weight_transform_bwd_data conv wp twp ∧
      diff_weights_transform_bwd_weights conv (diff_weights_transform_bwd_weights conv wp twp)
          twp =
        diff_weights_transform_bwd_weights conv wp twp := by
  refine ⟨?_, ?_, ?_, ?_, ?_, ?_, ?_, ?_, ?_, ?_, ?_⟩
  · exact overwrites_idem _ (src_transform_fwd_overwrites image conv inp s) tinp
  · exact overwrites_idem _
      (dst_transform_fwd_overwrites with_bias with_relu image conv toutp bias s) outp
  · exact overwrites_idem _ (diff_dst_transform_bwd_data_overwrites image conv inp s) tinp
  · exact overwrites_idem _ (diff_src_transform_bwd_data_overwrites image conv toutp s) outp
  · exact overwrites_idem _ (diff_src_transform_bwd_weights_overwrites image conv inp) tinp
  · exact overwrites_idem _ (diff_dst_transform_bwd_weights_tinp_overwrites image conv inp)
      tinp
  · have h1 := overwrites_idem _ (diff_dst_transform_bwd_weights_tinp_overwrites image conv inp)
      tinp
    unfold diff_dst_transform_bwd_weights
    simp only [diff_dst_transform_bwd_weights_dbias_false]
    rw [h1]
  · exact diff_dst_transform_bwd_weights_dbias_false conv inp dbias
  · exact overwrites_idem _ (weight_transform_fwd_overwrites conv wp) twp
  · exact overwrites_idem _ (weight_transform_bwd_data_overwrites conv wp) twp
  · exact overwrites_idem _ (diff_weights_transform_bwd_weights_overwrites conv twp) wp

/-! ## The scratch buffer `V` of the two forward orchestrators -/

/-- The source transform loop nest of `_execute_forward_W_S_G_D` as one loop over the
work items `(img, ifm1, ifm2)`. -/
theorem _execute_forward_W_S_G_D_V_flat (jcp : jit_conv_winograd_conf_t) (LLC_cache_size : Nat)
    (src V : Buffer) :
    _execute_forward_W_S_G_D_V jcp LLC_cache_size src V =
      (List.range jcp.mb ×ˢ (List.range jcp.nb_ic ×ˢ List.range jcp.ic_block)).foldl
        (fun V t => _execute_forward_W_S_G_D_V_item jcp LLC_cache_size t.1 t.2.1 t.2.2 src V)
        V := by
  simp only [← foldl_product]
  rfl

/-- The counters of the flat tile at position `(nb, ur)` of tile block `tb`. -/
theorem counters_of_position (tb nb ur NB UR : Nat) (hnb : nb < NB) (hur : ur < UR) :
    ((tb * NB + nb) * UR + ur) / UR / NB = tb ∧ ((tb * NB + nb) * UR + ur) / UR % NB = nb ∧
      ((tb * NB + nb) * UR + ur) % UR = ur := by
  have hUR : 0 < UR := by omega
  have hNB : 0 < NB := by omega
  have e1 : ((tb * NB + nb) * UR + ur) / UR = tb * NB + nb := by
    rw [Nat.add_comm, Nat.add_mul_div_right _ _ hUR, Nat.div_eq_of_lt hur, Nat.zero_add]
  have e2 : ((tb * NB + nb) * UR + ur) % UR = ur := by
    rw [Nat.add_comm, Nat.add_mul_mod_self_right, Nat.mod_eq_of_lt hur]
  have e3 : (tb * NB + nb) / NB = tb := by
    rw [Nat.add_comm, Nat.add_mul_div_right _ _ hNB, Nat.div_eq_of_lt hnb, Nat.zero_add]
  have e4 : (tb * NB + nb) % NB = nb := by
    rw [Nat.add_comm, Nat.add_mul_mod_self_right, Nat.mod_eq_of_lt hnb]
  rw [e1, e2, e3, e4]
  exact ⟨rfl, rfl, rfl⟩

/-- The value of `V` after the source transform loop nest of `_execute_forward_W_S_G_D`
at the element `(tb, j, i, nb, ifm1, ifm2, ur, v)`, where the flat tile
`(tb * NB + nb) * UR + ur` is tile `k` of image `img`. -/
theorem _execute_forward_W_S_G_D_V_value (jcp : jit_conv_winograd_conf_t)
    (LLC_cache_size : Nat) (src V : Buffer) (tb nb ur img k ifm1 ifm2 : Nat) (j i : Fin 6)
    (v : Fin 16) (hnb : nb < jcp.nb_tile_block_ur) (hur : ur < jcp.tile_block_ur)
    (himg : img < jcp.mb) (hk : k < jcp.jtiles * jcp.itiles) (h1 : ifm1 < jcp.nb_ic)
    (h2 : ifm2 < jcp.ic_block)
    (hn : (tb * jcp.nb_tile_block_ur + nb) * jcp.tile_block_ur + ur =
      img * jcp.itiles * jcp.jtiles + k) :
    _execute_forward_W_S_G_D_V jcp LLC_cache_size src V
        (((((((tb * 6 + j.val) * 6 + i.val) * jcp.nb_tile_block_ur + nb) * jcp.nb_ic + ifm1) *
          jcp.ic_block + ifm2) * jcp.tile_block_ur + ur) * 16 + v.val) =
      trans_I_4x4_3x3 (src_transform_fwd_I jcp
        (view ((array_offset_calculator.mk [jcp.mb, jcp.ic / 16, jcp.ih, jcp.iw, 16]).idx
          [img, ifm1 * jcp.ic_block + ifm2, 0, 0, 0]) src)
        (k / jcp.itiles) (k % jcp.itiles)) j i v := by
  have hUR : 1 ≤ jcp.tile_block_ur := by omega
  have hNB : 1 ≤ jcp.nb_tile_block_ur := by omega
  obtain ⟨c1, c2, c3⟩ := counters_of_position tb nb ur _ _ hnb hur
  rw [hn] at c1 c2 c3
  have hval := fun s => src_transform_fwd_item_value jcp LLC_cache_size img ifm1 ifm2 src s
    k j i v hUR hNB hk h1 h2
  simp only [c1, c2, c3] at hval
  rw [_execute_forward_W_S_G_D_V_flat]
  refine foldl_establish
    (fun V (t : Nat × Nat × Nat) =>
      _execute_forward_W_S_G_D_V_item jcp LLC_cache_size t.1 t.2.1 t.2.2 src V)
    (fun V' => V' (((((((tb * 6 + j.val) * 6 + i.val) * jcp.nb_tile_block_ur + nb) *
      jcp.nb_ic + ifm1) * jcp.ic_block + ifm2) * jcp.tile_block_ur + ur) * 16 + v.val) = _)
    _ (img, ifm1, ifm2)
    (by simp only [List.mem_product, List.mem_range]; exact ⟨himg, h1, h2⟩)
    hval ?_ V
  rintro s ⟨img', ifm1', ifm2'⟩ ht hs
  simp only [List.mem_product, List.mem_range] at ht
  by_cases e : (img', ifm1', ifm2') = (img, ifm1, ifm2)
  · rw [e]
    exact hval s
  · show _execute_forward_W_S_G_D_V_item jcp LLC_cache_size img' ifm1' ifm2' src s _ = _
    rw [src_transform_fwd_item_frame jcp LLC_cache_size img' ifm1' ifm2' src s _ hUR hNB]
    · exact hs
    · intro k' j' i' v' hk' heq
      have hk'2 : k' < jcp.itiles * jcp.jtiles := by rw [Nat.mul_comm]; exact hk'
      have hk2 : k < jcp.itiles * jcp.jtiles := by rw [Nat.mul_comm]; exact hk
      have hT : 0 < jcp.itiles * jcp.jtiles := by omega
      obtain ⟨e1, -, -, e4, e5, e6, e7, -⟩ := V_inj jcp.nb_tile_block_ur jcp.nb_ic jcp.ic_block
        jcp.tile_block_ur _ _ _ _ _ _ _ _ _ _ _ _ _ _ _ _ j.isLt i.isLt hnb h1 h2 hur v.isLt
        j'.isLt i'.isLt (Nat.mod_lt _ hNB) ht.2.1 ht.2.2 (Nat.mod_lt _ hUR) v'.isLt heq
      have r := counters_recompose (img' * jcp.itiles * jcp.jtiles + k') jcp.tile_block_ur
        jcp.nb_tile_block_ur
      rw [← e1, ← e4, ← e7, hn] at r
      have r2 : img * (jcp.itiles * jcp.jtiles) + k = img' * (jcp.itiles * jcp.jtiles) + k' := by
        rw [← Nat.mul_assoc, ← Nat.mul_assoc]
        exact r
      obtain ⟨r3, -⟩ := mul_add_inj _ _ _ _ _ hk2 hk'2 r2
      exact e (by rw [r3, e5, e6])

/-- The source transform loop nest of the body of the tile-block loop of
`_execute_forward_W_SGD` as one loop over the pairs `(ifm1, ifm2)`. -/
theorem _execute_forward_W_SGD_V_flat (jcp : jit_conv_winograd_conf_t) (tile_block ithr : Nat)
    (src V : Buffer) :
    _execute_forward_W_SGD_V jcp tile_block ithr src V =
      (List.range jcp.nb_ic ×ˢ List.range jcp.ic_block).foldl
        (fun V t =>
          write_at ((array_offset_calculator.mk [0, 6, 6, jcp.nb_tile_block_ur, jcp.nb_ic,
              jcp.ic_block, jcp.tile_block_ur, 16]).idx [ithr, 0, 0, 0, t.1, t.2, 0, 0])
            (src_transform_fwd_tile tile_block jcp
              (view ((array_offset_calculator.mk [jcp.mb, jcp.ic / 16, jcp.ih, jcp.iw, 16]).idx
                [0, t.1 * jcp.ic_block + t.2, 0, 0, 0]) src)) V) V := by
  simp only [← foldl_product]
  rfl

/-- The position `(nb, ur)` of a tile block as a flat position. -/
theorem position_div_mod (nb ur UR : Nat) (hur : ur < UR) :
    (nb * UR + ur) / UR = nb ∧ (nb * UR + ur) % UR = ur := by
  have hUR : 0 < UR := by omega
  constructor
  · rw [Nat.add_comm, Nat.add_mul_div_right _ _ hUR, Nat.div_eq_of_lt hur, Nat.zero_add]
  · rw [Nat.add_comm, Nat.add_mul_mod_self_right, Nat.mod_eq_of_lt hur]

/-- The value of the thread's slice of `V` after the source transform loop nest of the
body of the tile-block loop of `_execute_forward_W_SGD`, at the element
`(ithr, j, i, nb, ifm1, ifm2, ur, v)`. -/
theorem _execute_forward_W_SGD_V_value (jcp : jit_conv_winograd_conf_t)
    (tile_block ithr : Nat) (src V : Buffer) (nb ur ifm1 ifm2 : Nat) (j i : Fin 6)
    (v : Fin 16) (hnb : nb < jcp.nb_tile_block_ur) (hur : ur < jcp.tile_block_ur)
    (h1 : ifm1 < jcp.nb_ic) (h2 : ifm2 < jcp.ic_block) :
    _execute_forward_W_SGD_V jcp tile_block ithr src V
        (((((((ithr * 6 + j.val) * 6 + i.val) * jcp.nb_tile_block_ur + nb) * jcp.nb_ic + ifm1) *
          jcp.ic_block + ifm2) * jcp.tile_block_ur + ur) * 16 + v.val) =
      trans_I_4x4_3x3 (src_transform_fwd_tile_I jcp
        (view ((array_offset_calculator.mk [jcp.mb, jcp.ic / 16, jcp.ih, jcp.iw, 16]).idx
          [0, ifm1 * jcp.ic_block + ifm2, 0, 0, 0]) src)
        ((tile_block * jcp.nb_tile_block_ur * jcp.tile_block_ur + (nb * jcp.tile_block_ur + ur))
          / (jcp.jtiles * jcp.itiles))
        ((tile_block * jcp.nb_tile_block_ur * jcp.tile_block_ur + (nb * jcp.tile_block_ur + ur))
          % (jcp.jtiles * jcp.itiles) / jcp.itiles)
        ((tile_block * jcp.nb_tile_block_ur * jcp.tile_block_ur + (nb * jcp.tile_block_ur + ur))
          % (jcp.jtiles * jcp.itiles) % jcp.itiles)) j i v := by
  obtain ⟨p1, p2⟩ := position_div_mod nb ur jcp.tile_block_ur hur
  have hq : nb * jcp.tile_block_ur + ur < jcp.nb_tile_block_ur * jcp.tile_block_ur := by
    calc nb * jcp.tile_block_ur + ur < nb * jcp.tile_block_ur + jcp.tile_block_ur := by omega
      _ = (nb + 1) * jcp.tile_block_ur := by ring
      _ ≤ jcp.nb_tile_block_ur * jcp.tile_block_ur := Nat.mul_le_mul_right _ hnb
  have hval := fun s => src_transform_fwd_tile_value jcp tile_block ithr ifm1 ifm2
    (view ((array_offset_calculator.mk [jcp.mb, jcp.ic / 16, jcp.ih, jcp.iw, 16]).idx
      [0, ifm1 * jcp.ic_block + ifm2, 0, 0, 0]) src) s (nb * jcp.tile_block_ur + ur) j i v hq h1 h2
  simp only [p1, p2] at hval
  rw [_execute_forward_W_SGD_V_flat]
  refine foldl_establish
    (fun V (t : Nat × Nat) =>
      write_at ((array_offset_calculator.mk [0, 6, 6, jcp.nb_tile_block_ur, jcp.nb_ic,
          jcp.ic_block, jcp.tile_block_ur, 16]).idx [ithr, 0, 0, 0, t.1, t.2, 0, 0])
        (src_transform_fwd_tile tile_block jcp
          (view ((array_offset_calculator.mk [jcp.mb, jcp.ic / 16, jcp.ih, jcp.iw, 16]).idx
            [0, t.1 * jcp.ic_block + t.2, 0, 0, 0]) src)) V)
    (fun V' => V' (((((((ithr * 6 + j.val) * 6 + i.val) * jcp.nb_tile_block_ur + nb) *
      jcp.nb_ic + ifm1) * jcp.ic_block + ifm2) * jcp.tile_block_ur + ur) * 16 + v.val) = _)
    _ (ifm1, ifm2)
    (by simp only [List.mem_product, List.mem_range]; exact ⟨h1, h2⟩)
    hval ?_ V
  rintro s ⟨ifm1', ifm2'⟩ ht hs
  simp only [List.mem_product, List.mem_range] at ht
  by_cases e : (ifm1', ifm2') = (ifm1, ifm2)
  · rw [e]
    exact hval s
  · show write_at _ _ s _ = _
    rw [src_transform_fwd_tile_frame jcp tile_block ithr ifm1' ifm2' _ s _]
    · exact hs
    · intro q' j' i' v' hq' heq
      obtain ⟨hb1, hb2⟩ := div_mod_lt _ _ q' hq'
      obtain ⟨-, -, -, -, e5, e6, -, -⟩ := V_inj jcp.nb_tile_block_ur jcp.nb_ic jcp.ic_block
        jcp.tile_block_ur _ _ _ _ _ _ _ _ _ _ _ _ _ _ _ _ j.isLt i.isLt hnb h1 h2 hur v.isLt
        j'.isLt i'.isLt hb1 ht.1 ht.2 hb2 v'.isLt heq
      exact e (by rw [e5, e6])

/-- The tile gathered by `src_transform_fwd` from the pointer to channel block `c` of image
`img` is the tile gathered by `src_transform_fwd_tile` for image `img` from the pointer to
channel block `c` of image 0. -/
theorem src_transform_fwd_I_view_channel (conv : jit_conv_winograd_conf_t) (src : Buffer)
    (img c tj ti : Nat) :
    src_transform_fwd_I conv
      (view ((array_offset_calculator.mk [conv.mb, conv.ic / 16, conv.ih, conv.iw, 16]).idx
        [img, c, 0, 0, 0]) src) tj ti =
      src_transform_fwd_tile_I conv
        (view ((array_offset_calculator.mk [conv.mb, conv.ic / 16, conv.ih, conv.iw, 16]).idx
          [0, c, 0, 0, 0]) src) img tj ti := by
  funext j i v
  have e : ∀ y x : Nat,
      (array_offset_calculator.mk [conv.mb, conv.ic / 16, conv.ih, conv.iw, 16]).idx
        [img, c, 0, 0, 0] +
      (array_offset_calculator.mk [conv.mb, conv.ic / 16, conv.ih, conv.iw, 16]).idx
        [0, 0, y, x, v.val] =
      (array_offset_calculator.mk [conv.mb, conv.ic / 16, conv.ih, conv.iw, 16]).idx
        [0, c, 0, 0, 0] +
      (array_offset_calculator.mk [conv.mb, conv.ic / 16, conv.ih, conv.iw, 16]).idx
        [img, 0, y, x, v.val] := by
    intro y x
    simp only [array_offset_calculator.idx, array_offset_calculator._offset,
      List.getD_cons_succ, List.getD_cons_zero]
    ring
  simp only [src_transform_fwd_I, src_transform_fwd_tile_I, view, e]

/-- A float offset below `icb * UR * 16` as the triple `(ifm2, ur, v)`. -/
theorem block_offset_split (icb UR y : Nat) (hy : y < icb * UR * 16) :
    y / 16 / UR < icb ∧ y / 16 % UR < UR ∧ y % 16 < 16 ∧
      (y / 16 / UR * UR + y / 16 % UR) * 16 + y % 16 = y := by
  have hUR : 0 < UR := by
    rcases Nat.eq_zero_or_pos UR with h | h
    · subst h
      simp at hy
    · exact h
  refine ⟨?_, Nat.mod_lt _ hUR, Nat.mod_lt _ (by decide), ?_⟩
  · rw [Nat.div_div_eq_div_mul, Nat.div_lt_iff_lt_mul (Nat.mul_pos (by decide) hUR)]
    calc y < icb * UR * 16 := hy
      _ = icb * (16 * UR) := by ring
  · rw [Nat.div_add_mod', Nat.div_add_mod']

/-- Under the tile-cover condition, the block of `V` that a thread of
`_execute_forward_W_SGD` has packed for tile block `tb` holds the values of the block
`tb` of the buffer `V` packed by `_execute_forward_W_S_G_D`. -/
theorem forward_V_blocks_agree (jcp : jit_conv_winograd_conf_t) (LLC_cache_size : Nat)
    (src V0 V : Buffer) (tb ithr nb ifm1 y : Nat) (j i : Fin 6)
    (hcover : jcp.tile_block * jcp.nb_tile_block_ur * jcp.tile_block_ur =
      jcp.mb * jcp.itiles * jcp.jtiles)
    (htb : tb < jcp.tile_block) (hnb : nb < jcp.nb_tile_block_ur) (h1 : ifm1 < jcp.nb_ic)
    (hy : y < jcp.ic_block * jcp.tile_block_ur * 16) :
    _execute_forward_W_SGD_V jcp tb ithr src V
        ((array_offset_calculator.mk [0, 6, 6, jcp.nb_tile_block_ur, jcp.nb_ic, jcp.ic_block,
          jcp.tile_block_ur, 16]).idx [ithr, j.val, i.val, nb, ifm1, 0, 0, 0] + y) =
      _execute_forward_W_S_G_D_V jcp LLC_cache_size src V0
        ((array_offset_calculator.mk [jcp.tile_block, 6, 6, jcp.nb_tile_block_ur, jcp.nb_ic,
          jcp.ic_block, jcp.tile_block_ur, 16]).idx [tb, j.val, i.val, nb, ifm1, 0, 0, 0] + y) := by
  obtain ⟨s1, s2, s3, s4⟩ := block_offset_split _ _ y hy
  have hoff : ∀ (d0 t : Nat),
      (array_offset_calculator.mk [d0, 6, 6, jcp.nb_tile_block_ur, jcp.nb_ic, jcp.ic_block,
        jcp.tile_block_ur, 16]).idx [t, j.val, i.val, nb, ifm1, 0, 0, 0] + y =
      ((((((t * 6 + j.val) * 6 + i.val) * jcp.nb_tile_block_ur + nb) * jcp.nb_ic + ifm1) *
        jcp.ic_block + y / 16 / jcp.tile_block_ur) * jcp.tile_block_ur +
        y / 16 % jcp.tile_block_ur) * 16 + (⟨y % 16, s3⟩ : Fin 16).val := by
    intro d0 t
    rw [V_idx_eq]
    show _ = _ + y % 16
    nth_rewrite 1 [← s4]
    ring
  have hn : (tb * jcp.nb_tile_block_ur + nb) * jcp.tile_block_ur + y / 16 % jcp.tile_block_ur <
      jcp.mb * (jcp.itiles * jcp.jtiles) := by
    rw [← Nat.mul_assoc, ← hcover]
    calc (tb * jcp.nb_tile_block_ur + nb) * jcp.tile_block_ur + y / 16 % jcp.tile_block_ur
        < (tb * jcp.nb_tile_block_ur + nb) * jcp.tile_block_ur + jcp.tile_block_ur := by omega
      _ = (tb * jcp.nb_tile_block_ur + (nb + 1)) * jcp.tile_block_ur := by ring
      _ ≤ (tb * jcp.nb_tile_block_ur + jcp.nb_tile_block_ur) * jcp.tile_block_ur :=
          Nat.mul_le_mul_right _ (by omega)
      _ = (tb + 1) * jcp.nb_tile_block_ur * jcp.tile_block_ur := by ring
      _ ≤ jcp.tile_block * jcp.nb_tile_block_ur * jcp.tile_block_ur :=
          Nat.mul_le_mul_right _ (Nat.mul_le_mul_right _ htb)
  have hT : 0 < jcp.itiles * jcp.jtiles := by
    rcases Nat.eq_zero_or_pos (jcp.itiles * jcp.jtiles) with h | h
    · rw [h] at hn
      simp at hn
    · exact h
  have himg : ((tb * jcp.nb_tile_block_ur + nb) * jcp.tile_block_ur +
      y / 16 % jcp.tile_block_ur) / (jcp.itiles * jcp.jtiles) < jcp.mb :=
    (Nat.div_lt_iff_lt_mul hT).mpr hn
  have hk : ((tb * jcp.nb_tile_block_ur + nb) * jcp.tile_block_ur +
      y / 16 % jcp.tile_block_ur) % (jcp.itiles * jcp.jtiles) < jcp.jtiles * jcp.itiles := by
    rw [Nat.mul_comm jcp.jtiles]
    exact Nat.mod_lt _ hT
  have hdec : (tb * jcp.nb_tile_block_ur + nb) * jcp.tile_block_ur +
      y / 16 % jcp.tile_block_ur =
      ((tb * jcp.nb_tile_block_ur + nb) * jcp.tile_block_ur + y / 16 % jcp.tile_block_ur) /
        (jcp.itiles * jcp.jtiles) * jcp.itiles * jcp.jtiles +
      ((tb * jcp.nb_tile_block_ur + nb) * jcp.tile_block_ur + y / 16 % jcp.tile_block_ur) %
        (jcp.itiles * jcp.jtiles) := by
    rw [Nat.mul_assoc]
    exact (Nat.div_add_mod' _ _).symm
  rw [hoff, hoff,
    _execute_forward_W_SGD_V_value jcp tb ithr src V nb _ ifm1 _ j i ⟨y % 16, s3⟩ hnb s2 h1 s1,
    _execute_forward_W_S_G_D_V_value jcp LLC_cache_size src V0 tb nb _ _ _ ifm1 _ j i
      ⟨y % 16, s3⟩ hnb s2 himg hk h1 s1 hdec,
    src_transform_fwd_I_view_channel]
  have e : tb * jcp.nb_tile_block_ur * jcp.tile_block_ur +
      (nb * jcp.tile_block_ur + y / 16 % jcp.tile_block_ur) =
      (tb * jcp.nb_tile_block_ur + nb) * jcp.tile_block_ur + y / 16 % jcp.tile_block_ur := by
    ring
  rw [e, Nat.mul_comm jcp.jtiles jcp.itiles]

/-! ## The scratch buffer `M` of the two forward orchestrators -/

/-- The block of `M` written by `_execute_forward_W_S_G_D` for the index tuple
`(tile_block, ofm1, oj, oi, nb_tile_block_ur)`, as the chain of kernel calls made for it. -/
theorem _execute_forward_W_S_G_D_gemm_block (jcp : jit_conv_winograd_conf_t)
    (kf k : Buffer → Buffer → Buffer → Buffer) (U V M : Buffer)
    (hkf : gemm_kernel_block kf (jcp.oc_block * jcp.tile_block_ur * 16))
    (hk : gemm_kernel_block k (jcp.oc_block * jcp.tile_block_ur * 16))
    (tb oj oi ofm1 nb x : Nat) (htb : tb < jcp.tile_block) (hoj : oj < 6) (hoi : oi < 6)
    (hofm1 : ofm1 < jcp.nb_oc) (hnb : nb < jcp.nb_tile_block_ur)
    (hx : x < jcp.oc_block * jcp.tile_block_ur * 16) :
    _execute_forward_W_S_G_D_gemm jcp (gemm_apply kf U V) (gemm_apply k U V) M
        ((array_offset_calculator.mk [jcp.tile_block, jcp.nb_oc, 6, 6,
          jcp.nb_tile_block_ur, jcp.oc_block, jcp.tile_block_ur, 16]).idx
          [tb, ofm1, oj, oi, nb, 0, 0, 0] + x) =
      gemm_chain kf k jcp.nb_ic U V
        (fun ifm1 => (array_offset_calculator.mk [jcp.nb_oc, 6, 6, jcp.nb_ic, jcp.oc_block,
          jcp.ic_block, 16, 16]).idx [ofm1, oj, oi, ifm1, 0, 0, 0, 0])
        (fun ifm1 => (array_offset_calculator.mk [jcp.tile_block, 6, 6, jcp.nb_tile_block_ur,
          jcp.nb_ic, jcp.ic_block, jcp.tile_block_ur, 16]).idx [tb, oj, oi, nb, ifm1, 0, 0, 0])
        (view ((array_offset_calculator.mk [jcp.tile_block, jcp.nb_oc, 6, 6,
          jcp.nb_tile_block_ur, jcp.oc_block, jcp.tile_block_ur, 16]).idx
          [tb, ofm1, oj, oi, nb, 0, 0, 0]) M) x := by
  rw [_execute_forward_W_S_G_D_gemm_flat]
  exact foldl_gemm_block
    (List.range jcp.tile_block ×ˢ (List.range 6 ×ˢ (List.range 6 ×ˢ
      (List.range jcp.nb_oc ×ˢ List.range jcp.nb_tile_block_ur))))
    (by
      refine List.Nodup.product (List.nodup_range _) (List.Nodup.product (List.nodup_range _)
        (List.Nodup.product (List.nodup_range _) (List.Nodup.product (List.nodup_range _)
          (List.nodup_range _)))))
    (fun t => (array_offset_calculator.mk [jcp.tile_block, jcp.nb_oc, 6, 6,
        jcp.nb_tile_block_ur, jcp.oc_block, jcp.tile_block_ur, 16]).idx
        [t.1, t.2.2.2.1, t.2.1, t.2.2.1, t.2.2.2.2, 0, 0, 0])
    (fun t ifm1 => (array_offset_calculator.mk [jcp.nb_oc, 6, 6, jcp.nb_ic, jcp.oc_block,
        jcp.ic_block, 16, 16]).idx [t.2.2.2.1, t.2.1, t.2.2.1, ifm1, 0, 0, 0, 0])
    (fun t ifm1 => (array_offset_calculator.mk [jcp.tile_block, 6, 6, jcp.nb_tile_block_ur,
        jcp.nb_ic, jcp.ic_block, jcp.tile_block_ur, 16]).idx
        [t.1, t.2.1, t.2.2.1, t.2.2.2.2, ifm1, 0, 0, 0])
    (jcp.oc_block * jcp.tile_block_ur * 16) kf k jcp.nb_ic U V hkf hk
    (by
      rintro ⟨a1, a2, a3, a4, a5⟩ ha ⟨b1, b2, b3, b4, b5⟩ hb hne
      simp only [List.mem_product, List.mem_range] at ha hb
      simp only [M_idx_eq]
      refine M_block_disjoint _ _ _ _ _ _ _ _ _ _ _ _ _ ha.2.2.2.1 ha.2.1 ha.2.2.1 ha.2.2.2.2
        hb.2.2.2.1 hb.2.1 hb.2.2.1 hb.2.2.2.2 ?_
      rintro ⟨e1, e2, e3, e4, e5⟩
      subst e1 e2 e3 e4 e5
      exact hne rfl)
    (tb, oj, oi, ofm1, nb)
    (by simp only [List.mem_product, List.mem_range]; exact ⟨htb, hoj, hoi, hofm1, hnb⟩)
    x hx M

/-- The GEMM loop nest of the body of the tile-block loop of `_execute_forward_W_SGD` as
one loop over the index tuples `(oj, oi, ofm1, nb_tile_block_ur)`. -/
theorem _execute_forward_W_SGD_gemm_flat {S : Type} (jcp : jit_conv_winograd_conf_t)
    (kf k : Nat → Nat → Nat → S → S) (ithr : Nat) (s : S) :
    _execute_forward_W_SGD_gemm jcp kf k ithr s =
      (List.range 6 ×ˢ (List.range 6 ×ˢ
        (List.range jcp.nb_oc ×ˢ List.range jcp.nb_tile_block_ur))).foldl (fun s t =>
          (List.range' 1 (jcp.nb_ic - 1)).foldl (fun s ifm1 =>
            k ((array_offset_calculator.mk [0, jcp.nb_oc, 6, 6,
                jcp.nb_tile_block_ur, jcp.oc_block, jcp.tile_block_ur, 16]).idx
                [ithr, t.2.2.1, t.1, t.2.1, t.2.2.2, 0, 0, 0])
              ((array_offset_calculator.mk [jcp.nb_oc, 6, 6, jcp.nb_ic, jcp.oc_block,
                jcp.ic_block, 16, 16]).idx [t.2.2.1, t.1, t.2.1, ifm1, 0, 0, 0, 0])
              ((array_offset_calculator.mk [0, 6, 6, jcp.nb_tile_block_ur,
                jcp.nb_ic, jcp.ic_block, jcp.tile_block_ur, 16]).idx
                [ithr, t.1, t.2.1, t.2.2.2, ifm1, 0, 0, 0]) s)
            (kf ((array_offset_calculator.mk [0, jcp.nb_oc, 6, 6,
                jcp.nb_tile_block_ur, jcp.oc_block, jcp.tile_block_ur, 16]).idx
                [ithr, t.2.2.1, t.1, t.2.1, t.2.2.2, 0, 0, 0])
              ((array_offset_calculator.mk [jcp.nb_oc, 6, 6, jcp.nb_ic, jcp.oc_block,
                jcp.ic_block, 16, 16]).idx [t.2.2.1, t.1, t.2.1, 0, 0, 0, 0, 0])
              ((array_offset_calculator.mk [0, 6, 6, jcp.nb_tile_block_ur,
                jcp.nb_ic, jcp.ic_block, jcp.tile_block_ur, 16]).idx
                [ithr, t.1, t.2.1, t.2.2.2, 0, 0, 0, 0]) s)) s := by
  simp only [← foldl_product]
  rfl

/-- The block of the thread's slice of `M` written by the body of the tile-block loop of
`_execute_forward_W_SGD` for the index tuple `(ofm1, oj, oi, nb_tile_block_ur)`, as the
chain of kernel calls made for it. -/
theorem _execute_forward_W_SGD_gemm_block (jcp : jit_conv_winograd_conf_t)
    (kf k : Buffer → Buffer → Buffer → Buffer) (U V M : Buffer) (ithr : Nat)
    (hkf : gemm_kernel_block kf (jcp.oc_block * jcp.tile_block_ur * 16))
    (hk : gemm_kernel_block k (jcp.oc_block * jcp.tile_block_ur * 16))
    (oj oi ofm1 nb x : Nat) (hoj : oj < 6) (hoi : oi < 6)
    (hofm1 : ofm1 < jcp.nb_oc) (hnb : nb < jcp.nb_tile_block_ur)
    (hx : x < jcp.oc_block * jcp.tile_block_ur * 16) :
    _execute_forward_W_SGD_gemm jcp (gemm_apply kf U V) (gemm_apply k U V) ithr M
        ((array_offset_calculator.mk [0, jcp.nb_oc, 6, 6,
          jcp.nb_tile_block_ur, jcp.oc_block, jcp.tile_block_ur, 16]).idx
          [ithr, ofm1, oj, oi, nb, 0, 0, 0] + x) =
      gemm_chain kf k jcp.nb_ic U V
        (fun ifm1 => (array_offset_calculator.mk [jcp.nb_oc, 6, 6, jcp.nb_ic, jcp.oc_block,
          jcp.ic_block, 16, 16]).idx [ofm1, oj, oi, ifm1, 0, 0, 0, 0])
        (fun ifm1 => (array_offset_calculator.mk [0, 6, 6, jcp.nb_tile_block_ur,
          jcp.nb_ic, jcp.ic_block, jcp.tile_block_ur, 16]).idx [ithr, oj, oi, nb, ifm1, 0, 0, 0])
        (view ((array_offset_calculator.mk [0, jcp.nb_oc, 6, 6,
          jcp.nb_tile_block_ur, jcp.oc_block, jcp.tile_block_ur, 16]).idx
          [ithr, ofm1, oj, oi, nb, 0, 0, 0]) M) x := by
  rw [_execute_forward_W_SGD_gemm_flat]
  exact foldl_gemm_block
    (List.range 6 ×ˢ (List.range 6 ×ˢ
      (List.range jcp.nb_oc ×ˢ List.range jcp.nb_tile_block_ur)))
    (by
      refine List.Nodup.product (List.nodup_range _) (List.Nodup.product (List.nodup_range _)
        (List.Nodup.product (List.nodup_range _) (List.nodup_range _))))
    (fun t => (array_offset_calculator.mk [0, jcp.nb_oc, 6, 6,
        jcp.nb_tile_block_ur, jcp.oc_block, jcp.tile_block_ur, 16]).idx
        [ithr, t.2.2.1, t.1, t.2.1, t.2.2.2, 0, 0, 0])
    (fun t ifm1 => (array_offset_calculator.mk [jcp.nb_oc, 6, 6, jcp.nb_ic, jcp.oc_block,
        jcp.ic_block, 16, 16]).idx [t.2.2.1, t.1, t.2.1, ifm1, 0, 0, 0, 0])
    (fun t ifm1 => (array_offset_calculator.mk [0, 6, 6, jcp.nb_tile_block_ur,
        jcp.nb_ic, jcp.ic_block, jcp.tile_block_ur, 16]).idx
        [ithr, t.1, t.2.1, t.2.2.2, ifm1, 0, 0, 0])
    (jcp.oc_block * jcp.tile_block_ur * 16) kf k jcp.nb_ic U V hkf hk
    (by
      rintro ⟨a2, a3, a4, a5⟩ ha ⟨b2, b3, b4, b5⟩ hb hne
      simp only [List.mem_product, List.mem_range] at ha hb
      simp only [M_idx_eq]
      refine M_block_disjoint _ _ _ _ _ _ _ _ _ _ _ _ _ ha.2.2.1 ha.1 ha.2.1 ha.2.2.2
        hb.2.2.1 hb.1 hb.2.1 hb.2.2.2 ?_
      rintro ⟨-, e2, e3, e4, e5⟩
      subst e2 e3 e4 e5
      exact hne rfl)
    (oj, oi, ofm1, nb)
    (by simp only [List.mem_product, List.mem_range]; exact ⟨hoj, hoi, hofm1, hnb⟩)
    x hx M

/-- Two chains of kernel calls with the same first operands, second operands that agree
on their blocks and any destinations before give the same destination block, when the
first kernel overwrites its destination block. -/
theorem gemm_chain_congr (kf k : Buffer → Buffer → Buffer → Buffer) (sz szb : Nat)
    (hkfo : gemm_kernel_overwrites kf sz) (hkfb : gemm_kernel_operand_block kf sz szb)
    (hk : gemm_kernel_block k sz) (hkb : gemm_kernel_operand_block k sz szb)
    (n : Nat) (hn : 1 ≤ n) (A B B' : Buffer) (a b b' : Nat → Nat) (d d' : Buffer)
    (hB : ∀ i, i < n → ∀ y, y < szb → B (b i + y) = B' (b' i + y)) :
    ∀ x, x < sz → gemm_chain kf k n A B a b d x = gemm_chain kf k n A B' a b' d' x := by
  unfold gemm_chain
  have key : ∀ (l : List Nat), (∀ i ∈ l, i < n) → ∀ d1 d2 : Buffer,
      (∀ x, x < sz → d1 x = d2 x) → ∀ x, x < sz →
      l.foldl (fun d i => k d (view (a i) A) (view (b i) B)) d1 x =
        l.foldl (fun d i => k d (view (a i) A) (view (b' i) B')) d2 x := by
    intro l
    induction l with
    | nil => intro _ d1 d2 h x hx; exact h x hx
    | cons i l ih =>
        intro hl d1 d2 h x hx
        rw [List.foldl_cons, List.foldl_cons]
        refine ih (fun i' hi' => hl i' (List.mem_cons_of_mem _ hi')) _ _ ?_ x hx
        intro x' hx'
        rw [hk.2 d1 d2 _ _ h x' hx']
        exact hkb d2 _ _ _ (fun y hy => hB i (hl i (List.mem_cons_self _ _)) y hy) x' hx'
  refine key _ ?_ _ _ ?_
  · intro i hi
    have := List.mem_range'_1.mp hi
    omega
  · intro x hx
    rw [hkfo d d' _ _ x hx]
    exact hkfb d' _ _ _ (fun y hy => hB 0 (by omega) y hy) x hx

/-- Under the tile-cover condition and the kernel contract, the block of `M` that a thread
of `_execute_forward_W_SGD` has computed for tile block `tb` holds the values of the block
`tb` of the buffer `M` computed by `_execute_forward_W_S_G_D`. -/
theorem forward_M_blocks_agree (jcp : jit_conv_winograd_conf_t) (LLC_cache_size : Nat)
    (kf k : Buffer → Buffer → Buffer → Buffer) (src U V0 V M0 M : Buffer)
    (tb ithr ofm1 oj oi nb x : Nat)
    (hcover : jcp.tile_block * jcp.nb_tile_block_ur * jcp.tile_block_ur =
      jcp.mb * jcp.itiles * jcp.jtiles)
    (hic : 1 ≤ jcp.nb_ic)
    (hkf : gemm_kernel_block kf (jcp.oc_block * jcp.tile_block_ur * 16))
    (hk : gemm_kernel_block k (jcp.oc_block * jcp.tile_block_ur * 16))
    (hkfo : gemm_kernel_overwrites kf (jcp.oc_block * jcp.tile_block_ur * 16))
    (hkfb : gemm_kernel_operand_block kf (jcp.oc_block * jcp.tile_block_ur * 16)
      (jcp.ic_block * jcp.tile_block_ur * 16))
    (hkb : gemm_kernel_operand_block k (jcp.oc_block * jcp.tile_block_ur * 16)
      (jcp.ic_block * jcp.tile_block_ur * 16))
    (htb : tb < jcp.tile_block) (hoj : oj < 6) (hoi : oi < 6) (hofm1 : ofm1 < jcp.nb_oc)
    (hnb : nb < jcp.nb_tile_block_ur) (hx : x < jcp.oc_block * jcp.tile_block_ur * 16) :
    _execute_forward_W_SGD_gemm jcp
        (gemm_apply kf U (_execute_forward_W_SGD_V jcp tb ithr src V))
        (gemm_apply k U (_execute_forward_W_SGD_V jcp tb ithr src V)) ithr M
        ((array_offset_calculator.mk [0, jcp.nb_oc, 6, 6,
          jcp.nb_tile_block_ur, jcp.oc_block, jcp.tile_block_ur, 16]).idx
          [ithr, ofm1, oj, oi, nb, 0, 0, 0] + x) =
      _execute_forward_W_S_G_D_gemm jcp
        (gemm_apply kf U (_execute_forward_W_S_G_D_V jcp LLC_cache_size src V0))
        (gemm_apply k U (_execute_forward_W_S_G_D_V jcp LLC_cache_size src V0)) M0
        ((array_offset_calculator.mk [jcp.tile_block, jcp.nb_oc, 6, 6,
          jcp.nb_tile_block_ur, jcp.oc_block, jcp.tile_block_ur, 16]).idx
          [tb, ofm1, oj, oi, nb, 0, 0, 0] + x) := by
  rw [_execute_forward_W_SGD_gemm_block jcp kf k U _ M ithr hkf hk oj oi ofm1 nb x hoj hoi hofm1
      hnb hx,
    _execute_forward_W_S_G_D_gemm_block jcp kf k U _ M0 hkf hk tb oj oi ofm1 nb x htb hoj hoi
      hofm1 hnb hx]
  refine gemm_chain_congr kf k _ _ hkfo hkfb hk hkb jcp.nb_ic hic U _ _ _ _ _ _ _ ?_ x hx
  intro ifm1 h1 y hy
  exact forward_V_blocks_agree jcp LLC_cache_size src V0 V tb ithr nb ifm1 y ⟨oj, hoj⟩ ⟨oi, hoi⟩
    hcover htb hnb h1 hy

/-! ## The output transform of `_execute_forward_W_SGD` in terms of the whole-batch `M` -/

/-- `dst_transform_fwd_tile` reads its input only through the tiles it gathers. -/
theorem dst_transform_fwd_tile_congr (with_bias with_relu : Bool) (tile_block : Nat)
    (conv : jit_conv_winograd_conf_t) (toutp toutp' outp bias : Buffer)
    (h : ∀ nb, nb < conv.nb_tile_block_ur → ∀ ur, ur < conv.tile_block_ur →
      dst_transform_fwd_tile_Ow conv toutp nb ur = dst_transform_fwd_tile_Ow conv toutp' nb ur) :
    dst_transform_fwd_tile with_bias with_relu tile_block conv toutp outp bias =
      dst_transform_fwd_tile with_bias with_relu tile_block conv toutp' outp bias := by
  unfold dst_transform_fwd_tile
  refine congrArg Prod.snd ?_
  refine List.foldl_ext _ _ _ (fun st nb hnb => ?_)
  refine List.foldl_ext _ _ _ (fun st ur hur => ?_)
  simp only [h nb (List.mem_range.mp hnb) ur (List.mem_range.mp hur)]

/-- The output transform loop nest of the body of the tile-block loop of
`_execute_forward_W_SGD` reads `M` only at the elements
`(ithr, ofm1, j, i, nb, ofm2, ur, v)`. -/
theorem _execute_forward_W_SGD_dst_congr (with_relu : Bool) (jcp : jit_conv_winograd_conf_t)
    (tile_block ithr ithr' : Nat) (M M' bias dst : Buffer)
    (h : ∀ ofm1, ofm1 < jcp.nb_oc → ∀ ofm2, ofm2 < jcp.oc_block →
      ∀ nb, nb < jcp.nb_tile_block_ur → ∀ ur, ur < jcp.tile_block_ur →
      ∀ (j i : Fin 6) (v : Fin 16),
        M (((((((ithr * jcp.nb_oc + ofm1) * 6 + j.val) * 6 + i.val) * jcp.nb_tile_block_ur + nb) *
          jcp.oc_block + ofm2) * jcp.tile_block_ur + ur) * 16 + v.val) =
        M' (((((((ithr' * jcp.nb_oc + ofm1) * 6 + j.val) * 6 + i.val) * jcp.nb_tile_block_ur +
          nb) * jcp.oc_block + ofm2) * jcp.tile_block_ur + ur) * 16 + v.val)) :
    _execute_forward_W_SGD_dst with_relu jcp tile_block ithr M bias dst =
      _execute_forward_W_SGD_dst with_relu jcp tile_block ithr' M' bias dst := by
  unfold _execute_forward_W_SGD_dst
  refine List.foldl_ext _ _ _ (fun d ofm1 hofm1 => ?_)
  refine List.foldl_ext _ _ _ (fun d ofm2 hofm2 => ?_)
  refine congrArg (fun f => write_at _ f d) (funext (fun outp => ?_))
  refine dst_transform_fwd_tile_congr _ _ _ _ _ _ _ _ (fun nb hnb ur hur => ?_)
  funext j i v
  have e : ∀ t : Nat,
      (array_offset_calculator.mk [0, jcp.nb_oc, 6, 6, jcp.nb_tile_block_ur, jcp.oc_block,
        jcp.tile_block_ur, 16]).idx [t, ofm1, 0, 0, 0, ofm2, 0, 0] +
      (array_offset_calculator.mk [6, 6, jcp.nb_tile_block_ur, jcp.oc_block,
        jcp.tile_block_ur, 16]).idx [j.val, i.val, nb, 0, ur, v.val] =
      ((((((t * jcp.nb_oc + ofm1) * 6 + j.val) * 6 + i.val) * jcp.nb_tile_block_ur + nb) *
          jcp.oc_block + ofm2) * jcp.tile_block_ur + ur) * 16 + v.val := by
    intro t
    simp only [array_offset_calculator.idx, array_offset_calculator._offset,
      List.getD_cons_succ, List.getD_cons_zero]
    ring
  simp only [dst_transform_fwd_tile_Ow, view, e]
  exact h ofm1 (List.mem_range.mp hofm1) ofm2 (List.mem_range.mp hofm2) nb hnb ur hur j i v

/-- A float offset below `ocb * UR * 16` of a block of `M`, as an element of `M`. -/
theorem M_idx_add (d0 nb_oc NB ocb UR t ofm1 j i nb ofm2 ur v : Nat) :
    (array_offset_calculator.mk [d0, nb_oc, 6, 6, NB, ocb, UR, 16]).idx
        [t, ofm1, j, i, nb, 0, 0, 0] + ((ofm2 * UR + ur) * 16 + v) =
      ((((((t * nb_oc + ofm1) * 6 + j) * 6 + i) * NB + nb) * ocb + ofm2) * UR + ur) * 16 + v := by
  rw [M_idx_eq]
  ring

/-- A projection of the state of a fold that each step updates from its own value. -/
theorem foldl_state_proj {St B ι : Type} (step : St → ι → St) (proj : St → B)
    (G : B → ι → B) (l : List ι) (h : ∀ st, ∀ t ∈ l, proj (step st t) = G (proj st) t)
    (st : St) : proj (l.foldl step st) = l.foldl G (proj st) := by
  induction l generalizing st with
  | nil => rfl
  | cons t l ih =>
      rw [List.foldl_cons, List.foldl_cons, ih (fun st t' ht' => h st t' (List.mem_cons_of_mem _ ht')),
        h st t (List.mem_cons_self _ _)]

/-- Under the tile-cover condition and the kernel contract, `_execute_forward_W_SGD`
leaves in `dst` what its output transform loop nests leave when they read, for tile block
`tb`, the slice `tb` of the buffer `M` computed by `_execute_forward_W_S_G_D`. -/
theorem _execute_forward_W_SGD_eq (with_relu : Bool) (jcp : jit_conv_winograd_conf_t)
    (LLC_cache_size : Nat) (kf k : Buffer → Buffer → Buffer → Buffer) (thr : Nat → Nat)
    (src weights bias U V0 M0 V M dst : Buffer)
    (hcover : jcp.tile_block * jcp.nb_tile_block_ur * jcp.tile_block_ur =
      jcp.mb * jcp.itiles * jcp.jtiles)
    (hic : 1 ≤ jcp.nb_ic)
    (hkf : gemm_kernel_block kf (jcp.oc_block * jcp.tile_block_ur * 16))
    (hk : gemm_kernel_block k (jcp.oc_block * jcp.tile_block_ur * 16))
    (hkfo : gemm_kernel_overwrites kf (jcp.oc_block * jcp.tile_block_ur * 16))
    (hkfb : gemm_kernel_operand_block kf (jcp.oc_block * jcp.tile_block_ur * 16)
      (jcp.ic_block * jcp.tile_block_ur * 16))
    (hkb : gemm_kernel_operand_block k (jcp.oc_block * jcp.tile_block_ur * 16)
      (jcp.ic_block * jcp.tile_block_ur * 16)) :
    _execute_forward_W_SGD with_relu jcp kf k thr src weights bias U V M dst =
      (List.range jcp.tile_block).foldl (fun d tb =>
        _execute_forward_W_SGD_dst with_relu jcp tb tb
          (_execute_forward_W_S_G_D_gemm jcp
            (gemm_apply kf (_execute_forward_U jcp weights U)
              (_execute_forward_W_S_G_D_V jcp LLC_cache_size src V0))
            (gemm_apply k (_execute_forward_U jcp weights U)
              (_execute_forward_W_S_G_D_V jcp LLC_cache_size src V0)) M0) bias d) dst := by
  unfold _execute_forward_W_SGD
  refine foldl_state_proj _ forward_W_SGD_state.dst _ _ ?_ _
  intro st tb htb
  refine _execute_forward_W_SGD_dst_congr with_relu jcp tb (thr tb) tb _ _ bias st.dst ?_
  intro ofm1 hofm1 ofm2 hofm2 nb hnb ur hur j i v
  have hx : (ofm2 * jcp.tile_block_ur + ur) * 16 + v.val <
      jcp.oc_block * jcp.tile_block_ur * 16 := by
    have h1 : ofm2 * jcp.tile_block_ur + ur < jcp.oc_block * jcp.tile_block_ur := by
      calc ofm2 * jcp.tile_block_ur + ur < ofm2 * jcp.tile_block_ur + jcp.tile_block_ur := by
            omega
        _ = (ofm2 + 1) * jcp.tile_block_ur := by ring
        _ ≤ jcp.oc_block * jcp.tile_block_ur := Nat.mul_le_mul_right _ hofm2
    have := v.isLt
    omega
  have := forward_M_blocks_agree jcp LLC_cache_size kf k src
    (_execute_forward_U jcp weights U) V0 st.V M0 st.M tb (thr tb) ofm1 j.val i.val nb _
    hcover hic hkf hk hkfo hkfb hkb (List.mem_range.mp htb) j.isLt i.isLt hofm1 hnb hx
  rw [M_idx_add, M_idx_add] at this
  exact this

/-! ## The output transforms of the two forward orchestrators as loops of single stores -/

/-- `dst_transform_fwd` as a loop of single guarded stores. -/
theorem dst_transform_fwd_flat (with_bias with_relu : Bool) (image : Nat)
    (conv : jit_conv_winograd_conf_t) (toutp outp bias : Buffer) (s : Bool) :
    dst_transform_fwd with_bias with_relu image conv toutp outp bias s =
      (List.range (conv.jtiles * conv.itiles) ×ˢ
        (List.finRange 4 ×ˢ (List.finRange 4 ×ˢ List.finRange 16))).foldl
        (fun m t =>
          if t.1 / conv.itiles * 4 + t.2.1.val < conv.oh ∧
              t.1 % conv.itiles * 4 + t.2.2.1.val < conv.ow then
            Function.update m
              ((array_offset_calculator.mk [conv.mb, conv.oh, conv.ow, 16]).idx
                [0, t.1 / conv.itiles * 4 + t.2.1.val, t.1 % conv.itiles * 4 + t.2.2.1.val, 0] +
                t.2.2.2.val)
              (dst_transform_fwd_O with_bias with_relu conv
                (trans_O_4x4_3x3 (dst_transform_fwd_Ow conv toutp
                  ((tile_counters_next conv)^[t.1] (tile_counters_init conv image))))
                bias t.2.1 t.2.2.1 t.2.2.2)
          else m) outp :=
  tile_loop_flat_guarded (tile_counters_next conv) conv.oh conv.ow
    (fun _ tj ti j i => (array_offset_calculator.mk [conv.mb, conv.oh, conv.ow, 16]).idx
      [0, tj * 4 + j.val, ti * 4 + i.val, 0])
    (fun _ tj _ => tj) (fun _ _ ti => ti)
    (fun c _ _ => dst_transform_fwd_O with_bias with_relu conv
      (trans_O_4x4_3x3 (dst_transform_fwd_Ow conv toutp c)) bias) s
    conv.jtiles conv.itiles (tile_counters_init conv image) outp

/-- `dst_transform_fwd_tile` as a loop of single guarded stores. -/
theorem dst_transform_fwd_tile_flat (with_bias with_relu : Bool) (tile_block : Nat)
    (conv : jit_conv_winograd_conf_t) (toutp outp bias : Buffer) :
    dst_transform_fwd_tile with_bias with_relu tile_block conv toutp outp bias =
      (List.range (conv.nb_tile_block_ur * conv.tile_block_ur) ×ˢ
        (List.finRange 4 ×ˢ (List.finRange 4 ×ˢ List.finRange 16))).foldl
        (fun m t =>
          if ((· + 1)^[t.1] (tile_block * conv.nb_tile_block_ur * conv.tile_block_ur)) %
                (conv.jtiles * conv.itiles) / conv.itiles * 4 + t.2.1.val < conv.oh ∧
              ((· + 1)^[t.1] (tile_block * conv.nb_tile_block_ur * conv.tile_block_ur)) %
                (conv.jtiles * conv.itiles) % conv.itiles * 4 + t.2.2.1.val < conv.ow then
            Function.update m
              ((array_offset_calculator.mk [conv.mb, conv.oc / 16, conv.oh, conv.ow, 16]).idx
                [((· + 1)^[t.1] (tile_block * conv.nb_tile_block_ur * conv.tile_block_ur)) /
                    (conv.jtiles * conv.itiles), 0,
                  ((· + 1)^[t.1] (tile_block * conv.nb_tile_block_ur * conv.tile_block_ur)) %
                    (conv.jtiles * conv.itiles) / conv.itiles * 4 + t.2.1.val,
                  ((· + 1)^[t.1] (tile_block * conv.nb_tile_block_ur * conv.tile_block_ur)) %
                    (conv.jtiles * conv.itiles) % conv.itiles * 4 + t.2.2.1.val, 0] +
                t.2.2.2.val)
              (dst_transform_fwd_O with_bias with_relu conv
                (trans_O_4x4_3x3 (dst_transform_fwd_tile_Ow conv toutp
                  (t.1 / conv.tile_block_ur) (t.1 % conv.tile_block_ur)))
                bias t.2.1 t.2.2.1 t.2.2.2)
          else m) outp :=
  tile_loop_flat_guarded (· + 1) conv.oh conv.ow
    (fun n _ _ j i => (array_offset_calculator.mk [conv.mb, conv.oc / 16, conv.oh, conv.ow,
      16]).idx
      [n / (conv.jtiles * conv.itiles), 0,
        n % (conv.jtiles * conv.itiles) / conv.itiles * 4 + j.val,
        n % (conv.jtiles * conv.itiles) % conv.itiles * 4 + i.val, 0])
    (fun n _ _ => n % (conv.jtiles * conv.itiles) / conv.itiles)
    (fun n _ _ => n % (conv.jtiles * conv.itiles) % conv.itiles)
    (fun _ nb ur => dst_transform_fwd_O with_bias with_relu conv
      (trans_O_4x4_3x3 (dst_transform_fwd_tile_Ow conv toutp nb ur)) bias) true
    conv.nb_tile_block_ur conv.tile_block_ur
    (tile_block * conv.nb_tile_block_ur * conv.tile_block_ur) outp

/-- The output transform loop nest of `_execute_forward_W_S_G_D` as one loop of single
guarded stores over the tuples `(img, ofm1, ofm2, k, j, i, v)`, `k` the tile of the image
in raster order. -/
theorem _execute_forward_W_S_G_D_dst_flat (with_relu : Bool) (jcp : jit_conv_winograd_conf_t)
    (M bias dst : Buffer) :
    _execute_forward_W_S_G_D_dst with_relu jcp M bias dst =
      (List.range jcp.mb ×ˢ (List.range jcp.nb_oc ×ˢ (List.range jcp.oc_block ×ˢ
        (List.range (jcp.jtiles * jcp.itiles) ×ˢ
          (List.finRange 4 ×ˢ (List.finRange 4 ×ˢ List.finRange 16)))))).foldl
        (fun m t =>
          if t.2.2.2.1 / jcp.itiles * 4 + t.2.2.2.2.1.val < jcp.oh ∧
              t.2.2.2.1 % jcp.itiles * 4 + t.2.2.2.2.2.1.val < jcp.ow then
            Function.update m
              ((array_offset_calculator.mk [jcp.mb, jcp.oc / 16, jcp.oh, jcp.ow, 16]).idx
                  [t.1, t.2.1 * jcp.oc_block + t.2.2.1, 0, 0, 0] +
                ((array_offset_calculator.mk [jcp.mb, jcp.oh, jcp.ow, 16]).idx
                  [0, t.2.2.2.1 / jcp.itiles * 4 + t.2.2.2.2.1.val,
                    t.2.2.2.1 % jcp.itiles * 4 + t.2.2.2.2.2.1.val, 0] +
                  t.2.2.2.2.2.2.val))
              (dst_transform_fwd_O jcp.with_bias with_relu jcp
                (trans_O_4x4_3x3 (dst_transform_fwd_Ow jcp
                  (view ((array_offset_calculator.mk [jcp.tile_block, jcp.nb_oc, 6, 6,
                    jcp.nb_tile_block_ur, jcp.oc_block, jcp.tile_block_ur, 16]).idx
                    [0, t.2.1, 0, 0, 0, t.2.2.1, 0, 0]) M)
                  ((tile_counters_next jcp)^[t.2.2.2.1] (tile_counters_init jcp t.1))))
                (view ((array_offset_calculator.mk [jcp.oc / 16, 16]).idx
                  [t.2.1 * jcp.oc_block + t.2.2.1, 0]) bias)
                t.2.2.2.2.1 t.2.2.2.2.2.1 t.2.2.2.2.2.2)
          else m) dst := by
  unfold _execute_forward_W_S_G_D_dst
  simp only [dst_transform_fwd_flat, write_at_foldl_update]
  simp only [← foldl_product]

/-- The output transform loop nests of `_execute_forward_W_SGD`, run for the tile blocks
in increasing order with the slice `tb` of `M` as the slice of the thread, as one loop of
single guarded stores over the tuples `(tb, ofm1, ofm2, q, j, i, v)`, `q` the position in
the tile block. -/
theorem _execute_forward_W_SGD_dst_flat (with_relu : Bool) (jcp : jit_conv_winograd_conf_t)
    (M bias dst : Buffer) :
    (List.range jcp.tile_block).foldl (fun d tb =>
        _execute_forward_W_SGD_dst with_relu jcp tb tb M bias d) dst =
      (List.range jcp.tile_block ×ˢ (List.range jcp.nb_oc ×ˢ (List.range jcp.oc_block ×ˢ
        (List.range (jcp.nb_tile_block_ur * jcp.tile_block_ur) ×ˢ
          (List.finRange 4 ×ˢ (List.finRange 4 ×ˢ List.finRange 16)))))).foldl
        (fun m t =>
          if ((· + 1)^[t.2.2.2.1] (t.1 * jcp.nb_tile_block_ur * jcp.tile_block_ur)) %
                (jcp.jtiles * jcp.itiles) / jcp.itiles * 4 + t.2.2.2.2.1.val < jcp.oh ∧
              ((· + 1)^[t.2.2.2.1] (t.1 * jcp.nb_tile_block_ur * jcp.tile_block_ur)) %
                (jcp.jtiles * jcp.itiles) % jcp.itiles * 4 + t.2.2.2.2.2.1.val < jcp.ow then
            Function.update m
              ((array_offset_calculator.mk [jcp.mb, jcp.oc / 16, jcp.oh, jcp.ow, 16]).idx
                  [0, t.2.1 * jcp.oc_block + t.2.2.1, 0, 0, 0] +
                ((array_offset_calculator.mk [jcp.mb, jcp.oc / 16, jcp.oh, jcp.ow, 16]).idx
                  [((· + 1)^[t.2.2.2.1] (t.1 * jcp.nb_tile_block_ur * jcp.tile_block_ur)) /
                      (jcp.jtiles * jcp.itiles), 0,
                    ((· + 1)^[t.2.2.2.1] (t.1 * jcp.nb_tile_block_ur * jcp.tile_block_ur)) %
                      (jcp.jtiles * jcp.itiles) / jcp.itiles * 4 + t.2.2.2.2.1.val,
                    ((· + 1)^[t.2.2.2.1] (t.1 * jcp.nb_tile_block_ur * jcp.tile_block_ur)) %
                      (jcp.jtiles * jcp.itiles) % jcp.itiles * 4 + t.2.2.2.2.2.1.val, 0] +
                  t.2.2.2.2.2.2.val))
              (dst_transform_fwd_O jcp.with_bias with_relu jcp
                (trans_O_4x4_3x3 (dst_transform_fwd_tile_Ow jcp
                  (view ((array_offset_calculator.mk [0, jcp.nb_oc, 6, 6,
                    jcp.nb_tile_block_ur, jcp.oc_block, jcp.tile_block_ur, 16]).idx
                    [t.1, t.2.1, 0, 0, 0, t.2.2.1, 0, 0]) M)
                  (t.2.2.2.1 / jcp.tile_block_ur) (t.2.2.2.1 % jcp.tile_block_ur)))
                (view ((array_offset_calculator.mk [jcp.oc / 16, 16]).idx
                  [t.2.1 * jcp.oc_block + t.2.2.1, 0]) bias)
                t.2.2.2.2.1 t.2.2.2.2.2.1 t.2.2.2.2.2.2)
          else m) dst := by
  unfold _execute_forward_W_SGD_dst
  simp only [dst_transform_fwd_tile_flat, write_at_foldl_update]
  simp only [← foldl_product]

/-! ## Equivalence of the whole-batch and the fused forward orchestrators -/

/-- Two loops of single guarded stores leave the same buffer when they make the same
stores: stores of one loop to the same offset carry the same value, and every store of
either loop is made, with the same offset and value, by the other. -/
theorem foldl_update_corr {α β : Type} (lA : List α) (lB : List β) (gA : α → Prop)
    [DecidablePred gA] (gB : β → Prop) [DecidablePred gB] (dA : α → Nat) (vA : α → ℚ)
    (dB : β → Nat) (vB : β → ℚ)
    (cA : ∀ a ∈ lA, ∀ a' ∈ lA, gA a → gA a' → dA a = dA a' → vA a = vA a')
    (hAB : ∀ a ∈ lA, gA a → ∃ b ∈ lB, gB b ∧ dB b = dA a ∧ vB b = vA a)
    (hBA : ∀ b ∈ lB, gB b → ∃ a ∈ lA, gA a ∧ dA a = dB b ∧ vA a = vB b) (m : Buffer) :
    lA.foldl (fun m t => if gA t then Function.update m (dA t) (vA t) else m) m =
      lB.foldl (fun m t => if gB t then Function.update m (dB t) (vB t) else m) m := by
  funext o
  by_cases h : ∃ a ∈ lA, gA a ∧ dA a = o
  · obtain ⟨a, ha, hga, rfl⟩ := h
    obtain ⟨b, hb, hgb, hdb, hvb⟩ := hAB a ha hga
    rw [foldl_update_value gA dA vA lA a ha hga (fun t ht hgt e => cA t ht a ha hgt hga e) m,
      ← hdb, foldl_update_value gB dB vB lB b hb hgb ?_ m, hvb]
    intro t ht hgt e
    obtain ⟨a1, ha1, hga1, hda1, hva1⟩ := hBA t ht hgt
    rw [← hva1, hvb]
    exact cA a1 ha1 a ha hga1 hga (hda1.trans (e.trans hdb))
  · rw [foldl_update_frame gA dA vA lA o (fun t ht hgt e => h ⟨t, ht, hgt, e⟩) m,
      foldl_update_frame gB dB vB lB o (fun t ht hgt e => by
        obtain ⟨a, ha, hga, hda, -⟩ := hBA t ht hgt
        exact h ⟨a, ha, hga, hda.trans e⟩) m]

/-- The offset in `dst` of the element `(img, c, y, x, v)`, from the pointer to channel
block `c` of image `img` and from the pointer to channel block `c` of image 0. -/
theorem dst_idx_eq (mb oc16 oh ow img c y x v : Nat) :
    (array_offset_calculator.mk [mb, oc16, oh, ow, 16]).idx [img, c, 0, 0, 0] +
        ((array_offset_calculator.mk [mb, oh, ow, 16]).idx [0, y, x, 0] + v) =
      (((img * oc16 + c) * oh + y) * ow + x) * 16 + v ∧
    (array_offset_calculator.mk [mb, oc16, oh, ow, 16]).idx [0, c, 0, 0, 0] +
        ((array_offset_calculator.mk [mb, oc16, oh, ow, 16]).idx [img, 0, y, x, 0] + v) =
      (((img * oc16 + c) * oh + y) * ow + x) * 16 + v := by
  constructor
  · simp only [array_offset_calculator.idx, array_offset_calculator._offset,
      List.getD_cons_succ, List.getD_cons_zero]
    ring
  · simp only [array_offset_calculator.idx, array_offset_calculator._offset,
      List.getD_cons_succ, List.getD_cons_zero]
    ring

/-- Distinct elements of `dst` have distinct offsets. -/
theorem dst_inj (oc16 oh ow img c y x v img' c' y' x' v' : Nat) (hc : c < oc16)
    (hc' : c' < oc16) (hy : y < oh) (hy' : y' < oh) (hx : x < ow) (hx' : x' < ow)
    (hv : v < 16) (hv' : v' < 16)
    (e : (((img * oc16 + c) * oh + y) * ow + x) * 16 + v =
      (((img' * oc16 + c') * oh + y') * ow + x') * 16 + v') :
    img = img' ∧ c = c' ∧ y = y' ∧ x = x' ∧ v = v' := by
  obtain ⟨e1, e2⟩ := mul_add_inj 16 _ _ _ _ hv hv' e
  obtain ⟨e3, e4⟩ := mul_add_inj ow _ _ _ _ hx hx' e1
  obtain ⟨e5, e6⟩ := mul_add_inj oh _ _ _ _ hy hy' e3
  obtain ⟨e7, e8⟩ := mul_add_inj oc16 _ _ _ _ hc hc' e5
  exact ⟨e7, e8, e6, e4, e2⟩

/-- The tile gathered by `dst_transform_fwd` at the counters `(ur, nb, tb)` from the
pointer `&M(0, ofm1, 0, 0, 0, ofm2, 0, 0)` is the tile gathered by
`dst_transform_fwd_tile` at the position `(nb, ur)` from the pointer
`&M(tb, ofm1, 0, 0, 0, ofm2, 0, 0)`. -/
theorem dst_transform_fwd_Ow_view (jcp : jit_conv_winograd_conf_t) (M : Buffer)
    (tb nb ur ofm1 ofm2 : Nat) :
    dst_transform_fwd_Ow jcp
        (view ((array_offset_calculator.mk [jcp.tile_block, jcp.nb_oc, 6, 6,
          jcp.nb_tile_block_ur, jcp.oc_block, jcp.tile_block_ur, 16]).idx
          [0, ofm1, 0, 0, 0, ofm2, 0, 0]) M)
        { tile_block_ur := ur, nb_tile_block_ur := nb, tile_block := tb } =
      dst_transform_fwd_tile_Ow jcp
        (view ((array_offset_calculator.mk [0, jcp.nb_oc, 6, 6,
          jcp.nb_tile_block_ur, jcp.oc_block, jcp.tile_block_ur, 16]).idx
          [tb, ofm1, 0, 0, 0, ofm2, 0, 0]) M) nb ur := by
  funext j i v
  have e : (array_offset_calculator.mk [jcp.tile_block, jcp.nb_oc, 6, 6,
        jcp.nb_tile_block_ur, jcp.oc_block, jcp.tile_block_ur, 16]).idx
        [0, ofm1, 0, 0, 0, ofm2, 0, 0] +
      (array_offset_calculator.mk [jcp.tile_block, jcp.nb_oc, 6, 6, jcp.nb_tile_block_ur,
        jcp.oc_block, jcp.tile_block_ur, 16]).idx [tb, 0, j.val, i.val, nb, 0, ur, v.val] =
      (array_offset_calculator.mk [0, jcp.nb_oc, 6, 6,
        jcp.nb_tile_block_ur, jcp.oc_block, jcp.tile_block_ur, 16]).idx
        [tb, ofm1, 0, 0, 0, ofm2, 0, 0] +
      (array_offset_calculator.mk [6, 6, jcp.nb_tile_block_ur, jcp.oc_block,
        jcp.tile_block_ur, 16]).idx [j.val, i.val, nb, 0, ur, v.val] := by
    simp only [array_offset_calculator.idx, array_offset_calculator._offset,
      List.getD_cons_succ, List.getD_cons_zero]
    ring
  simp only [dst_transform_fwd_Ow, dst_transform_fwd_tile_Ow, view, e]

/-- The flat tile `n`, tile `k` of image `img` and position `q` of tile block `tb`, as
seen by the two output transforms: the tile variant recomputes `(img, k)` from its flat
counter, and both gather the same tile of `M`. -/
theorem forward_dst_tile_agree (jcp : jit_conv_winograd_conf_t) (M : Buffer)
    (n img k tb q ofm1 ofm2 : Nat)
    (hur : 1 ≤ jcp.tile_block_ur) (hnb : 1 ≤ jcp.nb_tile_block_ur)
    (himg : img = n / (jcp.itiles * jcp.jtiles)) (hk : k = n % (jcp.itiles * jcp.jtiles))
    (htb : tb = n / (jcp.nb_tile_block_ur * jcp.tile_block_ur))
    (hq : q = n % (jcp.nb_tile_block_ur * jcp.tile_block_ur)) :
    (· + 1)^[q] (tb * jcp.nb_tile_block_ur * jcp.tile_block_ur) = n ∧
      n / (jcp.jtiles * jcp.itiles) = img ∧ n % (jcp.jtiles * jcp.itiles) = k ∧
      dst_transform_fwd_tile_Ow jcp
          (view ((array_offset_calculator.mk [0, jcp.nb_oc, 6, 6,
            jcp.nb_tile_block_ur, jcp.oc_block, jcp.tile_block_ur, 16]).idx
            [tb, ofm1, 0, 0, 0, ofm2, 0, 0]) M)
          (q / jcp.tile_block_ur) (q % jcp.tile_block_ur) =
        dst_transform_fwd_Ow jcp
          (view ((array_offset_calculator.mk [jcp.tile_block, jcp.nb_oc, 6, 6,
            jcp.nb_tile_block_ur, jcp.oc_block, jcp.tile_block_ur, 16]).idx
            [0, ofm1, 0, 0, 0, ofm2, 0, 0]) M)
          ((tile_counters_next jcp)^[k] (tile_counters_init jcp img)) := by
  have en : img * jcp.itiles * jcp.jtiles + k = n := by
    rw [himg, hk, Nat.mul_assoc]
    exact Nat.div_add_mod' n _
  have eb : tb * jcp.nb_tile_block_ur * jcp.tile_block_ur + q = n := by
    rw [htb, hq, Nat.mul_assoc]
    exact Nat.div_add_mod' n _
  have hc := counters_of_block n jcp.tile_block_ur jcp.nb_tile_block_ur
  refine ⟨?_, ?_, ?_, ?_⟩
  · rw [add_one_iterate, eb]
  · rw [Nat.mul_comm jcp.jtiles, himg]
  · rw [Nat.mul_comm jcp.jtiles, hk]
  · rw [tile_counters_iterate jcp img k hur hnb, en, hc.1, hc.2.1, hc.2.2, ← hq, ← htb,
      dst_transform_fwd_Ow_view]

/-- Under the tile-cover condition, with the channel blocks inside the tensor, the output
transform loop nest of `_execute_forward_W_S_G_D` and the output transform loop nests of
`_execute_forward_W_SGD`, reading the same buffer `M`, leave the same `dst`. -/
theorem forward_dst_loops_agree (with_relu : Bool) (jcp : jit_conv_winograd_conf_t)
    (M bias dst : Buffer)
    (hcover : jcp.tile_block * jcp.nb_tile_block_ur * jcp.tile_block_ur =
      jcp.mb * jcp.itiles * jcp.jtiles)
    (hoc : jcp.nb_oc * jcp.oc_block ≤ jcp.oc / 16) :
    _execute_forward_W_S_G_D_dst with_relu jcp M bias dst =
      (List.range jcp.tile_block).foldl (fun d tb =>
        _execute_forward_W_SGD_dst with_relu jcp tb tb M bias d) dst := by
  rw [_execute_forward_W_S_G_D_dst_flat, _execute_forward_W_SGD_dst_flat]
  have hchan : ∀ ofm1 ofm2, ofm1 < jcp.nb_oc → ofm2 < jcp.oc_block →
      ofm1 * jcp.oc_block + ofm2 < jcp.oc / 16 := by
    intro ofm1 ofm2 h1 h2
    calc ofm1 * jcp.oc_block + ofm2 < ofm1 * jcp.oc_block + jcp.oc_block := by omega
      _ = (ofm1 + 1) * jcp.oc_block := by ring
      _ ≤ jcp.nb_oc * jcp.oc_block := Nat.mul_le_mul_right _ h1
      _ ≤ jcp.oc / 16 := hoc
  refine foldl_update_corr _ _ _ _ _ _ _ _ ?_ ?_ ?_ dst
  · rintro ⟨img, ofm1, ofm2, k, j, i, v⟩ ha ⟨img', ofm1', ofm2', k', j', i', v'⟩ ha' hg hg' e
    simp only [List.mem_product, List.mem_range, List.mem_finRange, and_true] at ha ha'
    dsimp only at hg hg' e ⊢
    rw [(dst_idx_eq _ _ _ _ _ _ _ _ _).1, (dst_idx_eq _ _ _ _ _ _ _ _ _).1] at e
    obtain ⟨e1, e2, e3, e4, e5⟩ := dst_inj _ _ _ _ _ _ _ _ _ _ _ _ _
      (hchan _ _ ha.2.1 ha.2.2.1) (hchan _ _ ha'.2.1 ha'.2.2.1) hg.1 hg'.1 hg.2 hg'.2
      v.isLt v'.isLt e
    obtain ⟨e6, e7⟩ := mul_add_inj _ _ _ _ _ ha.2.2.1 ha'.2.2.1 e2
    obtain ⟨e8, e9⟩ := mul_add_inj 4 _ _ _ _ j.isLt j'.isLt e3
    obtain ⟨e10, e11⟩ := mul_add_inj 4 _ _ _ _ i.isLt i'.isLt e4
    have ek : k = k' := by
      rw [← Nat.div_add_mod' k jcp.itiles, ← Nat.div_add_mod' k' jcp.itiles, e8, e10]
    have ej : j = j' := Fin.ext e9
    have ei : i = i' := Fin.ext e11
    have ev : v = v' := Fin.ext e5
    rw [e1, e6, e7, ek, ej, ei, ev]
  · rintro ⟨img, ofm1, ofm2, k, j, i, v⟩ ha hg
    simp only [List.mem_product, List.mem_range, List.mem_finRange, and_true] at ha
    dsimp only at hg ⊢
    have hk2 : k < jcp.itiles * jcp.jtiles := by rw [Nat.mul_comm]; exact ha.2.2.2
    have hn : img * (jcp.itiles * jcp.jtiles) + k <
        jcp.tile_block * (jcp.nb_tile_block_ur * jcp.tile_block_ur) := by
      rw [← Nat.mul_assoc jcp.tile_block, hcover, Nat.mul_assoc]
      calc img * (jcp.itiles * jcp.jtiles) + k
          < img * (jcp.itiles * jcp.jtiles) + jcp.itiles * jcp.jtiles := by omega
        _ = (img + 1) * (jcp.itiles * jcp.jtiles) := by ring
        _ ≤ jcp.mb * (jcp.itiles * jcp.jtiles) := Nat.mul_le_mul_right _ ha.1
    have hB : 0 < jcp.nb_tile_block_ur * jcp.tile_block_ur := by
      rcases Nat.eq_zero_or_pos (jcp.nb_tile_block_ur * jcp.tile_block_ur) with h | h
      · rw [h] at hn
        simp at hn
      · exact h
    have hur : 1 ≤ jcp.tile_block_ur := Nat.pos_of_mul_pos_left hB
    have hnb : 1 ≤ jcp.nb_tile_block_ur := Nat.pos_of_mul_pos_right hB
    have himg : img = (img * (jcp.itiles * jcp.jtiles) + k) / (jcp.itiles * jcp.jtiles) := by
      rw [Nat.add_comm, Nat.add_mul_div_right _ _ (by omega), Nat.div_eq_of_lt hk2,
        Nat.zero_add]
    have hk : k = (img * (jcp.itiles * jcp.jtiles) + k) % (jcp.itiles * jcp.jtiles) := by
      rw [Nat.add_comm, Nat.add_mul_mod_self_right, Nat.mod_eq_of_lt hk2]
    obtain ⟨t1, t2, t3, t4⟩ := forward_dst_tile_agree jcp M
      (img * (jcp.itiles * jcp.jtiles) + k) img k _ _ ofm1 ofm2 hur hnb himg hk rfl rfl
    refine ⟨((img * (jcp.itiles * jcp.jtiles) + k) / (jcp.nb_tile_block_ur * jcp.tile_block_ur),
      ofm1, ofm2,
      (img * (jcp.itiles * jcp.jtiles) + k) % (jcp.nb_tile_block_ur * jcp.tile_block_ur),
      j, i, v), ?_, ?_⟩
    · simp only [List.mem_product, List.mem_range, List.mem_finRange, and_true]
      exact ⟨(Nat.div_lt_iff_lt_mul hB).mpr hn, ha.2.1, ha.2.2.1, Nat.mod_lt _ hB⟩
    · dsimp only
      rw [t1, t2, t3, t4, (dst_idx_eq _ _ _ _ _ _ _ _ _).1, (dst_idx_eq _ _ _ _ _ _ _ _ _).2]
      exact ⟨hg, rfl, rfl⟩
  · rintro ⟨tb, ofm1, ofm2, q, j, i, v⟩ hb hg
    simp only [List.mem_product, List.mem_range, List.mem_finRange, and_true] at hb
    dsimp only at hg ⊢
    have hn : tb * (jcp.nb_tile_block_ur * jcp.tile_block_ur) + q <
        jcp.mb * (jcp.itiles * jcp.jtiles) := by
      rw [← Nat.mul_assoc jcp.mb, ← hcover, Nat.mul_assoc]
      calc tb * (jcp.nb_tile_block_ur * jcp.tile_block_ur) + q
          < tb * (jcp.nb_tile_block_ur * jcp.tile_block_ur) +
              jcp.nb_tile_block_ur * jcp.tile_block_ur := by omega
        _ = (tb + 1) * (jcp.nb_tile_block_ur * jcp.tile_block_ur) := by ring
        _ ≤ jcp.tile_block * (jcp.nb_tile_block_ur * jcp.tile_block_ur) :=
            Nat.mul_le_mul_right _ hb.1
    have hT : 0 < jcp.itiles * jcp.jtiles := by
      rcases Nat.eq_zero_or_pos (jcp.itiles * jcp.jtiles) with h | h
      · rw [h] at hn
        simp at hn
      · exact h
    have hB : 0 < jcp.nb_tile_block_ur * jcp.tile_block_ur := by omega
    have hur : 1 ≤ jcp.tile_block_ur := Nat.pos_of_mul_pos_left hB
    have hnb : 1 ≤ jcp.nb_tile_block_ur := Nat.pos_of_mul_pos_right hB
    have htb : tb = (tb * (jcp.nb_tile_block_ur * jcp.tile_block_ur) + q) /
        (jcp.nb_tile_block_ur * jcp.tile_block_ur) := by
      rw [Nat.add_comm, Nat.add_mul_div_right _ _ hB, Nat.div_eq_of_lt hb.2.2.2, Nat.zero_add]
    have hq : q = (tb * (jcp.nb_tile_block_ur * jcp.tile_block_ur) + q) %
        (jcp.nb_tile_block_ur * jcp.tile_block_ur) := by
      rw [Nat.add_comm, Nat.add_mul_mod_self_right, Nat.mod_eq_of_lt hb.2.2.2]
    obtain ⟨t1, t2, t3, t4⟩ := forward_dst_tile_agree jcp M
      (tb * (jcp.nb_tile_block_ur * jcp.tile_block_ur) + q) _ _ tb q ofm1 ofm2 hur hnb rfl rfl
      htb hq
    refine ⟨((tb * (jcp.nb_tile_block_ur * jcp.tile_block_ur) + q) / (jcp.itiles * jcp.jtiles),
      ofm1, ofm2,
      (tb * (jcp.nb_tile_block_ur * jcp.tile_block_ur) + q) % (jcp.itiles * jcp.jtiles),
      j, i, v), ?_, ?_⟩
    · simp only [List.mem_product, List.mem_range, List.mem_finRange, and_true]
      refine ⟨(Nat.div_lt_iff_lt_mul hT).mpr hn, hb.2.1, hb.2.2.1, ?_⟩
      rw [Nat.mul_comm jcp.jtiles]
      exact Nat.mod_lt _ hT
    · dsimp only
      rw [t1, t3] at hg
      rw [t1, t2, t3, t4, (dst_idx_eq _ _ _ _ _ _ _ _ _).1, (dst_idx_eq _ _ _ _ _ _ _ _ _).2]
      exact ⟨hg, rfl, rfl⟩

/-- The model of `gemm_loop_ker_first_iter` overwrites its destination block. -/
theorem gemm_first_iter_model_overwrites (P : Buffer → Buffer → Buffer) (sz : Nat) :
    gemm_kernel_overwrites (gemm_first_iter_model P sz) sz := by
  intro d d' a b x hx
  simp only [gemm_first_iter_model, if_pos hx]

/-- The models of the two entry points read one block of their second operand when the
product does. -/
theorem gemm_model_operand_block (P : Buffer → Buffer → Buffer) (sz szb : Nat)
    (hP : ∀ a b b', (∀ y, y < szb → b y = b' y) → ∀ x, x < sz → P a b x = P a b' x) :
    gemm_kernel_operand_block (gemm_first_iter_model P sz) sz szb ∧
      gemm_kernel_operand_block (gemm_accumulate_model P sz) sz szb := by
  constructor
  · intro d a b b' h x hx
    simp only [gemm_first_iter_model, if_pos hx]
    exact hP a b b' h x hx
  · intro d a b b' h x hx
    simp only [gemm_accumulate_model, if_pos hx]
    rw [hP a b b' h x hx]

/-- Claim C11, scheduling-strategy equivalence: for every configuration with
`tile_block * nb_tile_block_ur * tile_block_ur = mb * itiles * jtiles`, with at least one
input channel block (`nb_ic ≥ 1`) and the output channel blocks inside the tensor
(`nb_oc * oc_block ≤ oc / 16`), and for every pair of compute kernels that keep to the
blocks their three pointers designate (they change only the destination block of
`oc_block * tile_block_ur * 16` floats, its new content depends on the destination only
through that block and on the second operand only through its block of
`ic_block * tile_block_ur * 16` floats, and `gemm_loop_ker_first_iter` overwrites the
destination block), `_execute_forward_W_S_G_D` and `_execute_forward_W_SGD` leave the same
destination tensor, in exact arithmetic, whatever the scratch buffers `V` and `M` held
before and whichever thread runs each tile block. -/
theorem forward_strategies_equivalent (with_relu : Bool) (jcp : jit_conv_winograd_conf_t)
    (LLC_cache_size : Nat) (kf k : Buffer → Buffer → Buffer → Buffer) (thr : Nat → Nat)
    (src weights bias U V M V' M' dst : Buffer)
    (hcover : jcp.tile_block * jcp.nb_tile_block_ur * jcp.tile_block_ur =
      jcp.mb * jcp.itiles * jcp.jtiles)
    (hic : 1 ≤ jcp.nb_ic) (hoc : jcp.nb_oc * jcp.oc_block ≤ jcp.oc / 16)
    (hkf : gemm_kernel_block kf (jcp.oc_block * jcp.tile_block_ur * 16))
    (hk : gemm_kernel_block k (jcp.oc_block * jcp.tile_block_ur * 16))
    (hkfo : gemm_kernel_overwrites kf (jcp.oc_block * jcp.tile_block_ur * 16))
    (hkfb : gemm_kernel_operand_block kf (jcp.oc_block * jcp.tile_block_ur * 16)
      (jcp.ic_block * jcp.tile_block_ur * 16))
    (hkb : gemm_kernel_operand_block k (jcp.oc_block * jcp.tile_block_ur * 16)
      (jcp.ic_block * jcp.tile_block_ur * 16)) :
    _execute_forward_W_S_G_D with_relu jcp LLC_cache_size kf k src weights bias U V M dst =
      _execute_forward_W_SGD with_relu jcp kf k thr src weights bias U V' M' dst := by
  rw [_execute_forward_W_SGD_eq with_relu jcp LLC_cache_size kf k thr src weights bias U V M
    V' M' dst hcover hic hkf hk hkfo hkfb hkb]
  exact forward_dst_loops_agree with_relu jcp _ bias dst hcover hoc

theorem forward_strategies_equivalent_witness :
    _execute_forward_W_S_G_D true conv_example 1000
        (gemm_first_iter_model (fun a b _ => a 0 * b 0) 32)
        (gemm_accumulate_model (fun a b _ => a 0 * b 0) 32)
        (fun o => (o : ℚ)) (fun o => (o : ℚ) + 1) (fun _ => 1) (fun _ => 0) (fun _ => 0)
        (fun _ => 0) (fun _ => 0) =
      _execute_forward_W_SGD true conv_example
        (gemm_first_iter_model (fun a b _ => a 0 * b 0) 32)
        (gemm_accumulate_model (fun a b _ => a 0 * b 0) 32) (fun _ => 0)
        (fun o => (o : ℚ)) (fun o => (o : ℚ) + 1) (fun _ => 1) (fun _ => 0) (fun _ => 7)
        (fun _ => 9) (fun _ => 0) :=
  forward_strategies_equivalent true conv_example 1000
    (gemm_first_iter_model (fun a b _ => a 0 * b 0) 32)
    (gemm_accumulate_model (fun a b _ => a 0 * b 0) 32) (fun _ => 0)
    (fun o => (o : ℚ)) (fun o => (o : ℚ) + 1) (fun _ => 1) (fun _ => 0) (fun _ => 0)
    (fun _ => 0) (fun _ => 7) (fun _ => 9) (fun _ => 0)
    (by decide) (by decide) (by decide)
    (gemm_first_iter_model_block _ _) (gemm_accumulate_model_block _ _)
    (gemm_first_iter_model_overwrites _ _)
    (gemm_model_operand_block _ 32 32
      (fun a b b' h x _ => by rw [h 0 (by decide)])).1
    (gemm_model_operand_block _ 32 32
      (fun a b b' h x _ => by rw [h 0 (by decide)])).2

/-! ## Symmetry and input dependence of the transform kernels -/

/-- Claim C36, transposition commutes with the square transforms: in exact arithmetic,
for every 6x6 tile `X` (per lane), `trans_I_4x4_3x3` of the transposed tile is the
transpose of `trans_I_4x4_3x3 X`, and for every 6x6 tile `M`, `trans_O_4x4_3x3` of the
transposed tile is the transpose of the 4x4 tile `trans_O_4x4_3x3 M`. -/
theorem transforms_commute_with_transpose (X M : Tile 6 6) :
    trans_I_4x4_3x3 (fun a b => X b a) = (fun k l => trans_I_4x4_3x3 X l k) ∧
      trans_O_4x4_3x3 (fun a b => M b a) = (fun y x => trans_O_4x4_3x3 M x y) := by
  constructor
  · funext k l v
    simp only [trans_I_4x4_3x3_eq, Finset.mul_sum]
    rw [Finset.sum_comm]
    refine Finset.sum_congr rfl (fun a _ => Finset.sum_congr rfl (fun b _ => ?_))
    ring
  · funext y x v
    simp only [trans_O_4x4_3x3_eq, Finset.mul_sum]
    rw [Finset.sum_comm]
    refine Finset.sum_congr rfl (fun a _ => Finset.sum_congr rfl (fun b _ => ?_))
    ring

/-- `trans_W_3x3_4x4_wu` reads only the 4x4 part of its input. -/
theorem trans_W_3x3_4x4_wu_congr (F F' : Tile 4 6)
    (hF : ∀ (r c : Fin 4) (v : Fin 16),
      F r (Fin.castLE (by decide) c) v = F' r (Fin.castLE (by decide) c) v) :
    trans_W_3x3_4x4_wu F = trans_W_3x3_4x4_wu F' := by
  funext k l v
  simp only [trans_W_3x3_4x4_wu_eq, hF]

/-- Claim C35, the backward-weights gradient transform ignores everything outside the
4x4 sub-tile: two inputs of `trans_W_3x3_4x4_wu` that agree on `F[r][c][v]` for
`r, c < 4` give the same output; and two input buffers of
`diff_dst_transform_bwd_weights` whose gathered tiles agree on `I[j][i][v]` for
`j, i < 4`, for every tile, leave the same transformed tiles in `tinp`, whatever was
gathered into the rows and columns 4 and 5. -/
theorem gradient_transform_ignores_outside (F F' : Tile 4 6) (image : Nat)
    (conv : jit_conv_winograd_conf_t) (inp inp' tinp : Buffer)
    (hF : ∀ (r c : Fin 4) (v : Fin 16),
      F r (Fin.castLE (by decide) c) v = F' r (Fin.castLE (by decide) c) v)
    (hI : ∀ tj ti, tj < conv.jtiles → ti < conv.itiles → ∀ (j i : Fin 4) (v : Fin 16),
      diff_dst_transform_bwd_weights_I conv inp tj ti (Fin.castLE (by decide) j)
          (Fin.castLE (by decide) i) v =
        diff_dst_transform_bwd_weights_I conv inp' tj ti (Fin.castLE (by decide) j)
          (Fin.castLE (by decide) i) v) :
    trans_W_3x3_4x4_wu F = trans_W_3x3_4x4_wu F' ∧
      diff_dst_transform_bwd_weights_tinp image conv inp tinp =
        diff_dst_transform_bwd_weights_tinp image conv inp' tinp := by
  refine ⟨trans_W_3x3_4x4_wu_congr F F' hF, ?_⟩
  unfold diff_dst_transform_bwd_weights_tinp
  refine congrArg Prod.snd ?_
  refine List.foldl_ext _ _ _ (fun st tj htj => ?_)
  refine List.foldl_ext _ _ _ (fun st ti hti => ?_)
  have e := trans_W_3x3_4x4_wu_congr
    (fun j => diff_dst_transform_bwd_weights_I conv inp tj ti (Fin.castLE (by decide) j))
    (fun j => diff_dst_transform_bwd_weights_I conv inp' tj ti (Fin.castLE (by decide) j))
    (fun r c v => hI tj ti (List.mem_range.mp htj) (List.mem_range.mp hti) r c v)
  simp only [e]

theorem gradient_transform_ignores_outside_witness :
    trans_W_3x3_4x4_wu (fun _ _ _ => 0) =
        trans_W_3x3_4x4_wu (fun _ c _ => if c.val < 4 then 0 else 1) ∧
      diff_dst_transform_bwd_weights_tinp 0 conv_example_6x6 (fun _ => 0) (fun _ => 0) =
        diff_dst_transform_bwd_weights_tinp 0 conv_example_6x6
          (fun o => if 64 ≤ o ∧ o < 96 then 1 else 0) (fun _ => 0) :=
  gradient_transform_ignores_outside (fun _ _ _ => 0)
    (fun _ c _ => if c.val < 4 then 0 else 1) 0 conv_example_6x6 (fun _ => 0)
    (fun o => if 64 ≤ o ∧ o < 96 then 1 else 0) (fun _ => 0)
    (fun _ c _ => (if_pos c.isLt).symm)
    (fun tj ti htj hti j i v => by
      have h1 : tj = 0 := Nat.lt_one_iff.mp htj
      have h2 : ti = 0 := Nat.lt_one_iff.mp hti
      subst h1 h2
      have hj := j.isLt
      have hi := i.isLt
      have hv := v.isLt
      simp only [diff_dst_transform_bwd_weights_I, dbias_idx_eq, Fin.coe_castLE]
      have e : conv_example_6x6.alpha - 2 = 4 := rfl
      have e2 : conv_example_6x6.ow = 6 := rfl
      have e3 : conv_example_6x6.oh = 6 := rfl
      have e4 : conv_example_6x6.oc_simd_block = 16 := rfl
      rw [e, e2, e3, e4]
      have n1 : ¬ (64 ≤ (((0 * 4 + j.val) * 6 + (0 * 4 + i.val)) * 16 + v.val) ∧
          (((0 * 4 + j.val) * 6 + (0 * 4 + i.val)) * 16 + v.val) < 96) := by omega
      simp only [if_neg n1])

/-! ## Injectivity, additivity and range of the offsets -/

/-- The Horner fold started from `theta` is `theta` times the product of the extents plus
the fold started from 0, which stays below the product when every index is below its
extent. -/
theorem horner_fold_split (ds as : List Nat) (h : List.Forall₂ (fun a d => a < d) as ds) :
    ∀ theta : Nat,
      (List.zip ds as).foldl (fun acc p => acc * p.1 + p.2) theta =
          theta * ds.prod + (List.zip ds as).foldl (fun acc p => acc * p.1 + p.2) 0 ∧
        (List.zip ds as).foldl (fun acc p => acc * p.1 + p.2) 0 < ds.prod := by
  induction h with
  | nil =>
      intro theta
      simp
  | @cons a d as ds had _ ih =>
      intro theta
      simp only [List.zip_cons_cons, List.foldl_cons, List.prod_cons, Nat.zero_mul, Nat.zero_add]
      obtain ⟨e1, -⟩ := ih (theta * d + a)
      obtain ⟨e2, b2⟩ := ih a
      refine ⟨?_, ?_⟩
      · rw [e1, e2]
        ring
      · rw [e2]
        calc a * ds.prod + (List.zip ds as).foldl (fun acc p => acc * p.1 + p.2) 0
            < a * ds.prod + ds.prod := by omega
          _ = (a + 1) * ds.prod := by ring
          _ ≤ d * ds.prod := Nat.mul_le_mul_right _ had

/-- The Horner fold is injective in its start value and its index tuple, for indices
below their extents. -/
theorem horner_fold_inj (ds as bs : List Nat) (ha : List.Forall₂ (fun a d => a < d) as ds)
    (hb : List.Forall₂ (fun a d => a < d) bs ds) :
    ∀ theta theta' : Nat,
      (List.zip ds as).foldl (fun acc p => acc * p.1 + p.2) theta =
        (List.zip ds bs).foldl (fun acc p => acc * p.1 + p.2) theta' →
      theta = theta' ∧ as = bs := by
  induction ha generalizing bs with
  | nil =>
      intro theta theta' e
      cases hb
      exact ⟨by simpa using e, rfl⟩
  | @cons a d as ds had _ ih =>
      intro theta theta' e
      cases hb with
      | @cons b _ bs _ hbd hb' =>
          simp only [List.zip_cons_cons, List.foldl_cons] at e
          obtain ⟨e1, e2⟩ := ih bs hb' _ _ e
          obtain ⟨e3, e4⟩ := mul_add_inj d _ _ _ _ had hbd e1
          exact ⟨e3, by rw [e4, e2]⟩

/-- The Horner fold is additive in its start value and its index tuple. -/
theorem horner_fold_add (ds : List Nat) :
    ∀ (as bs : List Nat), as.length = bs.length → ∀ theta theta' : Nat,
      (List.zip ds as).foldl (fun acc p => acc * p.1 + p.2) theta +
          (List.zip ds bs).foldl (fun acc p => acc * p.1 + p.2) theta' =
        (List.zip ds (List.zipWith (· + ·) as bs)).foldl (fun acc p => acc * p.1 + p.2)
          (theta + theta') := by
  induction ds with
  | nil =>
      intro as bs _ theta theta'
      simp
  | cons d ds ih =>
      intro as bs hlen theta theta'
      cases as with
      | nil =>
          cases bs with
          | nil => simp
          | cons b bs => simp at hlen
      | cons a as =>
          cases bs with
          | nil => simp at hlen
          | cons b bs =>
              simp only [List.zip_cons_cons, List.foldl_cons, List.zipWith_cons_cons]
              rw [ih as bs (by simpa using hlen)]
              congr 1
              ring

/-- The offset of a full index tuple as a Horner fold over the extents after the first. -/
theorem idx_eq_horner_fold (d0 : Nat) (ds : List Nat) (a0 : Nat) (as : List Nat)
    (h : as.length ≤ ds.length) :
    (array_offset_calculator.mk (d0 :: ds)).idx (a0 :: as) =
      (List.zip ds as).foldl (fun acc p => acc * p.1 + p.2) a0 := by
  show (array_offset_calculator.mk (d0 :: ds))._offset 1 a0 as = _
  rw [offset_eq_foldl (d0 :: ds) as 1 a0 (by simp only [List.length_cons]; omega)]
  rfl

/-- Claim C37, offset injectivity: for an `array_offset_calculator` with extents
`d0 :: ds` and full index tuples `a0 :: as`, `b0 :: bs` whose indices after the first
are below their extents (so that these extents are at least 1), equal offsets come from
equal tuples; the offsets add up to the offset of the component-wise sum; and the offset
of `a0 :: as` lies in `[a0 * P, (a0 + 1) * P)` with `P` the product of `ds`. -/
theorem offset_injective_additive_bounded (d0 : Nat) (ds : List Nat) (a0 b0 : Nat)
    (as bs : List Nat) (ha : List.Forall₂ (fun a d => a < d) as ds)
    (hb : List.Forall₂ (fun a d => a < d) bs ds) :
    ((array_offset_calculator.mk (d0 :: ds)).idx (a0 :: as) =
        (array_offset_calculator.mk (d0 :: ds)).idx (b0 :: bs) → a0 = b0 ∧ as = bs) ∧
      (array_offset_calculator.mk (d0 :: ds)).idx (a0 :: as) +
          (array_offset_calculator.mk (d0 :: ds)).idx (b0 :: bs) =
        (array_offset_calculator.mk (d0 :: ds)).idx
          ((a0 + b0) :: List.zipWith (· + ·) as bs) ∧
      a0 * ds.prod ≤ (array_offset_calculator.mk (d0 :: ds)).idx (a0 :: as) ∧
      (array_offset_calculator.mk (d0 :: ds)).idx (a0 :: as) < (a0 + 1) * ds.prod := by
  have la := ha.length_eq
  have lb := hb.length_eq
  rw [idx_eq_horner_fold d0 ds a0 as (by omega), idx_eq_horner_fold d0 ds b0 bs (by omega),
    idx_eq_horner_fold d0 ds (a0 + b0) _ (by
      rw [List.length_zipWith]
      omega)]
  obtain ⟨e1, b1⟩ := horner_fold_split ds as ha a0
  refine ⟨horner_fold_inj ds as bs ha hb a0 b0, horner_fold_add ds as bs (by omega) a0 b0, ?_, ?_⟩
  · rw [e1]
    omega
  · rw [e1, Nat.add_mul, Nat.one_mul]
    omega

theorem offset_injective_additive_bounded_witness :
    ((array_offset_calculator.mk [2, 3, 4]).idx [1, 2, 3] =
        (array_offset_calculator.mk [2, 3, 4]).idx [0, 1, 2] →
        1 = 0 ∧ [2, 3] = [1, 2]) ∧
      (array_offset_calculator.mk [2, 3, 4]).idx [1, 2, 3] +
          (array_offset_calculator.mk [2, 3, 4]).idx [0, 1, 2] =
        (array_offset_calculator.mk [2, 3, 4]).idx
          ((1 + 0) :: List.zipWith (· + ·) [2, 3] [1, 2]) ∧
      1 * [3, 4].prod ≤ (array_offset_calculator.mk [2, 3, 4]).idx [1, 2, 3] ∧
      (array_offset_calculator.mk [2, 3, 4]).idx [1, 2, 3] < (1 + 1) * [3, 4].prod :=
  offset_injective_additive_bounded 2 [3, 4] 1 0 [2, 3] [1, 2]
    (List.Forall₂.cons (by decide) (List.Forall₂.cons (by decide) List.Forall₂.nil))
    (List.Forall₂.cons (by decide) (List.Forall₂.cons (by decide) List.Forall₂.nil))

/-! ## Recomputed indices of the tile-block-indexed packers -/

/-- A flat tile index below `mb * itiles * jtiles` splits into an image below `mb`, a tile
row below `jtiles` and a tile column below `itiles`. -/
theorem flat_tile_split (mb itiles jtiles n : Nat) (hn : n < mb * itiles * jtiles) :
    n / (jtiles * itiles) < mb ∧ n % (jtiles * itiles) / itiles < jtiles ∧
      n % (jtiles * itiles) % itiles < itiles ∧
      n = (n / (jtiles * itiles) * jtiles + n % (jtiles * itiles) / itiles) * itiles +
        n % (jtiles * itiles) % itiles := by
  have hT : 0 < jtiles * itiles := by
    rcases Nat.eq_zero_or_pos (jtiles * itiles) with h | h
    · rw [Nat.mul_assoc, Nat.mul_comm itiles, h] at hn
      simp at hn
    · exact h
  have hit : 0 < itiles := Nat.pos_of_mul_pos_left hT
  refine ⟨?_, ?_, Nat.mod_lt _ hit, ?_⟩
  · rw [Nat.div_lt_iff_lt_mul hT, Nat.mul_comm jtiles, ← Nat.mul_assoc]
    exact hn
  · rw [Nat.div_lt_iff_lt_mul hit]
    exact Nat.mod_lt _ hT
  · rw [Nat.add_mul, Nat.add_assoc, Nat.div_add_mod', Nat.mul_assoc, Nat.div_add_mod']

/-- Claim C33, image index bound in the tile variants: in `src_transform_fwd_tile` and
`dst_transform_fwd_tile`, with `tile_block < conv.tile_block` and
`tile_block * nb_tile_block_ur * tile_block_ur = mb * itiles * jtiles` for the extents of
the configuration, the flat counter `n` held when the loop nest reaches the position
`(nb, ur)` gives recomputed indices `img = n / (jtiles * itiles) < mb`,
`tj = n % (jtiles * itiles) / itiles < jtiles`, `ti = n % (jtiles * itiles) % itiles <
itiles`, and `n = (img * jtiles + tj) * itiles + ti` (the equation forces `itiles ≥ 1`
and `jtiles ≥ 1`). -/
theorem tile_variant_indices_bounded (with_bias with_relu : Bool) (tile_block : Nat)
    (conv : jit_conv_winograd_conf_t) (inp tinp toutp outp bias : Buffer) (nb ur n : Nat)
    (htb : tile_block < conv.tile_block)
    (hcover : conv.tile_block * conv.nb_tile_block_ur * conv.tile_block_ur =
      conv.mb * conv.itiles * conv.jtiles)
    (hnb : nb < conv.nb_tile_block_ur) (hur : ur < conv.tile_block_ur)
    (hn : n = (src_transform_fwd_tile_before tile_block conv inp tinp nb ur).1 ∨
      n = (dst_transform_fwd_tile_before with_bias with_relu tile_block conv toutp outp bias
        nb ur).1) :
    n / (conv.jtiles * conv.itiles) < conv.mb ∧
      n % (conv.jtiles * conv.itiles) / conv.itiles < conv.jtiles ∧
      n % (conv.jtiles * conv.itiles) % conv.itiles < conv.itiles ∧
      n = (n / (conv.jtiles * conv.itiles) * conv.jtiles +
          n % (conv.jtiles * conv.itiles) / conv.itiles) * conv.itiles +
        n % (conv.jtiles * conv.itiles) % conv.itiles := by
  have e : n = tile_block * conv.nb_tile_block_ur * conv.tile_block_ur +
      (nb * conv.tile_block_ur + ur) := by
    rcases hn with hn | hn
    · rw [hn]
      refine (loop_counters_iterate (fun (st : Nat × Buffer) nb_tile_block_ur tile_block_ur =>
        src_transform_fwd_tile_store conv nb_tile_block_ur tile_block_ur
          (trans_I_4x4_3x3 (src_transform_fwd_tile_I conv inp
            (st.1 / (conv.jtiles * conv.itiles))
            (st.1 % (conv.jtiles * conv.itiles) / conv.itiles)
            (st.1 % (conv.jtiles * conv.itiles) % conv.itiles))) st.2)
        (· + 1) nb conv.tile_block_ur ur
        (tile_block * conv.nb_tile_block_ur * conv.tile_block_ur, tinp)).trans ?_
      rw [add_one_iterate]
    · rw [hn]
      refine (loop_counters_iterate (fun (st : Nat × Buffer) nb_tile_block_ur tile_block_ur =>
        dst_transform_fwd_tile_store with_bias with_relu conv
          (st.1 / (conv.jtiles * conv.itiles))
          (st.1 % (conv.jtiles * conv.itiles) / conv.itiles)
          (st.1 % (conv.jtiles * conv.itiles) % conv.itiles)
          (trans_O_4x4_3x3 (dst_transform_fwd_tile_Ow conv toutp nb_tile_block_ur
            tile_block_ur)) bias st.2)
        (· + 1) nb conv.tile_block_ur ur
        (tile_block * conv.nb_tile_block_ur * conv.tile_block_ur, outp)).trans ?_
      rw [add_one_iterate]
  refine flat_tile_split conv.mb conv.itiles conv.jtiles n ?_
  rw [← hcover, e]
  calc tile_block * conv.nb_tile_block_ur * conv.tile_block_ur + (nb * conv.tile_block_ur + ur)
      < tile_block * conv.nb_tile_block_ur * conv.tile_block_ur +
          (nb * conv.tile_block_ur + conv.tile_block_ur) := by omega
    _ = (tile_block * conv.nb_tile_block_ur + (nb + 1)) * conv.tile_block_ur := by ring
    _ ≤ (tile_block * conv.nb_tile_block_ur + conv.nb_tile_block_ur) * conv.tile_block_ur :=
        Nat.mul_le_mul_right _ (by omega)
    _ = (tile_block + 1) * conv.nb_tile_block_ur * conv.tile_block_ur := by ring
    _ ≤ conv.tile_block * conv.nb_tile_block_ur * conv.tile_block_ur :=
        Nat.mul_le_mul_right _ (Nat.mul_le_mul_right _ htb)

theorem tile_variant_indices_bounded_witness :
    3 / (conv_example.jtiles * conv_example.itiles) < conv_example.mb ∧
      3 % (conv_example.jtiles * conv_example.itiles) / conv_example.itiles <
        conv_example.jtiles ∧
      3 % (conv_example.jtiles * conv_example.itiles) % conv_example.itiles <
        conv_example.itiles ∧
      3 = (3 / (conv_example.jtiles * conv_example.itiles) * conv_example.jtiles +
          3 % (conv_example.jtiles * conv_example.itiles) / conv_example.itiles) *
          conv_example.itiles +
        3 % (conv_example.jtiles * conv_example.itiles) % conv_example.itiles :=
  tile_variant_indices_bounded true true 0 conv_example (fun _ => 0) (fun _ => 0) (fun _ => 0)
    (fun _ => 0) (fun _ => 0) 1 1 3 (by decide) (by decide) (by decide) (by decide)
    (Or.inl rfl)

/-! ## Bias-gradient reduction of `_execute_backward_weights_S_D_G_W` -/

/-- The lane loop `dst[base + v] += g[v]` for `v < 16`. -/
theorem lane_adder_at (base : Nat) (g : Nat → ℚ) (d : Buffer) (n : Nat) :
    (List.finRange 16).foldl (fun d v =>
        Function.update d (base + v.val) (d (base + v.val) + g v.val)) d n =
      d n + (if base ≤ n ∧ n < base + 16 then g (n - base) else 0) := by
  have key : ∀ (k : Nat) (d : Buffer),
      (List.range k).foldl (fun d v => Function.update d (base + v) (d (base + v) + g v)) d n =
        d n + (if base ≤ n ∧ n < base + k then g (n - base) else 0) := by
    intro k
    induction k with
    | zero =>
        intro d
        have h0 : ¬ (base ≤ n ∧ n < base + 0) := by omega
        simp [h0]
    | succ k ih =>
        intro d
        rw [List.range_succ, List.foldl_append, List.foldl_cons, List.foldl_nil]
        by_cases hn : n = base + k
        · subst hn
          rw [Function.update_same, ih]
          have h1 : ¬ (base ≤ base + k ∧ base + k < base + k) := by omega
          have h2 : base ≤ base + k ∧ base + k < base + (k + 1) := by omega
          rw [if_neg h1, if_pos h2, Nat.add_sub_cancel_left, add_zero]
        · rw [Function.update_noteq hn, ih]
          have hk : (base ≤ n ∧ n < base + (k + 1)) ↔ (base ≤ n ∧ n < base + k) := by omega
          simp only [hk]
  have h2 : (List.finRange 16).foldl (fun d v =>
        Function.update d (base + v.val) (d (base + v.val) + g v.val)) d
      = ((List.finRange 16).map Fin.val).foldl
          (fun d v => Function.update d (base + v) (d (base + v) + g v)) d := by
    rw [List.foldl_map]
  rw [h2, List.map_coe_finRange, key]

/-- The offset of a two-index access of a two-dimensional calculator. -/
theorem idx_two (d0 d1 a b : Nat) :
    (array_offset_calculator.mk [d0, d1]).idx [a, b] = a * d1 + b := by
  simp only [array_offset_calculator.idx, array_offset_calculator._offset,
    List.getD_cons_succ, List.getD_cons_zero]
  ring

/-- The offset of a single-index access is the index. -/
theorem idx_one (dims : List Nat) (x : Nat) :
    (array_offset_calculator.mk dims).idx [x] = x := rfl

/-- Claim C34, bias-gradient reduction: in `_execute_backward_weights_S_D_G_W` with
`with_bias` set, for every `ofm1 < oc / 16` and `v < 16`, the zero-initialisation leaves
`diff_bias(ofm1, v) = 0`, the final loop leaves in `diff_bias(ofm1, v)` the value it held
before plus the sum over all `ithr < nthreads` of `diff_bias_prv(ithr, ofm1 * 16 + v)`,
and the single-index access `diff_bias_prv(ithr * oc + ofm1 * 16)` addresses the element
`diff_bias_prv(ithr, ofm1 * 16)`. -/
theorem bias_gradient_reduction (jcp : jit_conv_winograd_conf_t) (max_threads nthreads : Nat)
    (diff_bias_prv diff_bias : Buffer) (ofm1 : Nat) (v : Fin 16)
    (hb : jcp.with_bias = true) (hofm1 : ofm1 < jcp.oc / 16) :
    (_execute_backward_weights_S_D_G_W_bias_zero jcp max_threads nthreads diff_bias_prv
        diff_bias).2 ((array_offset_calculator.mk [jcp.oc / 16, 16]).idx [ofm1, v.val]) = 0 ∧
      _execute_backward_weights_S_D_G_W_bias_reduce jcp max_threads nthreads diff_bias_prv
          diff_bias ((array_offset_calculator.mk [jcp.oc / 16, 16]).idx [ofm1, v.val]) =
        diff_bias ((array_offset_calculator.mk [jcp.oc / 16, 16]).idx [ofm1, v.val]) +
          ∑ ithr in Finset.range nthreads,
            diff_bias_prv ((array_offset_calculator.mk [max_threads, jcp.oc]).idx
              [ithr, ofm1 * 16 + v.val]) ∧
      ∀ ithr : Nat,
        (array_offset_calculator.mk [max_threads, jcp.oc]).idx [ithr * jcp.oc + ofm1 * 16] =
          (array_offset_calculator.mk [max_threads, jcp.oc]).idx [ithr, ofm1 * 16] := by
  have hv := v.isLt
  refine ⟨?_, ?_, ?_⟩
  · unfold _execute_backward_weights_S_D_G_W_bias_zero
    simp only [if_pos hb, idx_two]
    refine foldl_establish
      (fun (m : Buffer) bofm => (List.finRange 16).foldl (fun m (v : Fin 16) =>
        Function.update m (bofm * 16 + v.val) 0.0) m)
      (fun m => m (ofm1 * 16 + v.val) = 0) _ ofm1 (List.mem_range.mpr hofm1) ?_ ?_ diff_bias
    · intro s
      refine foldl_establish
        (fun (m : Buffer) (v : Fin 16) => Function.update m (ofm1 * 16 + v.val) 0.0)
        (fun m => m (ofm1 * 16 + v.val) = 0) _ v (List.mem_finRange v) ?_ ?_ s
      · intro s'
        show Function.update s' _ _ _ = 0
        rw [Function.update_same]
        norm_num
      · intro s' w _ hs'
        by_cases e : ofm1 * 16 + v.val = ofm1 * 16 + w.val
        · show Function.update s' _ _ _ = 0
          rw [e, Function.update_same]
          norm_num
        · show Function.update s' _ _ _ = 0
          rw [Function.update_noteq e]
          exact hs'
    · intro s bofm _ hs
      refine foldl_invariant
        (fun (m : Buffer) (w : Fin 16) => Function.update m (bofm * 16 + w.val) 0.0)
        (fun m => m (ofm1 * 16 + v.val) = 0) _ ?_ s hs
      intro s' w _ hs'
      by_cases e : ofm1 * 16 + v.val = bofm * 16 + w.val
      · show Function.update s' _ _ _ = 0
        rw [e, Function.update_same]
        norm_num
      · show Function.update s' _ _ _ = 0
        rw [Function.update_noteq e]
        exact hs'
  · unfold _execute_backward_weights_S_D_G_W_bias_reduce
    simp only [if_pos hb, idx_two, idx_one, Nat.add_zero]
    rw [foldl_adder (List.range (jcp.oc / 16)) _
      (fun ofm1' n => ∑ ithr in Finset.range nthreads,
        if ofm1' * 16 ≤ n ∧ n < ofm1' * 16 + 16 then
          diff_bias_prv (ithr * jcp.oc + ofm1' * 16 + (n - ofm1' * 16)) else 0)]
    · rw [sum_map_range, Finset.sum_eq_single ofm1]
      · have h1 : ofm1 * 16 ≤ ofm1 * 16 + v.val ∧ ofm1 * 16 + v.val < ofm1 * 16 + 16 := by omega
        simp only [if_pos h1, Nat.add_sub_cancel_left, Nat.add_assoc]
      · intro b _ hne
        have h1 : ¬ (b * 16 ≤ ofm1 * 16 + v.val ∧ ofm1 * 16 + v.val < b * 16 + 16) := by omega
        simp only [if_neg h1, Finset.sum_const_zero]
      · intro h
        exact absurd (Finset.mem_range.mpr hofm1) h
    · intro ofm1' d n
      rw [foldl_adder (List.range nthreads) _
        (fun ithr n => if ofm1' * 16 ≤ n ∧ n < ofm1' * 16 + 16 then
          diff_bias_prv (ithr * jcp.oc + ofm1' * 16 + (n - ofm1' * 16)) else 0)]
      · rw [sum_map_range]
      · intro ithr d n
        exact lane_adder_at (ofm1' * 16)
          (fun w => diff_bias_prv (ithr * jcp.oc + ofm1' * 16 + w)) d n
  · intro ithr
    rw [idx_one, idx_two]

theorem bias_gradient_reduction_witness :
    (_execute_backward_weights_S_D_G_W_bias_zero conv_example 4 2 (fun _ => 3)
        (fun _ => 5)).2 ((array_offset_calculator.mk [conv_example.oc / 16, 16]).idx [0, 7]) =
        0 ∧
      _execute_backward_weights_S_D_G_W_bias_reduce conv_example 4 2 (fun _ => 3) (fun _ => 5)
          ((array_offset_calculator.mk [conv_example.oc / 16, 16]).idx [0, 7]) =
        (5 : ℚ) + ∑ _ithr in Finset.range 2, (3 : ℚ) ∧
      ∀ ithr : Nat,
        (array_offset_calculator.mk [4, conv_example.oc]).idx
            [ithr * conv_example.oc + 0 * 16] =
          (array_offset_calculator.mk [4, conv_example.oc]).idx [ithr, 0 * 16] :=
  bias_gradient_reduction conv_example 4 2 (fun _ => 3) (fun _ => 5) 0 7 rfl (by decide)

/-! ## The running read pointer of `diff_dst_transform_bwd_data` -/

/-- A loop that only advances a pointer by `s` per iteration advances it by `n * s`. -/
theorem foldl_range_advance (s : Int) (n : Nat) (b : Int) :
    (List.range n).foldl (fun base _ => base + s) b = b + n * s := by
  induction n with
  | zero => simp
  | succ n ih =>
    rw [List.range_succ, List.foldl_append, ih]
    simp only [List.foldl_cons, List.foldl_nil]
    push_cast
    ring

/-- A loop over the six rows or columns that fills entry `j` of an array from the running
pointer and advances the pointer by `step`: entry `j` holds what the pointer gave when the
loop reached `j`. -/
theorem foldl_fill_six {β : Type} (step : Int) (g : Int → Fin 6 → β) (c0 : Int)
    (I0 : Fin 6 → β) :
    (List.finRange 6).foldl (fun st j => (st.1 + step, Function.update st.2 j (g st.1 j)))
      (c0, I0) = (c0 + 6 * step, fun j => g (c0 + (j.val : Int) * step) j) := by
  have h6 : List.finRange 6 = [0, 1, 2, 3, 4, 5] := by decide
  rw [h6]
  simp only [List.foldl_cons, List.foldl_nil]
  refine Prod.ext (by show _ = _; ring) ?_
  funext j
  show Function.update _ _ _ j = _
  fin_cases j <;> simp [Function.update] <;> ring_nf

/-- A loop that updates the positions of row `j` of a two-dimensional array acts on that
row alone. -/
theorem foldl_row_lift {ι κ β : Type} [DecidableEq ι] [DecidableEq κ] (j : ι)
    (cell : Int → κ → β) (l : List κ) (p : Int) (I : ι → κ → β) :
    l.foldl (fun st i =>
        (st.1 + 16, Function.update st.2 j (Function.update (st.2 j) i (cell st.1 i)))) (p, I)
      = ((l.foldl (fun st i => (st.1 + 16, Function.update st.2 i (cell st.1 i))) (p, I j)).1,
         Function.update I j
          (l.foldl (fun st i => (st.1 + 16, Function.update st.2 i (cell st.1 i))) (p, I j)).2)
    := by
  induction l generalizing p I with
  | nil => simp
  | cons i l ih =>
    simp only [List.foldl_cons]
    rw [ih]
    simp only [Function.update_same, Function.update_idem]

/-- The zero-fill loop of a row that lies outside the image. -/
theorem foldl_zero_row (j : Fin 6) (I : Tile 6 6) :
    (List.finRange 6).foldl (fun I i =>
        Function.update I j (Function.update (I j) i (fun _ => (0.0 : ℚ)))) I
      = Function.update I j (fun _ _ => 0) := by
  have h6 : List.finRange 6 = [0, 1, 2, 3, 4, 5] := by decide
  rw [h6]
  simp only [List.foldl_cons, List.foldl_nil, Function.update_same, Function.update_idem]
  refine congrArg (Function.update I j) ?_
  funext i v
  fin_cases i <;> simp [Function.update] <;> norm_num

/-- The gather loop of one in-range row of `diff_dst_transform_bwd_data`: the pointer has
moved over the six positions, and position `i` holds what the pointer gave after `i`
steps, or zero outside the image. -/
theorem diff_dst_transform_bwd_data_I_inner (inp : Buffer) (ti : Nat) (lo hi : Int)
    (j : Fin 6) (st : Int × Tile 6 6) :
    (List.finRange 6).foldl (fun st i =>
        let xdim : Int := ((ti * 4 + i.val : Nat) : Int)
        let I : Tile 6 6 :=
          if lo ≤ xdim ∧ xdim < hi then
            Function.update st.2 j
              (Function.update (st.2 j) i (fun v => inp (st.1 + (v.val : Int)).toNat))
          else
            Function.update st.2 j (Function.update (st.2 j) i (fun _ => 0.0))
        (st.1 + 16, I)) st
      = (st.1 + 6 * 16, Function.update st.2 j (fun i v =>
          if lo ≤ ((ti * 4 + i.val : Nat) : Int) ∧ ((ti * 4 + i.val : Nat) : Int) < hi then
            inp (st.1 + (i.val : Int) * 16 + (v.val : Int)).toNat
          else 0)) := by
  have hstep : ∀ (st : Int × Tile 6 6) (i : Fin 6), i ∈ List.finRange 6 →
      (let xdim : Int := ((ti * 4 + i.val : Nat) : Int)
       let I : Tile 6 6 :=
          if lo ≤ xdim ∧ xdim < hi then
            Function.update st.2 j
              (Function.update (st.2 j) i (fun v => inp (st.1 + (v.val : Int)).toNat))
          else
            Function.update st.2 j (Function.update (st.2 j) i (fun _ => 0.0))
       (st.1 + 16, I))
      = (st.1 + 16, Function.update st.2 j (Function.update (st.2 j) i
          ((fun (p : Int) (i : Fin 6) (v : Fin 16) =>
            if lo ≤ ((ti * 4 + i.val : Nat) : Int) ∧ ((ti * 4 + i.val : Nat) : Int) < hi then
              inp (p + (v.val : Int)).toNat
            else 0) st.1 i))) := by
    intro st i _
    by_cases h : lo ≤ ((ti * 4 + i.val : Nat) : Int) ∧ ((ti * 4 + i.val : Nat) : Int) < hi
    · simp only [h, and_self, if_true]
    · simp only [h, if_false]
      norm_num
  rw [List.foldl_ext _ _ _ hstep]
  obtain ⟨p, I⟩ := st
  refine (foldl_row_lift j (fun (p : Int) (i : Fin 6) (v : Fin 16) =>
    if lo ≤ ((ti * 4 + i.val : Nat) : Int) ∧ ((ti * 4 + i.val : Nat) : Int) < hi then
      inp (p + (v.val : Int)).toNat
    else 0) (List.finRange 6) p I).trans ?_
  rw [foldl_fill_six 16 (fun (p : Int) (i : Fin 6) (v : Fin 16) =>
    if lo ≤ ((ti * 4 + i.val : Nat) : Int) ∧ ((ti * 4 + i.val : Nat) : Int) < hi then
      inp (p + (v.val : Int)).toNat
    else 0) p (I j)]

/-- The gather loop of `diff_dst_transform_bwd_data`, position by position: an in-range
position holds the float the running pointer gives after `j` row steps and `i` position
steps from its initial value, every other position holds zero. -/
theorem diff_dst_transform_bwd_data_I_value (conv : jit_conv_winograd_conf_t) (inp : Buffer)
    (tj ti : Nat) (j i : Fin 6) (v : Fin 16) :
    (diff_dst_transform_bwd_data_I conv inp tj ti).2 j i v =
      if (conv.ih : Int) + conv.b_pad - conv.oh ≤ ((tj * 4 + j.val : Nat) : Int) ∧
          ((tj * 4 + j.val : Nat) : Int) < conv.oh + ((conv.ih : Int) + conv.b_pad - conv.oh)
      then
        if (conv.iw : Int) + conv.r_pad - conv.ow ≤ ((ti * 4 + i.val : Nat) : Int) ∧
            ((ti * 4 + i.val : Nat) : Int) < conv.ow + ((conv.iw : Int) + conv.r_pad - conv.ow)
        then
          inp ((array_offset_calculator.mk [conv.mb, conv.oc / 16, conv.oh, conv.ow, 16]).idxZ
              [0, 0, ((tj * 4 : Nat) : Int) - ((conv.ih : Int) + conv.b_pad - conv.oh),
                ((ti * 4 : Nat) : Int) - ((conv.iw : Int) + conv.r_pad - conv.ow), 0]
            + (j.val : Int) * ((conv.ow * 16 : Nat) : Int) + (i.val : Int) * 16
            + (v.val : Int)).toNat
        else 0
      else 0 := by
  unfold diff_dst_transform_bwd_data_I
  simp only [diff_dst_transform_bwd_data_I_inner, foldl_zero_row]
  have hrow : ∀ (st : Int × Tile 6 6) (j : Fin 6), j ∈ List.finRange 6 →
      (((if (conv.ih : Int) + conv.b_pad - conv.oh ≤ ((tj * 4 + j.val : Nat) : Int) ∧
            ((tj * 4 + j.val : Nat) : Int) < conv.oh + ((conv.ih : Int) + conv.b_pad - conv.oh)
          then
            (st.1 + 6 * 16 - 6 * 16, Function.update st.2 j fun (i : Fin 6) (v : Fin 16) =>
              if (conv.iw : Int) + conv.r_pad - conv.ow ≤ ((ti * 4 + i.val : Nat) : Int) ∧
                  ((ti * 4 + i.val : Nat) : Int)
                    < conv.ow + ((conv.iw : Int) + conv.r_pad - conv.ow) then
                inp (st.1 + (i.val : Int) * 16 + (v.val : Int)).toNat
              else 0)
          else (st.1, Function.update st.2 j fun _ _ => (0 : ℚ))).1 + ((conv.ow * 16 : Nat) : Int),
        (if (conv.ih : Int) + conv.b_pad - conv.oh ≤ ((tj * 4 + j.val : Nat) : Int) ∧
            ((tj * 4 + j.val : Nat) : Int) < conv.oh + ((conv.ih : Int) + conv.b_pad - conv.oh)
          then
            (st.1 + 6 * 16 - 6 * 16, Function.update st.2 j fun (i : Fin 6) (v : Fin 16) =>
              if (conv.iw : Int) + conv.r_pad - conv.ow ≤ ((ti * 4 + i.val : Nat) : Int) ∧
                  ((ti * 4 + i.val : Nat) : Int)
                    < conv.ow + ((conv.iw : Int) + conv.r_pad - conv.ow) then
                inp (st.1 + (i.val : Int) * 16 + (v.val : Int)).toNat
              else 0)
          else (st.1, Function.update st.2 j fun _ _ => (0 : ℚ))).2) : Int × Tile 6 6)
      = (st.1 + ((conv.ow * 16 : Nat) : Int), Function.update st.2 j
          ((fun (p : Int) (j : Fin 6) (i : Fin 6) (v : Fin 16) =>
            if (conv.ih : Int) + conv.b_pad - conv.oh ≤ ((tj * 4 + j.val : Nat) : Int) ∧
              ((tj * 4 + j.val : Nat) : Int)
                < conv.oh + ((conv.ih : Int) + conv.b_pad - conv.oh) then
              if (conv.iw : Int) + conv.r_pad - conv.ow ≤ ((ti * 4 + i.val : Nat) : Int) ∧
                  ((ti * 4 + i.val : Nat) : Int)
                    < conv.ow + ((conv.iw : Int) + conv.r_pad - conv.ow) then
                inp (p + (i.val : Int) * 16 + (v.val : Int)).toNat
              else 0
            else 0) st.1 j)) := by
    intro st j _
    by_cases h : (conv.ih : Int) + conv.b_pad - conv.oh ≤ ((tj * 4 + j.val : Nat) : Int) ∧
        ((tj * 4 + j.val : Nat) : Int) < conv.oh + ((conv.ih : Int) + conv.b_pad - conv.oh)
    · simp only [h, and_self, if_true]
      refine Prod.ext ?_ rfl
      show _ + _ = _
      ring
    · simp only [h, if_false]
  rw [List.foldl_ext _ _ _ hrow]
  exact congrArg (fun r : Int × Tile 6 6 => r.2 j i v)
    (foldl_fill_six ((conv.ow * 16 : Nat) : Int)
      (fun (p : Int) (j : Fin 6) (i : Fin 6) (v : Fin 16) =>
        if (conv.ih : Int) + conv.b_pad - conv.oh ≤ ((tj * 4 + j.val : Nat) : Int) ∧
          ((tj * 4 + j.val : Nat) : Int)
            < conv.oh + ((conv.ih : Int) + conv.b_pad - conv.oh) then
          if (conv.iw : Int) + conv.r_pad - conv.ow ≤ ((ti * 4 + i.val : Nat) : Int) ∧
              ((ti * 4 + i.val : Nat) : Int)
                < conv.ow + ((conv.iw : Int) + conv.r_pad - conv.ow) then
            inp (p + (i.val : Int) * 16 + (v.val : Int)).toNat
          else 0
        else 0) _ _)

/-- The signed offset of `input(0, 0, y, x, 0)` in a five-dimensional array with innermost
extents `ow` and `16`. -/
theorem idxZ_row_col (mb nboc oh ow : Nat) (y x : Int) :
    (array_offset_calculator.mk [mb, nboc, oh, ow, 16]).idxZ [0, 0, y, x, 0] =
      (y * ow + x) * 16 := by
  simp only [array_offset_calculator.idxZ, array_offset_calculator._offsetZ,
    List.getD_cons_succ, List.getD_cons_zero]
  push_cast
  ring

/-- The offset of `input(img, 0, y, x, v)` in a five-dimensional array. -/
theorem idx_image_row_col (mb nboc oh ow img y x v : Nat) :
    (array_offset_calculator.mk [mb, nboc, oh, ow, 16]).idx [img, 0, y, x, v] =
      (array_offset_calculator.mk [mb, nboc, oh, ow, 16]).idx [img, 0, 0, 0, 0] +
        ((y * ow + x) * 16 + v) := by
  simp only [array_offset_calculator.idx, array_offset_calculator._offset,
    List.getD_cons_succ, List.getD_cons_zero]
  ring

/-- The running pointer of `diff_dst_transform_bwd_data` at position `(j, i)`: the initial
pointer plus `j` rows of `ow * 16` floats plus `i` positions of 16 floats. The six steps
of an in-range row are undone by `base -= alpha * simd_w` before the row step. -/
theorem diff_dst_transform_bwd_data_base_eq (conv : jit_conv_winograd_conf_t)
    (tj ti j i : Nat) :
    diff_dst_transform_bwd_data_base conv tj ti j i =
      (array_offset_calculator.mk [conv.mb, conv.oc / 16, conv.oh, conv.ow, 16]).idxZ
          [0, 0, ((tj * 4 : Nat) : Int) - ((conv.ih : Int) + conv.b_pad - conv.oh),
            ((ti * 4 : Nat) : Int) - ((conv.iw : Int) + conv.r_pad - conv.ow), 0]
        + (j : Int) * ((conv.ow * 16 : Nat) : Int) + (i : Int) * 16 := by
  unfold diff_dst_transform_bwd_data_base
  have h : ∀ (b : Int) (c : Prop) [Decidable c],
      (if c then b + ((6 : Nat) : Int) * 16 - 6 * 16 else b) = b := by
    intro b c _
    split_ifs
    · push_cast
      ring
    · rfl
  simp only [foldl_range_advance, h]

/-- Claim C38, pointer-walk equivalence: in `diff_dst_transform_bwd_data`, for every tile
`(tj, ti)` and every in-range position `(j, i)`, the running pointer `base` at the moment
of the read is the signed offset of
`input(0, 0, 4 * tj + j - t_pad_winograd, 4 * ti + i - l_pad_winograd, 0)`, which is the
offset of that element with both indices non-negative; and the float read for lane `v`
through the pointer, with `inp` pointing at image `img`, is the element
`input(img, 0, 4 * tj + j - t_pad_winograd, 4 * ti + i - l_pad_winograd, v)` that
`diff_dst_transform_bwd_data_tile` reads by direct indexing. -/
theorem pointer_walk_equivalence (conv : jit_conv_winograd_conf_t) (inp : Buffer)
    (img tj ti : Nat) (j i : Fin 6)
    (hy : (conv.ih : Int) + conv.b_pad - conv.oh ≤ ((tj * 4 + j.val : Nat) : Int) ∧
      ((tj * 4 + j.val : Nat) : Int) < conv.oh + ((conv.ih : Int) + conv.b_pad - conv.oh))
    (hx : (conv.iw : Int) + conv.r_pad - conv.ow ≤ ((ti * 4 + i.val : Nat) : Int) ∧
      ((ti * 4 + i.val : Nat) : Int) < conv.ow + ((conv.iw : Int) + conv.r_pad - conv.ow)) :
    diff_dst_transform_bwd_data_base conv tj ti j.val i.val =
      (array_offset_calculator.mk [conv.mb, conv.oc / 16, conv.oh, conv.ow, 16]).idxZ
        [0, 0, ((tj * 4 + j.val : Nat) : Int) - ((conv.ih : Int) + conv.b_pad - conv.oh),
          ((ti * 4 + i.val : Nat) : Int) - ((conv.iw : Int) + conv.r_pad - conv.ow), 0] ∧
    diff_dst_transform_bwd_data_base conv tj ti j.val i.val =
      (((array_offset_calculator.mk [conv.mb, conv.oc / 16, conv.oh, conv.ow, 16]).idx
        [0, 0, (((tj * 4 + j.val : Nat) : Int)
            - ((conv.ih : Int) + conv.b_pad - conv.oh)).toNat,
          (((ti * 4 + i.val : Nat) : Int)
            - ((conv.iw : Int) + conv.r_pad - conv.ow)).toNat, 0] : Nat) : Int) ∧
    ∀ v : Fin 16,
      (diff_dst_transform_bwd_data_I conv
          (view ((array_offset_calculator.mk [conv.mb, conv.oc / 16, conv.oh, conv.ow, 16]).idx
            [img, 0, 0, 0, 0]) inp) tj ti).2 j i v
        = inp ((array_offset_calculator.mk [conv.mb, conv.oc / 16, conv.oh, conv.ow, 16]).idx
            [img, 0, 0, 0, 0]
            + (diff_dst_transform_bwd_data_base conv tj ti j.val i.val + (v.val : Int)).toNat) ∧
      (diff_dst_transform_bwd_data_I conv
          (view ((array_offset_calculator.mk [conv.mb, conv.oc / 16, conv.oh, conv.ow, 16]).idx
            [img, 0, 0, 0, 0]) inp) tj ti).2 j i v
        = diff_dst_transform_bwd_data_tile_I conv inp img tj ti j i v := by
  obtain ⟨Y, hYe⟩ := Int.eq_ofNat_of_zero_le (sub_nonneg.mpr hy.1)
  obtain ⟨X, hXe⟩ := Int.eq_ofNat_of_zero_le (sub_nonneg.mpr hx.1)
  have hYt : (((tj * 4 + j.val : Nat) : Int)
      - ((conv.ih : Int) + conv.b_pad - conv.oh)).toNat = Y := by
    rw [hYe]
    exact Int.toNat_ofNat Y
  have hXt : (((ti * 4 + i.val : Nat) : Int)
      - ((conv.iw : Int) + conv.r_pad - conv.ow)).toNat = X := by
    rw [hXe]
    exact Int.toNat_ofNat X
  have e1 : ((tj * 4 : Nat) : Int) - ((conv.ih : Int) + conv.b_pad - conv.oh)
      = (Y : Int) - (j.val : Int) := by
    rw [← hYe]
    push_cast
    ring
  have e2 : ((ti * 4 : Nat) : Int) - ((conv.iw : Int) + conv.r_pad - conv.ow)
      = (X : Int) - (i.val : Int) := by
    rw [← hXe]
    push_cast
    ring
  have hnat : diff_dst_transform_bwd_data_base conv tj ti j.val i.val =
      (((Y * conv.ow + X) * 16 : Nat) : Int) := by
    rw [diff_dst_transform_bwd_data_base_eq, idxZ_row_col, e1, e2]
    push_cast
    ring
  refine ⟨?_, ?_, ?_⟩
  · rw [hnat, idxZ_row_col, hYe, hXe]
    push_cast
    ring
  · rw [hnat, dbias_idx_eq, hYt, hXt]
  · intro v
    have hval : (diff_dst_transform_bwd_data_I conv
          (view ((array_offset_calculator.mk [conv.mb, conv.oc / 16, conv.oh, conv.ow, 16]).idx
            [img, 0, 0, 0, 0]) inp) tj ti).2 j i v
        = inp ((array_offset_calculator.mk [conv.mb, conv.oc / 16, conv.oh, conv.ow, 16]).idx
            [img, 0, 0, 0, 0]
            + (diff_dst_transform_bwd_data_base conv tj ti j.val i.val + (v.val : Int)).toNat)
        := by
      rw [diff_dst_transform_bwd_data_I_value, if_pos hy, if_pos hx,
        diff_dst_transform_bwd_data_base_eq]
      rfl
    refine ⟨hval, hval.trans ?_⟩
    unfold diff_dst_transform_bwd_data_tile_I
    simp only [hy, hx, and_self, if_true]
    have key : ∀ N : Nat, ((N : Int) + (v.val : Int)).toNat = N + v.val := fun N => by omega
    rw [hnat, hYt, hXt, key, idx_image_row_col _ _ _ _ img Y X v.val]

/-- The hypotheses of `pointer_walk_equivalence` hold for `conv_example` at tile `(1, 1)`,
position `(2, 3)` of an input that numbers its floats. -/
theorem pointer_walk_equivalence_witness :
    diff_dst_transform_bwd_data_base conv_example 1 1 2 3 = (5 * 8 + 6) * 16 ∧
    (diff_dst_transform_bwd_data_I conv_example
        (view ((array_offset_calculator.mk [1, 1, 8, 8, 16]).idx [0, 0, 0, 0, 0])
          (fun o => (o : ℚ))) 1 1).2 2 3 7
      = diff_dst_transform_bwd_data_tile_I conv_example (fun o => (o : ℚ)) 0 1 1 2 3 7 :=
  ⟨((pointer_walk_equivalence conv_example (fun o => (o : ℚ)) 0 1 1 2 3
      (by decide) (by decide)).1).trans (by decide),
   ((pointer_walk_equivalence conv_example (fun o => (o : ℚ)) 0 1 1 2 3
      (by decide) (by decide)).2.2 7).2⟩

/-! ## In-bounds reads of the source packers -/

/-- The gather loop of `src_transform_fwd` holds at each position the element its read
names, or zero where it does not read. -/
theorem src_transform_fwd_I_read (conv : jit_conv_winograd_conf_t) (inp : Buffer)
    (tj ti : Nat) (j i : Fin 6) (v : Fin 16) :
    src_transform_fwd_I conv inp tj ti j i v =
      match src_transform_fwd_read conv tj ti j i with
      | some (r, c) =>
        inp ((array_offset_calculator.mk [conv.mb, conv.ic / 16, conv.ih, conv.iw, 16]).idx
          [0, 0, r.toNat, c.toNat, v.val])
      | none => 0 := by
  unfold src_transform_fwd_I src_transform_fwd_read
  by_cases hy : conv.t_pad ≤ ((tj * 4 + j.val : Nat) : Int) ∧
      ((tj * 4 + j.val : Nat) : Int) < (conv.ih : Int) + conv.t_pad
  · by_cases hx : conv.l_pad ≤ ((ti * 4 + i.val : Nat) : Int) ∧
        ((ti * 4 + i.val : Nat) : Int) < (conv.iw : Int) + conv.l_pad
    · simp only [hy, hx, and_self, if_true]
    · simp only [hy, hx, and_self, if_true, if_false]
      norm_num
  · simp only [hy, if_false]
    norm_num

/-- The gather loop of `src_transform_fwd_tile` holds at each position the element its read
names, or zero where it does not read. -/
theorem src_transform_fwd_tile_I_read (conv : jit_conv_winograd_conf_t) (inp : Buffer)
    (img tj ti : Nat) (j i : Fin 6) (v : Fin 16) :
    src_transform_fwd_tile_I conv inp img tj ti j i v =
      match src_transform_fwd_tile_read conv img tj ti j i with
      | some (n, r, c) =>
        inp ((array_offset_calculator.mk [conv.mb, conv.ic / 16, conv.ih, conv.iw, 16]).idx
          [n, 0, r.toNat, c.toNat, v.val])
      | none => 0 := by
  unfold src_transform_fwd_tile_I src_transform_fwd_tile_read
  by_cases hy : conv.t_pad ≤ ((tj * 4 + j.val : Nat) : Int) ∧
      ((tj * 4 + j.val : Nat) : Int) < (conv.ih : Int) + conv.t_pad
  · by_cases hx : conv.l_pad ≤ ((ti * 4 + i.val : Nat) : Int) ∧
        ((ti * 4 + i.val : Nat) : Int) < (conv.iw : Int) + conv.l_pad
    · simp only [hy, hx, and_self, if_true]
    · simp only [hy, hx, and_self, if_true, if_false]
      norm_num
  · simp only [hy, if_false]
    norm_num

/-- The gather loop of `diff_dst_transform_bwd_data_tile` holds at each position the
element its read names, or zero where it does not read. -/
theorem diff_dst_transform_bwd_data_tile_I_read (conv : jit_conv_winograd_conf_t)
    (inp : Buffer) (img tj ti : Nat) (j i : Fin 6) (v : Fin 16) :
    diff_dst_transform_bwd_data_tile_I conv inp img tj ti j i v =
      match diff_dst_transform_bwd_data_tile_read conv img tj ti j i with
      | some (n, r, c) =>
        inp ((array_offset_calculator.mk [conv.mb, conv.oc / 16, conv.oh, conv.ow, 16]).idx
          [n, 0, r.toNat, c.toNat, v.val])
      | none => 0 := by
  unfold diff_dst_transform_bwd_data_tile_I diff_dst_transform_bwd_data_tile_read
  by_cases hy : (conv.ih : Int) + conv.b_pad - conv.oh ≤ ((tj * 4 + j.val : Nat) : Int) ∧
      ((tj * 4 + j.val : Nat) : Int) < conv.oh + ((conv.ih : Int) + conv.b_pad - conv.oh)
  · by_cases hx : (conv.iw : Int) + conv.r_pad - conv.ow ≤ ((ti * 4 + i.val : Nat) : Int) ∧
        ((ti * 4 + i.val : Nat) : Int) < conv.ow + ((conv.iw : Int) + conv.r_pad - conv.ow)
    · simp only [hy, hx, and_self, if_true]
    · simp only [hy, hx, and_self, if_true, if_false]
      norm_num
  · simp only [hy, if_false]
    norm_num

/-- Claim C32, in-bounds reads of the source packers: every read of `src_transform_fwd`
and of `src_transform_fwd_tile` uses a row index in `[0, ih)` and a column index in
`[0, iw)`, and every read of `diff_dst_transform_bwd_data_tile` uses a row index in
`[0, oh)` and a column index in `[0, ow)`, the tile variants reading the image they were
given; the guards of the loops give the bounds for paddings of either sign, so the
conditions `t_pad >= 0`, `l_pad >= 0`, `l_pad_winograd >= 0` and `t_pad_winograd >= 0`
are not needed. Each gather loop holds the elements these reads name. -/
theorem source_packer_reads_in_bounds (conv : jit_conv_winograd_conf_t) (img tj ti : Nat)
    (j i : Fin 6) :
    (∀ r c, src_transform_fwd_read conv tj ti j i = some (r, c) →
      0 ≤ r ∧ r < conv.ih ∧ 0 ≤ c ∧ c < conv.iw) ∧
    (∀ n r c, src_transform_fwd_tile_read conv img tj ti j i = some (n, r, c) →
      n = img ∧ 0 ≤ r ∧ r < conv.ih ∧ 0 ≤ c ∧ c < conv.iw) ∧
    (∀ n r c, diff_dst_transform_bwd_data_tile_read conv img tj ti j i = some (n, r, c) →
      n = img ∧ 0 ≤ r ∧ r < conv.oh ∧ 0 ≤ c ∧ c < conv.ow) ∧
    (∀ (inp : Buffer) (v : Fin 16),
      src_transform_fwd_I conv inp tj ti j i v =
        (match src_transform_fwd_read conv tj ti j i with
        | some (r, c) =>
          inp ((array_offset_calculator.mk [conv.mb, conv.ic / 16, conv.ih, conv.iw, 16]).idx
            [0, 0, r.toNat, c.toNat, v.val])
        | none => 0) ∧
      src_transform_fwd_tile_I conv inp img tj ti j i v =
        (match src_transform_fwd_tile_read conv img tj ti j i with
        | some (n, r, c) =>
          inp ((array_offset_calculator.mk [conv.mb, conv.ic / 16, conv.ih, conv.iw, 16]).idx
            [n, 0, r.toNat, c.toNat, v.val])
        | none => 0) ∧
      diff_dst_transform_bwd_data_tile_I conv inp img tj ti j i v =
        (match diff_dst_transform_bwd_data_tile_read conv img tj ti j i with
        | some (n, r, c) =>
          inp ((array_offset_calculator.mk [conv.mb, conv.oc / 16, conv.oh, conv.ow, 16]).idx
            [n, 0, r.toNat, c.toNat, v.val])
        | none => 0)) := by
  refine ⟨?_, ?_, ?_, fun inp v => ⟨src_transform_fwd_I_read conv inp tj ti j i v,
    src_transform_fwd_tile_I_read conv inp img tj ti j i v,
    diff_dst_transform_bwd_data_tile_I_read conv inp img tj ti j i v⟩⟩
  · intro r c h
    unfold src_transform_fwd_read at h
    simp only at h
    split_ifs at h with hy hx
    simp only [Option.some.injEq, Prod.mk.injEq] at h
    obtain ⟨rfl, rfl⟩ := h
    omega
  · intro n r c h
    unfold src_transform_fwd_tile_read at h
    simp only at h
    split_ifs at h with hy hx
    simp only [Option.some.injEq, Prod.mk.injEq] at h
    obtain ⟨rfl, rfl, rfl⟩ := h
    refine ⟨rfl, ?_⟩
    omega
  · intro n r c h
    unfold diff_dst_transform_bwd_data_tile_read at h
    simp only at h
    split_ifs at h with hy hx
    simp only [Option.some.injEq, Prod.mk.injEq] at h
    obtain ⟨rfl, rfl, rfl⟩ := h
    refine ⟨rfl, ?_⟩
    omega

/-- The reads of `conv_example` at the first position of tile `(0, 0)` and at position
`(1, 2)` of tile `(1, 1)`: the first lies in the padding and is not read, the second reads
row 4 and column 5, within the 8 by 8 image. -/
theorem source_packer_reads_in_bounds_witness :
    src_transform_fwd_read conv_example 0 0 0 0 = none ∧
    src_transform_fwd_read conv_example 1 1 1 2 = some (4, 5) ∧
    src_transform_fwd_tile_read conv_example 0 1 1 1 2 = some (0, 4, 5) ∧
    diff_dst_transform_bwd_data_tile_read conv_example 0 1 1 1 2 = some (0, 4, 5) ∧
    ((0 : Int) ≤ 4 ∧ (4 : Int) < conv_example.ih ∧ (0 : Int) ≤ 5 ∧ (5 : Int) < conv_example.iw) :=
  ⟨by decide, by decide, by decide, by decide,
    (source_packer_reads_in_bounds conv_example 0 1 1 1 2).1 4 5 (by decide)⟩

/-! ## Output coverage of `dst_transform_fwd` -/

/-- A loop over a concatenation of lists is the loop nest over the lists. -/
theorem foldl_flatMap_nest {S α β : Type} (f : S → β → S) (g : α → List β) (l : List α)
    (s : S) : (l.flatMap g).foldl f s = l.foldl (fun s a => (g a).foldl f s) s := by
  induction l generalizing s with
  | nil => rfl
  | cons a l ih => rw [List.flatMap_cons, List.foldl_append, ih, List.foldl_cons]

/-- A loop over a guarded list is the guarded loop. -/
theorem foldl_ite_nil {S β : Type} (f : S → β → S) (c : Prop) [Decidable c] (l : List β)
    (s : S) : (if c then l else []).foldl f s = if c then l.foldl f s else s := by
  split <;> rfl

/-- The counters of a tile loop nest in closed form, keeping the nest: the body of tile
`(tj, ti)` sees the counter iterated `tj * b + ti` times. -/
theorem foldl_counter_rows {C M : Type} (nx : C → C) (W : C → Nat → Nat → M → M) (b : Nat) :
    ∀ (a : Nat) (c0 : C) (m0 : M),
    (List.range a).foldl (fun st tj =>
        (List.range b).foldl (fun st ti => (nx st.1, W st.1 tj ti st.2)) st) (c0, m0) =
      (nx^[a * b] c0,
        (List.range a).foldl (fun m tj =>
          (List.range b).foldl (fun m ti => W (nx^[tj * b + ti] c0) tj ti m) m) m0) := by
  have row : ∀ (n tj : Nat) (c : C) (m : M),
      (List.range n).foldl (fun st ti => (nx st.1, W st.1 tj ti st.2)) (c, m) =
        (nx^[n] c, (List.range n).foldl (fun m ti => W (nx^[ti] c) tj ti m) m) := by
    intro n tj c m
    induction n with
    | zero => rfl
    | succ n ih =>
      rw [List.range_succ, List.foldl_append, List.foldl_append, ih]
      simp only [List.foldl_cons, List.foldl_nil, Function.iterate_succ_apply']
  intro a
  induction a with
  | zero =>
    intro c0 m0
    simp
  | succ a ih =>
    intro c0 m0
    rw [List.range_succ, List.foldl_append, ih, List.foldl_append]
    simp only [List.foldl_cons, List.foldl_nil]
    rw [row, Nat.succ_mul, ← Function.iterate_add_apply, Nat.add_comm b (a * b)]
    congr 1
    refine List.foldl_ext _ _ _ (fun m ti _ => ?_)
    rw [← Function.iterate_add_apply, Nat.add_comm ti (a * b)]

/-- The packer `dst_transform_fwd` is the loop over its calls of `store_output`, each
storing the transformed, biased and activated tile of its loop iteration. -/
theorem dst_transform_fwd_eq_calls (with_bias with_relu : Bool) (image : Nat)
    (conv : jit_conv_winograd_conf_t) (toutp outp bias : Buffer) (s : Bool) :
    dst_transform_fwd with_bias with_relu image conv toutp outp bias s =
      (dst_transform_fwd_calls conv).foldl (fun m t =>
        store_output m
          ((array_offset_calculator.mk [conv.mb, conv.oh, conv.ow, 16]).idx
            [0, t.ydim, t.xdim, 0])
          (dst_transform_fwd_O with_bias with_relu conv
            (trans_O_4x4_3x3 (dst_transform_fwd_Ow conv toutp
              ((tile_counters_next conv)^[t.tj * conv.itiles + t.ti]
                (tile_counters_init conv image))))
            bias t.j t.i) s) outp := by
  unfold dst_transform_fwd dst_transform_fwd_calls dst_transform_fwd_store_calls
  rw [foldl_counter_rows (tile_counters_next conv) (fun c tj ti m =>
    dst_transform_fwd_store with_bias with_relu conv tj ti
      (trans_O_4x4_3x3 (dst_transform_fwd_Ow conv toutp c)) bias s m)]
  simp only [foldl_flatMap_nest, foldl_ite_nil, List.foldl_cons, List.foldl_nil]
  rfl

/-- Filtering a concatenation of lists none of which holds a match gives nothing. -/
theorem filter_flatMap_nil {α β : Type} (l : List α) (f : α → List β) (p : β → Bool)
    (h : ∀ b ∈ l, (f b).filter p = []) : (l.flatMap f).filter p = [] := by
  induction l with
  | nil => rfl
  | cons b l ih =>
    rw [List.flatMap_cons, List.filter_append, h b (List.mem_cons_self b l),
      ih (fun b' hb' => h b' (List.mem_cons_of_mem b hb')), List.append_nil]

/-- Filtering a concatenation of lists of which only the one of `a` holds matches gives
the matches of that list. -/
theorem filter_flatMap_single {α β : Type} (l : List α) (hl : l.Nodup) (a : α) (ha : a ∈ l)
    (f : α → List β) (p : β → Bool) (h : ∀ b ∈ l, b ≠ a → (f b).filter p = []) :
    (l.flatMap f).filter p = (f a).filter p := by
  induction l with
  | nil => cases ha
  | cons b l ih =>
    rw [List.flatMap_cons, List.filter_append]
    obtain ⟨hb, hl'⟩ := List.nodup_cons.mp hl
    rcases List.mem_cons.mp ha with rfl | ha'
    · rw [filter_flatMap_nil l f p (fun b' hb' =>
        h b' (List.mem_cons_of_mem a hb') (fun e => hb (e ▸ hb'))), List.append_nil]
    · rw [h b (List.mem_cons_self b l) (fun e => hb (e ▸ ha')),
        ih hl' ha' (fun b' hb' hne => h b' (List.mem_cons_of_mem b hb') hne), List.nil_append]

/-- Each call of the store loop of tile `(tj, ti)` passes the coordinates
`(tj * 4 + j, ti * 4 + i)` of its position. -/
theorem dst_transform_fwd_store_calls_mem (conv : jit_conv_winograd_conf_t) (tj ti : Nat)
    (t : dst_transform_fwd_call) (ht : t ∈ dst_transform_fwd_store_calls conv tj ti) :
    t.tj = tj ∧ t.ti = ti ∧ t.ydim = tj * 4 + t.j.val ∧ t.xdim = ti * 4 + t.i.val := by
  unfold dst_transform_fwd_store_calls at ht
  obtain ⟨j, _, hj⟩ := List.mem_flatMap.mp ht
  simp only at hj
  split_ifs at hj with hy
  · obtain ⟨i, _, hi⟩ := List.mem_flatMap.mp hj
    split_ifs at hi with hx
    · rw [List.mem_singleton.mp hi]
      exact ⟨rfl, rfl, rfl, rfl⟩
    · cases hi
  · cases hj

/-- The store loop of tile `(y / 4, x / 4)` calls `store_output` for the valid coordinate
`(y, x)` once, at position `(y % 4, x % 4)`. -/
theorem dst_transform_fwd_store_calls_filter (conv : jit_conv_winograd_conf_t) (y x : Nat)
    (hy : y < conv.oh) (hx : x < conv.ow) :
    (dst_transform_fwd_store_calls conv (y / 4) (x / 4)).filter
        (fun t => decide (t.ydim = y ∧ t.xdim = x)) =
      [⟨y / 4, x / 4, ⟨y % 4, Nat.mod_lt y (by decide)⟩, ⟨x % 4, Nat.mod_lt x (by decide)⟩,
        y, x⟩] := by
  have ey : y / 4 * 4 + y % 4 = y := Nat.div_add_mod' y 4
  have ex : x / 4 * 4 + x % 4 = x := Nat.div_add_mod' x 4
  unfold dst_transform_fwd_store_calls
  rw [filter_flatMap_single _ (List.nodup_finRange 4) ⟨y % 4, Nat.mod_lt y (by decide)⟩
    (List.mem_finRange _)]
  · simp only [ey, hy, if_true]
    rw [filter_flatMap_single _ (List.nodup_finRange 4) ⟨x % 4, Nat.mod_lt x (by decide)⟩
      (List.mem_finRange _)]
    · simp only [ex, hx, if_true, List.filter_cons, List.filter_nil, and_self, decide_True]
    · intro i _ hne
      have hi : i.val ≠ x % 4 := fun e => hne (Fin.ext e)
      split_ifs
      · simp only [List.filter_cons, List.filter_nil]
        rw [if_neg]
        simp only [decide_eq_true_eq, not_and]
        intro _
        omega
      · rfl
  · intro j _ hne
    have hj : j.val ≠ y % 4 := fun e => hne (Fin.ext e)
    simp only
    split_ifs
    · refine filter_flatMap_nil _ _ _ (fun i _ => ?_)
      split_ifs
      · simp only [List.filter_cons, List.filter_nil]
        rw [if_neg]
        simp only [decide_eq_true_eq, not_and]
        intro h
        omega
      · rfl
    · rfl


/-- The calls of `dst_transform_fwd` for the valid coordinate `(y, x)`: one, by tile
`(y / 4, x / 4)` at position `(y % 4, x % 4)`. -/
theorem dst_transform_fwd_calls_filter (conv : jit_conv_winograd_conf_t) (y x : Nat)
    (hj : conv.oh ≤ 4 * conv.jtiles) (hi : conv.ow ≤ 4 * conv.itiles)
    (hy : y < conv.oh) (hx : x < conv.ow) :
    (dst_transform_fwd_calls conv).filter (fun t => decide (t.ydim = y ∧ t.xdim = x)) =
      [⟨y / 4, x / 4, ⟨y % 4, Nat.mod_lt y (by decide)⟩, ⟨x % 4, Nat.mod_lt x (by decide)⟩,
        y, x⟩] := by
  unfold dst_transform_fwd_calls
  have miss : ∀ (tj ti : Nat), tj ≠ y / 4 ∨ ti ≠ x / 4 →
      (dst_transform_fwd_store_calls conv tj ti).filter
        (fun t => decide (t.ydim = y ∧ t.xdim = x)) = [] := by
    intro tj ti hne
    refine List.filter_eq_nil_iff.mpr (fun t ht => ?_)
    obtain ⟨_, _, e1, e2⟩ := dst_transform_fwd_store_calls_mem conv tj ti t ht
    have h1 := t.j.isLt
    have h2 := t.i.isLt
    simp only [decide_eq_true_eq, not_and]
    intro e3 e4
    omega
  rw [filter_flatMap_single _ (List.nodup_range _) (y / 4) (List.mem_range.mpr (by omega)),
    filter_flatMap_single _ (List.nodup_range _) (x / 4) (List.mem_range.mpr (by omega)),
    dst_transform_fwd_store_calls_filter conv y x hy hx]
  · intro ti _ hne
    exact miss _ _ (Or.inr hne)
  · intro tj _ hne
    exact filter_flatMap_nil _ _ _ (fun ti _ => miss _ _ (Or.inl hne))

/-- The offset of `output(0, y, x, 0)` in the four-dimensional destination. -/
theorem idx_out_row_col (mb oh ow y x : Nat) :
    (array_offset_calculator.mk [mb, oh, ow, 16]).idx [0, y, x, 0] = (y * ow + x) * 16 := by
  simp only [array_offset_calculator.idx, array_offset_calculator._offset,
    List.getD_cons_succ, List.getD_cons_zero]
  ring

/-- After `dst_transform_fwd`, the sixteen floats of a valid coordinate `(y, x)` hold what
tile `(y / 4, x / 4)` stored from position `(y % 4, x % 4)`. -/
theorem dst_transform_fwd_value (with_bias with_relu : Bool) (image : Nat)
    (conv : jit_conv_winograd_conf_t) (toutp outp bias : Buffer) (s : Bool) (y x : Nat)
    (v : Fin 16)
    (hj : conv.oh ≤ 4 * conv.jtiles) (hi : conv.ow ≤ 4 * conv.itiles)
    (hy : y < conv.oh) (hx : x < conv.ow) :
    dst_transform_fwd with_bias with_relu image conv toutp outp bias s
        ((array_offset_calculator.mk [conv.mb, conv.oh, conv.ow, 16]).idx [0, y, x, 0] + v.val) =
      dst_transform_fwd_O with_bias with_relu conv
        (trans_O_4x4_3x3 (dst_transform_fwd_Ow conv toutp
          ((tile_counters_next conv)^[y / 4 * conv.itiles + x / 4]
            (tile_counters_init conv image))))
        bias ⟨y % 4, Nat.mod_lt y (by decide)⟩ ⟨x % 4, Nat.mod_lt x (by decide)⟩ v := by
  have ey : y / 4 * 4 + y % 4 = y := Nat.div_add_mod' y 4
  have ex : x / 4 * 4 + x % 4 = x := Nat.div_add_mod' x 4
  have hxi : x / 4 < conv.itiles := by omega
  have hyj : y / 4 < conv.jtiles := by omega
  have hk1 : (y / 4 * conv.itiles + x / 4) / conv.itiles = y / 4 := by
    rw [Nat.mul_comm, Nat.mul_add_div (by omega), Nat.div_eq_of_lt hxi, Nat.add_zero]
  have hk2 : (y / 4 * conv.itiles + x / 4) % conv.itiles = x / 4 := by
    rw [Nat.mul_comm, Nat.mul_add_mod, Nat.mod_eq_of_lt hxi]
  have hk : y / 4 * conv.itiles + x / 4 < conv.jtiles * conv.itiles := by
    have := Nat.mul_le_mul_right conv.itiles (Nat.succ_le_of_lt hyj)
    rw [Nat.succ_mul] at this
    omega
  have key := foldl_update_value
    (fun t : Nat × Fin 4 × Fin 4 × Fin 16 =>
      t.1 / conv.itiles * 4 + t.2.1.val < conv.oh ∧
        t.1 % conv.itiles * 4 + t.2.2.1.val < conv.ow)
    (fun t => (array_offset_calculator.mk [conv.mb, conv.oh, conv.ow, 16]).idx
      [0, t.1 / conv.itiles * 4 + t.2.1.val, t.1 % conv.itiles * 4 + t.2.2.1.val, 0] +
        t.2.2.2.val)
    (fun t => dst_transform_fwd_O with_bias with_relu conv
      (trans_O_4x4_3x3 (dst_transform_fwd_Ow conv toutp
        ((tile_counters_next conv)^[t.1] (tile_counters_init conv image))))
      bias t.2.1 t.2.2.1 t.2.2.2)
    (List.range (conv.jtiles * conv.itiles) ×ˢ
      (List.finRange 4 ×ˢ (List.finRange 4 ×ˢ List.finRange 16)))
    (y / 4 * conv.itiles + x / 4, ⟨y % 4, Nat.mod_lt y (by decide)⟩,
      ⟨x % 4, Nat.mod_lt x (by decide)⟩, v)
    (by
      simp only [List.mem_product, List.mem_range, List.mem_finRange, and_self, and_true]
      exact hk)
    (by
      simp only [hk1, hk2, ey, ex]
      exact ⟨hy, hx⟩)
    (by
      rintro ⟨k, j, i, w⟩ _ ⟨gy, gx⟩ hd
      simp only [hk1, hk2, ey, ex, idx_out_row_col] at hd gy gx ⊢
      have hw := w.isLt
      have hv := v.isLt
      have hjl := j.isLt
      have hil := i.isLt
      obtain ⟨e1, e2⟩ := group_inj conv.ow y x (k / conv.itiles * 4 + j.val)
        (k % conv.itiles * 4 + i.val) w.val hx gx hw (by omega) (by omega)
      have e3 : w = v := Fin.ext (by omega)
      have e4 : k / conv.itiles = y / 4 := by omega
      have e5 : k % conv.itiles = x / 4 := by omega
      have e6 : k = y / 4 * conv.itiles + x / 4 := by
        rw [← e4, ← e5]
        exact (Nat.div_add_mod' k conv.itiles).symm
      have e7 : j = ⟨y % 4, Nat.mod_lt y (by decide)⟩ := Fin.ext (by show j.val = y % 4; omega)
      have e8 : i = ⟨x % 4, Nat.mod_lt x (by decide)⟩ := Fin.ext (by show i.val = x % 4; omega)
      rw [e3, e6, e7, e8])
    outp
  simp only [hk1, hk2, ey, ex] at key
  rw [dst_transform_fwd_flat]
  exact key

/-- Claim C31, output coverage: in `dst_transform_fwd` for one image with
`4 * jtiles >= oh` and `4 * itiles >= ow`, every valid output coordinate `(y, x)` with
`y < oh` and `x < ow` is written exactly once, by tile `(y / 4, x / 4)` at in-tile position
`(y % 4, x % 4)`: the packer is the loop over its calls of `store_output`, the calls that
pass `(y, x)` are that single call, and after the packer the sixteen floats of `(y, x)`
hold what that tile stored from that position. -/
theorem output_coverage (with_bias with_relu : Bool) (image : Nat)
    (conv : jit_conv_winograd_conf_t) (toutp outp bias : Buffer) (s : Bool) (y x : Nat)
    (hj : conv.oh ≤ 4 * conv.jtiles) (hi : conv.ow ≤ 4 * conv.itiles)
    (hy : y < conv.oh) (hx : x < conv.ow) :
    dst_transform_fwd with_bias with_relu image conv toutp outp bias s =
      (dst_transform_fwd_calls conv).foldl (fun m t =>
        store_output m
          ((array_offset_calculator.mk [conv.mb, conv.oh, conv.ow, 16]).idx
            [0, t.ydim, t.xdim, 0])
          (dst_transform_fwd_O with_bias with_relu conv
            (trans_O_4x4_3x3 (dst_transform_fwd_Ow conv toutp
              ((tile_counters_next conv)^[t.tj * conv.itiles + t.ti]
                (tile_counters_init conv image))))
            bias t.j t.i) s) outp ∧
    (dst_transform_fwd_calls conv).filter (fun t => decide (t.ydim = y ∧ t.xdim = x)) =
      [⟨y / 4, x / 4, ⟨y % 4, Nat.mod_lt y (by decide)⟩, ⟨x % 4, Nat.mod_lt x (by decide)⟩,
        y, x⟩] ∧
    ∀ v : Fin 16,
      dst_transform_fwd with_bias with_relu image conv toutp outp bias s
          ((array_offset_calculator.mk [conv.mb, conv.oh, conv.ow, 16]).idx [0, y, x, 0]
            + v.val) =
        dst_transform_fwd_O with_bias with_relu conv
          (trans_O_4x4_3x3 (dst_transform_fwd_Ow conv toutp
            ((tile_counters_next conv)^[y / 4 * conv.itiles + x / 4]
              (tile_counters_init conv image))))
          bias ⟨y % 4, Nat.mod_lt y (by decide)⟩ ⟨x % 4, Nat.mod_lt x (by decide)⟩ v :=
  ⟨dst_transform_fwd_eq_calls with_bias with_relu image conv toutp outp bias s,
    dst_transform_fwd_calls_filter conv y x hj hi hy hx,
    fun v => dst_transform_fwd_value with_bias with_relu image conv toutp outp bias s y x v
      hj hi hy hx⟩

/-- The hypotheses of `output_coverage` hold for `conv_example` at the coordinate
`(5, 6)`, which is stored once, by tile `(1, 1)` at position `(1, 2)`. -/
theorem output_coverage_witness :
    (dst_transform_fwd_calls conv_example).filter (fun t => decide (t.ydim = 5 ∧ t.xdim = 6)) =
      [⟨1, 1, 1, 2, 5, 6⟩] :=
  (output_coverage true true 0 conv_example (fun _ => 0) (fun _ => 0) (fun _ => 0) true 5 6
    (by decide) (by decide) (by decide) (by decide)).2.1

end Winograd
